import Mathlib

/-!
# PP-PME load balancing (`src/kernel/pme_loadbal.c`)

A shallow embedding of the load-balancing controller of `pme_loadbal.c` and
theorems about it.

Modelling conventions

* `real` and `double` values are rationals (`ℚ`): exact arithmetic, no rounding,
  no NaN.  The literals `1.01`, `1.001`, `0.8`, `1.05`, `1.12`, `1.02` are the
  corresponding exact fractions.
* `int` fields that the code may drive below zero (`cur`, `start`, `end`, ...) are
  `Int`; the counter `count` starts at `0` and is only ever incremented, it is a
  `Nat`.  Integer overflow is not modelled: `pme_grid_points` is the exact product, and
  the statement that turns on its value assumes that the product stays in the range of
  `int` (`grid_points_in_range`), where the 32-bit arithmetic (`int_wrap`) is exact.
* The catalog `setup[0 .. n-1]` is a list and `n` is its length.  Storage past
  index `n-1` is not part of the model: the code rewrites every field of slot `n`
  (lines 172-217) before it is counted in.  Reading `setup[i]` with `i` outside
  `0 .. n-1` is the fault `outOfBounds`.
* Loops whose termination depends on the collaborators take a fuel argument and
  stop with the fault `outOfFuel` when it is used up.
* Functions that are not in this file of the repository (`calc_grid`, `norm`,
  `max_cutoff2`, `change_dd_cutoff`, `gmx_pme_reinit`) are fields of `Env`, the
  collaborators as they answer during one call.
* The `cycles` argument of `pme_load_balance` is the value after the reduction over
  the ranks (lines 344-348).  The table / GPU / PME-node updates (lines 534-546, 564)
  and the printing do not touch the controller and are left out, except for the read
  of `setup[pme_loadbal_end - 1]` in `print_loadbal_limited` (line 280), which is kept
  as an access that can fault.
* `restart_pme_loadbal` takes any `int`; where a statement needs the number of stages
  to stay at least 2 (line 110), runs are restricted to restarts that add stages.
-/

namespace PmeLoadbal

/-! ## Data model -/

/-- Ways in which a modelled call ends without a result. -/
inductive Fault where
  | outOfBounds
  | outOfFuel
  deriving DecidableEq

deriving instance DecidableEq for Except

/-- Integer triple, `ivec`. -/
structure ivec where
  XX : Int
  YY : Int
  ZZ : Int
  deriving DecidableEq

/-- Real triple, `rvec`. -/
structure rvec where
  XX : ℚ
  YY : ℚ
  ZZ : ℚ
  deriving DecidableEq

/-- Three box vectors, `matrix`. -/
structure matrix where
  XX : rvec
  YY : rvec
  ZZ : rvec
  deriving DecidableEq

/-- Parameters and setting for one PP-PME setup (lines 51-62). -/
structure pme_setup_t where
  rcut : ℚ
  rlist : ℚ
  spacing : ℚ
  grid : ivec
  grid_efficiency : ℚ
  ewaldcoeff : ℚ
  pmedata : Option Nat
  count : Nat
  cycles : ℚ
  deriving DecidableEq

/-- In the initial scan, step by grids that are at least a factor 0.8 coarser. -/
def PME_LB_GRID_SCALE_FAC : ℚ := 8 / 10

/-- Grid efficiency tolerance 1.05 of the initial scan. -/
def PME_LB_GRID_EFFICIENCY_REL_FAC : ℚ := 105 / 100

/-- Rerun up till 12% slower setups than the fastest up till now: 1.12. -/
def PME_LB_SLOW_FAC : ℚ := 112 / 100

/-- Speed-up tolerance 1.02 that triggers another round. -/
def PME_LB_ACCEL_TOL : ℚ := 102 / 100

/-- The enum of line 77 (without the count `epmelblimNR`). -/
inductive Limit where
  | epmelblimNO
  | epmelblimBOX
  | epmelblimDD
  deriving DecidableEq

/-- The controller, `struct pme_load_balancing` (lines 82-97); `n` is the length of `setup`. -/
structure pme_load_balancing where
  nstage : Int
  cut_spacing : ℚ
  rbuf : ℚ
  box_start : matrix
  setup : List pme_setup_t
  cur : Int
  fastest : Int
  start : Int
  end_ : Int
  elimited : Limit
  stage : Int
  deriving DecidableEq

/-- The count of setups, field `n`. -/
def pme_load_balancing.n (pme_lb : pme_load_balancing) : Int := pme_lb.setup.length

/-- Periodic boundary kinds, `ir->ePBC`. -/
inductive PBC where
  | epbcXYZ
  | epbcNONE
  | epbcXY
  | epbcSCREW
  deriving DecidableEq

/-- The fields of `t_inputrec` that the file reads. -/
structure t_inputrec where
  ePBC : PBC
  nwall : Int
  wall_ewald_zfac : ℚ
  nkx : Int
  nky : Int
  nkz : Int
  fourier_spacing : ℚ
  rcoulomb : ℚ
  pme_order : Int

/-- The fields of `interaction_const_t` that the file reads and writes. -/
structure interaction_const_t where
  rcoulomb : ℚ
  rlist : ℚ
  ewaldcoeff : ℚ
  deriving DecidableEq

/-- The collaborators of one call. -/
structure Env where
  ir : t_inputrec
  norm : rvec → ℚ
  calc_grid : matrix → ℚ → ℚ × ivec
  max_cutoff2 : ℚ
  domaindecomp : Bool
  change_dd_cutoff : ℚ → Bool
  duty_pme : Bool
  gmx_pme_reinit : Option Nat → ivec → Nat

/-- Read `setup[i]`. -/
def getSetup (setup : List pme_setup_t) (i : Int) : Except Fault pme_setup_t :=
  if 0 ≤ i then
    match setup[i.toNat]? with
    | some a => .ok a
    | none => .error .outOfBounds
  else .error .outOfBounds

/-- Write `setup[i]` (used after `setup[i]` has been read). -/
def setSetup (setup : List pme_setup_t) (i : Int) (a : pme_setup_t) : List pme_setup_t :=
  setup.set i.toNat a

/-- The product `grid[XX]*grid[YY]*grid[ZZ]`. -/
def pme_grid_points (set : pme_setup_t) : Int :=
  set.grid.XX * set.grid.YY * set.grid.ZZ

/-! ## `pme_loadbal_init` (lines 99-162) -/

/-- The scaling `svmul(a, v, v)`. -/
def svmul (a : ℚ) (v : rvec) : rvec :=
  { XX := a * v.XX, YY := a * v.YY, ZZ := a * v.ZZ }

/-- One round of the loop of lines 135-142. -/
def init_spacing_step (norm : rvec → ℚ) (v : rvec) (g : Int) (spm : ℚ) : ℚ :=
  let sp := norm v / (g : ℚ)
  if sp > spm then sp else spm

/-- Construction of the controller.  The allocations of lines 108 and 122 (`snew`) hand
out zeroed memory: the fields of `setup[0]` that are not assigned (`grid_efficiency`,
`count`, `cycles`) are 0. -/
def pme_loadbal_init (ir : t_inputrec) (box : matrix) (ic : interaction_const_t)
    (pmedata : Option Nat) (norm : rvec → ℚ) : pme_load_balancing :=
  let box_start : matrix :=
    if ir.ePBC = PBC.epbcXY ∧ ir.nwall = 2 then
      { box with ZZ := svmul ir.wall_ewald_zfac box.ZZ }
    else box
  let spm : ℚ :=
    init_spacing_step norm box_start.ZZ ir.nkz
      (init_spacing_step norm box_start.YY ir.nky
        (init_spacing_step norm box_start.XX ir.nkx 0))
  let set0 : pme_setup_t :=
    { rcut := ic.rcoulomb
      rlist := ic.rlist
      spacing := spm
      grid := { XX := ir.nkx, YY := ir.nky, ZZ := ir.nkz }
      grid_efficiency := 0
      ewaldcoeff := ic.ewaldcoeff
      pmedata := pmedata
      count := 0
      cycles := 0 }
  { nstage := 2
    cut_spacing :=
      if ir.fourier_spacing > 0 then ir.rcoulomb / ir.fourier_spacing
      else ir.rcoulomb / set0.spacing
    rbuf := ic.rlist - ic.rcoulomb
    box_start := box_start
    setup := [set0]
    cur := 0
    fastest := 0
    start := 0
    end_ := 0
    elimited := Limit.epmelblimNO
    stage := 0 }

/-! ## `pme_loadbal_increase_cutoff` (lines 164-226) -/

/-- The do-while loop of lines 178-201: `none` is the `return FALSE` of line 197,
`some (sp, grid)` the exit of the loop. -/
def increase_cutoff_search (env : Env) (box_start : matrix) (spacing : ℚ) (pme_order : Int) :
    Nat → ℚ → Except Fault (Option (ℚ × ivec))
  | 0, _ => .error .outOfFuel
  | fuel + 1, fac =>
    let fac := fac * (101 / 100)
    let r := env.calc_grid box_start (fac * spacing)
    if r.2.XX ≤ 2 * pme_order ∨ r.2.YY ≤ 2 * pme_order ∨ r.2.ZZ ≤ 2 * pme_order then
      .ok none
    else if r.1 ≤ (1001 / 1000) * spacing then
      increase_cutoff_search env box_start spacing pme_order fuel fac
    else .ok (some r)

/-- Lines 203-217: the fields of the new setup for spacing `sp` and grid `grid`;
`s0` is `setup[0]`. -/
def new_setup (pme_lb : pme_load_balancing) (env : Env) (s0 : pme_setup_t) (sp : ℚ)
    (grid : ivec) : pme_setup_t :=
  { rcut := pme_lb.cut_spacing * sp
    rlist := pme_lb.cut_spacing * sp + pme_lb.rbuf
    spacing := sp
    grid := grid
    grid_efficiency :=
      1 * ((grid.XX * sp) / env.norm pme_lb.box_start.XX)
        * ((grid.YY * sp) / env.norm pme_lb.box_start.YY)
        * ((grid.ZZ * sp) / env.norm pme_lb.box_start.ZZ)
    ewaldcoeff := s0.ewaldcoeff * s0.rcut / (pme_lb.cut_spacing * sp)
    pmedata := none
    count := 0
    cycles := 0 }

/-- Try to add a new setup with next larger cut-off to the list. -/
def pme_loadbal_increase_cutoff (fuel : Nat) (pme_lb : pme_load_balancing) (env : Env)
    (pme_order : Int) : Except Fault (pme_load_balancing × Bool) :=
  match getSetup pme_lb.setup pme_lb.cur with
  | .error e => .error e
  | .ok c =>
    match increase_cutoff_search env pme_lb.box_start c.spacing pme_order fuel 1 with
    | .error e => .error e
    | .ok none => .ok (pme_lb, false)
    | .ok (some r) =>
      match getSetup pme_lb.setup 0 with
      | .error e => .error e
      | .ok s0 =>
        .ok ({ pme_lb with setup := pme_lb.setup ++ [new_setup pme_lb env s0 r.1 r.2] }, true)

/-- The value `pme_loadbal_end` (lines 258-269). -/
def pme_loadbal_end (pme_lb : pme_load_balancing) : Int :=
  if pme_lb.end_ > 0 then pme_lb.end_ else pme_lb.n

/-! ## `switch_to_stage1` (lines 291-320) -/

/-- The first loop (lines 294-300); the list argument is `setup[start ..]`. -/
def stage1_start_up (setup : List pme_setup_t) (fastest : Int) :
    List pme_setup_t → Int → Except Fault Int
  | [], start => .ok start
  | [_], start => .ok start
  | a :: b :: rest, start =>
    if a.count = 0 then stage1_start_up setup fastest (b :: rest) (start + 1)
    else
      match getSetup setup fastest with
      | .error e => .error e
      | .ok f =>
        if a.cycles > f.cycles * PME_LB_SLOW_FAC then
          stage1_start_up setup fastest (b :: rest) (start + 1)
        else .ok start

/-- The second loop (lines 301-304), `start` as a natural number. -/
def stage1_start_down (setup : List pme_setup_t) : Nat → Except Fault Int
  | 0 => .ok 0
  | k + 1 =>
    match getSetup setup (k : Int) with
    | .error e => .error e
    | .ok p => if p.cycles = 0 then stage1_start_down setup k else .ok ((k : Int) + 1)

/-- The value of `end` (lines 306-312). -/
def stage1_end (pme_lb : pme_load_balancing) : Except Fault Int :=
  match getSetup pme_lb.setup (pme_lb.n - 1) with
  | .error e => .error e
  | .ok last =>
    if last.count > 0 then
      match getSetup pme_lb.setup pme_lb.fastest with
      | .error e => .error e
      | .ok f =>
        if last.cycles > f.cycles * PME_LB_SLOW_FAC then .ok (pme_lb.n - 1) else .ok pme_lb.n
    else .ok pme_lb.n

/-- Done with scanning, go to stage 1. -/
def switch_to_stage1 (pme_lb : pme_load_balancing) : Except Fault pme_load_balancing :=
  match stage1_start_up pme_lb.setup pme_lb.fastest pme_lb.setup 0 with
  | .error e => .error e
  | .ok up =>
    match stage1_start_down pme_lb.setup up.toNat with
    | .error e => .error e
    | .ok start =>
      match stage1_end pme_lb with
      | .error e => .error e
      | .ok e =>
        .ok { pme_lb with start := start, end_ := e, stage := 1, cur := start - 1 }

/-! ## `pme_load_balance` (lines 322-578) -/

/-- What one call hands back: the controller, the live interaction constants, the
PME structure in use (`*pmedata`) and the returned flag. -/
structure StepResult where
  pme_lb : pme_load_balancing
  ic : interaction_const_t
  pmedata : Option Nat
  ret : Bool
  deriving DecidableEq

/-- Lines 364-389: record the timing of `set`, whose `count` has been incremented;
gives the new `nstage` and the new `set`. -/
def record_cycles (pme_lb : pme_load_balancing) (set : pme_setup_t) (cycles : ℚ) :
    Int × pme_setup_t :=
  if set.count ≤ 2 then (pme_lb.nstage, { set with cycles := cycles })
  else
    let nstage :=
      if cycles * PME_LB_ACCEL_TOL < set.cycles ∧ pme_lb.stage = pme_lb.nstage - 1 then
        pme_lb.nstage + 1
      else pme_lb.nstage
    (nstage, { set with cycles := min set.cycles cycles })

/-- Lines 391-394: make `cur` the fastest setup when it beats the fastest so far. -/
def update_fastest (pme_lb : pme_load_balancing) (set : pme_setup_t) :
    Except Fault pme_load_balancing :=
  match getSetup pme_lb.setup pme_lb.fastest with
  | .error e => .error e
  | .ok f => if set.cycles < f.cycles then .ok { pme_lb with fastest := pme_lb.cur } else .ok pme_lb

/-- Lines 400-406: stop scanning when the time is more than SLOW_FAC longer than
the fastest. -/
def scan_exit_check (pme_lb : pme_load_balancing) (cycles : ℚ) :
    Except Fault pme_load_balancing :=
  if pme_lb.stage = 0 ∧ pme_lb.cur > 0 then
    match getSetup pme_lb.setup pme_lb.fastest with
    | .error e => .error e
    | .ok f =>
      if cycles > f.cycles * PME_LB_SLOW_FAC then
        switch_to_stage1 { pme_lb with setup := pme_lb.setup.take (pme_lb.cur + 1).toNat }
      else .ok pme_lb
  else .ok pme_lb

/-- Lines 416-425: the next setup, already there or generated now. -/
def scan_next_setup (fuel : Nat) (pme_lb : pme_load_balancing) (env : Env) :
    Except Fault (pme_load_balancing × Bool) :=
  if pme_lb.cur + 1 < pme_lb.n then .ok (pme_lb, true)
  else pme_loadbal_increase_cutoff fuel pme_lb env env.ir.pme_order

/-- Lines 427-435: the box limit on the pair-list cut-off of the candidate. -/
def scan_box_check (pme_lb : pme_load_balancing) (env : Env) (OK : Bool) :
    Except Fault (pme_load_balancing × Bool) :=
  if OK = true ∧ env.ir.ePBC ≠ PBC.epbcNONE then
    match getSetup pme_lb.setup (pme_lb.cur + 1) with
    | .error e => .error e
    | .ok c =>
      if c.rlist * c.rlist ≤ env.max_cutoff2 then .ok (pme_lb, true)
      else .ok ({ pme_lb with elimited := Limit.epmelblimBOX }, false)
  else .ok (pme_lb, OK)

/-- Lines 437-452: move to the candidate and ask the domain decomposition. -/
def scan_dd_check (pme_lb : pme_load_balancing) (env : Env) (OK : Bool) :
    Except Fault (pme_load_balancing × Bool) :=
  if OK = true then
    if env.domaindecomp = true then
      match getSetup pme_lb.setup (pme_lb.cur + 1) with
      | .error e => .error e
      | .ok c =>
        if env.change_dd_cutoff c.rlist = true then
          .ok ({ pme_lb with cur := pme_lb.cur + 1 }, true)
        else
          .ok ({ pme_lb with cur := pme_lb.cur + 1 - 1, elimited := Limit.epmelblimDD }, false)
    else .ok ({ pme_lb with cur := pme_lb.cur + 1 }, true)
  else .ok (pme_lb, false)

/-- The catalog access of `print_loadbal_limited` (line 280); only the access is
modelled, the printed text is not. -/
def print_loadbal_limited (pme_lb : pme_load_balancing) : Except Fault Unit :=
  match getSetup pme_lb.setup (pme_loadbal_end pme_lb - 1) with
  | .error e => .error e
  | .ok _ => .ok ()

/-- Lines 453-462: on failure the setup list ends at `cur` and stage 1 starts. -/
def scan_limit (pme_lb : pme_load_balancing) (OK : Bool) :
    Except Fault (pme_load_balancing × Bool) :=
  if OK = true then .ok (pme_lb, true)
  else
    let lb1 := { pme_lb with setup := pme_lb.setup.take (pme_lb.cur + 1).toNat }
    match print_loadbal_limited lb1 with
    | .error e => .error e
    | .ok _ =>
      match switch_to_stage1 lb1 with
      | .error e => .error e
      | .ok lb => .ok (lb, false)

/-- The body of the do-while loop of lines 414-463. -/
def scan_body (fuel : Nat) (pme_lb : pme_load_balancing) (env : Env) :
    Except Fault (pme_load_balancing × Bool) :=
  match scan_next_setup fuel pme_lb env with
  | .error e => .error e
  | .ok (lb1, ok1) =>
    match scan_box_check lb1 env ok1 with
    | .error e => .error e
    | .ok (lb2, ok2) =>
      match scan_dd_check lb2 env ok2 with
      | .error e => .error e
      | .ok (lb3, ok3) => scan_limit lb3 ok3

/-- The part of the loop condition of lines 465-471 behind `OK &&`: true when the
loop goes on. -/
def scan_continue (pme_lb : pme_load_balancing) (gridsize_start : Int) : Except Fault Bool :=
  match getSetup pme_lb.setup pme_lb.cur with
  | .error e => .error e
  | .ok c =>
    if (pme_grid_points c : ℚ) < gridsize_start * PME_LB_GRID_SCALE_FAC then
      match getSetup pme_lb.setup (pme_lb.cur - 1) with
      | .error e => .error e
      | .ok p =>
        .ok (!decide (c.grid_efficiency < p.grid_efficiency * PME_LB_GRID_EFFICIENCY_REL_FAC))
    else .ok true

/-- The do-while loop of lines 414-471; `fuel` also bounds the search inside
`pme_loadbal_increase_cutoff`. -/
def scan_advance (fuel : Nat) (env : Env) (gridsize_start : Int) :
    Nat → pme_load_balancing → Except Fault pme_load_balancing
  | 0, _ => .error .outOfFuel
  | k + 1, pme_lb =>
    match scan_body fuel pme_lb env with
    | .error e => .error e
    | .ok (lb, false) => .ok lb
    | .ok (lb, true) =>
      match scan_continue lb gridsize_start with
      | .error e => .error e
      | .ok true => scan_advance fuel env gridsize_start k lb
      | .ok false => .ok lb

/-- Lines 408-472. -/
def scan_stage (fuel : Nat) (pme_lb : pme_load_balancing) (env : Env) (set : pme_setup_t) :
    Except Fault pme_load_balancing :=
  if pme_lb.stage = 0 then scan_advance fuel env (pme_grid_points set) fuel pme_lb
  else .ok pme_lb

/-- The do-while loop of lines 487-498. -/
def refine_loop (cycles_fast : ℚ) : Nat → pme_load_balancing → Except Fault pme_load_balancing
  | 0, _ => .error .outOfFuel
  | k + 1, pme_lb =>
    let lb1 := { pme_lb with cur := pme_lb.cur + 1 }
    let lb2 := if lb1.cur = lb1.end_ then { lb1 with stage := lb1.stage + 1, cur := lb1.start } else lb1
    if lb2.stage = lb2.nstage - 1 then
      match getSetup lb2.setup lb2.cur with
      | .error e => .error e
      | .ok c =>
        if c.count > 0 ∧ c.cycles > cycles_fast * PME_LB_SLOW_FAC then refine_loop cycles_fast k lb2
        else .ok lb2
    else .ok lb2

/-- Lines 474-505. -/
def refine_stage (fuel : Nat) (pme_lb : pme_load_balancing) (cycles_fast : ℚ) :
    Except Fault pme_load_balancing :=
  if pme_lb.stage > 0 ∧ pme_lb.end_ = 1 then
    .ok { pme_lb with cur := 0, stage := pme_lb.nstage }
  else if pme_lb.stage > 0 ∧ pme_lb.end_ > 1 then
    match refine_loop cycles_fast fuel pme_lb with
    | .error e => .error e
    | .ok lb => if lb.stage = lb.nstage then .ok { lb with cur := lb.fastest } else .ok lb
  else .ok pme_lb

/-- The failsafe solution of lines 512-521. -/
def dd_failsafe (pme_lb : pme_load_balancing) : pme_load_balancing :=
  let stage := if pme_lb.cur > 1 ∧ pme_lb.stage = pme_lb.nstage then pme_lb.stage - 1 else pme_lb.stage
  { pme_lb with
    stage := stage
    fastest := 0
    start := 0
    end_ := pme_lb.cur
    cur := 0
    elimited := Limit.epmelblimDD }

/-- Lines 507-524. -/
def dd_reassert (pme_lb : pme_load_balancing) (env : Env) : Except Fault pme_load_balancing :=
  if env.domaindecomp = true ∧ pme_lb.stage > 0 then
    match getSetup pme_lb.setup pme_lb.cur with
    | .error e => .error e
    | .ok c =>
      if env.change_dd_cutoff c.rlist = true then .ok pme_lb
      else
        match print_loadbal_limited (dd_failsafe pme_lb) with
        | .error e => .error e
        | .ok _ => .ok (dd_failsafe pme_lb)
  else .ok pme_lb

/-- Lines 526-577: change the Coulomb cut-off and the PME grid. -/
def apply_setup (pme_lb : pme_load_balancing) (env : Env) (pmedata : Option Nat) :
    Except Fault StepResult :=
  match getSetup pme_lb.setup pme_lb.cur with
  | .error e => .error e
  | .ok set =>
    let ic : interaction_const_t :=
      { rcoulomb := set.rcut, rlist := set.rlist, ewaldcoeff := set.ewaldcoeff }
    if env.duty_pme = true then
      match set.pmedata with
      | some h => .ok { pme_lb := pme_lb, ic := ic, pmedata := some h, ret := true }
      | none =>
        match getSetup pme_lb.setup 0 with
        | .error e => .error e
        | .ok s0 =>
          let h := env.gmx_pme_reinit s0.pmedata set.grid
          .ok { pme_lb := { pme_lb with
                  setup := setSetup pme_lb.setup pme_lb.cur { set with pmedata := some h } }
                ic := ic, pmedata := some h, ret := true }
    else .ok { pme_lb := pme_lb, ic := ic, pmedata := pmedata, ret := true }

/-- Lines 391-505: the state machine picks the setup to use next. -/
def select_setup (fuel : Nat) (pme_lb : pme_load_balancing) (env : Env) (set : pme_setup_t)
    (cycles : ℚ) : Except Fault pme_load_balancing :=
  match update_fastest pme_lb set with
  | .error e => .error e
  | .ok lb1 =>
    match getSetup lb1.setup lb1.fastest with
    | .error e => .error e
    | .ok f =>
      match scan_exit_check lb1 cycles with
      | .error e => .error e
      | .ok lb2 =>
        match scan_stage fuel lb2 env set with
        | .error e => .error e
        | .ok lb3 => refine_stage fuel lb3 f.cycles

/-- Lines 391-577, after a sample has been recorded in `set = setup[cur]`. -/
def balance_timed (fuel : Nat) (pme_lb : pme_load_balancing) (env : Env) (set : pme_setup_t)
    (cycles : ℚ) (pmedata : Option Nat) : Except Fault StepResult :=
  match select_setup fuel pme_lb env set cycles with
  | .error e => .error e
  | .ok lb4 =>
    match dd_reassert lb4 env with
    | .error e => .error e
    | .ok lb5 => apply_setup lb5 env pmedata

/-- The per-step entry point. -/
def pme_load_balance (fuel : Nat) (pme_lb : pme_load_balancing) (env : Env) (cycles : ℚ)
    (ic : interaction_const_t) (pmedata : Option Nat) : Except Fault StepResult :=
  if pme_lb.stage = pme_lb.nstage then
    .ok { pme_lb := pme_lb, ic := ic, pmedata := pmedata, ret := false }
  else
    match getSetup pme_lb.setup pme_lb.cur with
    | .error e => .error e
    | .ok set0 =>
      let set1 := { set0 with count := set0.count + 1 }
      if set1.count % 2 = 1 then
        .ok { pme_lb := { pme_lb with setup := setSetup pme_lb.setup pme_lb.cur set1 }
              ic := ic, pmedata := pmedata, ret := true }
      else
        let r := record_cycles pme_lb set1 cycles
        balance_timed fuel
          { pme_lb with nstage := r.1, setup := setSetup pme_lb.setup pme_lb.cur r.2 }
          env r.2 cycles pmedata

/-- Lines 580-583. -/
def restart_pme_loadbal (pme_lb : pme_load_balancing) (n : Int) : pme_load_balancing :=
  { pme_lb with nstage := pme_lb.nstage + n }

/-! ## Runs -/

/-- A call of one of the two operations that change the controller. -/
inductive Call where
  | step (fuel : Nat) (env : Env) (cycles : ℚ) (ic : interaction_const_t) (pmedata : Option Nat)
  | restart (n : Int)

/-- The controller after one call. -/
def exec (pme_lb : pme_load_balancing) : Call → Except Fault pme_load_balancing
  | .step fuel env cycles ic pmedata =>
    match pme_load_balance fuel pme_lb env cycles ic pmedata with
    | .error e => .error e
    | .ok r => .ok r.pme_lb
  | .restart n => .ok (restart_pme_loadbal pme_lb n)

/-- The controller after a sequence of calls. -/
def run : pme_load_balancing → List Call → Except Fault pme_load_balancing
  | pme_lb, [] => .ok pme_lb
  | pme_lb, c :: cs =>
    match exec pme_lb c with
    | .error e => .error e
    | .ok lb => run lb cs

/-- Balancing has finished: `stage == nstage`. -/
def Concluded (pme_lb : pme_load_balancing) : Prop := pme_lb.stage = pme_lb.nstage

instance (pme_lb : pme_load_balancing) : Decidable (Concluded pme_lb) := by
  unfold Concluded; infer_instance

/-! ## Sample inputs -/

/-- An input record: 32x32x32 grid, PME order 4, no target Fourier spacing. -/
def sample_ir : t_inputrec :=
  { ePBC := PBC.epbcXYZ, nwall := 0, wall_ewald_zfac := 3, nkx := 32, nky := 32, nkz := 32
    fourier_spacing := 0, rcoulomb := 1, pme_order := 4 }

/-- A cubic box of edge 3.2. -/
def sample_box : matrix :=
  { XX := ⟨32 / 10, 0, 0⟩, YY := ⟨0, 32 / 10, 0⟩, ZZ := ⟨0, 0, 32 / 10⟩ }

/-- The length of a box vector of a rectangular box with positive edges. -/
def sample_norm (v : rvec) : ℚ := v.XX + v.YY + v.ZZ

/-- Cut-off 1.0, pair-list cut-off 1.1. -/
def sample_ic : interaction_const_t := { rcoulomb := 1, rlist := 11 / 10, ewaldcoeff := 3 }

/-- A grid calculator for the sample box: the spacing asked for is granted. -/
def sample_calc_grid (_ : matrix) (sp : ℚ) : ℚ × ivec := (sp, ⟨20, 20, 20⟩)

/-- Collaborators that accept everything. -/
def sample_env : Env :=
  { ir := sample_ir, norm := sample_norm, calc_grid := sample_calc_grid, max_cutoff2 := 100
    domaindecomp := true, change_dd_cutoff := fun _ => true, duty_pme := true
    gmx_pme_reinit := fun _ g => g.XX.toNat }

/-- The controller right after construction from the sample inputs. -/
def sample_lb : pme_load_balancing :=
  pme_loadbal_init sample_ir sample_box sample_ic (some 0) sample_norm

/-! ## Notions used in the statements and proofs -/

/-- The entry `set` is one that `pme_loadbal_increase_cutoff` appends to the list `l`
for the controller parameters of `s`. -/
def Generated (s : pme_load_balancing) (env : Env) (l : List pme_setup_t)
    (set : pme_setup_t) : Prop :=
  ∃ c s0 sp grid, l.getLast? = some c ∧ l[0]? = some s0 ∧
    (1001 / 1000) * c.spacing < sp ∧
    2 * env.ir.pme_order < grid.XX ∧ 2 * env.ir.pme_order < grid.YY ∧
    2 * env.ir.pme_order < grid.ZZ ∧
    set = new_setup s env s0 sp grid

/-- The list `l'` is `l` followed by entries generated one after the other. -/
inductive GenChain (s : pme_load_balancing) (env : Env) :
    List pme_setup_t → List pme_setup_t → Prop where
  | nil (l : List pme_setup_t) : GenChain s env l l
  | snoc (l l' : List pme_setup_t) (set : pme_setup_t) :
      GenChain s env l l' → Generated s env l' set → GenChain s env l (l' ++ [set])

/-- The setup list after the timed part of a call: generated entries are appended to
`l`, the result is cut to `k >= 1` entries, and at most one entry gets a PME
structure. -/
def CatalogEffect (s : pme_load_balancing) (env : Env) (l l' : List pme_setup_t) : Prop :=
  ∃ (l1 : List pme_setup_t) (k : Nat), GenChain s env l l1 ∧ 1 ≤ k ∧
    (l' = l1.take k ∨
     ∃ i a hnd, getSetup (l1.take k) i = .ok a ∧ a.pmedata = none ∧
       l' = setSetup (l1.take k) i { a with pmedata := some hnd })

/-- The states that `pme_loadbal_init` followed by any calls of `pme_load_balance` and
`restart_pme_loadbal` can produce. -/
inductive Reachable : pme_load_balancing → Prop where
  | init (ir : t_inputrec) (box : matrix) (ic : interaction_const_t) (pmedata : Option Nat)
      (norm : rvec → ℚ) : Reachable (pme_loadbal_init ir box ic pmedata norm)
  | call (s s' : pme_load_balancing) (c : Call) :
      Reachable s → exec s c = .ok s' → Reachable s'

/-- Every setup of the list has been sampled an even number of times. -/
def AllEven (l : List pme_setup_t) : Prop := ∀ a ∈ l, a.count % 2 = 0

/-- Every setup other than `cur` has been sampled an even number of times. -/
def OthersEven (s : pme_load_balancing) : Prop :=
  ∀ i a, getSetup s.setup i = .ok a → i ≠ s.cur → a.count % 2 = 0

/-- Every spacing is positive and each setup has a spacing more than 1.001 times that
of the setup before it. -/
def SpacingInc (l : List pme_setup_t) : Prop :=
  ∀ i a, getSetup l i = .ok a →
    0 < a.spacing ∧ ∀ b, getSetup l (i + 1) = .ok b → (1001 / 1000) * a.spacing < b.spacing

/-- Lines 350-406 of a call that times a sample: the controller when the scan loop of
line 414 is reached, and the timed setup. -/
def scan_entry (s : pme_load_balancing) (cycles : ℚ) :
    Except Fault (pme_load_balancing × pme_setup_t) :=
  match getSetup s.setup s.cur with
  | .error e => .error e
  | .ok set0 =>
    let r := record_cycles s { set0 with count := set0.count + 1 } cycles
    match update_fastest { s with nstage := r.1, setup := setSetup s.setup s.cur r.2 } r.2 with
    | .error e => .error e
    | .ok lb1 =>
      match scan_exit_check lb1 cycles with
      | .error e => .error e
      | .ok lb2 => .ok (lb2, r.2)

/-- The scan loop entered at `t0` comes to the head of a round at `t`. -/
inductive ScanReaches (fuel : Nat) (env : Env) (gs : Int) :
    pme_load_balancing → pme_load_balancing → Prop where
  | here (t : pme_load_balancing) : ScanReaches fuel env gs t t
  | next (t0 t1 t : pme_load_balancing) :
      scan_body fuel t0 env = .ok (t1, true) → scan_continue t1 gs = .ok true →
      ScanReaches fuel env gs t1 t → ScanReaches fuel env gs t0 t

/-- All recorded times are non-negative. -/
def CyclesNonneg (l : List pme_setup_t) : Prop := ∀ a ∈ l, 0 ≤ a.cycles

/-- The invariant behind C5: times are non-negative, and in a later stage a range with
`end = 1` has `fastest = 0` and `cur = 0`. -/
def ConcludeInv (s : pme_load_balancing) : Prop :=
  CyclesNonneg s.setup ∧ (0 < s.stage → s.end_ = 1 → s.fastest = 0 ∧ s.cur = 0)

/-- All step calls of the list have a non-negative cost. -/
def NonnegCosts (calls : List Call) : Prop :=
  ∀ c ∈ calls, ∀ fuel env cycles ic pmedata, c = Call.step fuel env cycles ic pmedata →
    0 ≤ cycles

/-- Setup `F` of the list has been timed and no timed setup of the list has a smaller
`cycles`. -/
def MinProp (l : List pme_setup_t) (F : Int) : Prop :=
  ∃ f, getSetup l F = .ok f ∧ 2 ≤ f.count ∧
    ∀ i a, getSetup l i = .ok a → 2 ≤ a.count → f.cycles ≤ a.cycles

/-- The part of the invariant about `fastest`: it is a timed setup of minimal
`cycles`, or nothing has been timed yet and it is the active setup. -/
def FastestInv (s : pme_load_balancing) : Prop :=
  MinProp s.setup s.fastest ∨
  ((∃ f, getSetup s.setup s.fastest = .ok f) ∧ s.fastest = s.cur ∧
    ∀ a ∈ s.setup, a.count < 2)

/-- The call takes the failsafe path of lines 512-522: it times a sample and the
domain decomposition rejects the setup chosen by lines 391-505 in a stage > 0. -/
def FailsafeTaken (fuel : Nat) (s : pme_load_balancing) (env : Env) (cycles : ℚ) : Prop :=
  ∃ set0 lb4 c, s.stage ≠ s.nstage ∧ getSetup s.setup s.cur = .ok set0 ∧
    set0.count % 2 = 1 ∧
    select_setup fuel
      { s with
        nstage := (record_cycles s { set0 with count := set0.count + 1 } cycles).1
        setup := setSetup s.setup s.cur
          (record_cycles s { set0 with count := set0.count + 1 } cycles).2 }
      env (record_cycles s { set0 with count := set0.count + 1 } cycles).2 cycles = .ok lb4 ∧
    env.domaindecomp = true ∧ 0 < lb4.stage ∧ getSetup lb4.setup lb4.cur = .ok c ∧
    env.change_dd_cutoff c.rlist = false

/-- A call that does not take the failsafe path; a restart adds stages. -/
def NoFailsafeCall (s : pme_load_balancing) : Call → Prop
  | .step fuel env cycles _ _ => ¬ FailsafeTaken fuel s env cycles
  | .restart n => 0 ≤ n

/-- A sequence of calls none of which takes the failsafe path. -/
def NoFailsafeRun : pme_load_balancing → List Call → Prop
  | _, [] => True
  | s, c :: cs => NoFailsafeCall s c ∧ ∀ t, exec s c = .ok t → NoFailsafeRun t cs

/-- The invariant behind C6. -/
def FastestMinInv (s : pme_load_balancing) : Prop :=
  2 ≤ s.nstage ∧ (s.stage = 0 → s.fastest ≤ s.cur) ∧ FastestInv s

/-- The parity of the count of the active setup (0 when `cur` is no index). -/
def warmup_pending (s : pme_load_balancing) : Int :=
  match getSetup s.setup s.cur with
  | .ok a => ((a.count % 2 : Nat) : Int)
  | .error _ => 0

/-- An upper bound on the number of calls still to come before the balancing has
finished, for a list of at most `N` setups and `nstage = 2`: two calls for every
setup from `cur` on (one less when the warm-up sample has been taken), in stage 0
followed by `2 * N` for stage 1. -/
def calls_left (N : Int) (s : pme_load_balancing) : Int :=
  if s.stage = 0 then 2 * N + 2 * (N - s.cur) - warmup_pending s
  else if s.stage = 1 then 2 * (s.end_ - s.cur) - warmup_pending s
  else 0

/-- The invariant behind C7 (two stages, a list of at most `N` setups). -/
def TerminationInv (N : Int) (s : pme_load_balancing) : Prop :=
  s.nstage = 2 ∧ s.n ≤ N ∧ OthersEven s ∧
  ((s.stage = 0 ∧ 0 ≤ s.cur ∧ s.cur < s.n) ∨
   (s.stage = 1 ∧ 0 ≤ s.cur ∧ s.cur < s.end_ ∧ s.end_ ≤ s.n) ∨
   s.stage = 2)

/-- The calls of a run as C7 assumes them: step calls only, non-negative costs, no
failsafe, and after every call the list has at most `N` setups and `nstage` is what
it was. -/
def BoundedRun (N : Int) : pme_load_balancing → List Call → Prop
  | _, [] => True
  | s, c :: cs =>
    (∃ fuel env cycles ic pmedata, c = Call.step fuel env cycles ic pmedata ∧ 0 ≤ cycles ∧
      ¬ FailsafeTaken fuel s env cycles) ∧
    ∀ t, exec s c = .ok t → (t.n ≤ N ∧ t.nstage = s.nstage) ∧ BoundedRun N t cs

/-- A check that implies `BoundedRun`: it runs the calls and tests the bounds, for
collaborators without domain decomposition. -/
def bounded_check (N : Int) : pme_load_balancing → List Call → Bool
  | _, [] => true
  | _, Call.restart _ :: _ => false
  | s, Call.step fuel env cycles ic pmedata :: cs =>
    decide (0 ≤ cycles) && !env.domaindecomp &&
      match exec s (Call.step fuel env cycles ic pmedata) with
      | .ok t => decide (t.n ≤ N) && decide (t.nstage = s.nstage) && bounded_check N t cs
      | .error _ => true

/-! ## Sample controllers, collaborators and calls -/

/-- The first setup of `sample_stage1`, sampled three times, best time 100. -/
def sample_set0 : pme_setup_t :=
  { rcut := 1, rlist := 11 / 10, spacing := 1 / 10, grid := ⟨32, 32, 32⟩, grid_efficiency := 0
    ewaldcoeff := 3, pmedata := some 0, count := 3, cycles := 100 }

/-- The second setup of `sample_stage1`, sampled twice, best time 90. -/
def sample_set1 : pme_setup_t :=
  { rcut := 12 / 10, rlist := 13 / 10, spacing := 12 / 100, grid := ⟨28, 28, 28⟩
    grid_efficiency := 1, ewaldcoeff := 25 / 10, pmedata := some 1, count := 2, cycles := 90 }

/-- A controller in stage 1 of 3 with two setups, the first one active. -/
def sample_stage1 : pme_load_balancing :=
  { sample_lb with nstage := 3, stage := 1, end_ := 2, fastest := 1
                   setup := [sample_set0, sample_set1] }

/-- Two calls with cost 100 on the sample controller: a warm-up sample and a timed one. -/
def sample_calls : List Call :=
  [Call.step 2 sample_env 100 sample_ic none, Call.step 2 sample_env 100 sample_ic none]

/-- The sample controller after `sample_calls`: three setups, the third one active. -/
def sample_scanned : pme_load_balancing :=
  match run sample_lb sample_calls with
  | .ok s => s
  | .error _ => sample_lb

/-- The sample input record with a target Fourier spacing of 0.12: the 32x32x32 grid
is the one chosen for a box of edge 3.84, finer than 0.12 for the box of edge 3.2. -/
def fourier_ir : t_inputrec := { sample_ir with fourier_spacing := 12 / 100 }

/-- A grid calculator for the cubic sample box: the coarsest grid whose spacing does
not exceed the spacing asked for. -/
def cubic_calc_grid (box : matrix) (sp : ℚ) : ℚ × ivec :=
  (sample_norm box.XX / ⌈sample_norm box.XX / sp⌉, ⟨⌈sample_norm box.XX / sp⌉,
    ⌈sample_norm box.XX / sp⌉, ⌈sample_norm box.XX / sp⌉⟩)

/-- Collaborators for `fourier_ir`: nothing is rejected. -/
def fourier_env : Env :=
  { sample_env with ir := fourier_ir, calc_grid := cubic_calc_grid }

/-- Collaborators whose domain decomposition accepts pair-list cut-offs up to 1.115. -/
def dd_env : Env := { sample_env with change_dd_cutoff := fun x => decide (x ≤ 1115 / 1000) }

/-- The sample controller after the warm-up sample. -/
def dd_start : pme_load_balancing :=
  { sample_lb with setup := [{ sample_set0 with count := 1, cycles := 0 }] }

/-- Setup 0 after the timed sample of cost 100. -/
def dd_set : pme_setup_t := { sample_set0 with count := 2, cycles := 100 }

/-- The first generated setup: spacing 0.101, pair-list cut-off 1.11. -/
def dd_gen1 : pme_setup_t := new_setup sample_lb dd_env dd_set (101 / 1000) ⟨20, 20, 20⟩

/-- The second generated setup: spacing 0.10201, pair-list cut-off 1.1201. -/
def dd_gen2 : pme_setup_t := new_setup sample_lb dd_env dd_set (10201 / 100000) ⟨20, 20, 20⟩

/-- The controller when the scan loop is reached. -/
def dd_lb2 : pme_load_balancing := { sample_lb with setup := [dd_set] }

/-- The controller at the head of the second round of the scan loop. -/
def dd_t : pme_load_balancing := { sample_lb with setup := [dd_set, dd_gen1], cur := 1 }

/-- The controller of the second round with the candidate appended. -/
def dd_c : pme_load_balancing :=
  { sample_lb with setup := [dd_set, dd_gen1, dd_gen2], cur := 1 }

/-- What the call returns. -/
def dd_result : StepResult :=
  { pme_lb := { sample_lb with setup := [dd_set, dd_gen1], cur := 0, start := 0, end_ := 2
                               stage := 1, elimited := Limit.epmelblimDD }
    ic := sample_ic, pmedata := some 0, ret := true }

/-- Collaborators whose box admits pair-list cut-offs up to 1 only. -/
def box_env : Env := { sample_env with max_cutoff2 := 1 }

/-- What the timed call with `box_env` on `dd_start` returns: the first candidate is
rejected, the list keeps one setup and the balancing has finished. -/
def box_result : StepResult :=
  { pme_lb := { sample_lb with setup := [dd_set], start := 0, end_ := 1, stage := 2
                               elimited := Limit.epmelblimBOX }
    ic := sample_ic, pmedata := some 0, ret := true }

/-- What the timed call of `sample_calls` returns. -/
def scan_result : StepResult :=
  { pme_lb := sample_scanned
    ic := { rcoulomb := 10201 / 10000, rlist := 11201 / 10000, ewaldcoeff := 30000 / 10201 }
    pmedata := some 20, ret := true }

/-- The sample collaborators without domain decomposition. -/
def free_env : Env := { sample_env with domaindecomp := false }

/-- Twelve calls: setup 0 is timed at 100, setup 2 at 120, which ends the scan with
three setups; stage 1 times setups 0 and 1 at 100; four more calls follow. -/
def long_calls : List Call :=
  [Call.step 2 free_env 100 sample_ic none, Call.step 2 free_env 100 sample_ic none,
   Call.step 2 free_env 120 sample_ic none, Call.step 2 free_env 120 sample_ic none,
   Call.step 2 free_env 100 sample_ic none, Call.step 2 free_env 100 sample_ic none,
   Call.step 2 free_env 100 sample_ic none, Call.step 2 free_env 100 sample_ic none,
   Call.step 2 free_env 100 sample_ic none, Call.step 2 free_env 100 sample_ic none,
   Call.step 2 free_env 100 sample_ic none, Call.step 2 free_env 100 sample_ic none]

/-- The sample controller after `long_calls`. -/
def long_final : pme_load_balancing :=
  match run sample_lb long_calls with
  | .ok s => s
  | .error _ => sample_lb

/-! ## Further notions: generator rounds, derived fields, index invariants -/

/-- The grid of line 193 is too small: some dimension is at most `2*pme_order`. -/
def grid_too_small (grid : ivec) (pme_order : Int) : Prop :=
  grid.XX ≤ 2 * pme_order ∨ grid.YY ≤ 2 * pme_order ∨ grid.ZZ ≤ 2 * pme_order

instance (grid : ivec) (pme_order : Int) : Decidable (grid_too_small grid pme_order) := by
  unfold grid_too_small; infer_instance

/-- What `calc_grid` answers in round `j = 0, 1, ...` of the loop of lines 178-201, where
`fac` is `1.01^(j+1)`: the spacing and the grid. -/
def trial_grid (env : Env) (box_start : matrix) (spacing : ℚ) (j : Nat) : ℚ × ivec :=
  env.calc_grid box_start ((101 / 100) ^ (j + 1) * spacing)

/-- The derived fields of the setups of a list, for a cut-off/spacing ratio and a buffer:
`rlist = rcut + rbuf`, the product `ewaldcoeff * rcut` is that of setup 0 (for a
non-zero cut-off), and from index 1 on `rcut = cut_spacing * spacing`. -/
def DerivedFields (cut_spacing rbuf : ℚ) (l : List pme_setup_t) : Prop :=
  ∃ a0, getSetup l 0 = .ok a0 ∧ ∀ i a, getSetup l i = .ok a →
    a.rlist = a.rcut + rbuf ∧
    (a.rcut ≠ 0 → a.ewaldcoeff * a.rcut = a0.ewaldcoeff * a0.rcut) ∧
    (1 ≤ i → a.rcut = cut_spacing * a.spacing)

/-- A computation that does not read outside the list: it runs out of fuel or returns a
value for which `post` holds. -/
def Safe {α : Type} (x : Except Fault α) (post : α → Prop) : Prop :=
  x = .error .outOfFuel ∨ ∃ v, x = .ok v ∧ post v

/-- Every restart of the list adds stages (`n >= 0`). -/
def AddsStages (calls : List Call) : Prop :=
  ∀ c ∈ calls, ∀ n, c = Call.restart n → 0 ≤ n

/-- The range `[start, end)` right after `switch_to_stage1`: it holds the fastest setup,
`cur` is `start - 1`, `setup[start]` has time 0 or has been sampled and is within 1.12
times the fastest, and every sampled setup before `start` is more than 1.12 times
slower than the fastest. -/
def RefinementRange (lb : pme_load_balancing) : Prop :=
  lb.stage = 1 ∧ 0 ≤ lb.start ∧ lb.start ≤ lb.fastest ∧ lb.fastest < lb.end_ ∧
  lb.end_ ≤ lb.n ∧ lb.cur = lb.start - 1 ∧
  ∃ f a, getSetup lb.setup lb.fastest = .ok f ∧ getSetup lb.setup lb.start = .ok a ∧
    (a.cycles = 0 ∨ (a.count ≠ 0 ∧ a.cycles ≤ f.cycles * PME_LB_SLOW_FAC)) ∧
    ∀ i b, i < lb.start → getSetup lb.setup i = .ok b → b.count ≠ 0 →
      b.cycles > f.cycles * PME_LB_SLOW_FAC

/-- What `switch_to_stage1` needs of the controller it is called on: non-negative times
and a fastest setup that is in the list and has been sampled. -/
def SwitchReady (X : pme_load_balancing) : Prop :=
  CyclesNonneg X.setup ∧ ∃ f, getSetup X.setup X.fastest = .ok f ∧ f.count ≠ 0

/-- The indices of the controller are consistent.  In stage 0: `fastest <= cur < n` and
`end = 0`.  In a later stage: `0 <= start <= fastest < end <= n` and
`start - slack <= cur < end`, or, after a failsafe on setup 0, `end = cur = fastest = 0`.
`slack` is 1 between `switch_to_stage1` and the advance of lines 474-505, and 0
otherwise. -/
def StageInv (s : pme_load_balancing) (slack : Int) : Prop :=
  CyclesNonneg s.setup ∧ 0 < s.n ∧ 0 ≤ s.stage ∧
  (s.stage = 0 → 0 ≤ s.fastest ∧ s.fastest ≤ s.cur ∧ s.cur < s.n ∧ s.end_ = 0) ∧
  (0 < s.stage →
    (0 ≤ s.start ∧ s.start ≤ s.fastest ∧ s.fastest < s.end_ ∧ s.end_ ≤ s.n ∧
      s.start - slack ≤ s.cur ∧ s.cur < s.end_) ∨
    (s.end_ = 0 ∧ s.cur = 0 ∧ s.fastest = 0))

/-- The invariant inside a call, between the update of `fastest` and the advance of
lines 474-505. -/
def MidInv (s : pme_load_balancing) : Prop :=
  StageInv s 1 ∧ 2 ≤ s.nstage ∧ s.stage < s.nstage ∧
  (s.stage = 0 → ∃ f, getSetup s.setup s.fastest = .ok f ∧ f.count ≠ 0)

/-- The invariant between calls, for non-negative costs and restarts that add stages. -/
def BoundsInv (s : pme_load_balancing) : Prop :=
  StageInv s 0 ∧ 2 ≤ s.nstage ∧ s.stage ≤ s.nstage ∧
  (s.stage = 0 → s.fastest = s.cur ∨ ∃ f, getSetup s.setup s.fastest = .ok f ∧ f.count ≠ 0)

/-- An upper bound on the number of rounds of the loop of lines 487-498: in the last
stage the loop ends at `end` at the latest; one stage earlier it may wrap around to
`start` first; otherwise it makes one round. -/
def refine_rounds (s : pme_load_balancing) : Int :=
  if s.stage = s.nstage - 1 then s.end_ - s.cur
  else if s.stage = s.nstage - 2 then 1 + (s.end_ - s.start)
  else 1

/-- Lines 408-577 of a call that times a sample: the scan loop, the advance of the later
stages, the check with the domain decomposition and the change of the live setup;
`lb2` is the controller after lines 350-406, `set` the timed setup and `cycles_fast` the
time of the fastest setup. -/
def advance_and_apply (fuel : Nat) (lb2 : pme_load_balancing) (env : Env) (set : pme_setup_t)
    (cycles_fast : ℚ) (pmedata : Option Nat) : Except Fault StepResult :=
  match scan_stage fuel lb2 env set with
  | .error e => .error e
  | .ok lb3 =>
    match refine_stage fuel lb3 cycles_fast with
    | .error e => .error e
    | .ok lb4 =>
      match dd_reassert lb4 env with
      | .error e => .error e
      | .ok lb5 => apply_setup lb5 env pmedata

/-- The scan is past index 1: there are at least two stages, and the controller is in a
later stage, or in stage 0 with `cur >= 2`. -/
def ScanPastFirst (s : pme_load_balancing) : Prop :=
  2 ≤ s.nstage ∧ ((s.stage = 0 ∧ 2 ≤ s.cur) ∨ 1 ≤ s.stage)

/-- Lines 416-425 come to an end for the controller `t`: the next setup is in the list
already, or the search loop of the generator (lines 178-201) ends within the fuel. -/
def GeneratorReports (fuel : Nat) (t : pme_load_balancing) (env : Env) : Prop :=
  scan_next_setup fuel t env ≠ .error .outOfFuel

instance (fuel : Nat) (t : pme_load_balancing) (env : Env) :
    Decidable (GeneratorReports fuel t env) := by
  unfold GeneratorReports; infer_instance

/-- The catalog is finite for the scan of a call that times a sample of cost `cycles` on
the controller `s`: at the head of every round of the loop of lines 414-471 the list has
at most `N` setups and the generator reports. -/
def ScanReports (N : Int) (fuel : Nat) (s : pme_load_balancing) (env : Env) (cycles : ℚ) :
    Prop :=
  ∀ lb2 set t, scan_entry s cycles = .ok (lb2, set) → lb2.stage = 0 →
    ScanReaches fuel env (pme_grid_points set) lb2 t → t.n ≤ N ∧ GeneratorReports fuel t env

/-- The step calls of a run have fuel for `2 * N` rounds of the loops of the file, and the
catalog is finite for each of them. -/
def ReportingRun (N : Int) : pme_load_balancing → List Call → Prop
  | _, [] => True
  | s, c :: cs =>
    (∀ fuel env cycles ic pmedata, c = Call.step fuel env cycles ic pmedata →
      2 * N ≤ fuel ∧ ScanReports N fuel s env cycles) ∧
    ∀ t, exec s c = .ok t → ReportingRun N t cs

/-- A check that implies the condition of `ScanReports` on the rounds of the scan loop
entered at a controller: it follows the loop for at most `k` rounds. -/
def scan_heads_check (N : Int) (fuel : Nat) (env : Env) (gs : Int) :
    Nat → pme_load_balancing → Bool
  | 0, _ => false
  | k + 1, t =>
    decide (t.n ≤ N) && decide (GeneratorReports fuel t env) &&
      match scan_body fuel t env with
      | .ok (lb, true) =>
        (match scan_continue lb gs with
         | .ok true => scan_heads_check N fuel env gs k lb
         | _ => true)
      | _ => true

/-- A check that implies `ReportingRun`: it runs the calls and tests the fuel and the
rounds of every scan. -/
def reporting_check (N : Int) : pme_load_balancing → List Call → Bool
  | _, [] => true
  | s, Call.restart n :: cs => reporting_check N (restart_pme_loadbal s n) cs
  | s, Call.step fuel env cycles ic pmedata :: cs =>
    decide (2 * N ≤ (fuel : Int)) &&
    (match scan_entry s cycles with
     | .ok (lb2, set) =>
       decide (lb2.stage ≠ 0) ||
         scan_heads_check N fuel env (pme_grid_points set) fuel lb2
     | .error _ => true) &&
    match exec s (Call.step fuel env cycles ic pmedata) with
    | .ok t => reporting_check N t cs
    | .error _ => true

/-- The value fits a C `int` of 32 bits. -/
def int_range (x : Int) : Prop := -2147483648 ≤ x ∧ x ≤ 2147483647

instance (x : Int) : Decidable (int_range x) := by
  unfold int_range; infer_instance

/-- The grid sizes are C `int` values, and the product `grid[XX]*grid[YY]*grid[ZZ]` of
lines 412 and 465-467, with its intermediate product, stays in the range of `int`: the
`int` arithmetic of the code gives the product `pme_grid_points`. -/
def grid_points_in_range (grid : ivec) : Prop :=
  int_range grid.XX ∧ int_range grid.YY ∧ int_range grid.ZZ ∧
  int_range (grid.XX * grid.YY) ∧ int_range (grid.XX * grid.YY * grid.ZZ)

instance (grid : ivec) : Decidable (grid_points_in_range grid) := by
  unfold grid_points_in_range; infer_instance

/-- The value that 32-bit `int` arithmetic gives for an expression whose exact value is
`x`: the value wraps around (two's complement). -/
def int_wrap (x : Int) : Int := (x + 2147483648) % 4294967296 - 2147483648

/-- The product `grid[XX]*grid[YY]*grid[ZZ]` of lines 412 and 465-467 as 32-bit `int`
arithmetic computes it, from the left. -/
def c_grid_points (set : pme_setup_t) : Int :=
  int_wrap (int_wrap (set.grid.XX * set.grid.YY) * set.grid.ZZ)

/-! ## Further sample controllers and calls -/

/-- The sample controller with the first candidate appended. -/
def box_gen : pme_load_balancing :=
  match pme_loadbal_increase_cutoff 2 sample_lb box_env box_env.ir.pme_order with
  | .ok (g, _) => g
  | .error _ => sample_lb

/-- The first candidate of the sample controller: pair-list cut-off 1.11. -/
def box_cand : pme_setup_t :=
  match getSetup box_gen.setup 1 with
  | .ok a => a
  | .error _ => sample_set0

/-- Collaborators for the scan scenario: the grid calculator of a cubic box, nothing
is rejected (the box admits pair-list cut-offs up to 10). -/
def scen_env : Env := { sample_env with calc_grid := cubic_calc_grid }

/-- Six calls with costs 100, 100, 90, 90, `c`, `c`. -/
def scen_calls (c : ℚ) : List Call :=
  [Call.step 20 scen_env 100 sample_ic none, Call.step 20 scen_env 100 sample_ic none,
   Call.step 20 scen_env 90 sample_ic none, Call.step 20 scen_env 90 sample_ic none,
   Call.step 20 scen_env c sample_ic none, Call.step 20 scen_env c sample_ic none]

/-- What is looked at after the scenario: `[stage, cur, fastest, start, end]`, and grid
size, count and time of every setup. -/
def scen_view (s : pme_load_balancing) : List Int × List (Int × Nat × ℚ) :=
  ([s.stage, s.cur, s.fastest, s.start, s.end_],
    s.setup.map (fun a => (a.grid.XX, a.count, a.cycles)))

/-- The sample controller after the first five calls of the scenario: the third timed
setup, index 6, has had its warm-up sample. -/
def scen_before_sixth : pme_load_balancing :=
  match run sample_lb ((scen_calls 101).take 5) with
  | .ok s => s
  | .error _ => sample_lb

/-- What the sixth call of the scenario with cost 101 returns. -/
def scen_sixth_result : StepResult :=
  match pme_load_balance 20 scen_before_sixth scen_env 101 sample_ic none with
  | .ok r => r
  | .error _ => { pme_lb := sample_lb, ic := sample_ic, pmedata := none, ret := false }

/-- The controller `sample_stage1` in its last stage (stage 1 of 2): setup 0, sampled
three times with best time 100, is active. -/
def sample_last_stage : pme_load_balancing := { sample_stage1 with nstage := 2 }

/-- Collaborators whose domain decomposition accepts pair-list cut-offs up to 1.105
only: the cells have become smaller than they were for `dd_env`. -/
def strict_dd_env : Env :=
  { sample_env with change_dd_cutoff := fun x => decide (x ≤ 1105 / 1000) }

/-- Five calls on the sample controller with `dd_env`: setup 0 is timed at 100, the
second candidate is rejected, so the scan ends with two setups; in stage 1 setup 0 is
timed again at 100 and setup 1 gets its warm-up sample. -/
def failsafe_calls : List Call :=
  [Call.step 2 dd_env 100 sample_ic none, Call.step 2 dd_env 100 sample_ic none,
   Call.step 2 dd_env 100 sample_ic none, Call.step 2 dd_env 100 sample_ic none,
   Call.step 2 dd_env 90 sample_ic none]

/-- The sample controller after `failsafe_calls`. -/
def failsafe_before : pme_load_balancing :=
  match run sample_lb failsafe_calls with
  | .ok s => s
  | .error _ => sample_lb

/-- Setup 1 of `failsafe_before`, the active one. -/
def failsafe_set0 : pme_setup_t :=
  match getSetup failsafe_before.setup failsafe_before.cur with
  | .ok a => a
  | .error _ => sample_set0

/-- The state chosen by lines 391-505 in the next call, with cost 90 and
`strict_dd_env`: the balancing has finished on setup 1. -/
def failsafe_chosen : pme_load_balancing :=
  match select_setup 2
      { failsafe_before with
        nstage := (record_cycles failsafe_before
          { failsafe_set0 with count := failsafe_set0.count + 1 } 90).1
        setup := setSetup failsafe_before.setup failsafe_before.cur
          (record_cycles failsafe_before
            { failsafe_set0 with count := failsafe_set0.count + 1 } 90).2 }
      strict_dd_env
      (record_cycles failsafe_before { failsafe_set0 with count := failsafe_set0.count + 1 } 90).2
      90 with
  | .ok lb => lb
  | .error _ => sample_lb

/-- What is looked at after the failsafe:
`[stage, nstage, cur, fastest, start, end]`, the limit and the live constants. -/
def failsafe_view (r : StepResult) : List Int × Limit × interaction_const_t :=
  ([r.pme_lb.stage, r.pme_lb.nstage, r.pme_lb.cur, r.pme_lb.fastest, r.pme_lb.start,
    r.pme_lb.end_], r.pme_lb.elimited, r.ic)

/-- The twelve calls of `long_calls` with fuel for six rounds. -/
def term_calls : List Call :=
  [Call.step 6 free_env 100 sample_ic none, Call.step 6 free_env 100 sample_ic none,
   Call.step 6 free_env 120 sample_ic none, Call.step 6 free_env 120 sample_ic none,
   Call.step 6 free_env 100 sample_ic none, Call.step 6 free_env 100 sample_ic none,
   Call.step 6 free_env 100 sample_ic none, Call.step 6 free_env 100 sample_ic none,
   Call.step 6 free_env 100 sample_ic none, Call.step 6 free_env 100 sample_ic none,
   Call.step 6 free_env 100 sample_ic none, Call.step 6 free_env 100 sample_ic none]

/-! # Theorems -/

/-! ## Basic facts -/

theorem getSetup_ok_iff {setup : List pme_setup_t} {i : Int} {a : pme_setup_t} :
    getSetup setup i = .ok a ↔ 0 ≤ i ∧ setup[i.toNat]? = some a := by
  unfold getSetup
  by_cases h : 0 ≤ i
  · simp only [h, if_true, true_and]
    cases hx : setup[i.toNat]? <;> simp
  · simp [h]

theorem getSetup_lt {setup : List pme_setup_t} {i : Int} {a : pme_setup_t}
    (h : getSetup setup i = .ok a) : 0 ≤ i ∧ i < setup.length := by
  obtain ⟨h0, h1⟩ := getSetup_ok_iff.1 h
  refine ⟨h0, ?_⟩
  have := (List.getElem?_eq_some_iff.1 h1).1
  omega

/-- With `stage == nstage` a call returns at line 341. -/
theorem pme_load_balance_concluded (pme_lb : pme_load_balancing)
    (h : pme_lb.stage = pme_lb.nstage) (fuel : Nat) (env : Env) (cycles : ℚ)
    (ic : interaction_const_t) (pmedata : Option Nat) :
    pme_load_balance fuel pme_lb env cycles ic pmedata
      = .ok { pme_lb := pme_lb, ic := ic, pmedata := pmedata, ret := false } := by
  simp [pme_load_balance, h]

/-! ## C1 -/

/-- C1 (idempotence after conclusion): in a state with `stage == nstage` a call of
`pme_load_balance` returns FALSE and hands back the controller, the interaction
constants and the PME structure untouched; a whole sequence of step calls leaves
the controller as it is, so `cur` stays fixed. -/
theorem C1_concluded_noop (pme_lb : pme_load_balancing) (h : pme_lb.stage = pme_lb.nstage) :
    (∀ fuel env cycles ic pmedata,
      pme_load_balance fuel pme_lb env cycles ic pmedata
        = .ok { pme_lb := pme_lb, ic := ic, pmedata := pmedata, ret := false }) ∧
    (∀ calls : List Call, (∀ c ∈ calls, ∃ fuel env cycles ic pmedata,
        c = Call.step fuel env cycles ic pmedata) → run pme_lb calls = .ok pme_lb) := by
  refine ⟨pme_load_balance_concluded pme_lb h, ?_⟩
  intro calls
  induction calls with
  | nil => intro _; rfl
  | cons c cs ih =>
    intro hc
    obtain ⟨fuel, env, cycles, ic, pmedata, rfl⟩ := hc c (List.mem_cons_self _ _)
    have hcs : ∀ c ∈ cs, ∃ fuel env cycles ic pmedata,
        c = Call.step fuel env cycles ic pmedata := fun c hm => hc c (List.mem_cons_of_mem _ hm)
    simp only [run, exec, pme_load_balance_concluded pme_lb h]
    exact ih hcs

/-- A state with `stage == nstage` exists and the call is a no-op on it. -/
theorem C1_concluded_noop_witness :
    pme_load_balance 0 { sample_lb with stage := 2 } sample_env 7 sample_ic none
      = .ok { pme_lb := { sample_lb with stage := 2 }, ic := sample_ic, pmedata := none,
              ret := false } :=
  (C1_concluded_noop { sample_lb with stage := 2 } (by decide)).1 0 sample_env 7 sample_ic none

theorem getSetup_setSetup_ne (setup : List pme_setup_t) (i j : Int) (a : pme_setup_t)
    (hj : 0 ≤ j) (hij : i ≠ j) : getSetup (setSetup setup j a) i = getSetup setup i := by
  unfold getSetup setSetup
  by_cases h : 0 ≤ i
  · have hne : j.toNat ≠ i.toNat := by omega
    simp [h, List.getElem?_set_ne hne]
  · simp [h]

theorem getSetup_setSetup_self (setup : List pme_setup_t) (j : Int) (a b : pme_setup_t)
    (h : getSetup setup j = .ok b) : getSetup (setSetup setup j a) j = .ok a := by
  have hlt := getSetup_lt h
  have hl : j.toNat < setup.length := by omega
  unfold getSetup setSetup
  simp [hlt.1, List.getElem?_set_self hl]

/-! ## C2 -/

/-- C2 (warm-up sample): when balancing has not finished and `setup[cur].count` is
even, the call returns TRUE, adds one to `setup[cur].count` and changes nothing else
in the controller, the interaction constants or the PME structure, whatever
`cycles` is. -/
theorem C2_warmup_counter_only (fuel : Nat) (pme_lb : pme_load_balancing) (env : Env)
    (cycles : ℚ) (ic : interaction_const_t) (pmedata : Option Nat) (set : pme_setup_t)
    (hs : pme_lb.stage ≠ pme_lb.nstage)
    (hget : getSetup pme_lb.setup pme_lb.cur = .ok set)
    (heven : set.count % 2 = 0) :
    pme_load_balance fuel pme_lb env cycles ic pmedata
      = .ok { pme_lb := { pme_lb with
                setup := setSetup pme_lb.setup pme_lb.cur { set with count := set.count + 1 } }
              ic := ic, pmedata := pmedata, ret := true } ∧
    (setSetup pme_lb.setup pme_lb.cur { set with count := set.count + 1 }).length
      = pme_lb.setup.length ∧
    getSetup (setSetup pme_lb.setup pme_lb.cur { set with count := set.count + 1 }) pme_lb.cur
      = .ok { set with count := set.count + 1 } ∧
    ∀ i : Int, i ≠ pme_lb.cur →
      getSetup (setSetup pme_lb.setup pme_lb.cur { set with count := set.count + 1 }) i
        = getSetup pme_lb.setup i := by
  refine ⟨?_, ?_, ?_, ?_⟩
  · have hodd : (set.count + 1) % 2 = 1 := by omega
    simp [pme_load_balance, hs, hget, hodd]
  · simp [setSetup]
  · exact getSetup_setSetup_self _ _ _ _ hget
  · intro i hi
    exact getSetup_setSetup_ne _ _ _ _ (getSetup_lt hget).1 hi

/-- The first call on the sample controller is a warm-up sample. -/
theorem C2_warmup_counter_only_witness :
    pme_load_balance 0 sample_lb sample_env 7 sample_ic none
      = .ok { pme_lb := { sample_lb with
                setup := setSetup sample_lb.setup sample_lb.cur
                  { rcut := 1, rlist := 11 / 10, spacing := 1 / 10, grid := ⟨32, 32, 32⟩
                    grid_efficiency := 0, ewaldcoeff := 3, pmedata := some 0
                    count := 0 + 1, cycles := 0 } }
              ic := sample_ic, pmedata := none, ret := true } :=
  (C2_warmup_counter_only 0 sample_lb sample_env 7 sample_ic none
    { rcut := 1, rlist := 11 / 10, spacing := 1 / 10, grid := ⟨32, 32, 32⟩
      grid_efficiency := 0, ewaldcoeff := 3, pmedata := some 0, count := 0, cycles := 0 }
    (by decide) (by decide!) (by decide)).1

/-! ## Effects of the phases of a call -/

theorem increase_cutoff_search_some (env : Env) (box_start : matrix) (spacing : ℚ)
    (pme_order : Int) (fuel : Nat) (fac : ℚ) (r : ℚ × ivec)
    (h : increase_cutoff_search env box_start spacing pme_order fuel fac = .ok (some r)) :
    (1001 / 1000) * spacing < r.1 ∧
      2 * pme_order < r.2.XX ∧ 2 * pme_order < r.2.YY ∧ 2 * pme_order < r.2.ZZ := by
  induction fuel generalizing fac with
  | zero => simp [increase_cutoff_search] at h
  | succ k ih =>
    simp only [increase_cutoff_search] at h
    split at h
    · simp at h
    · rename_i hg
      split at h
      · exact ih _ h
      · rename_i hsp
        simp only [Except.ok.injEq, Option.some.injEq] at h
        subst h
        push_neg at hg hsp
        exact ⟨hsp, hg.1, hg.2.1, hg.2.2⟩

/-- What `pme_loadbal_increase_cutoff` hands back. -/
theorem increase_cutoff_spec (fuel : Nat) (s : pme_load_balancing) (env : Env) (po : Int)
    (lb : pme_load_balancing) (b : Bool)
    (h : pme_loadbal_increase_cutoff fuel s env po = .ok (lb, b)) :
    (b = false ∧ lb = s) ∨
    (b = true ∧ ∃ c s0 sp grid, getSetup s.setup s.cur = .ok c ∧ getSetup s.setup 0 = .ok s0 ∧
      (1001 / 1000) * c.spacing < sp ∧
      2 * po < grid.XX ∧ 2 * po < grid.YY ∧ 2 * po < grid.ZZ ∧
      lb = { s with setup := s.setup ++ [new_setup s env s0 sp grid] }) := by
  unfold pme_loadbal_increase_cutoff at h
  cases hc : getSetup s.setup s.cur with
  | error e => simp [hc] at h
  | ok c =>
    simp only [hc] at h
    cases hr : increase_cutoff_search env s.box_start c.spacing po fuel 1 with
    | error e => simp [hr] at h
    | ok o =>
      cases o with
      | none =>
        simp only [hr, Except.ok.injEq, Prod.mk.injEq] at h
        exact Or.inl ⟨h.2.symm, h.1.symm⟩
      | some r =>
        simp only [hr] at h
        cases h0 : getSetup s.setup 0 with
        | error e => simp [h0] at h
        | ok s0 =>
          simp only [h0, Except.ok.injEq, Prod.mk.injEq] at h
          have hs := increase_cutoff_search_some _ _ _ _ _ _ _ hr
          exact Or.inr ⟨h.2.symm, c, s0, r.1, r.2, rfl, rfl, hs.1, hs.2.1, hs.2.2.1, hs.2.2.2,
            h.1.symm⟩

theorem stage1_start_up_bounds (setup : List pme_setup_t) (fastest : Int)
    (l : List pme_setup_t) (start up : Int)
    (h : stage1_start_up setup fastest l start = .ok up) :
    start ≤ up ∧ up + 1 ≤ start + max 1 (l.length : Int) := by
  induction l generalizing start with
  | nil =>
    simp only [stage1_start_up, Except.ok.injEq] at h
    subst h; simp
  | cons a t ih =>
    cases t with
    | nil =>
      simp only [stage1_start_up, Except.ok.injEq] at h
      subst h; simp
    | cons b rest =>
      have hlen : ((a :: b :: rest).length : Int) = ((b :: rest).length : Int) + 1 := by
        simp
      have hpos : (1 : Int) ≤ ((b :: rest).length : Int) := by
        simp only [List.length_cons]; push_cast; omega
      rw [hlen]
      simp only [stage1_start_up] at h
      split at h
      · have := ih _ h
        rw [max_eq_right hpos] at this
        rw [max_eq_right (by omega)]
        omega
      · cases hf : getSetup setup fastest with
        | error e => simp [hf] at h
        | ok f =>
          simp only [hf] at h
          split at h
          · have := ih _ h
            rw [max_eq_right hpos] at this
            rw [max_eq_right (by omega)]
            omega
          · simp only [Except.ok.injEq] at h
            subst h
            rw [max_eq_right (by omega)]
            omega

theorem stage1_start_down_bounds (setup : List pme_setup_t) (k : Nat) (start : Int)
    (h : stage1_start_down setup k = .ok start) : 0 ≤ start ∧ start ≤ k := by
  induction k with
  | zero =>
    simp only [stage1_start_down, Except.ok.injEq] at h
    subst h; simp
  | succ k ih =>
    simp only [stage1_start_down] at h
    cases hp : getSetup setup (k : Int) with
    | error e => simp [hp] at h
    | ok p =>
      simp only [hp] at h
      split at h
      · have := ih h
        push_cast
        omega
      · simp only [Except.ok.injEq] at h
        subst h
        push_cast
        omega

/-- What `end` becomes in `switch_to_stage1`. -/
theorem stage1_end_spec (s : pme_load_balancing) (e : Int) (h : stage1_end s = .ok e) :
    ∃ last, getSetup s.setup (s.n - 1) = .ok last ∧
      (e = s.n ∨ (e = s.n - 1 ∧ 0 < last.count ∧ ∃ f, getSetup s.setup s.fastest = .ok f ∧
        last.cycles > f.cycles * PME_LB_SLOW_FAC)) := by
  unfold stage1_end at h
  cases hl : getSetup s.setup (s.n - 1) with
  | error e => simp [hl] at h
  | ok last =>
    refine ⟨last, rfl, ?_⟩
    simp only [hl] at h
    split at h
    · rename_i hc
      cases hf : getSetup s.setup s.fastest with
      | error e => simp [hf] at h
      | ok f =>
        simp only [hf] at h
        split at h
        · rename_i hslow
          simp only [Except.ok.injEq] at h
          exact Or.inr ⟨h.symm, hc, f, rfl, hslow⟩
        · simp only [Except.ok.injEq] at h
          exact Or.inl h.symm
    · simp only [Except.ok.injEq] at h
      exact Or.inl h.symm

/-- What `switch_to_stage1` hands back. -/
theorem switch_to_stage1_spec (s s' : pme_load_balancing) (h : switch_to_stage1 s = .ok s') :
    ∃ start e, s' = { s with start := start, end_ := e, stage := 1, cur := start - 1 } ∧
      0 ≤ start ∧ start + 1 ≤ max 1 s.n ∧ stage1_end s = .ok e := by
  unfold switch_to_stage1 at h
  cases hu : stage1_start_up s.setup s.fastest s.setup 0 with
  | error e => simp [hu] at h
  | ok up =>
    simp only [hu] at h
    cases hd : stage1_start_down s.setup up.toNat with
    | error e => simp [hd] at h
    | ok start =>
      simp only [hd] at h
      cases he : stage1_end s with
      | error e => simp [he] at h
      | ok e =>
        simp only [he, Except.ok.injEq] at h
        have h1 := stage1_start_up_bounds _ _ _ _ _ hu
        have h2 := stage1_start_down_bounds _ _ _ hd
        refine ⟨start, e, h.symm, h2.1, ?_, rfl⟩
        have : ((up.toNat : Nat) : Int) = up := Int.toNat_of_nonneg h1.1
        unfold pme_load_balancing.n
        omega

theorem update_fastest_spec (s s' : pme_load_balancing) (set : pme_setup_t)
    (h : update_fastest s set = .ok s') :
    ∃ f, getSetup s.setup s.fastest = .ok f ∧
      ((set.cycles < f.cycles ∧ s' = { s with fastest := s.cur }) ∨
       (¬ set.cycles < f.cycles ∧ s' = s)) := by
  unfold update_fastest at h
  cases hf : getSetup s.setup s.fastest with
  | error e => simp [hf] at h
  | ok f =>
    refine ⟨f, rfl, ?_⟩
    simp only [hf] at h
    split at h
    · rename_i hlt
      simp only [Except.ok.injEq] at h
      exact Or.inl ⟨hlt, h.symm⟩
    · rename_i hlt
      simp only [Except.ok.injEq] at h
      exact Or.inr ⟨hlt, h.symm⟩

theorem scan_exit_check_spec (s s' : pme_load_balancing) (cycles : ℚ)
    (h : scan_exit_check s cycles = .ok s') :
    s' = s ∨
    (s.stage = 0 ∧ 0 < s.cur ∧
      (∃ f, getSetup s.setup s.fastest = .ok f ∧ cycles > f.cycles * PME_LB_SLOW_FAC) ∧
      switch_to_stage1 { s with setup := s.setup.take (s.cur + 1).toNat } = .ok s') := by
  unfold scan_exit_check at h
  split at h
  · rename_i hc
    cases hf : getSetup s.setup s.fastest with
    | error e => simp [hf] at h
    | ok f =>
      simp only [hf] at h
      split at h
      · rename_i hslow
        exact Or.inr ⟨hc.1, hc.2, ⟨f, rfl, hslow⟩, h⟩
      · simp only [Except.ok.injEq] at h
        exact Or.inl h.symm
  · simp only [Except.ok.injEq] at h
    exact Or.inl h.symm

theorem genChain_trans {s : pme_load_balancing} {env : Env} {l1 l2 l3 : List pme_setup_t}
    (h12 : GenChain s env l1 l2) (h23 : GenChain s env l2 l3) : GenChain s env l1 l3 := by
  induction h23 with
  | nil => exact h12
  | snoc l' set _ hg ih => exact GenChain.snoc _ _ _ ih hg

theorem genChain_length_le {s : pme_load_balancing} {env : Env} {l1 l2 : List pme_setup_t}
    (h : GenChain s env l1 l2) : l1.length ≤ l2.length := by
  induction h with
  | nil => exact le_refl _
  | snoc l' set _ _ ih => simp; omega

theorem genChain_take_eq {s : pme_load_balancing} {env : Env} {l1 l2 : List pme_setup_t}
    (h : GenChain s env l1 l2) : l2.take l1.length = l1 := by
  induction h with
  | nil => simp
  | snoc l' set hc _ ih =>
    rw [List.take_append_of_le_length (genChain_length_le hc)]
    exact ih

theorem getLast?_of_getSetup {l : List pme_setup_t} {i : Int} {c : pme_setup_t}
    (h : getSetup l i = .ok c) (hi : i + 1 = l.length) : l.getLast? = some c := by
  obtain ⟨h0, h1⟩ := getSetup_ok_iff.1 h
  rw [List.getLast?_eq_getElem?]
  have : l.length - 1 = i.toNat := by omega
  rw [this]; exact h1

/-- What one round of the scan loop hands back. -/
theorem scan_body_spec (fuel : Nat) (s : pme_load_balancing) (env : Env)
    (lb : pme_load_balancing) (b : Bool) (h : scan_body fuel s env = .ok (lb, b)) :
    (b = true ∧ ∃ l1, (l1 = s.setup ∨ ∃ set, Generated s env s.setup set ∧ l1 = s.setup ++ [set]) ∧
      lb = { s with setup := l1, cur := s.cur + 1 }) ∨
    (b = false ∧ ∃ lim, (lim = s.elimited ∨ lim = Limit.epmelblimBOX ∨ lim = Limit.epmelblimDD) ∧
      switch_to_stage1 { s with setup := s.setup.take (s.cur + 1).toNat, elimited := lim }
        = .ok lb) := by
  unfold scan_body at h
  cases h1 : scan_next_setup fuel s env with
  | error e => simp [h1] at h
  | ok p1 =>
    obtain ⟨lb1, ok1⟩ := p1
    simp only [h1] at h
    -- the effect of the first part
    have e1 : ∃ l1, (l1 = s.setup ∨ (s.cur + 1 = s.n ∧ ok1 = true ∧
        ∃ set, Generated s env s.setup set ∧ l1 = s.setup ++ [set])) ∧
        lb1 = { s with setup := l1 } := by
      unfold scan_next_setup at h1
      split at h1
      · simp only [Except.ok.injEq, Prod.mk.injEq] at h1
        exact ⟨s.setup, Or.inl rfl, h1.1.symm⟩
      · rename_i hn
        rcases increase_cutoff_spec _ _ _ _ _ _ h1 with ⟨_, hlb⟩ | ⟨hb, c, s0, sp, grid, hc, h0, hsp, hx, hy, hz, hlb⟩
        · exact ⟨s.setup, Or.inl rfl, hlb⟩
        · have hlt := getSetup_lt hc
          have hcur : s.cur + 1 = s.n := by unfold pme_load_balancing.n at hn ⊢; omega
          refine ⟨_, Or.inr ⟨hcur, hb, _, ⟨c, s0, sp, grid, ?_, ?_, hsp, hx, hy, hz, rfl⟩, rfl⟩, hlb⟩
          · exact getLast?_of_getSetup hc (by unfold pme_load_balancing.n at hcur; exact hcur)
          · have := (getSetup_ok_iff.1 h0).2
            simpa using this
    obtain ⟨l1, hl1, rfl⟩ := e1
    have htake : l1.take (s.cur + 1).toNat = s.setup.take (s.cur + 1).toNat := by
      rcases hl1 with rfl | ⟨hcur, _, set, _, rfl⟩
      · rfl
      · have : (s.cur + 1).toNat = s.setup.length := by
          unfold pme_load_balancing.n at hcur; omega
        rw [this]; simp
    have hl1' : l1 = s.setup ∨ ∃ set, Generated s env s.setup set ∧ l1 = s.setup ++ [set] := by
      rcases hl1 with h | ⟨_, _, h⟩
      · exact Or.inl h
      · exact Or.inr h
    cases h2 : scan_box_check { s with setup := l1 } env ok1 with
    | error e => simp [h2] at h
    | ok p2 =>
      obtain ⟨lb2, ok2⟩ := p2
      simp only [h2] at h
      have e2 : ∃ lim, (lim = s.elimited ∨ lim = Limit.epmelblimBOX) ∧
          lb2 = { s with setup := l1, elimited := lim } := by
        unfold scan_box_check at h2
        split at h2
        · cases hc : getSetup l1 (s.cur + 1) with
          | error e => simp [hc] at h2
          | ok c =>
            simp only [hc] at h2
            split at h2
            · simp only [Except.ok.injEq, Prod.mk.injEq] at h2
              exact ⟨s.elimited, Or.inl rfl, h2.1.symm⟩
            · simp only [Except.ok.injEq, Prod.mk.injEq] at h2
              exact ⟨Limit.epmelblimBOX, Or.inr rfl, h2.1.symm⟩
        · simp only [Except.ok.injEq, Prod.mk.injEq] at h2
          exact ⟨s.elimited, Or.inl rfl, h2.1.symm⟩
      have e2' : ok2 = true → lb2 = { s with setup := l1 } := by
        intro hok
        unfold scan_box_check at h2
        split at h2
        · cases hc : getSetup l1 (s.cur + 1) with
          | error e => simp [hc] at h2
          | ok c =>
            simp only [hc] at h2
            split at h2
            · simp only [Except.ok.injEq, Prod.mk.injEq] at h2
              exact h2.1.symm
            · simp only [Except.ok.injEq, Prod.mk.injEq] at h2
              rw [hok] at h2; simp at h2
        · simp only [Except.ok.injEq, Prod.mk.injEq] at h2
          exact h2.1.symm
      obtain ⟨lim2, hlim2, rfl⟩ := e2
      cases h3 : scan_dd_check { s with setup := l1, elimited := lim2 } env ok2 with
      | error e => simp [h3] at h
      | ok p3 =>
        obtain ⟨lb3, ok3⟩ := p3
        simp only [h3] at h
        have e3 : (ok3 = true ∧ ok2 = true ∧
              lb3 = { s with setup := l1, elimited := lim2, cur := s.cur + 1 }) ∨
            (ok3 = false ∧ ∃ lim, (lim = lim2 ∨ lim = Limit.epmelblimDD) ∧
              lb3 = { s with setup := l1, elimited := lim }) := by
          unfold scan_dd_check at h3
          split at h3
          · rename_i hok2
            split at h3
            · cases hc : getSetup l1 (s.cur + 1) with
              | error e => simp [hc] at h3
              | ok c =>
                simp only [hc] at h3
                split at h3
                · simp only [Except.ok.injEq, Prod.mk.injEq] at h3
                  exact Or.inl ⟨h3.2.symm, hok2, h3.1.symm⟩
                · simp only [Except.ok.injEq, Prod.mk.injEq] at h3
                  refine Or.inr ⟨h3.2.symm, Limit.epmelblimDD, Or.inr rfl, ?_⟩
                  rw [← h3.1]
                  simp
            · simp only [Except.ok.injEq, Prod.mk.injEq] at h3
              exact Or.inl ⟨h3.2.symm, hok2, h3.1.symm⟩
          · simp only [Except.ok.injEq, Prod.mk.injEq] at h3
            exact Or.inr ⟨h3.2.symm, lim2, Or.inl rfl, h3.1.symm⟩
        rcases e3 with ⟨rfl, hok2, rfl⟩ | ⟨rfl, lim, hlim, rfl⟩
        · simp only [scan_limit, if_true, Except.ok.injEq, Prod.mk.injEq] at h
          refine Or.inl ⟨h.2.symm, l1, hl1', ?_⟩
          have := e2' hok2
          rw [← h.1]
          simp only [pme_load_balancing.mk.injEq] at this ⊢
          simp [this.2.2.2.2.2.2.2.2.2.1]
        · simp only [scan_limit, Bool.false_eq_true, if_false] at h
          cases hp : print_loadbal_limited
              { s with setup := List.take (s.cur + 1).toNat l1, elimited := lim } with
          | error e => simp [hp] at h
          | ok u =>
            simp only [hp] at h
            cases hsw : switch_to_stage1
                { s with setup := List.take (s.cur + 1).toNat l1, elimited := lim } with
            | error e => simp [hsw] at h
            | ok lb' =>
              simp only [hsw, Except.ok.injEq, Prod.mk.injEq] at h
              refine Or.inr ⟨h.2.symm, lim, ?_, ?_⟩
              · rcases hlim with rfl | rfl
                · rcases hlim2 with h | h
                  · exact Or.inl h
                  · exact Or.inr (Or.inl h)
                · exact Or.inr (Or.inr rfl)
              · rw [← htake, ← h.1]; exact hsw

theorem generated_congr {s t : pme_load_balancing} {env : Env} {l : List pme_setup_t}
    {set : pme_setup_t} (h : Generated t env l set) (hc : t.cut_spacing = s.cut_spacing)
    (hr : t.rbuf = s.rbuf) (hb : t.box_start = s.box_start) : Generated s env l set := by
  obtain ⟨c, s0, sp, grid, h1, h2, h3, h4, h5, h6, h7⟩ := h
  refine ⟨c, s0, sp, grid, h1, h2, h3, h4, h5, h6, ?_⟩
  rw [h7]; simp [new_setup, hc, hr, hb]

theorem genChain_congr {s t : pme_load_balancing} {env : Env} {l l' : List pme_setup_t}
    (h : GenChain t env l l') (hc : t.cut_spacing = s.cut_spacing) (hr : t.rbuf = s.rbuf)
    (hb : t.box_start = s.box_start) : GenChain s env l l' := by
  induction h with
  | nil => exact GenChain.nil _
  | snoc l' set _ hg ih => exact GenChain.snoc _ _ _ ih (generated_congr hg hc hr hb)

/-- What the scan loop hands back: entries were appended, and then either the loop
stopped at a setup `m >= 1` places further, or the list was cut after a setup `m`
places further and stage 1 was entered. -/
theorem scan_advance_spec (fuel : Nat) (env : Env) (gs : Int) (k : Nat)
    (s s' : pme_load_balancing) (h : scan_advance fuel env gs k s = .ok s') :
    ∃ (l1 : List pme_setup_t) (m : Nat), GenChain s env s.setup l1 ∧
      ((1 ≤ m ∧ s' = { s with setup := l1, cur := s.cur + m }) ∨
       (∃ lim, (lim = s.elimited ∨ lim = Limit.epmelblimBOX ∨ lim = Limit.epmelblimDD) ∧
          switch_to_stage1 { s with setup := l1.take (s.cur + m + 1).toNat, cur := s.cur + m,
                                    elimited := lim } = .ok s')) := by
  induction k generalizing s with
  | zero => simp [scan_advance] at h
  | succ k ih =>
    simp only [scan_advance] at h
    cases hb : scan_body fuel s env with
    | error e => simp [hb] at h
    | ok p =>
      obtain ⟨lb, b⟩ := p
      rcases scan_body_spec _ _ _ _ _ hb with ⟨rfl, l1, hl1, rfl⟩ | ⟨rfl, lim, hlim, hsw⟩
      · have hch : GenChain s env s.setup l1 := by
          rcases hl1 with rfl | ⟨set, hg, rfl⟩
          · exact GenChain.nil _
          · exact GenChain.snoc _ _ _ (GenChain.nil _) hg
        simp only [hb] at h
        cases hc : scan_continue { s with setup := l1, cur := s.cur + 1 } gs with
        | error e => simp [hc] at h
        | ok c =>
          cases c with
          | false =>
            simp only [hc, Except.ok.injEq] at h
            exact ⟨l1, 1, hch, Or.inl ⟨le_refl _, by rw [← h]; simp⟩⟩
          | true =>
            simp only [hc] at h
            obtain ⟨l2, m, hch2, hres⟩ := ih _ h
            have hch2' : GenChain s env l1 l2 := genChain_congr hch2 rfl rfl rfl
            refine ⟨l2, m + 1, genChain_trans hch hch2', ?_⟩
            rcases hres with ⟨hm, rfl⟩ | ⟨lim, hlim, hsw⟩
            · refine Or.inl ⟨by omega, ?_⟩
              simp only [pme_load_balancing.mk.injEq, true_and, and_true]
              push_cast; ring
            · refine Or.inr ⟨lim, hlim, ?_⟩
              have e1 : s.cur + 1 + (m : Int) = s.cur + ((m + 1 : Nat) : Int) := by
                push_cast; ring
              simp only at hsw
              rw [e1] at hsw
              exact hsw
      · simp only [hb, Except.ok.injEq] at h
        subst h
        refine ⟨s.setup, 0, GenChain.nil _, Or.inr ⟨lim, hlim, ?_⟩⟩
        simp only [Nat.cast_zero, add_zero]
        exact hsw

theorem scan_stage_spec (fuel : Nat) (s s' : pme_load_balancing) (env : Env)
    (set : pme_setup_t) (h : scan_stage fuel s env set = .ok s') :
    (s.stage ≠ 0 ∧ s' = s) ∨
    (s.stage = 0 ∧ scan_advance fuel env (pme_grid_points set) fuel s = .ok s') := by
  unfold scan_stage at h
  split at h
  · rename_i h0; exact Or.inr ⟨h0, h⟩
  · rename_i h0
    simp only [Except.ok.injEq] at h
    exact Or.inl ⟨h0, h.symm⟩

/-- The loop of the later stages only moves `cur` and `stage`. -/
theorem refine_loop_frame (cf : ℚ) (k : Nat) (s s' : pme_load_balancing)
    (h : refine_loop cf k s = .ok s') :
    s' = { s with cur := s'.cur, stage := s'.stage } ∧ s.stage ≤ s'.stage := by
  induction k generalizing s with
  | zero => simp [refine_loop] at h
  | succ k ih =>
    simp only [refine_loop] at h
    split at h
    · rename_i hw
      split at h
      · rename_i hst
        simp at hst
        split at h
        · simp at h
        · rename_i c hc
          split at h
          · obtain ⟨h1, h2⟩ := ih _ h
            simp only at h1 h2
            refine ⟨?_, by omega⟩
            rw [h1]
          · simp only [Except.ok.injEq] at h
            subst h
            simp
      · simp only [Except.ok.injEq] at h
        subst h
        simp
    · rename_i hw
      split at h
      · split at h
        · simp at h
        · split at h
          · obtain ⟨h1, h2⟩ := ih _ h
            simp only at h1 h2
            refine ⟨?_, by omega⟩
            rw [h1]
          · simp only [Except.ok.injEq] at h
            subst h
            simp
      · simp only [Except.ok.injEq] at h
        subst h
        simp

/-- In the last stage the loop either stays in the stage and stops at a later setup
before `end`, or it wraps and the balancing has finished. -/
theorem refine_loop_last_stage (cf : ℚ) (k : Nat) (s s' : pme_load_balancing)
    (h : refine_loop cf k s = .ok s') (hst : s.stage = s.nstage - 1) :
    (s'.stage = s.stage ∧ s.cur < s'.cur ∧ (s.cur < s.end_ → s'.cur < s.end_)) ∨
    s'.stage = s.nstage := by
  induction k generalizing s with
  | zero => simp [refine_loop] at h
  | succ k ih =>
    simp only [refine_loop] at h
    by_cases hw : s.cur + 1 = s.end_
    · have hne : ¬ (s.stage + 1 = s.nstage - 1) := by omega
      simp only [hw, if_true, hne, if_false, Except.ok.injEq] at h
      subst h
      right; simp only; omega
    · simp only [hw, if_false] at h
      rw [if_pos hst] at h
      cases hg : getSetup s.setup (s.cur + 1) with
      | error e => simp [hg] at h
      | ok c =>
        simp only [hg] at h
        split at h
        · rcases ih _ h hst with ⟨h1, h2, h3⟩ | h1
          · simp only at h1 h2 h3
            left
            refine ⟨h1, by omega, ?_⟩
            intro hlt
            exact h3 (by omega)
          · right; exact h1
        · simp only [Except.ok.injEq] at h
          subst h
          left
          simp only [true_and]
          refine ⟨by omega, ?_⟩
          intro hlt
          omega

theorem refine_stage_spec (fuel : Nat) (s s' : pme_load_balancing) (cf : ℚ)
    (h : refine_stage fuel s cf = .ok s') :
    (0 < s.stage ∧ s.end_ = 1 ∧ s' = { s with cur := 0, stage := s.nstage }) ∨
    (0 < s.stage ∧ 1 < s.end_ ∧ ∃ lb, refine_loop cf fuel s = .ok lb ∧
      ((lb.stage = lb.nstage ∧ s' = { lb with cur := lb.fastest }) ∨
       (lb.stage ≠ lb.nstage ∧ s' = lb))) ∨
    (¬ (0 < s.stage ∧ 1 ≤ s.end_) ∧ s' = s) := by
  unfold refine_stage at h
  split at h
  · rename_i hc
    simp only [Except.ok.injEq] at h
    exact Or.inl ⟨hc.1, hc.2, h.symm⟩
  · rename_i hc
    split at h
    · rename_i hc2
      cases hl : refine_loop cf fuel s with
      | error e => simp [hl] at h
      | ok lb =>
        simp only [hl] at h
        refine Or.inr (Or.inl ⟨hc2.1, hc2.2, lb, rfl, ?_⟩)
        split at h
        · rename_i hst
          simp only [Except.ok.injEq] at h
          exact Or.inl ⟨hst, h.symm⟩
        · rename_i hst
          simp only [Except.ok.injEq] at h
          exact Or.inr ⟨hst, h.symm⟩
    · rename_i hc2
      simp only [Except.ok.injEq] at h
      refine Or.inr (Or.inr ⟨?_, h.symm⟩)
      intro ⟨h1, h2⟩
      rcases lt_or_eq_of_le h2 with h3 | h3
      · exact hc2 ⟨h1, h3⟩
      · exact hc ⟨h1, h3.symm⟩

theorem dd_reassert_spec (s s' : pme_load_balancing) (env : Env)
    (h : dd_reassert s env = .ok s') :
    s' = s ∨
    (env.domaindecomp = true ∧ 0 < s.stage ∧
      (∃ c, getSetup s.setup s.cur = .ok c ∧ env.change_dd_cutoff c.rlist = false) ∧
      s' = dd_failsafe s) := by
  unfold dd_reassert at h
  split at h
  · rename_i hc
    cases hg : getSetup s.setup s.cur with
    | error e => simp [hg] at h
    | ok c =>
      simp only [hg] at h
      split at h
      · simp only [Except.ok.injEq] at h
        exact Or.inl h.symm
      · rename_i hdd
        cases hp : print_loadbal_limited (dd_failsafe s) with
        | error e => simp [hp] at h
        | ok u =>
          simp only [hp, Except.ok.injEq] at h
          refine Or.inr ⟨hc.1, hc.2, ⟨c, rfl, ?_⟩, h.symm⟩
          simpa using hdd
  · simp only [Except.ok.injEq] at h
    exact Or.inl h.symm

theorem apply_setup_spec (s : pme_load_balancing) (env : Env) (pmedata : Option Nat)
    (r : StepResult) (h : apply_setup s env pmedata = .ok r) :
    r.ret = true ∧ ∃ set, getSetup s.setup s.cur = .ok set ∧
      r.ic = { rcoulomb := set.rcut, rlist := set.rlist, ewaldcoeff := set.ewaldcoeff } ∧
      (r.pme_lb = s ∨
       ∃ hnd, set.pmedata = none ∧
         r.pme_lb = { s with setup := setSetup s.setup s.cur { set with pmedata := some hnd } }) := by
  unfold apply_setup at h
  cases hg : getSetup s.setup s.cur with
  | error e => simp [hg] at h
  | ok set =>
    simp only [hg] at h
    split at h
    · split at h
      · simp only [Except.ok.injEq] at h
        subst h
        exact ⟨rfl, set, rfl, rfl, Or.inl rfl⟩
      · rename_i hnone
        cases h0 : getSetup s.setup 0 with
        | error e => simp [h0] at h
        | ok s0 =>
          simp only [h0, Except.ok.injEq] at h
          subst h
          exact ⟨rfl, set, rfl, rfl, Or.inr ⟨_, hnone, rfl⟩⟩
    · simp only [Except.ok.injEq] at h
      subst h
      exact ⟨rfl, set, rfl, rfl, Or.inl rfl⟩

/-- The three ways a call of `pme_load_balance` can go. -/
theorem pme_load_balance_cases (fuel : Nat) (s : pme_load_balancing) (env : Env) (cycles : ℚ)
    (ic : interaction_const_t) (pmedata : Option Nat) (r : StepResult)
    (h : pme_load_balance fuel s env cycles ic pmedata = .ok r) :
    (s.stage = s.nstage ∧ r = { pme_lb := s, ic := ic, pmedata := pmedata, ret := false }) ∨
    (s.stage ≠ s.nstage ∧ ∃ set0, getSetup s.setup s.cur = .ok set0 ∧
      ((set0.count % 2 = 0 ∧
        r = { pme_lb := { s with
                setup := setSetup s.setup s.cur { set0 with count := set0.count + 1 } }
              ic := ic, pmedata := pmedata, ret := true }) ∨
       (set0.count % 2 = 1 ∧
        balance_timed fuel
          { s with
            nstage := (record_cycles s { set0 with count := set0.count + 1 } cycles).1
            setup := setSetup s.setup s.cur
              (record_cycles s { set0 with count := set0.count + 1 } cycles).2 }
          env (record_cycles s { set0 with count := set0.count + 1 } cycles).2 cycles pmedata
          = .ok r))) := by
  unfold pme_load_balance at h
  split at h
  · rename_i hc
    simp only [Except.ok.injEq] at h
    exact Or.inl ⟨hc, h.symm⟩
  · rename_i hc
    refine Or.inr ⟨hc, ?_⟩
    cases hg : getSetup s.setup s.cur with
    | error e => simp [hg] at h
    | ok set0 =>
      refine ⟨set0, rfl, ?_⟩
      simp only [hg] at h
      split at h
      · rename_i hodd
        simp only [Except.ok.injEq] at h
        exact Or.inl ⟨by omega, h.symm⟩
      · rename_i hodd
        exact Or.inr ⟨by omega, h⟩

/-- The phases of the timed part of a call, one after the other. -/
theorem balance_timed_phases (fuel : Nat) (s : pme_load_balancing) (env : Env)
    (set : pme_setup_t) (cycles : ℚ) (pmedata : Option Nat) (r : StepResult)
    (h : balance_timed fuel s env set cycles pmedata = .ok r) :
    ∃ lb1 f lb2 lb3 lb4 lb5, update_fastest s set = .ok lb1 ∧
      getSetup lb1.setup lb1.fastest = .ok f ∧ scan_exit_check lb1 cycles = .ok lb2 ∧
      scan_stage fuel lb2 env set = .ok lb3 ∧ refine_stage fuel lb3 f.cycles = .ok lb4 ∧
      select_setup fuel s env set cycles = .ok lb4 ∧
      dd_reassert lb4 env = .ok lb5 ∧ apply_setup lb5 env pmedata = .ok r := by
  unfold balance_timed at h
  cases h4 : select_setup fuel s env set cycles with
  | error e => simp [h4] at h
  | ok lb4 =>
    simp only [h4] at h
    cases h5 : dd_reassert lb4 env with
    | error e => simp [h5] at h
    | ok lb5 =>
      simp only [h5] at h
      have h4' := h4
      unfold select_setup at h4
      cases h1 : update_fastest s set with
      | error e => simp [h1] at h4
      | ok lb1 =>
        simp only [h1] at h4
        cases hf : getSetup lb1.setup lb1.fastest with
        | error e => simp [hf] at h4
        | ok f =>
          simp only [hf] at h4
          cases h2 : scan_exit_check lb1 cycles with
          | error e => simp [h2] at h4
          | ok lb2 =>
            simp only [h2] at h4
            cases h3 : scan_stage fuel lb2 env set with
            | error e => simp [h3] at h4
            | ok lb3 =>
              simp only [h3] at h4
              exact ⟨lb1, f, lb2, lb3, lb4, lb5, rfl, hf, h2, h3, h4, rfl, h5, h⟩

theorem switch_to_stage1_setup (s s' : pme_load_balancing) (h : switch_to_stage1 s = .ok s') :
    s'.setup = s.setup ∧ s'.cut_spacing = s.cut_spacing ∧ s'.rbuf = s.rbuf ∧
      s'.box_start = s.box_start ∧ s'.fastest = s.fastest ∧ s'.nstage = s.nstage ∧
      s'.elimited = s.elimited ∧ s'.stage = 1 ∧ s'.cur = s'.start - 1 := by
  obtain ⟨start, e, rfl, _⟩ := switch_to_stage1_spec _ _ h
  simp

/-- The setup list after lines 391-505. -/
theorem select_setup_catalog (fuel : Nat) (s s' : pme_load_balancing) (env : Env)
    (set : pme_setup_t) (cycles : ℚ) (h : select_setup fuel s env set cycles = .ok s')
    (hcur : 0 ≤ s.cur) :
    (∃ (l1 : List pme_setup_t) (k : Nat), GenChain s env s.setup l1 ∧ 1 ≤ k ∧
      s'.setup = l1.take k) ∧
    s'.cut_spacing = s.cut_spacing ∧ s'.rbuf = s.rbuf ∧ s'.box_start = s.box_start := by
  unfold select_setup at h
  cases h1 : update_fastest s set with
  | error e => simp [h1] at h
  | ok lb1 =>
    simp only [h1] at h
    cases hf : getSetup lb1.setup lb1.fastest with
    | error e => simp [hf] at h
    | ok f =>
      simp only [hf] at h
      cases h2 : scan_exit_check lb1 cycles with
      | error e => simp [h2] at h
      | ok lb2 =>
        simp only [h2] at h
        cases h3 : scan_stage fuel lb2 env set with
        | error e => simp [h3] at h
        | ok lb3 =>
          simp only [h3] at h
          -- the later stages keep the list
          have e4 : s'.setup = lb3.setup ∧ s'.cut_spacing = lb3.cut_spacing ∧
              s'.rbuf = lb3.rbuf ∧ s'.box_start = lb3.box_start := by
            rcases refine_stage_spec _ _ _ _ h with ⟨_, _, rfl⟩ | ⟨_, _, lb, hl, hr⟩ | ⟨_, rfl⟩
            · simp
            · have hfr := (refine_loop_frame _ _ _ _ hl).1
              rcases hr with ⟨_, rfl⟩ | ⟨_, rfl⟩
              · rw [hfr]; simp
              · rw [hfr]; simp
            · simp
          have e1 : lb1.setup = s.setup ∧ lb1.cut_spacing = s.cut_spacing ∧ lb1.rbuf = s.rbuf ∧
              lb1.box_start = s.box_start ∧ lb1.cur = s.cur := by
            obtain ⟨_, _, hh⟩ := update_fastest_spec _ _ _ h1
            rcases hh with ⟨_, rfl⟩ | ⟨_, rfl⟩ <;> simp
          rcases scan_exit_check_spec _ _ _ h2 with rfl | ⟨hst, hc, _, hsw⟩
          · rcases scan_stage_spec _ _ _ _ _ h3 with ⟨_, rfl⟩ | ⟨_, hadv⟩
            · refine ⟨⟨s.setup, s.setup.length + 1, GenChain.nil _, by omega, ?_⟩, ?_⟩
              · rw [e4.1, e1.1]; simp
              · rw [e4.2.1, e4.2.2.1, e4.2.2.2]; exact ⟨e1.2.1, e1.2.2.1, e1.2.2.2.1⟩
            · obtain ⟨l1, m, hch, hres⟩ := scan_advance_spec _ _ _ _ _ _ hadv
              have hch' : GenChain s env s.setup l1 := by
                have := @genChain_congr s _ _ _ _ hch e1.2.1 e1.2.2.1 e1.2.2.2.1
                rw [e1.1] at this; exact this
              rcases hres with ⟨hm, rfl⟩ | ⟨lim, _, hsw⟩
              · refine ⟨⟨l1, l1.length + 1, hch', by omega, ?_⟩, ?_⟩
                · rw [e4.1]; simp
                · rw [e4.2.1, e4.2.2.1, e4.2.2.2]; exact ⟨e1.2.1, e1.2.2.1, e1.2.2.2.1⟩
              · have hs := switch_to_stage1_setup _ _ hsw
                simp only at hs
                refine ⟨⟨l1, (lb2.cur + m + 1).toNat, hch', ?_, ?_⟩, ?_⟩
                · rw [e1.2.2.2.2]; omega
                · rw [e4.1, hs.1]
                · rw [e4.2.1, e4.2.2.1, e4.2.2.2, hs.2.1, hs.2.2.1, hs.2.2.2.1]
                  exact ⟨e1.2.1, e1.2.2.1, e1.2.2.2.1⟩
          · have hs := switch_to_stage1_setup _ _ hsw
            simp only at hs
            have h3' : lb3 = lb2 := by
              rcases scan_stage_spec _ _ _ _ _ h3 with ⟨_, h⟩ | ⟨h0, _⟩
              · exact h
              · rw [hs.2.2.2.2.2.2.2.1] at h0; omega
            subst h3'
            refine ⟨⟨s.setup, (lb1.cur + 1).toNat, GenChain.nil _, ?_, ?_⟩, ?_⟩
            · omega
            · rw [e4.1, hs.1, e1.1]
            · rw [e4.2.1, e4.2.2.1, e4.2.2.2, hs.2.1, hs.2.2.1, hs.2.2.2.1]
              exact ⟨e1.2.1, e1.2.2.1, e1.2.2.2.1⟩

theorem dd_reassert_setup (s s' : pme_load_balancing) (env : Env)
    (h : dd_reassert s env = .ok s') :
    s'.setup = s.setup ∧ s'.cut_spacing = s.cut_spacing ∧ s'.rbuf = s.rbuf ∧
      s'.box_start = s.box_start ∧ s'.nstage = s.nstage := by
  rcases dd_reassert_spec _ _ _ h with rfl | ⟨_, _, _, rfl⟩
  · simp
  · simp [dd_failsafe]

/-- The setup list after the timed part of a call. -/
theorem balance_timed_catalog (fuel : Nat) (s : pme_load_balancing) (env : Env)
    (set : pme_setup_t) (cycles : ℚ) (pmedata : Option Nat) (r : StepResult)
    (h : balance_timed fuel s env set cycles pmedata = .ok r) (hcur : 0 ≤ s.cur) :
    CatalogEffect s env s.setup r.pme_lb.setup ∧
    r.pme_lb.cut_spacing = s.cut_spacing ∧ r.pme_lb.rbuf = s.rbuf ∧
    r.pme_lb.box_start = s.box_start := by
  obtain ⟨lb1, f, lb2, lb3, lb4, lb5, _, _, _, _, _, h4, h5, h6⟩ :=
    balance_timed_phases _ _ _ _ _ _ _ h
  obtain ⟨⟨l1, k, hch, hk, hl⟩, hc, hr, hb⟩ := select_setup_catalog _ _ _ _ _ _ h4 hcur
  have e5 := dd_reassert_setup _ _ _ h5
  obtain ⟨_, a, ha, _, hres⟩ := apply_setup_spec _ _ _ _ h6
  rcases hres with hres | ⟨hnd, hnone, hres⟩
  · rw [hres]
    refine ⟨⟨l1, k, hch, hk, Or.inl ?_⟩, ?_⟩
    · rw [e5.1, hl]
    · rw [e5.2.1, e5.2.2.1, e5.2.2.2.1]; exact ⟨hc, hr, hb⟩
  · rw [hres]
    refine ⟨⟨l1, k, hch, hk, Or.inr ⟨lb5.cur, a, hnd, ?_, hnone, ?_⟩⟩, ?_⟩
    · rw [← hl, ← e5.1]; exact ha
    · simp only; rw [e5.1, hl]
    · simp only; rw [e5.2.1, e5.2.2.1, e5.2.2.2.1]; exact ⟨hc, hr, hb⟩

/-! ## C3 -/

theorem mem_of_getSetup {l : List pme_setup_t} {i : Int} {a : pme_setup_t}
    (h : getSetup l i = .ok a) : a ∈ l :=
  List.getElem?_mem (getSetup_ok_iff.1 h).2

theorem allEven_others {s : pme_load_balancing} (h : AllEven s.setup) : OthersEven s :=
  fun _ a ha _ => h a (mem_of_getSetup ha)

theorem genChain_allEven {s : pme_load_balancing} {env : Env} {l l' : List pme_setup_t}
    (h : GenChain s env l l') (hl : AllEven l) : AllEven l' := by
  induction h with
  | nil => exact hl
  | snoc l' set _ hg ih =>
    intro a ha
    rcases List.mem_append.1 ha with ha | ha
    · exact ih a ha
    · obtain ⟨c, s0, sp, grid, _, _, _, _, _, _, rfl⟩ := hg
      simp only [List.mem_singleton] at ha
      subst ha
      simp [new_setup]

theorem catalogEffect_allEven {s : pme_load_balancing} {env : Env} {l l' : List pme_setup_t}
    (h : CatalogEffect s env l l') (hl : AllEven l) : AllEven l' := by
  obtain ⟨l1, k, hch, _, hres⟩ := h
  have h1 : AllEven (l1.take k) := fun a ha => genChain_allEven hch hl a (List.mem_of_mem_take ha)
  rcases hres with rfl | ⟨i, a, hnd, ha, _, rfl⟩
  · exact h1
  · intro b hb
    unfold setSetup at hb
    rcases List.mem_or_eq_of_mem_set hb with hb | rfl
    · exact h1 b hb
    · exact h1 a (mem_of_getSetup ha)

theorem allEven_setSetup {s : pme_load_balancing} {a b : pme_setup_t} (h : OthersEven s)
    (ha : getSetup s.setup s.cur = .ok a) (hb : b.count % 2 = 0) :
    AllEven (setSetup s.setup s.cur b) := by
  intro x hx
  obtain ⟨j, hj⟩ := List.getElem?_of_mem hx
  by_cases hji : (j : Int) = s.cur
  · have h2 := getSetup_setSetup_self s.setup s.cur b a ha
    have h3 : getSetup (setSetup s.setup s.cur b) (j : Int) = .ok x :=
      getSetup_ok_iff.2 ⟨by omega, by simpa using hj⟩
    rw [hji, h2] at h3
    simp only [Except.ok.injEq] at h3
    rw [← h3]; exact hb
  · have h3 : getSetup (setSetup s.setup s.cur b) (j : Int) = .ok x :=
      getSetup_ok_iff.2 ⟨by omega, by simpa using hj⟩
    rw [getSetup_setSetup_ne _ _ _ _ (getSetup_lt ha).1 hji] at h3
    exact h _ _ h3 hji

theorem record_cycles_count (s : pme_load_balancing) (set : pme_setup_t) (cycles : ℚ) :
    (record_cycles s set cycles).2.count = set.count := by
  unfold record_cycles
  split <;> rfl

theorem map_cycles_setSetup (l : List pme_setup_t) (i : Int) (a b : pme_setup_t)
    (ha : getSetup l i = .ok a) (hb : b.cycles = a.cycles) :
    (setSetup l i b).map (fun x => x.cycles) = l.map (fun x => x.cycles) := by
  obtain ⟨h0, h1⟩ := getSetup_ok_iff.1 ha
  unfold setSetup
  apply List.ext_getElem?
  intro j
  by_cases hj : i.toNat = j
  · subst hj
    have hl := (List.getElem?_eq_some_iff.1 h1).1
    have hl2 : i.toNat < (List.map (fun x => x.cycles) l).length := by simpa using hl
    have hl3 : i.toNat < (List.map (fun x => x.cycles) (l.set i.toNat b)).length := by
      simpa using hl
    rw [List.getElem?_eq_getElem hl2, List.getElem?_eq_getElem hl3]
    simp only [List.getElem_map, List.getElem_set_self, Option.some.injEq]
    rw [hb]
    have := List.getElem?_eq_getElem hl
    rw [h1] at this
    simp only [Option.some.injEq] at this
    rw [this]
  · simp [List.getElem?_set_ne hj]

/-- One call keeps `OthersEven`, and a call that timed a sample or moved `cur` leaves
all counts even. -/
theorem step_parity (fuel : Nat) (s : pme_load_balancing) (env : Env) (cycles : ℚ)
    (ic : interaction_const_t) (pmedata : Option Nat) (r : StepResult)
    (h : pme_load_balance fuel s env cycles ic pmedata = .ok r) (hinv : OthersEven s) :
    OthersEven r.pme_lb ∧
    ((r.pme_lb.cur ≠ s.cur ∨
      (s.stage ≠ s.nstage ∧ ∃ a, getSetup s.setup s.cur = .ok a ∧ a.count % 2 = 1)) →
      AllEven r.pme_lb.setup) := by
  rcases pme_load_balance_cases _ _ _ _ _ _ _ h with ⟨_, rfl⟩ | ⟨hst, set0, hget, hcase⟩
  · refine ⟨hinv, ?_⟩
    rintro (hc | ⟨hc, _⟩)
    · exact absurd rfl hc
    · contradiction
  · rcases hcase with ⟨hev, rfl⟩ | ⟨hodd, hb⟩
    · refine ⟨?_, ?_⟩
      · intro i a ha hi
        simp only at ha hi
        rw [getSetup_setSetup_ne _ _ _ _ (getSetup_lt hget).1 hi] at ha
        exact hinv i a ha hi
      · rintro (hc | ⟨_, a, ha, hao⟩)
        · exact absurd rfl hc
        · rw [hget] at ha
          simp only [Except.ok.injEq] at ha
          subst ha
          omega
    · have hcat := (balance_timed_catalog _ _ _ _ _ _ _ hb (getSetup_lt hget).1).1
      have hall : AllEven r.pme_lb.setup := by
        apply catalogEffect_allEven hcat
        simp only
        apply allEven_setSetup hinv hget
        rw [record_cycles_count]
        simp only
        omega
      exact ⟨allEven_others hall, fun _ => hall⟩

theorem restart_othersEven (s : pme_load_balancing) (n : Int) (h : OthersEven s) :
    OthersEven (restart_pme_loadbal s n) := h

theorem reachable_othersEven (s : pme_load_balancing) (h : Reachable s) : OthersEven s := by
  induction h with
  | init ir box ic pmedata norm =>
    intro i a ha _
    have := mem_of_getSetup ha
    simp only [pme_loadbal_init, List.mem_singleton] at this
    subst this
    rfl
  | call s s' c _ hex ih =>
    cases c with
    | step fuel env cycles ic pmedata =>
      simp only [exec] at hex
      cases hr : pme_load_balance fuel s env cycles ic pmedata with
      | error e => simp [hr] at hex
      | ok r =>
        simp only [hr, Except.ok.injEq] at hex
        subst hex
        exact (step_parity _ _ _ _ _ _ _ hr ih).1
    | restart n =>
      simp only [exec, Except.ok.injEq] at hex
      subst hex
      exact restart_othersEven _ _ ih

/-- With all counts even, the next sample is a warm-up sample: no `cycles` changes and
the count of the active setup becomes odd. -/
theorem next_sample_is_warmup (fuel : Nat) (t : pme_load_balancing) (env : Env) (cycles : ℚ)
    (ic : interaction_const_t) (pmedata : Option Nat) (r : StepResult)
    (h : pme_load_balance fuel t env cycles ic pmedata = .ok r) (hall : AllEven t.setup) :
    r.pme_lb.setup.map (fun x => x.cycles) = t.setup.map (fun x => x.cycles) ∧
    (r.ret = true →
      ∃ a, getSetup r.pme_lb.setup r.pme_lb.cur = .ok a ∧ a.count % 2 = 1) := by
  rcases pme_load_balance_cases _ _ _ _ _ _ _ h with ⟨_, rfl⟩ | ⟨hst, set0, hget, hcase⟩
  · exact ⟨rfl, fun h => by simp at h⟩
  · rcases hcase with ⟨hev, rfl⟩ | ⟨hodd, _⟩
    · refine ⟨map_cycles_setSetup _ _ _ _ hget rfl,
        fun _ => ⟨{ set0 with count := set0.count + 1 }, ?_, ?_⟩⟩
      · exact getSetup_setSetup_self _ _ _ _ hget
      · simp only; omega
    · have := hall _ (mem_of_getSetup hget)
      omega

/-- C3 (warm-up discard after every activation): in every state reachable from
`pme_loadbal_init` by calls of `pme_load_balance` and `restart_pme_loadbal`, every
setup other than `cur` has an even count; a call that moved `cur` or timed a sample
leaves every count even, `cur` included, so that the next call (after any restart)
records an odd-numbered sample and changes no `cycles`. -/
theorem C3_warmup_discard (s : pme_load_balancing) (hs : Reachable s) :
    (∀ i a, getSetup s.setup i = .ok a → i ≠ s.cur → a.count % 2 = 0) ∧
    ∀ fuel env cycles ic pmedata r,
      pme_load_balance fuel s env cycles ic pmedata = .ok r →
      (r.pme_lb.cur ≠ s.cur ∨
        (s.stage ≠ s.nstage ∧ ∃ a, getSetup s.setup s.cur = .ok a ∧ a.count % 2 = 1)) →
      (∀ a ∈ r.pme_lb.setup, a.count % 2 = 0) ∧
      ∀ n fuel' env' cycles' ic' pmedata' r',
        pme_load_balance fuel' (restart_pme_loadbal r.pme_lb n) env' cycles' ic' pmedata'
          = .ok r' →
        r'.pme_lb.setup.map (fun x => x.cycles) = r.pme_lb.setup.map (fun x => x.cycles) ∧
        (r'.ret = true →
          ∃ a, getSetup r'.pme_lb.setup r'.pme_lb.cur = .ok a ∧ a.count % 2 = 1) := by
  have hinv := reachable_othersEven s hs
  refine ⟨hinv, ?_⟩
  intro fuel env cycles ic pmedata r hr hcond
  have hall := (step_parity _ _ _ _ _ _ _ hr hinv).2 hcond
  refine ⟨hall, ?_⟩
  intro n fuel' env' cycles' ic' pmedata' r' hr'
  exact next_sample_is_warmup _ (restart_pme_loadbal r.pme_lb n) _ _ _ _ _ hr' hall

/-! ## C4 -/

theorem genChain_getSetup_old {s : pme_load_balancing} {env : Env} {l l' : List pme_setup_t}
    (h : GenChain s env l l') {i : Int} {a : pme_setup_t} (ha : getSetup l i = .ok a) :
    getSetup l' i = .ok a := by
  induction h with
  | nil => exact ha
  | snoc l' set _ _ ih =>
    obtain ⟨h0, h1⟩ := getSetup_ok_iff.1 ih
    refine getSetup_ok_iff.2 ⟨h0, ?_⟩
    have hl := (List.getElem?_eq_some_iff.1 h1).1
    rw [List.getElem?_append_left hl]
    exact h1

theorem getSetup_take {l : List pme_setup_t} {k : Nat} {i : Int} {a : pme_setup_t}
    (h : getSetup (l.take k) i = .ok a) : getSetup l i = .ok a := by
  obtain ⟨h0, h1⟩ := getSetup_ok_iff.1 h
  refine getSetup_ok_iff.2 ⟨h0, ?_⟩
  rw [List.getElem?_take] at h1
  split at h1
  · exact h1
  · simp at h1

/-- An entry that was in the list before the timed part of a call and is still there
afterwards is the same entry, up to the PME structure. -/
theorem catalogEffect_getSetup_old {s : pme_load_balancing} {env : Env}
    {l l' : List pme_setup_t} (h : CatalogEffect s env l l') {i : Int} {a a' : pme_setup_t}
    (ha : getSetup l i = .ok a) (ha' : getSetup l' i = .ok a') :
    a' = a ∨ ∃ hnd, a' = { a with pmedata := some hnd } := by
  obtain ⟨l1, k, hch, _, hres⟩ := h
  have h1 := genChain_getSetup_old hch ha
  rcases hres with rfl | ⟨j, b, hnd, hb, _, rfl⟩
  · have := getSetup_take ha'
    rw [h1] at this
    simp only [Except.ok.injEq] at this
    exact Or.inl this.symm
  · by_cases hij : i = j
    · subst hij
      rw [getSetup_setSetup_self _ _ _ _ hb] at ha'
      have := getSetup_take hb
      rw [h1] at this
      simp only [Except.ok.injEq] at this ha'
      subst this
      exact Or.inr ⟨hnd, ha'.symm⟩
    · rw [getSetup_setSetup_ne _ _ _ _ (getSetup_lt hb).1 hij] at ha'
      have := getSetup_take ha'
      rw [h1] at this
      simp only [Except.ok.injEq] at this
      exact Or.inl this.symm

theorem record_cycles_le (s : pme_load_balancing) (set : pme_setup_t) (cycles : ℚ) :
    (record_cycles s set cycles).2.cycles ≤ cycles ∧
    (2 < set.count → (record_cycles s set cycles).2.cycles ≤ set.cycles) := by
  unfold record_cycles
  split
  · rename_i h
    exact ⟨le_refl _, fun h2 => by omega⟩
  · exact ⟨min_le_right _ _, fun _ => min_le_left _ _⟩

/-- The entry at index `i` before and after one call. -/
theorem step_entry (fuel : Nat) (s : pme_load_balancing) (env : Env) (cycles : ℚ)
    (ic : interaction_const_t) (pmedata : Option Nat) (r : StepResult) (i : Int)
    (a a' : pme_setup_t)
    (h : pme_load_balance fuel s env cycles ic pmedata = .ok r)
    (ha : getSetup s.setup i = .ok a) (ha' : getSetup r.pme_lb.setup i = .ok a') :
    (a'.cycles = a.cycles ∧ a.count ≤ a'.count ∧
      ¬ (s.stage ≠ s.nstage ∧ i = s.cur ∧ a.count % 2 = 1)) ∨
    (s.stage ≠ s.nstage ∧ i = s.cur ∧ a.count % 2 = 1 ∧ a'.count = a.count + 1 ∧
      a'.cycles = (record_cycles s { a with count := a.count + 1 } cycles).2.cycles) := by
  rcases pme_load_balance_cases _ _ _ _ _ _ _ h with ⟨hst, rfl⟩ | ⟨hst, set0, hget, hcase⟩
  · rw [ha] at ha'
    simp only [Except.ok.injEq] at ha'
    subst ha'
    exact Or.inl ⟨rfl, le_refl _, fun hh => hh.1 hst⟩
  · rcases hcase with ⟨hev, rfl⟩ | ⟨hodd, hb⟩
    · left
      by_cases hi : i = s.cur
      · subst hi
        simp only at ha'
        rw [getSetup_setSetup_self _ _ _ _ hget] at ha'
        rw [hget] at ha
        simp only [Except.ok.injEq] at ha ha'
        subst ha ha'
        exact ⟨rfl, by simp, fun hh => by omega⟩
      · simp only at ha'
        rw [getSetup_setSetup_ne _ _ _ _ (getSetup_lt hget).1 hi, ha] at ha'
        simp only [Except.ok.injEq] at ha'
        subst ha'
        exact ⟨rfl, le_refl _, fun hh => hi hh.2.1⟩
    · have hcat := (balance_timed_catalog _ _ _ _ _ _ _ hb (getSetup_lt hget).1).1
      simp only at hcat
      by_cases hi : i = s.cur
      · subst hi
        right
        rw [hget] at ha
        simp only [Except.ok.injEq] at ha
        subst ha
        have h0 := getSetup_setSetup_self s.setup s.cur
          (record_cycles s { set0 with count := set0.count + 1 } cycles).2 _ hget
        rcases catalogEffect_getSetup_old hcat h0 ha' with rfl | ⟨hnd, rfl⟩
        · exact ⟨hst, rfl, hodd, by rw [record_cycles_count], rfl⟩
        · exact ⟨hst, rfl, hodd, by simp only; rw [record_cycles_count], rfl⟩
      · left
        have h0 : getSetup (setSetup s.setup s.cur
            (record_cycles s { set0 with count := set0.count + 1 } cycles).2) i = .ok a := by
          rw [getSetup_setSetup_ne _ _ _ _ (getSetup_lt hget).1 hi]; exact ha
        rcases catalogEffect_getSetup_old hcat h0 ha' with rfl | ⟨hnd, rfl⟩
        · exact ⟨rfl, le_refl _, fun hh => hi hh.2.1⟩
        · exact ⟨rfl, le_refl _, fun hh => hi hh.2.1⟩

/-- One call never raises the `cycles` of a setup with `count >= 2`. -/
theorem step_cycles_le (fuel : Nat) (s : pme_load_balancing) (env : Env) (cycles : ℚ)
    (ic : interaction_const_t) (pmedata : Option Nat) (r : StepResult) (i : Int)
    (a a' : pme_setup_t)
    (h : pme_load_balance fuel s env cycles ic pmedata = .ok r)
    (ha : getSetup s.setup i = .ok a) (hc : 2 ≤ a.count)
    (ha' : getSetup r.pme_lb.setup i = .ok a') :
    a'.cycles ≤ a.cycles ∧ a.count ≤ a'.count := by
  rcases step_entry _ _ _ _ _ _ _ _ _ _ h ha ha' with ⟨h1, h2, _⟩ | ⟨_, _, hodd, h1, h2⟩
  · exact ⟨le_of_eq h1, h2⟩
  · refine ⟨?_, by omega⟩
    rw [h2]
    exact (record_cycles_le s _ cycles).2 (by simp only; omega)

theorem exec_cycles_le (s s' : pme_load_balancing) (c : Call) (i : Int) (a a' : pme_setup_t)
    (h : exec s c = .ok s') (ha : getSetup s.setup i = .ok a) (hc : 2 ≤ a.count)
    (ha' : getSetup s'.setup i = .ok a') : a'.cycles ≤ a.cycles ∧ a.count ≤ a'.count := by
  cases c with
  | step fuel env cycles ic pmedata =>
    simp only [exec] at h
    cases hr : pme_load_balance fuel s env cycles ic pmedata with
    | error e => simp [hr] at h
    | ok r =>
      simp only [hr, Except.ok.injEq] at h
      subst h
      exact step_cycles_le _ _ _ _ _ _ _ _ _ _ hr ha hc ha'
  | restart n =>
    simp only [exec, Except.ok.injEq] at h
    subst h
    simp only [restart_pme_loadbal] at ha'
    rw [ha] at ha'
    simp only [Except.ok.injEq] at ha'
    subst ha'
    exact ⟨le_refl _, le_refl _⟩

theorem run_cycles_le (calls : List Call) (s s' : pme_load_balancing) (i : Int)
    (a a' : pme_setup_t) (h : run s calls = .ok s')
    (hin : ∀ j t, run s (calls.take j) = .ok t → 0 ≤ i ∧ i < t.n)
    (ha : getSetup s.setup i = .ok a) (hc : 2 ≤ a.count)
    (ha' : getSetup s'.setup i = .ok a') : a'.cycles ≤ a.cycles ∧ a.count ≤ a'.count := by
  induction calls generalizing s a with
  | nil =>
    simp only [run, Except.ok.injEq] at h
    subst h
    rw [ha] at ha'
    simp only [Except.ok.injEq] at ha'
    subst ha'
    exact ⟨le_refl _, le_refl _⟩
  | cons c cs ih =>
    simp only [run] at h
    cases hx : exec s c with
    | error e => simp [hx] at h
    | ok t =>
      simp only [hx] at h
      have ht := hin 1 t (by simp [run, hx])
      have hex : ∃ b, getSetup t.setup i = .ok b := by
        have hlt : i.toNat < t.setup.length := by
          have := ht.2; unfold pme_load_balancing.n at this; omega
        exact ⟨t.setup[i.toNat], getSetup_ok_iff.2 ⟨ht.1, List.getElem?_eq_getElem hlt⟩⟩
      obtain ⟨b, hb⟩ := hex
      have h1 := exec_cycles_le _ _ _ _ _ _ hx ha hc hb
      have h2 := ih t b h (fun j u hu => hin (j + 1) u (by simp [run, hx, hu])) hb (by omega)
      exact ⟨le_trans h2.1 h1.1, le_trans h1.2 h2.2⟩

/-- C4 (best-so-far monotonicity): a call never raises the `cycles` of a setup that has
`count >= 2` (and never lowers its count); after a timed sample (odd count before the
call, balancing not finished) the `cycles` of the timed setup is at most the cost
`cycles` of the call; and along any sequence of calls during which index `i` stays
inside the setup list, the `cycles` of setup `i` never rises once `count >= 2`. -/
theorem C4_best_cycles_monotone :
    (∀ fuel s env cycles ic pmedata r (i : Int) a a',
      pme_load_balance fuel s env cycles ic pmedata = .ok r →
      getSetup s.setup i = .ok a → 2 ≤ a.count → getSetup r.pme_lb.setup i = .ok a' →
      a'.cycles ≤ a.cycles ∧ a.count ≤ a'.count) ∧
    (∀ fuel s env cycles ic pmedata r a a',
      pme_load_balance fuel s env cycles ic pmedata = .ok r →
      s.stage ≠ s.nstage → getSetup s.setup s.cur = .ok a → a.count % 2 = 1 →
      getSetup r.pme_lb.setup s.cur = .ok a' → a'.cycles ≤ cycles) ∧
    (∀ (calls : List Call) s s' (i : Int) a a', run s calls = .ok s' →
      (∀ j t, run s (calls.take j) = .ok t → 0 ≤ i ∧ i < t.n) →
      getSetup s.setup i = .ok a → 2 ≤ a.count → getSetup s'.setup i = .ok a' →
      a'.cycles ≤ a.cycles ∧ a.count ≤ a'.count) := by
  refine ⟨?_, ?_, ?_⟩
  · intro fuel s env cycles ic pmedata r i a a' h ha hc ha'
    exact step_cycles_le _ _ _ _ _ _ _ _ _ _ h ha hc ha'
  · intro fuel s env cycles ic pmedata r a a' h hst ha hodd ha'
    rcases step_entry _ _ _ _ _ _ _ _ _ _ h ha ha' with ⟨_, _, hn⟩ | ⟨_, _, _, _, h2⟩
    · exact absurd ⟨hst, rfl, hodd⟩ hn
    · rw [h2]
      exact (record_cycles_le s _ cycles).1
  · intro calls s s' i a a' h hin ha hc ha'
    exact run_cycles_le calls s s' i a a' h hin ha hc ha'

/-- A timed sample of cost 95 on `sample_stage1`: the best time of setup 0 goes from
100 to 95. -/
theorem C4_best_cycles_monotone_witness :
    ({ sample_set0 with count := 4, cycles := 95 } : pme_setup_t).cycles ≤ sample_set0.cycles ∧
      sample_set0.count ≤ ({ sample_set0 with count := 4, cycles := 95 } : pme_setup_t).count :=
  C4_best_cycles_monotone.1 1 sample_stage1 sample_env 95 sample_ic none
    { pme_lb := { sample_stage1 with
        setup := [{ sample_set0 with count := 4, cycles := 95 }, sample_set1], cur := 1 }
      ic := { rcoulomb := 12 / 10, rlist := 13 / 10, ewaldcoeff := 25 / 10 }
      pmedata := some 1, ret := true }
    0 sample_set0 { sample_set0 with count := 4, cycles := 95 }
    (by decide!) (by decide!) (by decide) (by decide!)

theorem sample_scanned_run : run sample_lb sample_calls = .ok sample_scanned := by decide!

theorem reachable_of_run (calls : List Call) (s s' : pme_load_balancing) (hs : Reachable s)
    (h : run s calls = .ok s') : Reachable s' := by
  induction calls generalizing s with
  | nil =>
    simp only [run, Except.ok.injEq] at h
    subst h; exact hs
  | cons c cs ih =>
    simp only [run] at h
    cases hx : exec s c with
    | error e => simp [hx] at h
    | ok t =>
      simp only [hx] at h
      exact ih t (Reachable.call s t c hs hx) h

theorem sample_scanned_reachable : Reachable sample_scanned :=
  reachable_of_run sample_calls sample_lb sample_scanned
    (Reachable.init sample_ir sample_box sample_ic (some 0) sample_norm) sample_scanned_run

/-- In the sample controller after a warm-up and a timed sample, setup 0 is not the
active one and has count 2. -/
theorem C3_warmup_discard_witness :
    ({ sample_set0 with count := 2 } : pme_setup_t).count % 2 = 0 :=
  (C3_warmup_discard sample_scanned sample_scanned_reachable).1 0
    { sample_set0 with count := 2 } (by decide!) (by decide!)

/-! ## C8 -/

theorem getSetup_setSetup_cases {l : List pme_setup_t} {i j : Int} {a x : pme_setup_t}
    (hj : 0 ≤ j) (h : getSetup (setSetup l j x) i = .ok a) :
    (i = j ∧ a = x) ∨ (i ≠ j ∧ getSetup l i = .ok a) := by
  by_cases hij : i = j
  · subst hij
    left
    refine ⟨rfl, ?_⟩
    obtain ⟨h0, h1⟩ := getSetup_ok_iff.1 h
    unfold setSetup at h1
    have hl := (List.getElem?_eq_some_iff.1 h1).1
    rw [List.length_set] at hl
    rw [List.getElem?_set_self hl] at h1
    simp only [Option.some.injEq] at h1
    exact h1.symm
  · right
    refine ⟨hij, ?_⟩
    rw [getSetup_setSetup_ne _ _ _ _ hj hij] at h
    exact h

/-- Replacing an entry by one with the same spacing keeps `SpacingInc`. -/
theorem spacingInc_setSetup {l : List pme_setup_t} {j : Int} {y x : pme_setup_t}
    (hl : SpacingInc l) (hy : getSetup l j = .ok y) (hx : x.spacing = y.spacing) :
    SpacingInc (setSetup l j x) := by
  have hj := (getSetup_lt hy).1
  have key : ∀ i a, getSetup (setSetup l j x) i = .ok a →
      ∃ a0, getSetup l i = .ok a0 ∧ a0.spacing = a.spacing := by
    intro i a ha
    rcases getSetup_setSetup_cases hj ha with ⟨rfl, rfl⟩ | ⟨_, h⟩
    · exact ⟨y, hy, hx.symm⟩
    · exact ⟨a, h, rfl⟩
  intro i a ha
  obtain ⟨a0, ha0, hs⟩ := key i a ha
  refine ⟨by rw [← hs]; exact (hl i a0 ha0).1, ?_⟩
  intro b hb
  obtain ⟨b0, hb0, hsb⟩ := key (i + 1) b hb
  rw [← hs, ← hsb]
  exact (hl i a0 ha0).2 b0 hb0

theorem spacingInc_take {l : List pme_setup_t} (k : Nat) (hl : SpacingInc l) :
    SpacingInc (l.take k) := by
  intro i a ha
  refine ⟨(hl i a (getSetup_take ha)).1, ?_⟩
  intro b hb
  exact (hl i a (getSetup_take ha)).2 b (getSetup_take hb)

theorem getSetup_append_cases {l : List pme_setup_t} {x a : pme_setup_t} {i : Int}
    (h : getSetup (l ++ [x]) i = .ok a) :
    getSetup l i = .ok a ∨ (i = l.length ∧ a = x) := by
  obtain ⟨h0, h1⟩ := getSetup_ok_iff.1 h
  by_cases hlt : i.toNat < l.length
  · rw [List.getElem?_append_left hlt] at h1
    exact Or.inl (getSetup_ok_iff.2 ⟨h0, h1⟩)
  · have hlen := (List.getElem?_eq_some_iff.1 h1).1
    simp only [List.length_append, List.length_singleton] at hlen
    have hi : i.toNat = l.length := by omega
    rw [hi] at h1
    simp only [List.getElem?_concat_length, Option.some.injEq] at h1
    exact Or.inr ⟨by omega, h1.symm⟩

theorem spacingInc_append {s : pme_load_balancing} {env : Env} {l : List pme_setup_t}
    {set : pme_setup_t} (hl : SpacingInc l) (hg : Generated s env l set) :
    SpacingInc (l ++ [set]) := by
  obtain ⟨c, s0, sp, grid, hlast, _, hsp, _, _, _, rfl⟩ := hg
  have hc : getSetup l ((l.length : Int) - 1) = .ok c := by
    rw [List.getLast?_eq_getElem?] at hlast
    have hlen := (List.getElem?_eq_some_iff.1 hlast).1
    refine getSetup_ok_iff.2 ⟨by omega, ?_⟩
    have : ((l.length : Int) - 1).toNat = l.length - 1 := by omega
    rw [this]; exact hlast
  have hcpos := (hl _ _ hc).1
  have hnew : 0 < (new_setup s env s0 sp grid).spacing := by
    simp only [new_setup]
    linarith
  intro i a ha
  rcases getSetup_append_cases ha with ha | ⟨hi, rfl⟩
  · refine ⟨(hl i a ha).1, ?_⟩
    intro b hb
    rcases getSetup_append_cases hb with hb | ⟨hi, rfl⟩
    · exact (hl i a ha).2 b hb
    · have : i = (l.length : Int) - 1 := by omega
      subst this
      rw [hc] at ha
      simp only [Except.ok.injEq] at ha
      subst ha
      simpa [new_setup] using hsp
  · refine ⟨hnew, ?_⟩
    intro b hb
    have := getSetup_lt hb
    simp only [List.length_append, List.length_singleton] at this
    omega

theorem genChain_spacingInc {s : pme_load_balancing} {env : Env} {l l' : List pme_setup_t}
    (h : GenChain s env l l') (hl : SpacingInc l) : SpacingInc l' := by
  induction h with
  | nil => exact hl
  | snoc l' set _ hg ih => exact spacingInc_append ih hg

theorem catalogEffect_spacingInc {s : pme_load_balancing} {env : Env}
    {l l' : List pme_setup_t} (h : CatalogEffect s env l l') (hl : SpacingInc l) :
    SpacingInc l' := by
  obtain ⟨l1, k, hch, _, hres⟩ := h
  have h1 : SpacingInc (l1.take k) := spacingInc_take k (genChain_spacingInc hch hl)
  rcases hres with rfl | ⟨i, a, hnd, ha, _, rfl⟩
  · exact h1
  · exact spacingInc_setSetup h1 ha rfl

theorem record_cycles_spacing (s : pme_load_balancing) (set : pme_setup_t) (cycles : ℚ) :
    (record_cycles s set cycles).2.spacing = set.spacing := by
  unfold record_cycles
  split <;> rfl

theorem exec_spacingInc (s s' : pme_load_balancing) (c : Call) (h : exec s c = .ok s')
    (hl : SpacingInc s.setup) : SpacingInc s'.setup := by
  cases c with
  | step fuel env cycles ic pmedata =>
    simp only [exec] at h
    cases hr : pme_load_balance fuel s env cycles ic pmedata with
    | error e => simp [hr] at h
    | ok r =>
      simp only [hr, Except.ok.injEq] at h
      subst h
      rcases pme_load_balance_cases _ _ _ _ _ _ _ hr with ⟨_, rfl⟩ | ⟨hst, set0, hget, hcase⟩
      · exact hl
      · rcases hcase with ⟨_, rfl⟩ | ⟨_, hb⟩
        · exact spacingInc_setSetup hl hget rfl
        · have hcat := (balance_timed_catalog _ _ _ _ _ _ _ hb (getSetup_lt hget).1).1
          apply catalogEffect_spacingInc hcat
          simp only
          apply spacingInc_setSetup hl hget
          rw [record_cycles_spacing]
  | restart n =>
    simp only [exec, Except.ok.injEq] at h
    subst h
    exact hl

theorem run_spacingInc (calls : List Call) (s s' : pme_load_balancing)
    (h : run s calls = .ok s') (hl : SpacingInc s.setup) : SpacingInc s'.setup := by
  induction calls generalizing s with
  | nil =>
    simp only [run, Except.ok.injEq] at h
    subst h; exact hl
  | cons c cs ih =>
    simp only [run] at h
    cases hx : exec s c with
    | error e => simp [hx] at h
    | ok t =>
      simp only [hx] at h
      exact ih t h (exec_spacingInc _ _ _ hx hl)

/-- C8 (monotonic coarsening of the spacing): start from `pme_loadbal_init` with a
positive initial spacing and make any calls of `pme_load_balance` and
`restart_pme_loadbal`, with any collaborators.  Then for any two consecutive setups
`i`, `i+1` of the list, `spacing[i+1]` is more than `1.001 * spacing[i]`, and so more
than `spacing[i]`; all spacings are positive. -/
theorem C8_spacing_increasing (ir : t_inputrec) (box : matrix) (ic : interaction_const_t)
    (pmedata : Option Nat) (norm : rvec → ℚ) (calls : List Call) (s : pme_load_balancing)
    (hpos : ∀ a ∈ (pme_loadbal_init ir box ic pmedata norm).setup, 0 < a.spacing)
    (hrun : run (pme_loadbal_init ir box ic pmedata norm) calls = .ok s) :
    ∀ i a b, getSetup s.setup i = .ok a → getSetup s.setup (i + 1) = .ok b →
      0 < a.spacing ∧ (1001 / 1000) * a.spacing < b.spacing ∧ a.spacing < b.spacing := by
  have h0 : SpacingInc (pme_loadbal_init ir box ic pmedata norm).setup := by
    intro i a ha
    refine ⟨hpos a (mem_of_getSetup ha), ?_⟩
    intro b hb
    have h1 := getSetup_lt ha
    have h2 := getSetup_lt hb
    simp only [pme_loadbal_init, List.length_singleton] at h1 h2
    omega
  have hinv := run_spacingInc calls _ _ hrun h0
  intro i a b ha hb
  obtain ⟨h1, h2⟩ := hinv i a ha
  have h3 := h2 b hb
  exact ⟨h1, h3, by linarith⟩

/-- After the two sample calls the second setup has spacing 0.101, the first 0.1. -/
theorem C8_spacing_increasing_witness :
    (0 : ℚ) < sample_set0.spacing ∧ (1001 / 1000) * sample_set0.spacing < (101 / 1000 : ℚ) ∧
      sample_set0.spacing < (101 / 1000 : ℚ) :=
  C8_spacing_increasing sample_ir sample_box sample_ic (some 0) sample_norm sample_calls
    sample_scanned (by decide!) sample_scanned_run 0 { sample_set0 with count := 2 }
    { rcut := 101 / 100, rlist := 111 / 100, spacing := 101 / 1000, grid := ⟨20, 20, 20⟩
      grid_efficiency := 1030301 / 4096000, ewaldcoeff := 300 / 101, pmedata := none
      count := 0, cycles := 0 }
    (by decide!) (by decide!)

/-! ## C9 -/

/-- C9: with a target Fourier spacing of 0.12 and an initial grid of spacing 0.1, the
first timed sample appends the setups with grids 31, 30 and 29, whose cut-offs
`0.8602...`, `0.8888...`, `0.9195...` are all below the initial cut-off `1`: the
cut-off does not increase from index 0 to index 1. -/
theorem C9_cutoff_drops_after_initial :
    (run (pme_loadbal_init fourier_ir sample_box sample_ic (some 0) sample_norm)
        [Call.step 10 fourier_env 100 sample_ic none,
         Call.step 10 fourier_env 100 sample_ic none]).map
      (fun s => s.setup.map (fun a => (a.grid.XX, a.rcut)))
      = .ok [(32, 1), (31, 80 / 93), (30, 8 / 9), (29, 80 / 87)] := by
  decide!

/-! ## C10 -/

theorem scan_advance_of_reaches {fuel : Nat} {env : Env} {gs : Int}
    {t0 t : pme_load_balancing} (h : ScanReaches fuel env gs t0 t) (k0 : Nat)
    (s3 : pme_load_balancing) (hs : scan_advance fuel env gs k0 t0 = .ok s3) :
    ∃ k, scan_advance fuel env gs (k + 1) t = .ok s3 := by
  induction h generalizing k0 with
  | here t =>
    cases k0 with
    | zero => simp [scan_advance] at hs
    | succ k => exact ⟨k, hs⟩
  | next t0 t1 t hb hc _ ih =>
    cases k0 with
    | zero => simp [scan_advance] at hs
    | succ k =>
      simp only [scan_advance, hb, hc] at hs
      exact ih k hs

theorem scan_next_setup_spec (fuel : Nat) (t c1 : pme_load_balancing) (env : Env) (b : Bool)
    (h : scan_next_setup fuel t env = .ok (c1, b)) :
    c1 = t ∨ (t.cur + 1 = t.n ∧ ∃ set, c1 = { t with setup := t.setup ++ [set] }) := by
  unfold scan_next_setup at h
  split at h
  · simp only [Except.ok.injEq, Prod.mk.injEq] at h
    exact Or.inl h.1.symm
  · rename_i hn
    rcases increase_cutoff_spec _ _ _ _ _ _ h with ⟨_, hlb⟩ | ⟨_, c, s0, sp, grid, hc, _, _, _, _, _, hlb⟩
    · exact Or.inl hlb
    · have hlt := getSetup_lt hc
      refine Or.inr ⟨?_, _, hlb⟩
      unfold pme_load_balancing.n at hn ⊢
      omega

theorem scan_box_check_true (c1 c2 : pme_load_balancing) (env : Env) (b : Bool)
    (h : scan_box_check c1 env b = .ok (c2, true)) : c2 = c1 := by
  unfold scan_box_check at h
  split at h
  · cases hc : getSetup c1.setup (c1.cur + 1) with
    | error e => simp [hc] at h
    | ok c =>
      simp only [hc] at h
      split at h
      · simp only [Except.ok.injEq, Prod.mk.injEq] at h
        exact h.1.symm
      · simp at h
  · simp only [Except.ok.injEq, Prod.mk.injEq] at h
    exact h.1.symm

theorem scanReaches_frame {fuel : Nat} {env : Env} {gs : Int} {t0 t : pme_load_balancing}
    (h : ScanReaches fuel env gs t0 t) : t.nstage = t0.nstage ∧ t.stage = t0.stage := by
  induction h with
  | here t => exact ⟨rfl, rfl⟩
  | next t0 t1 t hb _ _ ih =>
    rcases scan_body_spec _ _ _ _ _ hb with ⟨_, l1, _, rfl⟩ | ⟨hf, _⟩
    · exact ih
    · simp at hf

/-- A round of the scan loop in which the domain decomposition rejects the candidate
ends the loop: the list is cut behind `cur` and stage 1 is entered. -/
theorem scan_advance_dd_reject (fuel : Nat) (env : Env) (gs : Int) (k : Nat)
    (t c1 c2 s3 : pme_load_balancing) (cand : pme_setup_t)
    (hnext : scan_next_setup fuel t env = .ok (c1, true))
    (hbox : scan_box_check c1 env true = .ok (c2, true))
    (hdd : env.domaindecomp = true)
    (hcand : getSetup c2.setup (t.cur + 1) = .ok cand)
    (hrej : env.change_dd_cutoff cand.rlist = false)
    (hs : scan_advance fuel env gs (k + 1) t = .ok s3) :
    c2.cur = t.cur ∧
    scan_dd_check c2 env true
      = .ok ({ c2 with cur := t.cur, elimited := Limit.epmelblimDD }, false) ∧
    switch_to_stage1 { c2 with setup := c2.setup.take (t.cur + 1).toNat
                               cur := t.cur, elimited := Limit.epmelblimDD }
      = .ok s3 := by
  have hc2 : c2 = c1 := scan_box_check_true _ _ _ _ hbox
  have hcur : c2.cur = t.cur := by
    rw [hc2]
    rcases scan_next_setup_spec _ _ _ _ _ hnext with rfl | ⟨_, set, rfl⟩ <;> rfl
  have hddc : scan_dd_check c2 env true
      = .ok ({ c2 with cur := t.cur, elimited := Limit.epmelblimDD }, false) := by
    simp [scan_dd_check, hdd, hcur, hcand, hrej]
  refine ⟨hcur, hddc, ?_⟩
  simp only [scan_advance, scan_body, hnext, hbox, hddc, scan_limit, Bool.false_eq_true,
    if_false] at hs
  cases hp : print_loadbal_limited
      { c2 with setup := c2.setup.take (t.cur + 1).toNat
                cur := t.cur, elimited := Limit.epmelblimDD } with
  | error e => simp [hp] at hs
  | ok u =>
    simp only [hp] at hs
    cases hsw : switch_to_stage1
        { c2 with setup := c2.setup.take (t.cur + 1).toNat
                  cur := t.cur, elimited := Limit.epmelblimDD } with
    | error e => simp [hsw] at hs
    | ok lb =>
      simp only [hsw, Except.ok.injEq] at hs
      rw [hs]

theorem refine_stage_frame (fuel : Nat) (s s' : pme_load_balancing) (cf : ℚ)
    (h : refine_stage fuel s cf = .ok s') :
    s' = { s with cur := s'.cur, stage := s'.stage } ∧
      (s.stage ≤ s'.stage ∨ s'.stage = s.nstage) := by
  rcases refine_stage_spec _ _ _ _ h with ⟨_, _, rfl⟩ | ⟨_, _, lb, hl, hr⟩ | ⟨_, rfl⟩
  · exact ⟨rfl, Or.inr rfl⟩
  · obtain ⟨hfr, hle⟩ := refine_loop_frame _ _ _ _ hl
    rcases hr with ⟨_, rfl⟩ | ⟨_, rfl⟩
    · refine ⟨?_, Or.inl hle⟩
      simp only
      rw [hfr]
    · exact ⟨hfr, Or.inl hle⟩
  · exact ⟨rfl, Or.inl (le_refl _)⟩

theorem stage1_end_le (s : pme_load_balancing) (e : Int) (h : stage1_end s = .ok e) :
    e ≤ s.n ∧ s.n - 1 ≤ e := by
  obtain ⟨_, _, he⟩ := stage1_end_spec _ _ h
  rcases he with rfl | ⟨rfl, _⟩ <;> omega

theorem record_cycles_nstage (s : pme_load_balancing) (set : pme_setup_t) (cycles : ℚ) :
    (record_cycles s set cycles).1 = s.nstage ∨
    ((record_cycles s set cycles).1 = s.nstage + 1 ∧ s.stage = s.nstage - 1) := by
  unfold record_cycles
  split
  · exact Or.inl rfl
  · simp only
    split
    · rename_i h; exact Or.inr ⟨rfl, h.2⟩
    · exact Or.inl rfl

theorem record_cycles_grid (s : pme_load_balancing) (set : pme_setup_t) (cycles : ℚ) :
    (record_cycles s set cycles).2.grid = set.grid := by
  unfold record_cycles
  split <;> rfl

/-- A call that times a sample runs, from the state `scan_entry` gives, lines 408-577. -/
theorem scan_entry_of_timed (fuel : Nat) (s : pme_load_balancing) (env : Env) (cycles : ℚ)
    (ic : interaction_const_t) (pmedata : Option Nat) (r : StepResult) (set0 set : pme_setup_t)
    (lb2 : pme_load_balancing)
    (hst : s.stage ≠ s.nstage) (hget : getSetup s.setup s.cur = .ok set0)
    (hodd : set0.count % 2 = 1) (hentry : scan_entry s cycles = .ok (lb2, set))
    (hr : pme_load_balance fuel s env cycles ic pmedata = .ok r) :
    set.grid = set0.grid ∧ s.nstage ≤ lb2.nstage ∧
    ∃ cf lb3 lb4 lb5, scan_stage fuel lb2 env set = .ok lb3 ∧
      refine_stage fuel lb3 cf = .ok lb4 ∧ dd_reassert lb4 env = .ok lb5 ∧
      apply_setup lb5 env pmedata = .ok r := by
  rcases pme_load_balance_cases _ _ _ _ _ _ _ hr with ⟨hc, _⟩ | ⟨_, set0', hget', hcase⟩
  · exact absurd hc hst
  · rw [hget] at hget'
    simp only [Except.ok.injEq] at hget'
    subst hget'
    rcases hcase with ⟨hev, _⟩ | ⟨_, hb⟩
    · omega
    · obtain ⟨lb1, f, lb2', lb3, lb4, lb5, h1, _, h2, h3, h4, _, h5, h6⟩ :=
        balance_timed_phases _ _ _ _ _ _ _ hb
      simp only [scan_entry, hget, h1, h2, Except.ok.injEq, Prod.mk.injEq] at hentry
      obtain ⟨rfl, rfl⟩ := hentry
      refine ⟨record_cycles_grid _ _ _, ?_, f.cycles, lb3, lb4, lb5, h3, h4, h5, h6⟩
      have hn1 : s.nstage ≤ lb1.nstage := by
        obtain ⟨_, _, hh⟩ := update_fastest_spec _ _ _ h1
        have := record_cycles_nstage s { set0 with count := set0.count + 1 } cycles
        rcases hh with ⟨_, rfl⟩ | ⟨_, rfl⟩ <;> simp only <;> omega
      rcases scan_exit_check_spec _ _ _ h2 with rfl | ⟨_, _, _, hsw⟩
      · exact hn1
      · have := (switch_to_stage1_setup _ _ hsw).2.2.2.2.2.1
        simp only at this
        omega

/-- C10 (rollback on a rejection by the domain decomposition during the scan).  Take a
call of `pme_load_balance` with `nstage >= 2` that times a sample and reaches the scan
loop in stage 0 (`scan_entry`), and a round of that loop, entered with `cur = c` in
state `t`, in which the next setup is there (or generated) and passes the box check,
and the domain decomposition rejects `setup[c+1].rlist`.  Then that round puts `cur`
back to `c` and records the limit, and when the call returns the list has `n = c + 1`
entries, `end <= c + 1`, the stage is not 0 and `elimited` is `epmelblimDD`. -/
theorem C10_dd_rejection_rollback (fuel : Nat) (s : pme_load_balancing) (env : Env)
    (cycles : ℚ) (ic : interaction_const_t) (pmedata : Option Nat) (r : StepResult)
    (set0 set cand : pme_setup_t) (lb2 t c1 c2 : pme_load_balancing)
    (hn : 2 ≤ s.nstage) (hst : s.stage ≠ s.nstage)
    (hget : getSetup s.setup s.cur = .ok set0) (hodd : set0.count % 2 = 1)
    (hentry : scan_entry s cycles = .ok (lb2, set)) (h0 : lb2.stage = 0)
    (hreach : ScanReaches fuel env (pme_grid_points set) lb2 t)
    (hnext : scan_next_setup fuel t env = .ok (c1, true))
    (hbox : scan_box_check c1 env true = .ok (c2, true))
    (hdd : env.domaindecomp = true)
    (hcand : getSetup c2.setup (t.cur + 1) = .ok cand)
    (hrej : env.change_dd_cutoff cand.rlist = false)
    (hr : pme_load_balance fuel s env cycles ic pmedata = .ok r) :
    scan_dd_check c2 env true
      = .ok ({ c2 with cur := t.cur, elimited := Limit.epmelblimDD }, false) ∧
    r.pme_lb.n = t.cur + 1 ∧ r.pme_lb.end_ ≤ t.cur + 1 ∧ r.pme_lb.stage ≠ 0 ∧
    r.pme_lb.elimited = Limit.epmelblimDD := by
  obtain ⟨_, hn2, cf, lb3, lb4, lb5, h3, h4, h5, h6⟩ :=
    scan_entry_of_timed _ _ _ _ _ _ _ _ _ _ hst hget hodd hentry hr
  have hadv : scan_advance fuel env (pme_grid_points set) fuel lb2 = .ok lb3 := by
    rcases scan_stage_spec _ _ _ _ _ h3 with ⟨hne, _⟩ | ⟨_, h⟩
    · exact absurd h0 hne
    · exact h
  obtain ⟨k, hk⟩ := scan_advance_of_reaches hreach _ _ hadv
  obtain ⟨hcur, hddc, hsw⟩ :=
    scan_advance_dd_reject _ _ _ _ _ _ _ _ _ hnext hbox hdd hcand hrej hk
  refine ⟨hddc, ?_⟩
  have htn := (scanReaches_frame hreach).1
  have hc2 : c2.nstage = t.nstage := by
    rw [scan_box_check_true _ _ _ _ hbox]
    rcases scan_next_setup_spec _ _ _ _ _ hnext with rfl | ⟨_, set, rfl⟩ <;> rfl
  -- the state after the switch to stage 1
  obtain ⟨start, e, hlb3, _, _, hend⟩ := switch_to_stage1_spec _ _ hsw
  have hlen : ((c2.setup.take (t.cur + 1).toNat).length : Int) = t.cur + 1 := by
    have := getSetup_lt hcand
    rw [List.length_take]
    omega
  have he := stage1_end_le _ _ hend
  unfold pme_load_balancing.n at he
  simp only at he
  rw [hlen] at he
  -- lines 474-505
  obtain ⟨hlb4, hstage4⟩ := refine_stage_frame _ _ _ _ h4
  have h4n : (lb4.setup.length : Int) = t.cur + 1 := by rw [hlb4, hlb3]; exact hlen
  have h4e : lb4.end_ = e := by rw [hlb4, hlb3]
  have h4l : lb4.elimited = Limit.epmelblimDD := by rw [hlb4, hlb3]
  have h4ns : lb4.nstage = c2.nstage := by rw [hlb4, hlb3]
  have h4s : 1 ≤ lb4.stage := by
    rw [hlb3] at hstage4
    simp only at hstage4
    rcases hstage4 with h | h
    · exact h
    · omega
  -- lines 507-524
  have h5' : (lb5.setup.length : Int) = t.cur + 1 ∧ lb5.end_ ≤ t.cur + 1 ∧ 1 ≤ lb5.stage ∧
      lb5.elimited = Limit.epmelblimDD := by
    rcases dd_reassert_spec _ _ _ h5 with rfl | ⟨_, _, ⟨c, hc, _⟩, rfl⟩
    · exact ⟨h4n, by omega, h4s, h4l⟩
    · have hlt := getSetup_lt hc
      refine ⟨h4n, ?_, ?_, rfl⟩
      · simp only [dd_failsafe]; omega
      · simp only [dd_failsafe]
        split <;> omega
  -- lines 526-577
  obtain ⟨_, a, _, _, hres⟩ := apply_setup_spec _ _ _ _ h6
  unfold pme_load_balancing.n
  rcases hres with hres | ⟨hnd, _, hres⟩
  · rw [hres]
    exact ⟨h5'.1, h5'.2.1, by omega, h5'.2.2.2⟩
  · rw [hres]
    simp only [setSetup, List.length_set]
    exact ⟨h5'.1, h5'.2.1, by omega, h5'.2.2.2⟩

/-- The second candidate of the sample scan is rejected: `cur` goes back to 1, the list
keeps two setups and stage 1 starts. -/
theorem C10_dd_rejection_rollback_witness :
    scan_dd_check dd_c dd_env true
      = .ok ({ dd_c with cur := dd_t.cur, elimited := Limit.epmelblimDD }, false) ∧
    dd_result.pme_lb.n = dd_t.cur + 1 ∧ dd_result.pme_lb.end_ ≤ dd_t.cur + 1 ∧
    dd_result.pme_lb.stage ≠ 0 ∧ dd_result.pme_lb.elimited = Limit.epmelblimDD :=
  C10_dd_rejection_rollback 2 dd_start dd_env 100 sample_ic none dd_result
    { sample_set0 with count := 1, cycles := 0 } dd_set dd_gen2 dd_lb2 dd_t dd_c dd_c
    (by decide) (by decide) (by decide!) (by decide) (by decide!) (by decide)
    (ScanReaches.next dd_lb2 dd_t dd_t (by decide!) (by decide!) (ScanReaches.here dd_t))
    (by decide!) (by decide!) (by decide) (by decide!) (by decide!) (by decide!)

/-! ## C5 -/

/-- The three outcomes of lines 400-472: no scan in a later stage; the scan moved
`cur` by `m >= 1` within stage 0; or the list was cut behind `cur + m` and stage 1
was entered. -/
theorem scan_phase_cases (fuel : Nat) (env : Env) (set : pme_setup_t) (cycles : ℚ)
    (lb1 lb2 lb3 : pme_load_balancing)
    (h2 : scan_exit_check lb1 cycles = .ok lb2) (h3 : scan_stage fuel lb2 env set = .ok lb3) :
    (lb1.stage ≠ 0 ∧ lb3 = lb1) ∨
    (lb1.stage = 0 ∧ ∃ (l1 : List pme_setup_t) (m : Nat), GenChain lb1 env lb1.setup l1 ∧
      1 ≤ m ∧ lb3 = { lb1 with setup := l1, cur := lb1.cur + m }) ∨
    (lb1.stage = 0 ∧ ∃ (l1 : List pme_setup_t) (m : Nat) (lim : Limit),
      GenChain lb1 env lb1.setup l1 ∧
      switch_to_stage1 { lb1 with setup := l1.take (lb1.cur + m + 1).toNat, cur := lb1.cur + m,
                                  elimited := lim } = .ok lb3) := by
  rcases scan_exit_check_spec _ _ _ h2 with rfl | ⟨hst, _, _, hsw⟩
  · rcases scan_stage_spec _ _ _ _ _ h3 with ⟨hne, rfl⟩ | ⟨h0, hadv⟩
    · exact Or.inl ⟨hne, rfl⟩
    · obtain ⟨l1, m, hch, hres⟩ := scan_advance_spec _ _ _ _ _ _ hadv
      rcases hres with ⟨hm, rfl⟩ | ⟨lim, _, hsw⟩
      · exact Or.inr (Or.inl ⟨h0, l1, m, hch, hm, rfl⟩)
      · exact Or.inr (Or.inr ⟨h0, l1, m, lim, hch, hsw⟩)
  · have hs := switch_to_stage1_setup _ _ hsw
    have h3' : lb3 = lb2 := by
      rcases scan_stage_spec _ _ _ _ _ h3 with ⟨_, h⟩ | ⟨h0, _⟩
      · exact h
      · rw [hs.2.2.2.2.2.2.2.1] at h0; omega
    subst h3'
    refine Or.inr (Or.inr ⟨hst, lb1.setup, 0, lb1.elimited, GenChain.nil _, ?_⟩)
    simp only [Nat.cast_zero, add_zero]
    exact hsw

theorem genChain_cyclesNonneg {s : pme_load_balancing} {env : Env} {l l' : List pme_setup_t}
    (h : GenChain s env l l') (hl : CyclesNonneg l) : CyclesNonneg l' := by
  induction h with
  | nil => exact hl
  | snoc l' set _ hg ih =>
    intro a ha
    rcases List.mem_append.1 ha with ha | ha
    · exact ih a ha
    · obtain ⟨c, s0, sp, grid, _, _, _, _, _, _, rfl⟩ := hg
      simp only [List.mem_singleton] at ha
      subst ha
      simp [new_setup]

theorem catalogEffect_cyclesNonneg {s : pme_load_balancing} {env : Env}
    {l l' : List pme_setup_t} (h : CatalogEffect s env l l') (hl : CyclesNonneg l) :
    CyclesNonneg l' := by
  obtain ⟨l1, k, hch, _, hres⟩ := h
  have h1 : CyclesNonneg (l1.take k) :=
    fun a ha => genChain_cyclesNonneg hch hl a (List.mem_of_mem_take ha)
  rcases hres with rfl | ⟨i, a, hnd, ha, _, rfl⟩
  · exact h1
  · intro b hb
    unfold setSetup at hb
    rcases List.mem_or_eq_of_mem_set hb with hb | rfl
    · exact h1 b hb
    · exact h1 a (mem_of_getSetup ha)

theorem cyclesNonneg_setSetup {l : List pme_setup_t} {j : Int} {x : pme_setup_t}
    (hl : CyclesNonneg l) (hx : 0 ≤ x.cycles) : CyclesNonneg (setSetup l j x) := by
  intro b hb
  unfold setSetup at hb
  rcases List.mem_or_eq_of_mem_set hb with hb | rfl
  · exact hl b hb
  · exact hx

theorem record_cycles_nonneg (s : pme_load_balancing) (set : pme_setup_t) (cycles : ℚ)
    (hs : 0 ≤ set.cycles) (hc : 0 ≤ cycles) : 0 ≤ (record_cycles s set cycles).2.cycles := by
  unfold record_cycles
  split
  · exact hc
  · exact le_min hs hc

/-- When the last setup has been timed, `switch_to_stage1` reads `setup[fastest]`. -/
theorem stage1_end_reads_fastest (s : pme_load_balancing) (e : Int) (last : pme_setup_t)
    (h : stage1_end s = .ok e) (hl : getSetup s.setup (s.n - 1) = .ok last)
    (hc : 0 < last.count) : ∃ f, getSetup s.setup s.fastest = .ok f := by
  unfold stage1_end at h
  simp only [hl] at h
  rw [if_pos hc] at h
  cases hf : getSetup s.setup s.fastest with
  | error e => simp [hf] at h
  | ok f => exact ⟨f, rfl⟩

/-- With non-negative times, and the only setup timed when there is just one, the
range that `switch_to_stage1` sets up ends at `end >= 1`, and `end = 1` only with
`fastest = 0`. -/
theorem switch_to_stage1_end (X lb3 : pme_load_balancing) (hsw : switch_to_stage1 X = .ok lb3)
    (hnn : CyclesNonneg X.setup)
    (h0 : ∀ a, getSetup X.setup 0 = .ok a → X.setup.length = 1 → 0 < a.count) :
    1 ≤ lb3.end_ ∧ (lb3.end_ = 1 → lb3.fastest = 0) := by
  obtain ⟨start, e, rfl, _, _, hend⟩ := switch_to_stage1_spec _ _ hsw
  simp only
  obtain ⟨last, hlast, he⟩ := stage1_end_spec _ _ hend
  have hn := getSetup_lt hlast
  unfold pme_load_balancing.n at hlast he hn
  rcases he with rfl | ⟨rfl, hcnt, f, hf, hslow⟩
  · refine ⟨by omega, ?_⟩
    intro h1
    have hlen : X.setup.length = 1 := by omega
    have hl0 : getSetup X.setup 0 = .ok last := by
      have : (X.setup.length : Int) - 1 = 0 := by omega
      rw [this] at hlast; exact hlast
    obtain ⟨f, hf⟩ := stage1_end_reads_fastest _ _ _ hend hlast (h0 last hl0 hlen)
    have := getSetup_lt hf
    omega
  · have hfl := getSetup_lt hf
    have hne : X.fastest ≠ (X.setup.length : Int) - 1 := by
      intro heq
      rw [heq, hlast] at hf
      simp only [Except.ok.injEq] at hf
      subst hf
      have := hnn last (mem_of_getSetup hlast)
      unfold PME_LB_SLOW_FAC at hslow
      linarith
    refine ⟨by omega, ?_⟩
    intro h1
    omega

/-- The timed part of a call keeps `ConcludeInv` and, when it ends the balancing,
leaves `cur` on `fastest`. -/
theorem timed_concludes_on_fastest (fuel : Nat) (s : pme_load_balancing) (env : Env)
    (cycles : ℚ) (pmedata : Option Nat) (r : StepResult) (set0 : pme_setup_t)
    (hinv : ConcludeInv s) (hc : 0 ≤ cycles) (hst : s.stage ≠ s.nstage)
    (hget : getSetup s.setup s.cur = .ok set0)
    (hb : balance_timed fuel
      { s with
        nstage := (record_cycles s { set0 with count := set0.count + 1 } cycles).1
        setup := setSetup s.setup s.cur
          (record_cycles s { set0 with count := set0.count + 1 } cycles).2 }
      env (record_cycles s { set0 with count := set0.count + 1 } cycles).2 cycles pmedata
      = .ok r) :
    ConcludeInv r.pme_lb ∧ (r.pme_lb.stage = r.pme_lb.nstage → r.pme_lb.cur = r.pme_lb.fastest) := by
  have hcur0 := (getSetup_lt hget).1
  -- the list with the new sample
  have hnn0 : CyclesNonneg (setSetup s.setup s.cur
      (record_cycles s { set0 with count := set0.count + 1 } cycles).2) :=
    cyclesNonneg_setSetup hinv.1
      (record_cycles_nonneg _ _ _ (hinv.1 set0 (mem_of_getSetup hget)) hc)
  have hcat := (balance_timed_catalog _ _ _ _ _ _ _ hb hcur0).1
  have hnnr : CyclesNonneg r.pme_lb.setup := catalogEffect_cyclesNonneg hcat hnn0
  obtain ⟨lb1, f, lb2, lb3, lb4, lb5, h1, hf, h2, h3, h4, _, h5, h6⟩ :=
    balance_timed_phases _ _ _ _ _ _ _ hb
  -- lines 391-394
  have hns := record_cycles_nstage s { set0 with count := set0.count + 1 } cycles
  have e1 : lb1.setup = setSetup s.setup s.cur
        (record_cycles s { set0 with count := set0.count + 1 } cycles).2 ∧
      lb1.cur = s.cur ∧ lb1.stage = s.stage ∧ lb1.end_ = s.end_ ∧
      lb1.nstage = (record_cycles s { set0 with count := set0.count + 1 } cycles).1 ∧
      (lb1.fastest = s.fastest ∨ lb1.fastest = s.cur) := by
    obtain ⟨_, _, hh⟩ := update_fastest_spec _ _ _ h1
    rcases hh with ⟨_, rfl⟩ | ⟨_, rfl⟩
    · exact ⟨rfl, rfl, rfl, rfl, rfl, Or.inr rfl⟩
    · exact ⟨rfl, rfl, rfl, rfl, rfl, Or.inl rfl⟩
  obtain ⟨e1l, e1c, e1s, e1e, e1n, e1f⟩ := e1
  have hne1 : lb1.stage ≠ lb1.nstage := by
    rw [e1s, e1n]; rcases hns with h | ⟨h, h'⟩ <;> omega
  have F1 : 0 < lb1.stage → lb1.end_ = 1 → lb1.fastest = 0 ∧ lb1.cur = 0 := by
    intro hs he
    rw [e1s] at hs; rw [e1e] at he
    obtain ⟨hf0, hc0⟩ := hinv.2 hs he
    rw [e1c]
    rcases e1f with h | h <;> rw [h] <;> omega
  -- lines 400-472
  have G3 : (lb3.stage ≠ lb3.nstage ∨ (0 < lb3.stage ∧ 1 ≤ lb3.end_)) ∧
      (0 < lb3.stage → lb3.end_ = 1 → lb3.fastest = 0) := by
    rcases scan_phase_cases _ _ _ _ _ _ _ h2 h3 with ⟨hne, rfl⟩ | ⟨h0, l1, m, _, _, rfl⟩ |
        ⟨h0, l1, m, lim, hch, hsw⟩
    · exact ⟨Or.inl hne1, fun hs he => (F1 hs he).1⟩
    · simp only
      exact ⟨Or.inl hne1, fun h => by omega⟩
    · have hs := switch_to_stage1_setup _ _ hsw
      simp only at hs
      have hnnX : CyclesNonneg (l1.take (lb1.cur + m + 1).toNat) :=
        fun a ha => genChain_cyclesNonneg hch (e1l ▸ hnn0) a (List.mem_of_mem_take ha)
      have hX0 : ∀ a, getSetup (l1.take (lb1.cur + m + 1).toNat) 0 = .ok a →
          (l1.take (lb1.cur + m + 1).toNat).length = 1 → 0 < a.count := by
        intro a ha hlen
        have hl1 := genChain_length_le hch
        have hl0 := getSetup_lt hget
        have hlen0 : lb1.setup.length = s.setup.length := by rw [e1l]; simp [setSetup]
        rw [List.length_take] at hlen
        have hcz : s.cur = 0 := by omega
        have hself := getSetup_setSetup_self s.setup s.cur
          (record_cycles s { set0 with count := set0.count + 1 } cycles).2 _ hget
        rw [← e1l, hcz] at hself
        have := genChain_getSetup_old hch hself
        rw [getSetup_take ha] at this
        simp only [Except.ok.injEq] at this
        rw [this, record_cycles_count]
        simp
      obtain ⟨hge, heq⟩ := switch_to_stage1_end _ _ hsw hnnX hX0
      refine ⟨Or.inr ⟨?_, hge⟩, fun _ => heq⟩
      rw [hs.2.2.2.2.2.2.2.1]; omega
  -- lines 474-505
  have G4 : (lb4.stage = lb4.nstage → lb4.cur = lb4.fastest) ∧
      (0 < lb4.stage → lb4.end_ = 1 → lb4.fastest = 0 ∧ lb4.cur = 0) := by
    rcases refine_stage_spec _ _ _ _ h4 with ⟨hs, he, rfl⟩ | ⟨hs, he, lb, hl, hr⟩ | ⟨hn, rfl⟩
    · have hf0 := G3.2 hs he
      exact ⟨fun _ => hf0.symm, fun _ _ => ⟨hf0, rfl⟩⟩
    · obtain ⟨hfr, _⟩ := refine_loop_frame _ _ _ _ hl
      have hend : lb.end_ = lb3.end_ := by rw [hfr]
      rcases hr with ⟨_, rfl⟩ | ⟨hne, rfl⟩
      · exact ⟨fun _ => rfl, fun _ h => by simp only at h; omega⟩
      · exact ⟨fun h => absurd h hne, fun _ h => by omega⟩
    · refine ⟨fun h => ?_, fun hs he => ?_⟩
      · rcases G3.1 with hne | hh
        · exact absurd h hne
        · exact absurd hh hn
      · exact absurd ⟨hs, by omega⟩ hn
  -- lines 507-524
  have G5 : (lb5.stage = lb5.nstage → lb5.cur = lb5.fastest) ∧
      (0 < lb5.stage → lb5.end_ = 1 → lb5.fastest = 0 ∧ lb5.cur = 0) := by
    rcases dd_reassert_spec _ _ _ h5 with rfl | ⟨_, _, _, rfl⟩
    · exact G4
    · exact ⟨fun _ => rfl, fun _ _ => ⟨rfl, rfl⟩⟩
  -- lines 526-577
  obtain ⟨_, a, _, _, hres⟩ := apply_setup_spec _ _ _ _ h6
  have hsc : r.pme_lb.stage = lb5.stage ∧ r.pme_lb.nstage = lb5.nstage ∧
      r.pme_lb.cur = lb5.cur ∧ r.pme_lb.fastest = lb5.fastest ∧ r.pme_lb.end_ = lb5.end_ := by
    rcases hres with hres | ⟨hnd, _, hres⟩ <;> rw [hres] <;> simp
  obtain ⟨q1, q2, q3, q4, q5⟩ := hsc
  refine ⟨⟨hnnr, ?_⟩, ?_⟩
  · rw [q1, q5, q4, q3]; exact G5.2
  · rw [q1, q2, q3, q4]; exact G5.1

theorem exec_concludeInv (s s' : pme_load_balancing) (c : Call) (h : exec s c = .ok s')
    (hinv : ConcludeInv s)
    (hc : ∀ fuel env cycles ic pmedata, c = Call.step fuel env cycles ic pmedata → 0 ≤ cycles) :
    ConcludeInv s' := by
  cases c with
  | step fuel env cycles ic pmedata =>
    have hc' := hc fuel env cycles ic pmedata rfl
    simp only [exec] at h
    cases hr : pme_load_balance fuel s env cycles ic pmedata with
    | error e => simp [hr] at h
    | ok r =>
      simp only [hr, Except.ok.injEq] at h
      subst h
      rcases pme_load_balance_cases _ _ _ _ _ _ _ hr with ⟨_, rfl⟩ | ⟨hst, set0, hget, hcase⟩
      · exact hinv
      · rcases hcase with ⟨_, rfl⟩ | ⟨_, hb⟩
        · refine ⟨cyclesNonneg_setSetup hinv.1 ?_, hinv.2⟩
          exact hinv.1 set0 (mem_of_getSetup hget)
        · exact (timed_concludes_on_fastest _ _ _ _ _ _ _ hinv hc' hst hget hb).1
  | restart n =>
    simp only [exec, Except.ok.injEq] at h
    subst h
    exact hinv

theorem run_concludeInv (calls : List Call) (s s' : pme_load_balancing)
    (h : run s calls = .ok s') (hinv : ConcludeInv s) (hc : NonnegCosts calls) :
    ConcludeInv s' := by
  induction calls generalizing s with
  | nil =>
    simp only [run, Except.ok.injEq] at h
    subst h; exact hinv
  | cons c cs ih =>
    simp only [run] at h
    cases hx : exec s c with
    | error e => simp [hx] at h
    | ok t =>
      simp only [hx] at h
      exact ih t h (exec_concludeInv _ _ _ hx hinv (hc c (List.mem_cons_self _ _)))
        (fun c' hc' => hc c' (List.mem_cons_of_mem _ hc'))

/-- C5 (the controller concludes on the fastest setup): start from `pme_loadbal_init`
and make any calls of `pme_load_balance` with non-negative costs and of
`restart_pme_loadbal`.  If a further call with a non-negative cost returns TRUE with
`stage == nstage`, then `cur == fastest` on return. -/
theorem C5_concludes_on_fastest (ir : t_inputrec) (box : matrix) (ic0 : interaction_const_t)
    (pmedata0 : Option Nat) (norm : rvec → ℚ) (calls : List Call) (s : pme_load_balancing)
    (hcalls : NonnegCosts calls)
    (hrun : run (pme_loadbal_init ir box ic0 pmedata0 norm) calls = .ok s)
    (fuel : Nat) (env : Env) (cycles : ℚ) (ic : interaction_const_t) (pmedata : Option Nat)
    (r : StepResult) (hc : 0 ≤ cycles)
    (hr : pme_load_balance fuel s env cycles ic pmedata = .ok r) (hret : r.ret = true)
    (hconc : r.pme_lb.stage = r.pme_lb.nstage) : r.pme_lb.cur = r.pme_lb.fastest := by
  have h0 : ConcludeInv (pme_loadbal_init ir box ic0 pmedata0 norm) := by
    refine ⟨?_, ?_⟩
    · intro a ha
      simp only [pme_loadbal_init, List.mem_singleton] at ha
      subst ha
      exact le_refl _
    · intro h
      simp [pme_loadbal_init] at h
  have hinv := run_concludeInv calls _ _ hrun h0 hcalls
  rcases pme_load_balance_cases _ _ _ _ _ _ _ hr with ⟨_, rfl⟩ | ⟨hst, set0, hget, hcase⟩
  · simp at hret
  · rcases hcase with ⟨_, rfl⟩ | ⟨_, hb⟩
    · exact absurd hconc hst
    · exact (timed_concludes_on_fastest _ _ _ _ _ _ _ hinv hc hst hget hb).2 hconc

/-- After the warm-up sample, the timed sample with a box that rejects the first
candidate ends the balancing on setup 0, the fastest. -/
theorem C5_concludes_on_fastest_witness : box_result.pme_lb.cur = box_result.pme_lb.fastest :=
  C5_concludes_on_fastest sample_ir sample_box sample_ic (some 0) sample_norm
    [Call.step 0 sample_env 100 sample_ic none] dd_start
    (by
      intro c hc fuel env cycles ic pmedata h
      simp only [List.mem_singleton] at hc
      subst hc
      cases h
      norm_num)
    (by decide!) 2 box_env 100 sample_ic none box_result (by norm_num) (by decide!)
    (by decide) (by decide)

/-! ## C6 -/

theorem genChain_getSetup_cases {s : pme_load_balancing} {env : Env} {l l' : List pme_setup_t}
    (h : GenChain s env l l') {i : Int} {a : pme_setup_t} (ha : getSetup l' i = .ok a) :
    getSetup l i = .ok a ∨ a.count = 0 := by
  induction h with
  | nil => exact Or.inl ha
  | snoc l' set _ hg ih =>
    rcases getSetup_append_cases ha with ha | ⟨_, rfl⟩
    · exact ih ha
    · obtain ⟨c, s0, sp, grid, _, _, _, _, _, _, rfl⟩ := hg
      exact Or.inr rfl

theorem minProp_genChain {s : pme_load_balancing} {env : Env} {l l' : List pme_setup_t}
    {F : Int} (h : GenChain s env l l') (hm : MinProp l F) : MinProp l' F := by
  obtain ⟨f, hf, hc, hmin⟩ := hm
  refine ⟨f, genChain_getSetup_old h hf, hc, ?_⟩
  intro i a ha hca
  rcases genChain_getSetup_cases h ha with ha | h0
  · exact hmin i a ha hca
  · omega

theorem getSetup_take_of_lt {l : List pme_setup_t} {k : Nat} {i : Int} {a : pme_setup_t}
    (h : getSetup l i = .ok a) (hk : i < k) : getSetup (l.take k) i = .ok a := by
  obtain ⟨h0, h1⟩ := getSetup_ok_iff.1 h
  refine getSetup_ok_iff.2 ⟨h0, ?_⟩
  rw [List.getElem?_take]
  rw [if_pos (by omega)]
  exact h1

theorem minProp_take {l : List pme_setup_t} {F : Int} (k : Nat) (hm : MinProp l F)
    (hk : F < k) : MinProp (l.take k) F := by
  obtain ⟨f, hf, hc, hmin⟩ := hm
  exact ⟨f, getSetup_take_of_lt hf hk, hc, fun i a ha hca => hmin i a (getSetup_take ha) hca⟩

theorem minProp_setSetup {l : List pme_setup_t} {F j : Int} {y x : pme_setup_t}
    (hm : MinProp l F) (hy : getSetup l j = .ok y) (hxc : 2 ≤ x.count ↔ 2 ≤ y.count)
    (hxy : x.cycles = y.cycles) : MinProp (setSetup l j x) F := by
  obtain ⟨f, hf, hc, hmin⟩ := hm
  have hj := (getSetup_lt hy).1
  by_cases hFj : F = j
  · subst hFj
    rw [hy] at hf
    simp only [Except.ok.injEq] at hf
    subst hf
    refine ⟨x, getSetup_setSetup_self _ _ _ _ hy, hxc.2 hc, ?_⟩
    intro i a ha hca
    rcases getSetup_setSetup_cases hj ha with ⟨_, rfl⟩ | ⟨_, ha⟩
    · exact le_refl _
    · rw [hxy]; exact hmin i a ha hca
  · refine ⟨f, by rw [getSetup_setSetup_ne _ _ _ _ hj hFj]; exact hf, hc, ?_⟩
    intro i a ha hca
    rcases getSetup_setSetup_cases hj ha with ⟨_, rfl⟩ | ⟨_, ha⟩
    · rw [hxy]; exact hmin j y hy (hxc.1 hca)
    · exact hmin i a ha hca

/-- Lines 364-394 of a timed call establish `MinProp` for the new `fastest`. -/
theorem minProp_after_update (s lb1 : pme_load_balancing) (set0 : pme_setup_t) (cycles : ℚ)
    (hinv : FastestInv s) (hget : getSetup s.setup s.cur = .ok set0)
    (hodd : set0.count % 2 = 1)
    (h1 : update_fastest
      { s with
        nstage := (record_cycles s { set0 with count := set0.count + 1 } cycles).1
        setup := setSetup s.setup s.cur
          (record_cycles s { set0 with count := set0.count + 1 } cycles).2 }
      (record_cycles s { set0 with count := set0.count + 1 } cycles).2 = .ok lb1) :
    MinProp lb1.setup lb1.fastest := by
  have hcur := (getSetup_lt hget).1
  have hself := getSetup_setSetup_self s.setup s.cur
    (record_cycles s { set0 with count := set0.count + 1 } cycles).2 _ hget
  have hcnt : (record_cycles s { set0 with count := set0.count + 1 } cycles).2.count
      = set0.count + 1 := by rw [record_cycles_count]
  have hle := (record_cycles_le s { set0 with count := set0.count + 1 } cycles).2
  simp only at hle
  obtain ⟨f1, hf1, hcase⟩ := update_fastest_spec _ _ _ h1
  simp only at hf1
  -- the entries of the new list
  have hold : ∀ i a, getSetup (setSetup s.setup s.cur
      (record_cycles s { set0 with count := set0.count + 1 } cycles).2) i = .ok a →
      (i = s.cur ∧ a = (record_cycles s { set0 with count := set0.count + 1 } cycles).2) ∨
      (i ≠ s.cur ∧ getSetup s.setup i = .ok a) := fun i a ha => getSetup_setSetup_cases hcur ha
  by_cases hfc : s.fastest = s.cur
  · -- the active setup is the fastest one
    rw [hfc, hself] at hf1
    simp only [Except.ok.injEq] at hf1
    subst hf1
    have hlb1 : lb1.setup = setSetup s.setup s.cur
          (record_cycles s { set0 with count := set0.count + 1 } cycles).2 ∧
        lb1.fastest = s.cur := by
      rcases hcase with ⟨hlt, _⟩ | ⟨_, rfl⟩
      · exact absurd hlt (lt_irrefl _)
      · exact ⟨rfl, hfc⟩
    rw [hlb1.1, hlb1.2]
    refine ⟨_, hself, by omega, ?_⟩
    intro i a ha hca
    rcases hold i a ha with ⟨_, rfl⟩ | ⟨hne, ha⟩
    · exact le_refl _
    · rcases hinv with ⟨f, hf, hfcnt, hmin⟩ | ⟨_, _, hnone⟩
      · rw [hfc, hget] at hf
        simp only [Except.ok.injEq] at hf
        subst hf
        exact le_trans (hle (by omega)) (hmin i a ha hca)
      · have := hnone a (mem_of_getSetup ha)
        omega
  · -- another setup is the fastest one, and it has been timed
    have hf1' : getSetup s.setup s.fastest = .ok f1 := by
      rw [getSetup_setSetup_ne _ _ _ _ hcur hfc] at hf1; exact hf1
    rcases hinv with ⟨f, hf, hfcnt, hmin⟩ | ⟨_, h, _⟩
    · rw [hf1'] at hf
      simp only [Except.ok.injEq] at hf
      subst hf
      rcases hcase with ⟨hlt, rfl⟩ | ⟨hlt, rfl⟩
      · refine ⟨_, hself, by omega, ?_⟩
        intro i a ha hca
        rcases hold i a ha with ⟨_, rfl⟩ | ⟨hne, ha⟩
        · exact le_refl _
        · exact le_trans (le_of_lt hlt) (hmin i a ha hca)
      · refine ⟨f1, hf1, hfcnt, ?_⟩
        intro i a ha hca
        rcases hold i a ha with ⟨_, rfl⟩ | ⟨hne, ha⟩
        · exact not_lt.1 hlt
        · exact hmin i a ha hca
    · exact absurd h hfc

/-- A timed call without the failsafe keeps `FastestMinInv` and leaves `fastest` on a
timed setup of minimal `cycles`. -/
theorem timed_fastest_min (fuel : Nat) (s : pme_load_balancing) (env : Env)
    (cycles : ℚ) (pmedata : Option Nat) (r : StepResult) (set0 : pme_setup_t)
    (hinv : FastestMinInv s) (hnf : ¬ FailsafeTaken fuel s env cycles)
    (hst : s.stage ≠ s.nstage) (hget : getSetup s.setup s.cur = .ok set0)
    (hodd : set0.count % 2 = 1)
    (hb : balance_timed fuel
      { s with
        nstage := (record_cycles s { set0 with count := set0.count + 1 } cycles).1
        setup := setSetup s.setup s.cur
          (record_cycles s { set0 with count := set0.count + 1 } cycles).2 }
      env (record_cycles s { set0 with count := set0.count + 1 } cycles).2 cycles pmedata
      = .ok r) :
    FastestMinInv r.pme_lb ∧ MinProp r.pme_lb.setup r.pme_lb.fastest := by
  obtain ⟨hn2, hfc, hfi⟩ := hinv
  have hcur0 := (getSetup_lt hget).1
  obtain ⟨lb1, f, lb2, lb3, lb4, lb5, h1, hf, h2, h3, h4, hsel, h5, h6⟩ :=
    balance_timed_phases _ _ _ _ _ _ _ hb
  have M1 := minProp_after_update s lb1 set0 cycles hfi hget hodd h1
  have hns := record_cycles_nstage s { set0 with count := set0.count + 1 } cycles
  have e1 : lb1.cur = s.cur ∧ lb1.stage = s.stage ∧ 2 ≤ lb1.nstage ∧
      (lb1.fastest = s.fastest ∨ lb1.fastest = s.cur) := by
    obtain ⟨_, _, hh⟩ := update_fastest_spec _ _ _ h1
    rcases hh with ⟨_, rfl⟩ | ⟨_, rfl⟩
    · refine ⟨rfl, rfl, ?_, Or.inr rfl⟩
      simp only; rcases hns with h | ⟨h, _⟩ <;> omega
    · refine ⟨rfl, rfl, ?_, Or.inl rfl⟩
      simp only; rcases hns with h | ⟨h, _⟩ <;> omega
  obtain ⟨e1c, e1s, e1n, e1f⟩ := e1
  have Q1 : lb1.stage = 0 → lb1.fastest ≤ lb1.cur := by
    intro h0
    rw [e1s] at h0
    have := hfc h0
    rw [e1c]
    rcases e1f with h | h <;> omega
  -- lines 400-472
  have G3 : MinProp lb3.setup lb3.fastest ∧ (lb3.stage = 0 → lb3.fastest ≤ lb3.cur) ∧
      2 ≤ lb3.nstage := by
    rcases scan_phase_cases _ _ _ _ _ _ _ h2 h3 with ⟨hne, rfl⟩ | ⟨h0, l1, m, hch, _, rfl⟩ |
        ⟨h0, l1, m, lim, hch, hsw⟩
    · exact ⟨M1, Q1, e1n⟩
    · refine ⟨minProp_genChain hch M1, fun _ => ?_, e1n⟩
      have := Q1 h0
      simp only
      omega
    · have hs := switch_to_stage1_setup _ _ hsw
      simp only at hs
      refine ⟨?_, fun h => ?_, ?_⟩
      · rw [hs.1, hs.2.2.2.2.1]
        apply minProp_take _ (minProp_genChain hch M1)
        have := Q1 h0
        omega
      · rw [hs.2.2.2.2.2.2.2.1] at h; omega
      · rw [hs.2.2.2.2.2.1]; exact e1n
  -- lines 474-505
  have G4 : MinProp lb4.setup lb4.fastest ∧ (lb4.stage = 0 → lb4.fastest ≤ lb4.cur) ∧
      2 ≤ lb4.nstage := by
    obtain ⟨hfr, _⟩ := refine_stage_frame _ _ _ _ h4
    have e4 : lb4.setup = lb3.setup ∧ lb4.fastest = lb3.fastest ∧ lb4.nstage = lb3.nstage := by
      rw [hfr]; exact ⟨rfl, rfl, rfl⟩
    refine ⟨by rw [e4.1, e4.2.1]; exact G3.1, ?_, by rw [e4.2.2]; exact G3.2.2⟩
    rcases refine_stage_spec _ _ _ _ h4 with ⟨_, _, rfl⟩ | ⟨hs, _, lb, hl, hr⟩ | ⟨_, rfl⟩
    · intro h
      simp only at h
      omega
    · obtain ⟨_, hle⟩ := refine_loop_frame _ _ _ _ hl
      rcases hr with ⟨_, rfl⟩ | ⟨_, rfl⟩
      · intro h
        simp only at h
        omega
      · intro h
        omega
    · exact G3.2.1
  -- lines 507-524
  have h5' : lb5 = lb4 := by
    rcases dd_reassert_spec _ _ _ h5 with h | ⟨hdd, hs, ⟨c, hc, hrej⟩, _⟩
    · exact h
    · exact absurd ⟨set0, lb4, c, hst, hget, hodd, hsel, hdd, hs, hc, hrej⟩ hnf
  subst h5'
  -- lines 526-577
  obtain ⟨_, a, ha, _, hres⟩ := apply_setup_spec _ _ _ _ h6
  have hfin : MinProp r.pme_lb.setup r.pme_lb.fastest ∧
      (r.pme_lb.stage = 0 → r.pme_lb.fastest ≤ r.pme_lb.cur) ∧ 2 ≤ r.pme_lb.nstage := by
    rcases hres with hres | ⟨hnd, _, hres⟩
    · rw [hres]; exact G4
    · rw [hres]
      exact ⟨minProp_setSetup G4.1 ha Iff.rfl rfl, G4.2.1, G4.2.2⟩
  exact ⟨⟨hfin.2.2, hfin.2.1, Or.inl hfin.1⟩, hfin.1⟩

theorem warmup_fastestInv (s : pme_load_balancing) (set0 : pme_setup_t)
    (hinv : FastestInv s) (hget : getSetup s.setup s.cur = .ok set0)
    (hev : set0.count % 2 = 0) :
    FastestInv { s with
      setup := setSetup s.setup s.cur { set0 with count := set0.count + 1 } } := by
  have hcur := (getSetup_lt hget).1
  rcases hinv with hm | ⟨⟨f, hf⟩, hfc, hnone⟩
  · left
    exact minProp_setSetup hm hget (by simp only; omega) rfl
  · right
    refine ⟨?_, hfc, ?_⟩
    · simp only
      rw [hfc]
      exact ⟨_, getSetup_setSetup_self _ _ _ _ hget⟩
    · intro a ha
      simp only [setSetup] at ha
      rcases List.mem_or_eq_of_mem_set ha with ha | rfl
      · exact hnone a ha
      · have := hnone set0 (mem_of_getSetup hget)
        simp only
        omega

theorem exec_fastestMinInv (s s' : pme_load_balancing) (c : Call) (h : exec s c = .ok s')
    (hinv : FastestMinInv s) (hc : NoFailsafeCall s c) : FastestMinInv s' := by
  cases c with
  | step fuel env cycles ic pmedata =>
    simp only [exec] at h
    cases hr : pme_load_balance fuel s env cycles ic pmedata with
    | error e => simp [hr] at h
    | ok r =>
      simp only [hr, Except.ok.injEq] at h
      subst h
      rcases pme_load_balance_cases _ _ _ _ _ _ _ hr with ⟨_, rfl⟩ | ⟨hst, set0, hget, hcase⟩
      · exact hinv
      · rcases hcase with ⟨hev, rfl⟩ | ⟨hodd, hb⟩
        · exact ⟨hinv.1, hinv.2.1, warmup_fastestInv s set0 hinv.2.2 hget hev⟩
        · exact (timed_fastest_min _ _ _ _ _ _ _ hinv hc hst hget hodd hb).1
  | restart n =>
    simp only [exec, Except.ok.injEq] at h
    subst h
    have hn : 0 ≤ n := hc
    refine ⟨?_, hinv.2.1, hinv.2.2⟩
    simp only [restart_pme_loadbal]
    have := hinv.1
    omega

theorem run_fastestMinInv (calls : List Call) (s s' : pme_load_balancing)
    (h : run s calls = .ok s') (hinv : FastestMinInv s) (hc : NoFailsafeRun s calls) :
    FastestMinInv s' := by
  induction calls generalizing s with
  | nil =>
    simp only [run, Except.ok.injEq] at h
    subst h; exact hinv
  | cons c cs ih =>
    simp only [run] at h
    cases hx : exec s c with
    | error e => simp [hx] at h
    | ok t =>
      simp only [hx] at h
      exact ih t h (exec_fastestMinInv _ _ _ hx hinv hc.1) (hc.2 t hx)

/-- C6 (`fastest` is the global minimum): start from `pme_loadbal_init` and make any
calls none of which takes the failsafe path of lines 512-522 (restarts add stages).
After a further such call that times a sample, `setup[fastest]` has `count >= 2` and
its `cycles` is at most the `cycles` of every setup of the list with `count >= 2`. -/
theorem C6_fastest_is_minimum (ir : t_inputrec) (box : matrix) (ic0 : interaction_const_t)
    (pmedata0 : Option Nat) (norm : rvec → ℚ) (calls : List Call) (s : pme_load_balancing)
    (hcalls : NoFailsafeRun (pme_loadbal_init ir box ic0 pmedata0 norm) calls)
    (hrun : run (pme_loadbal_init ir box ic0 pmedata0 norm) calls = .ok s)
    (fuel : Nat) (env : Env) (cycles : ℚ) (ic : interaction_const_t) (pmedata : Option Nat)
    (r : StepResult) (set0 : pme_setup_t)
    (hnf : ¬ FailsafeTaken fuel s env cycles)
    (hst : s.stage ≠ s.nstage) (hget : getSetup s.setup s.cur = .ok set0)
    (hodd : set0.count % 2 = 1)
    (hr : pme_load_balance fuel s env cycles ic pmedata = .ok r) :
    ∃ f, getSetup r.pme_lb.setup r.pme_lb.fastest = .ok f ∧ 2 ≤ f.count ∧
      ∀ i a, getSetup r.pme_lb.setup i = .ok a → 2 ≤ a.count → f.cycles ≤ a.cycles := by
  have h0 : FastestMinInv (pme_loadbal_init ir box ic0 pmedata0 norm) := by
    refine ⟨by simp [pme_loadbal_init], fun _ => by simp [pme_loadbal_init], Or.inr ?_⟩
    refine ⟨⟨_, by simp [pme_loadbal_init, getSetup]; rfl⟩, by simp [pme_loadbal_init], ?_⟩
    intro a ha
    simp only [pme_loadbal_init, List.mem_singleton] at ha
    subst ha
    simp
  have hinv := run_fastestMinInv calls _ _ hrun h0 hcalls
  rcases pme_load_balance_cases _ _ _ _ _ _ _ hr with ⟨hc, _⟩ | ⟨_, set0', hget', hcase⟩
  · exact absurd hc hst
  · rw [hget] at hget'
    simp only [Except.ok.injEq] at hget'
    subst hget'
    rcases hcase with ⟨hev, _⟩ | ⟨_, hb⟩
    · omega
    · exact (timed_fastest_min _ _ _ _ _ _ _ hinv hnf hst hget hodd hb).2

theorem sample_env_no_failsafe (fuel : Nat) (s : pme_load_balancing) (cycles : ℚ) :
    ¬ FailsafeTaken fuel s sample_env cycles := by
  intro h
  obtain ⟨_, _, _, _, _, _, _, _, _, _, h⟩ := h
  simp [sample_env] at h

/-- After the warm-up and the timed sample of the sample run, `fastest` is setup 0,
the only timed one. -/
theorem C6_fastest_is_minimum_witness :
    ∃ f, getSetup scan_result.pme_lb.setup scan_result.pme_lb.fastest = .ok f ∧ 2 ≤ f.count ∧
      ∀ i a, getSetup scan_result.pme_lb.setup i = .ok a → 2 ≤ a.count → f.cycles ≤ a.cycles :=
  C6_fastest_is_minimum sample_ir sample_box sample_ic (some 0) sample_norm
    [Call.step 0 sample_env 100 sample_ic none] dd_start
    ⟨sample_env_no_failsafe 0 _ 100, fun _ _ => trivial⟩ (by decide!)
    2 sample_env 100 sample_ic none scan_result { sample_set0 with count := 1, cycles := 0 }
    (sample_env_no_failsafe 2 _ 100) (by decide) (by decide!) (by decide) (by decide!)

/-! ## C7 -/

theorem warmup_pending_le (s : pme_load_balancing) :
    0 ≤ warmup_pending s ∧ warmup_pending s ≤ 1 := by
  unfold warmup_pending
  split
  · constructor <;> omega
  · constructor <;> omega

theorem warmup_pending_of_get (s : pme_load_balancing) (a : pme_setup_t)
    (h : getSetup s.setup s.cur = .ok a) : warmup_pending s = ((a.count % 2 : Nat) : Int) := by
  unfold warmup_pending
  rw [h]

theorem warmup_pending_allEven (s : pme_load_balancing) (h : AllEven s.setup) :
    warmup_pending s = 0 := by
  unfold warmup_pending
  split
  · rename_i a ha
    have := h a (mem_of_getSetup ha)
    omega
  · rfl

theorem calls_left_pos (N : Int) (s : pme_load_balancing) (hinv : TerminationInv N s)
    (hst : s.stage ≠ s.nstage) : 0 < calls_left N s := by
  obtain ⟨hn, hN, _, hcase⟩ := hinv
  have hp := warmup_pending_le s
  unfold calls_left
  rcases hcase with ⟨h0, hc0, hc1⟩ | ⟨h1, hc0, hc1, _⟩ | h2
  · rw [if_pos h0]; omega
  · rw [if_neg (by omega), if_pos h1]; omega
  · omega

theorem calls_left_stage0 (N : Int) (s : pme_load_balancing) (h : s.stage = 0) :
    calls_left N s = 2 * N + 2 * (N - s.cur) - warmup_pending s := by
  unfold calls_left; rw [if_pos h]

theorem calls_left_stage1 (N : Int) (s : pme_load_balancing) (h : s.stage = 1) :
    calls_left N s = 2 * (s.end_ - s.cur) - warmup_pending s := by
  unfold calls_left; rw [if_neg (by omega), if_pos h]

theorem calls_left_stage2 (N : Int) (s : pme_load_balancing) (h : s.stage = 2) :
    calls_left N s = 0 := by
  unfold calls_left; rw [if_neg (by omega), if_neg (by omega)]

/-- A timed call of a run as C7 assumes it keeps the invariant and lowers
`calls_left`. -/
theorem timed_calls_left (N : Int) (fuel : Nat) (s : pme_load_balancing) (env : Env)
    (cycles : ℚ) (pmedata : Option Nat) (r : StepResult) (set0 : pme_setup_t)
    (hinv : TerminationInv N s) (hnf : ¬ FailsafeTaken fuel s env cycles)
    (hst : s.stage ≠ s.nstage) (hget : getSetup s.setup s.cur = .ok set0)
    (hodd : set0.count % 2 = 1)
    (hb : balance_timed fuel
      { s with
        nstage := (record_cycles s { set0 with count := set0.count + 1 } cycles).1
        setup := setSetup s.setup s.cur
          (record_cycles s { set0 with count := set0.count + 1 } cycles).2 }
      env (record_cycles s { set0 with count := set0.count + 1 } cycles).2 cycles pmedata
      = .ok r)
    (hrN : r.pme_lb.n ≤ N) (hrn : r.pme_lb.nstage = s.nstage)
    (hall : AllEven r.pme_lb.setup) :
    TerminationInv N r.pme_lb ∧ calls_left N r.pme_lb + 1 ≤ calls_left N s := by
  obtain ⟨hn2, hsN, _, hcase⟩ := hinv
  have hlt0 := getSetup_lt hget
  have hws : warmup_pending s = 1 := by
    rw [warmup_pending_of_get s set0 hget, hodd]; rfl
  have hwr : warmup_pending r.pme_lb = 0 := warmup_pending_allEven _ hall
  obtain ⟨lb1, f, lb2, lb3, lb4, lb5, h1, hf, h2, h3, h4, hsel, h5, h6⟩ :=
    balance_timed_phases _ _ _ _ _ _ _ hb
  have e1 : lb1.cur = s.cur ∧ lb1.stage = s.stage ∧ lb1.end_ = s.end_ ∧
      (lb1.setup.length : Int) = s.n := by
    obtain ⟨_, _, hh⟩ := update_fastest_spec _ _ _ h1
    rcases hh with ⟨_, rfl⟩ | ⟨_, rfl⟩ <;>
      exact ⟨rfl, rfl, rfl, by simp [setSetup, pme_load_balancing.n]⟩
  obtain ⟨e1c, e1s, e1e, e1l⟩ := e1
  -- no failsafe
  have h5' : lb5 = lb4 := by
    rcases dd_reassert_spec _ _ _ h5 with h | ⟨hdd, hs, ⟨c, hc, hrej⟩, _⟩
    · exact h
    · exact absurd ⟨set0, lb4, c, hst, hget, hodd, hsel, hdd, hs, hc, hrej⟩ hnf
  subst h5'
  -- lines 526-577
  obtain ⟨_, a, ha, _, hres⟩ := apply_setup_spec _ _ _ _ h6
  have hlta := getSetup_lt ha
  have er : r.pme_lb.stage = lb5.stage ∧ r.pme_lb.nstage = lb5.nstage ∧
      r.pme_lb.cur = lb5.cur ∧ r.pme_lb.end_ = lb5.end_ ∧
      r.pme_lb.n = lb5.setup.length := by
    rcases hres with hres | ⟨hnd, _, hres⟩ <;> rw [hres] <;>
      simp [setSetup, pme_load_balancing.n]
  obtain ⟨ers, ern, erc, ere, erl⟩ := er
  have hoe : OthersEven r.pme_lb := allEven_others hall
  -- lines 474-505 keep `nstage` and the list
  obtain ⟨hfr4, _⟩ := refine_stage_frame _ _ _ _ h4
  have e4 : lb5.nstage = lb3.nstage ∧ lb5.setup = lb3.setup ∧ lb5.end_ = lb3.end_ := by
    rw [hfr4]; exact ⟨rfl, rfl, rfl⟩
  obtain ⟨e4n, e4l, e4e⟩ := e4
  rcases scan_phase_cases _ _ _ _ _ _ _ h2 h3 with ⟨hne, rfl⟩ | ⟨h0, l1, m, hch, hm, rfl⟩ |
      ⟨h0, l1, m, lim, hch, hsw⟩
  · -- a later stage: stage 1
    have hs1 : s.stage = 1 ∧ 0 ≤ s.cur ∧ s.cur < s.end_ ∧ s.end_ ≤ s.n := by
      rcases hcase with ⟨h, _⟩ | h | h
      · rw [e1s] at hne; exact absurd h hne
      · exact h
      · omega
    obtain ⟨hs1, hc0, hc1, hc2⟩ := hs1
    have hns : lb3.nstage = 2 := by rw [← e4n, ← ern, hrn, hn2]
    rw [calls_left_stage1 N s hs1, hws]
    rcases refine_stage_spec _ _ _ _ h4 with ⟨_, _, rfl⟩ | ⟨_, _, lb, hl, hr⟩ | ⟨hn, _⟩
    · have hr2 : r.pme_lb.stage = 2 := by rw [ers]; exact hns
      refine ⟨⟨by rw [hrn, hn2], hrN, hoe, Or.inr (Or.inr hr2)⟩, ?_⟩
      rw [calls_left_stage2 N _ hr2]; omega
    · obtain ⟨hfr, _⟩ := refine_loop_frame _ _ _ _ hl
      have hlast := refine_loop_last_stage _ _ _ _ hl (by rw [hns, e1s, hs1]; rfl)
      have hlbn : lb.nstage = 2 := by rw [hfr]; exact hns
      rcases hlast with ⟨hst', hlo, hhi⟩ | hst'
      · have hne' : lb.stage ≠ lb.nstage := by rw [hst', e1s, hs1, hlbn]; omega
        rcases hr with ⟨he, _⟩ | ⟨_, rfl⟩
        · exact absurd he hne'
        · have hr1 : r.pme_lb.stage = 1 := by rw [ers, hst', e1s, hs1]
          have hhi' := hhi (by rw [e1c, e1e]; exact hc1)
          rw [e1c] at hlo
          rw [e1e] at hhi'
          have hend : r.pme_lb.end_ = s.end_ := by rw [ere, e4e, e1e]
          have hrl : r.pme_lb.n = s.n := by rw [erl, e4l, e1l]
          refine ⟨⟨by rw [hrn, hn2], hrN, hoe, Or.inr (Or.inl ⟨hr1, ?_, ?_, ?_⟩)⟩, ?_⟩
          · rw [erc]; omega
          · rw [erc, hend]; exact hhi'
          · rw [hend, hrl]; exact hc2
          · rw [calls_left_stage1 N _ hr1, hwr, erc, hend]; omega
      · rcases hr with ⟨_, rfl⟩ | ⟨hne', _⟩
        · have hr2 : r.pme_lb.stage = 2 := by rw [ers]; simp only; rw [hst', hns]
          refine ⟨⟨by rw [hrn, hn2], hrN, hoe, Or.inr (Or.inr hr2)⟩, ?_⟩
          rw [calls_left_stage2 N _ hr2]; omega
        · rw [hlbn] at hne'
          rw [hns] at hst'
          exact absurd hst' hne'
    · exfalso
      apply hn
      rw [e1s, e1e]
      omega
  · -- the scan goes on in stage 0
    have hs0 : s.stage = 0 := by rw [← e1s]; exact h0
    have h45 : lb5.stage = 0 ∧ lb5.cur = lb1.cur + m := by
      rcases refine_stage_spec _ _ _ _ h4 with ⟨h, _, _⟩ | ⟨h, _, _⟩ | ⟨_, rfl⟩
      · simp only at h; omega
      · simp only at h; omega
      · exact ⟨h0, rfl⟩
    have hr0 : r.pme_lb.stage = 0 := by rw [ers]; exact h45.1
    have hrc : r.pme_lb.cur = s.cur + m := by rw [erc, h45.2, e1c]
    refine ⟨⟨by rw [hrn, hn2], hrN, hoe, Or.inl ⟨hr0, ?_, ?_⟩⟩, ?_⟩
    · rw [hrc]; omega
    · rw [erc, erl]; exact hlta.2
    · rw [calls_left_stage0 N _ hr0, calls_left_stage0 N s hs0, hwr, hws, hrc]
      have : (1 : Int) ≤ m := by exact_mod_cast hm
      omega
  · -- the scan ends: stage 1 is entered
    have hs0 : s.stage = 0 := by rw [← e1s]; exact h0
    have hsc : s.cur < s.n := by unfold pme_load_balancing.n; exact hlt0.2
    obtain ⟨start, e, hlb3, hst0, hst1, hend⟩ := switch_to_stage1_spec _ _ hsw
    have he := stage1_end_le _ _ hend
    obtain ⟨last, hlast, _⟩ := stage1_end_spec _ _ hend
    have hXn := getSetup_lt hlast
    simp only [pme_load_balancing.n] at he hst1 hXn
    have hns : lb3.nstage = 2 := by rw [← e4n, ← ern, hrn, hn2]
    have h3s : lb3.stage = 1 ∧ lb3.cur = start - 1 ∧ lb3.end_ = e ∧
        lb3.setup = l1.take (lb1.cur + m + 1).toNat := by
      rw [hlb3]; exact ⟨rfl, rfl, rfl, rfl⟩
    obtain ⟨h3st, h3c, h3e, h3l⟩ := h3s
    have hrl : r.pme_lb.n = (l1.take (lb1.cur + m + 1).toNat).length := by
      rw [erl, e4l, h3l]
    rw [calls_left_stage0 N s hs0, hws]
    rcases refine_stage_spec _ _ _ _ h4 with ⟨_, _, rfl⟩ | ⟨_, _, lb, hl, hr⟩ | ⟨hn, rfl⟩
    · have hr2 : r.pme_lb.stage = 2 := by rw [ers]; exact hns
      refine ⟨⟨by rw [hrn, hn2], hrN, hoe, Or.inr (Or.inr hr2)⟩, ?_⟩
      rw [calls_left_stage2 N _ hr2]; omega
    · obtain ⟨hfr, _⟩ := refine_loop_frame _ _ _ _ hl
      have hlast := refine_loop_last_stage _ _ _ _ hl (by rw [hns, h3st]; rfl)
      have hlbn : lb.nstage = 2 := by rw [hfr]; exact hns
      rcases hlast with ⟨hst', hlo, hhi⟩ | hst'
      · have hne' : lb.stage ≠ lb.nstage := by rw [hst', h3st, hlbn]; omega
        rcases hr with ⟨he', _⟩ | ⟨_, rfl⟩
        · exact absurd he' hne'
        · have hr1 : r.pme_lb.stage = 1 := by rw [ers, hst', h3st]
          rw [h3c] at hlo
          rw [h3c, h3e] at hhi
          have hhi' := hhi (by omega)
          have hend' : r.pme_lb.end_ = e := by rw [ere, e4e, h3e]
          refine ⟨⟨by rw [hrn, hn2], hrN, hoe, Or.inr (Or.inl ⟨hr1, ?_, ?_, ?_⟩)⟩, ?_⟩
          · rw [erc]; omega
          · rw [erc, hend']; exact hhi'
          · rw [hend', hrl]; exact he.1
          · rw [calls_left_stage1 N _ hr1, hwr, erc, hend']
            rw [hrl] at hrN
            omega
      · rcases hr with ⟨_, rfl⟩ | ⟨hne', _⟩
        · have hr2 : r.pme_lb.stage = 2 := by rw [ers]; simp only; rw [hst', hns]
          refine ⟨⟨by rw [hrn, hn2], hrN, hoe, Or.inr (Or.inr hr2)⟩, ?_⟩
          rw [calls_left_stage2 N _ hr2]; omega
        · rw [hlbn] at hne'
          rw [hns] at hst'
          exact absurd hst' hne'
    · -- an empty range would leave `cur = -1`, which is no index
      exfalso
      rw [h3c] at hlta
      have : ¬ (1 ≤ e) := fun h => hn ⟨by rw [h3st]; omega, by rw [h3e]; exact h⟩
      omega

/-- Every call on a controller that has not finished lowers `calls_left`. -/
theorem step_calls_left (N : Int) (fuel : Nat) (s : pme_load_balancing) (env : Env)
    (cycles : ℚ) (ic : interaction_const_t) (pmedata : Option Nat) (r : StepResult)
    (hinv : TerminationInv N s) (hnf : ¬ FailsafeTaken fuel s env cycles)
    (hst : s.stage ≠ s.nstage)
    (hr : pme_load_balance fuel s env cycles ic pmedata = .ok r)
    (hrN : r.pme_lb.n ≤ N) (hrn : r.pme_lb.nstage = s.nstage) :
    TerminationInv N r.pme_lb ∧ calls_left N r.pme_lb + 1 ≤ calls_left N s := by
  have hpar := step_parity _ _ _ _ _ _ _ hr hinv.2.2.1
  rcases pme_load_balance_cases _ _ _ _ _ _ _ hr with ⟨hc, _⟩ | ⟨_, set0, hget, hcase⟩
  · exact absurd hc hst
  · rcases hcase with ⟨hev, rfl⟩ | ⟨hodd, hb⟩
    · obtain ⟨hn2, hsN, _, hcase⟩ := hinv
      have hws : warmup_pending s = 0 := by
        rw [warmup_pending_of_get s set0 hget, hev]; rfl
      have hwr : warmup_pending { s with
          setup := setSetup s.setup s.cur { set0 with count := set0.count + 1 } } = 1 := by
        rw [warmup_pending_of_get _ _ (getSetup_setSetup_self _ _ _ _ hget)]
        have : (set0.count + 1) % 2 = 1 := by omega
        simp only
        rw [this]; rfl
      have hlen : (setSetup s.setup s.cur { set0 with count := set0.count + 1 }).length
          = s.setup.length := by simp [setSetup]
      refine ⟨⟨hn2, hrN, hpar.1, ?_⟩, ?_⟩
      · simp only [pme_load_balancing.n, hlen]
        exact hcase
      · rcases hcase with ⟨h0, _⟩ | ⟨h1, _⟩ | h2
        · have e1 := calls_left_stage0 N { s with
            setup := setSetup s.setup s.cur { set0 with count := set0.count + 1 } } h0
          have e2 := calls_left_stage0 N s h0
          simp only at e1 ⊢
          rw [e1, e2, hws, hwr]; omega
        · have e1 := calls_left_stage1 N { s with
            setup := setSetup s.setup s.cur { set0 with count := set0.count + 1 } } h1
          have e2 := calls_left_stage1 N s h1
          simp only at e1 ⊢
          rw [e1, e2, hws, hwr]; omega
        · omega
    · exact timed_calls_left N _ _ _ _ _ _ _ hinv hnf hst hget hodd hb hrN hrn
        (hpar.2 (Or.inr ⟨hst, set0, hget, hodd⟩))

theorem run_concluded (N : Int) (calls : List Call) (s s' : pme_load_balancing)
    (hst : s.stage = s.nstage) (hb : BoundedRun N s calls) (h : run s calls = .ok s') :
    s' = s := by
  induction calls generalizing s with
  | nil =>
    simp only [run, Except.ok.injEq] at h
    exact h.symm
  | cons c cs ih =>
    obtain ⟨⟨fuel, env, cycles, ic, pmedata, rfl, _, _⟩, hnext⟩ := hb
    have hstep := pme_load_balance_concluded s hst fuel env cycles ic pmedata
    have hx : exec s (Call.step fuel env cycles ic pmedata) = .ok s := by
      simp only [exec, hstep]
    simp only [run, hx] at h
    exact ih s hst (hnext s hx).2 h

/-- Along a run as C7 assumes it, the controller has finished or `calls_left` has gone
down by the number of calls. -/
theorem run_calls_left (N : Int) (calls : List Call) (s s' : pme_load_balancing)
    (hinv : TerminationInv N s) (hb : BoundedRun N s calls) (h : run s calls = .ok s') :
    TerminationInv N s' ∧
    (s'.stage = s'.nstage ∨ calls_left N s' + calls.length ≤ calls_left N s) := by
  induction calls generalizing s with
  | nil =>
    simp only [run, Except.ok.injEq] at h
    subst h
    exact ⟨hinv, Or.inr (by simp)⟩
  | cons c cs ih =>
    by_cases hst : s.stage = s.nstage
    · have := run_concluded N _ s s' hst hb h
      subst this
      exact ⟨hinv, Or.inl hst⟩
    · obtain ⟨⟨fuel, env, cycles, ic, pmedata, rfl, _, hnf⟩, hnext⟩ := hb
      simp only [run] at h
      cases hx : exec s (Call.step fuel env cycles ic pmedata) with
      | error e => simp [hx] at h
      | ok t =>
        simp only [hx] at h
        obtain ⟨⟨htN, htn⟩, hbt⟩ := hnext t hx
        simp only [exec] at hx
        cases hr : pme_load_balance fuel s env cycles ic pmedata with
        | error e => simp [hr] at hx
        | ok r =>
          simp only [hr, Except.ok.injEq] at hx
          subst hx
          obtain ⟨hinvt, hdec⟩ := step_calls_left N _ _ _ _ _ _ _ hinv hnf hst hr htN htn
          obtain ⟨hinv', hres⟩ := ih r.pme_lb hinvt hbt h
          refine ⟨hinv', ?_⟩
          rcases hres with h1 | h1
          · exact Or.inl h1
          · right
            simp only [List.length_cons]
            push_cast
            omega

/-- A run of step calls from `pme_loadbal_init` that has returned, with non-negative costs,
none taking the failsafe path, such that after every call the list has at most `N` setups
and `nstage` is unchanged: once `2 * N * nstage` calls (`nstage = 2`) have been made the
controller has `stage == nstage`, and every further call returns FALSE and changes
nothing. -/
theorem run_concludes (N : Nat) (ir : t_inputrec) (box : matrix)
    (ic0 : interaction_const_t) (pmedata0 : Option Nat) (norm : rvec → ℚ)
    (calls : List Call) (s : pme_load_balancing)
    (hN : 1 ≤ N)
    (hcalls : BoundedRun N (pme_loadbal_init ir box ic0 pmedata0 norm) calls)
    (hrun : run (pme_loadbal_init ir box ic0 pmedata0 norm) calls = .ok s)
    (hlen : 2 * (N : Int) * (pme_loadbal_init ir box ic0 pmedata0 norm).nstage
      ≤ calls.length) :
    s.stage = s.nstage ∧
    ∀ fuel env cycles ic pmedata,
      pme_load_balance fuel s env cycles ic pmedata
        = .ok { pme_lb := s, ic := ic, pmedata := pmedata, ret := false } := by
  have h0 : TerminationInv N (pme_loadbal_init ir box ic0 pmedata0 norm) := by
    refine ⟨rfl, ?_, ?_, Or.inl ⟨rfl, le_refl _, ?_⟩⟩
    · simp only [pme_load_balancing.n, pme_loadbal_init, List.length_singleton]
      exact_mod_cast hN
    · intro i a ha _
      have := mem_of_getSetup ha
      simp only [pme_loadbal_init, List.mem_singleton] at this
      subst this
      rfl
    · simp [pme_load_balancing.n, pme_loadbal_init]
  obtain ⟨hinv, hres⟩ := run_calls_left N calls _ s h0 hcalls hrun
  have hconc : s.stage = s.nstage := by
    rcases hres with h | h
    · exact h
    · by_contra hne
      have hpos := calls_left_pos N s hinv hne
      have hinit : calls_left N (pme_loadbal_init ir box ic0 pmedata0 norm) = 4 * N := by
        rw [calls_left_stage0 N _ rfl]
        have : warmup_pending (pme_loadbal_init ir box ic0 pmedata0 norm) = 0 := by
          simp [warmup_pending, pme_loadbal_init, getSetup]
        rw [this]
        simp only [pme_loadbal_init]
        ring
      have hns : (pme_loadbal_init ir box ic0 pmedata0 norm).nstage = 2 := rfl
      rw [hns] at hlen
      rw [hinit] at h
      omega
  exact ⟨hconc, pme_load_balance_concluded s hconc⟩

theorem boundedRun_of_check (N : Int) (calls : List Call) (s : pme_load_balancing)
    (h : bounded_check N s calls = true) : BoundedRun N s calls := by
  induction calls generalizing s with
  | nil => trivial
  | cons c cs ih =>
    cases c with
    | restart n => simp [bounded_check] at h
    | step fuel env cycles ic pmedata =>
      simp only [bounded_check, Bool.and_eq_true, decide_eq_true_eq, Bool.not_eq_true'] at h
      obtain ⟨⟨hc, hdd⟩, hrest⟩ := h
      refine ⟨⟨fuel, env, cycles, ic, pmedata, rfl, hc, ?_⟩, ?_⟩
      · intro hf
        obtain ⟨_, _, _, _, _, _, _, hd, _⟩ := hf
        rw [hdd] at hd
        simp at hd
      · intro t ht
        rw [ht] at hrest
        simp only [Bool.and_eq_true, decide_eq_true_eq] at hrest
        exact ⟨⟨hrest.1.1, hrest.1.2⟩, ih t hrest.2⟩

/-! ## C11 -/

theorem getSetup_cons_zero (a : pme_setup_t) (l : List pme_setup_t) :
    getSetup (a :: l) 0 = .ok a := by
  simp [getSetup]

theorem getSetup_cons_one (a b : pme_setup_t) (l : List pme_setup_t) :
    getSetup (a :: b :: l) 1 = .ok b := by
  simp [getSetup]

/-- When the generator returns TRUE: the search ended with a grid and the new setup is
appended. -/
theorem increase_cutoff_true (fuel : Nat) (s g : pme_load_balancing) (env : Env) (po : Int)
    (h : pme_loadbal_increase_cutoff fuel s env po = .ok (g, true)) :
    ∃ c res s0, getSetup s.setup s.cur = .ok c ∧
      increase_cutoff_search env s.box_start c.spacing po fuel 1 = .ok (some res) ∧
      getSetup s.setup 0 = .ok s0 ∧
      g = { s with setup := s.setup ++ [new_setup s env s0 res.1 res.2] } := by
  unfold pme_loadbal_increase_cutoff at h
  cases hc : getSetup s.setup s.cur with
  | error e => simp [hc] at h
  | ok c =>
    simp only [hc] at h
    cases hs : increase_cutoff_search env s.box_start c.spacing po fuel 1 with
    | error e => simp [hs] at h
    | ok o =>
      cases o with
      | none => simp [hs] at h
      | some res =>
        simp only [hs] at h
        cases h0 : getSetup s.setup 0 with
        | error e => simp [h0] at h
        | ok s0 =>
          simp only [h0, Except.ok.injEq, Prod.mk.injEq, and_true] at h
          exact ⟨c, res, s0, rfl, hs, rfl, h.symm⟩

theorem dd_reassert_accept (s : pme_load_balancing) (env : Env) (set : pme_setup_t)
    (hget : getSetup s.setup s.cur = .ok set)
    (h : env.domaindecomp = false ∨ env.change_dd_cutoff set.rlist = true) :
    dd_reassert s env = .ok s := by
  unfold dd_reassert
  rcases h with h | h
  · simp [h]
  · simp [hget, h]

/-- With `setup[cur]` and `setup[0]` in the list, lines 526-577 return. -/
theorem apply_setup_ok (s : pme_load_balancing) (env : Env) (pmedata : Option Nat)
    (set s0 : pme_setup_t) (hget : getSetup s.setup s.cur = .ok set)
    (h0 : getSetup s.setup 0 = .ok s0) :
    ∃ r, apply_setup s env pmedata = .ok r ∧ r.ret = true ∧
      r.ic = { rcoulomb := set.rcut, rlist := set.rlist, ewaldcoeff := set.ewaldcoeff } ∧
      (r.pme_lb = s ∨
       ∃ hnd, r.pme_lb = { s with setup := setSetup s.setup s.cur { set with pmedata := some hnd } }) := by
  unfold apply_setup
  simp only [hget, h0]
  by_cases hd : env.duty_pme = true
  · simp only [hd, if_true]
    cases hp : set.pmedata with
    | some hnd => exact ⟨_, rfl, rfl, rfl, Or.inl rfl⟩
    | none => exact ⟨_, rfl, rfl, rfl, Or.inr ⟨_, rfl⟩⟩
  · simp only [hd]
    exact ⟨_, rfl, rfl, rfl, Or.inl rfl⟩

theorem first_timed_box_limit (fuel : Nat) (s g : pme_load_balancing) (env : Env) (c : ℚ)
    (ic : interaction_const_t) (pm : Option Nat) (set1 cand : pme_setup_t)
    (hs : s.setup = [set1]) (hcur : s.cur = 0) (hf : s.fastest = 0) (hst : s.stage = 0)
    (hn : s.nstage = 2) (he : s.end_ = 0) (hcnt : set1.count = 1)
    (hpbc : env.ir.ePBC ≠ PBC.epbcNONE) (hc : 0 ≤ c)
    (hdd : env.domaindecomp = false ∨ env.change_dd_cutoff set1.rlist = true)
    (hgen : pme_loadbal_increase_cutoff fuel s env env.ir.pme_order = .ok (g, true))
    (hcand : getSetup g.setup 1 = .ok cand)
    (hbox : env.max_cutoff2 < cand.rlist * cand.rlist) :
    ∃ r, pme_load_balance fuel s env c ic pm = .ok r ∧ r.ret = true ∧ r.pme_lb.n = 1 ∧
      r.pme_lb.elimited = Limit.epmelblimBOX ∧ r.pme_lb.stage = r.pme_lb.nstage ∧
      r.pme_lb.cur = 0 ∧
      r.ic = { rcoulomb := set1.rcut, rlist := set1.rlist, ewaldcoeff := set1.ewaldcoeff } := by
  obtain ⟨c0, res, s0, hc0, hsearch, hs0, hg⟩ := increase_cutoff_true _ _ _ _ _ hgen
  rw [hs, hcur, getSetup_cons_zero] at hc0
  rw [hs, getSetup_cons_zero] at hs0
  cases hc0
  cases hs0
  subst hg
  simp only [hs, List.singleton_append, getSetup_cons_one, Except.ok.injEq] at hcand
  subst hcand
  cases fuel with
  | zero => simp [increase_cutoff_search] at hsearch
  | succ k =>
    have hslow : ¬ (c > c * PME_LB_SLOW_FAC) := by
      unfold PME_LB_SLOW_FAC
      intro h
      linarith
    have hbox' := not_le.mpr hbox
    simp only [new_setup] at hbox'
    unfold pme_load_balance balance_timed select_setup
    simp [hs, hcur, hst, hn, hf, he, getSetup_cons_zero, hcnt, setSetup, record_cycles,
      update_fastest, scan_exit_check, scan_stage, scan_advance, scan_body, scan_next_setup,
      pme_load_balancing.n, pme_loadbal_increase_cutoff, hsearch, scan_box_check, hpbc,
      getSetup_cons_one, new_setup, hbox', scan_dd_check, scan_limit, print_loadbal_limited,
      pme_loadbal_end, switch_to_stage1, stage1_start_up, stage1_start_down, stage1_end, hslow,
      refine_stage]
    rw [dd_reassert_accept _ env { set1 with count := 2, cycles := c } (getSetup_cons_zero _ _) hdd]
    simp only
    obtain ⟨r, hr, hret, hic, hlb⟩ := apply_setup_ok
      { nstage := 2, cut_spacing := s.cut_spacing, rbuf := s.rbuf, box_start := s.box_start,
        setup := [{ set1 with count := 2, cycles := c }],
        cur := 0, fastest := 0, start := 0, end_ := 1, elimited := Limit.epmelblimBOX,
        stage := 2 } env pm _ _ (getSetup_cons_zero _ _) (getSetup_cons_zero _ _)
    refine ⟨r, hr, hret, ?_, ?_, ?_, ?_, hic⟩
    all_goals rcases hlb with h | ⟨hnd, h⟩ <;> rw [h] <;> simp [setSetup]



/-- A warm-up sample: only the counter of `setup[cur]` goes up. -/
theorem pme_load_balance_warmup (fuel : Nat) (s : pme_load_balancing) (env : Env)
    (cycles : ℚ) (ic : interaction_const_t) (pmedata : Option Nat) (set : pme_setup_t)
    (hs : s.stage ≠ s.nstage) (hget : getSetup s.setup s.cur = .ok set)
    (heven : set.count % 2 = 0) :
    pme_load_balance fuel s env cycles ic pmedata
      = .ok { pme_lb := { s with
                setup := setSetup s.setup s.cur { set with count := set.count + 1 } }
              ic := ic, pmedata := pmedata, ret := true } := by
  have hodd : (set.count + 1) % 2 = 1 := by omega
  simp [pme_load_balance, hs, hget, hodd]

/-- When the search ends with a grid, the generator returns TRUE with the new setup
appended. -/
theorem increase_cutoff_of_search (fuel : Nat) (s : pme_load_balancing) (env : Env) (po : Int)
    (c s0 : pme_setup_t) (res : ℚ × ivec) (hc : getSetup s.setup s.cur = .ok c)
    (hs : increase_cutoff_search env s.box_start c.spacing po fuel 1 = .ok (some res))
    (h0 : getSetup s.setup 0 = .ok s0) :
    pme_loadbal_increase_cutoff fuel s env po
      = .ok ({ s with setup := s.setup ++ [new_setup s env s0 res.1 res.2] }, true) := by
  unfold pme_loadbal_increase_cutoff
  simp only [hc, hs, h0]

/-- C11 (box limit on the very first candidate): after construction, a warm-up call and
a timed call with a non-negative cost, periodic boundaries and a domain decomposition
that is absent or accepts the original pair-list cut-off: when the generator yields a
candidate from the initial setup and the box check rejects it
(`rlist^2 > max_cutoff2`), both calls return TRUE, and after the second one the list has
one setup, `elimited` is `epmelblimBOX`, `stage == nstage`, `cur = 0`, the live
`rcoulomb`, `rlist` and `ewaldcoeff` are those given at construction, and every
further call returns FALSE and changes nothing. -/
theorem C11_box_limit_first_candidate (ir : t_inputrec) (box : matrix)
    (ic0 : interaction_const_t) (pmedata0 : Option Nat) (norm : rvec → ℚ)
    (fuel1 : Nat) (env1 : Env) (c1 : ℚ) (ic1 : interaction_const_t) (pm1 : Option Nat)
    (fuel : Nat) (env : Env) (c : ℚ) (ic : interaction_const_t) (pm : Option Nat)
    (g : pme_load_balancing) (cand : pme_setup_t)
    (hpbc : env.ir.ePBC ≠ PBC.epbcNONE) (hc : 0 ≤ c)
    (hdd : env.domaindecomp = false ∨ env.change_dd_cutoff ic0.rlist = true)
    (hgen : pme_loadbal_increase_cutoff fuel (pme_loadbal_init ir box ic0 pmedata0 norm) env
      env.ir.pme_order = .ok (g, true))
    (hcand : getSetup g.setup 1 = .ok cand)
    (hbox : env.max_cutoff2 < cand.rlist * cand.rlist) :
    ∃ r1 r2,
      pme_load_balance fuel1 (pme_loadbal_init ir box ic0 pmedata0 norm) env1 c1 ic1 pm1
        = .ok r1 ∧ r1.ret = true ∧
      pme_load_balance fuel r1.pme_lb env c ic pm = .ok r2 ∧ r2.ret = true ∧
      r2.pme_lb.n = 1 ∧ r2.pme_lb.elimited = Limit.epmelblimBOX ∧
      r2.pme_lb.stage = r2.pme_lb.nstage ∧ r2.pme_lb.cur = 0 ∧
      r2.ic = { rcoulomb := ic0.rcoulomb, rlist := ic0.rlist, ewaldcoeff := ic0.ewaldcoeff } ∧
      ∀ fuel3 env3 c3 ic3 pm3,
        pme_load_balance fuel3 r2.pme_lb env3 c3 ic3 pm3
          = .ok { pme_lb := r2.pme_lb, ic := ic3, pmedata := pm3, ret := false } := by
  obtain ⟨c0, res, s0, hc0, hsearch, hs0, hg⟩ := increase_cutoff_true _ _ _ _ _ hgen
  have hl : (pme_loadbal_init ir box ic0 pmedata0 norm).setup = [c0] := by
    have h := hc0
    simp only [pme_loadbal_init, getSetup_cons_zero, Except.ok.injEq] at h
    rw [← h]
    rfl
  have e0 : s0 = c0 := by
    have h := hs0
    rw [hl, getSetup_cons_zero] at h
    cases h; rfl
  subst e0
  have hfields : s0.count = 0 ∧ s0.rcut = ic0.rcoulomb ∧ s0.rlist = ic0.rlist ∧
      s0.ewaldcoeff = ic0.ewaldcoeff := by
    have h := hs0
    simp only [pme_loadbal_init, getSetup_cons_zero, Except.ok.injEq] at h
    rw [← h]
    exact ⟨rfl, rfl, rfl, rfl⟩
  obtain ⟨hcnt, hrc, hrl, hew⟩ := hfields
  have hw := pme_load_balance_warmup fuel1 (pme_loadbal_init ir box ic0 pmedata0 norm) env1 c1
    ic1 pm1 s0 (by simp [pme_loadbal_init]) hc0 (by omega)
  obtain ⟨s1, hs1def⟩ : ∃ s1 : pme_load_balancing, s1 =
      { pme_loadbal_init ir box ic0 pmedata0 norm with
        setup := setSetup (pme_loadbal_init ir box ic0 pmedata0 norm).setup
          (pme_loadbal_init ir box ic0 pmedata0 norm).cur
          { s0 with count := s0.count + 1 } } := ⟨_, rfl⟩
  rw [← hs1def] at hw
  have hs1 : s1.setup = [{ s0 with count := s0.count + 1 }] := by
    rw [hs1def]
    simp only [hl]
    rfl
  have hbs : s1.box_start = (pme_loadbal_init ir box ic0 pmedata0 norm).box_start := by
    rw [hs1def]
  have hcur1 : s1.cur = 0 := by rw [hs1def]; rfl
  have hgen1 := increase_cutoff_of_search fuel s1 env env.ir.pme_order
    { s0 with count := s0.count + 1 } { s0 with count := s0.count + 1 } res
    (by rw [hs1, hcur1]; exact getSetup_cons_zero _ _) (by rw [hbs]; exact hsearch)
    (by rw [hs1]; exact getSetup_cons_zero _ _)
  have hnew : new_setup s1 env { s0 with count := s0.count + 1 } res.1 res.2
      = new_setup (pme_loadbal_init ir box ic0 pmedata0 norm) env s0 res.1 res.2 := by
    rw [hs1def]
    rfl
  have hcand1 : getSetup
      ({ s1 with setup := s1.setup ++
          [new_setup s1 env { s0 with count := s0.count + 1 } res.1 res.2] }
        : pme_load_balancing).setup 1 = .ok cand := by
    rw [hg] at hcand
    simp only [hl, hs1, hnew, List.singleton_append, getSetup_cons_one] at hcand ⊢
    exact hcand
  obtain ⟨r2, hr2, hret, hn, hlim, hstage, hcur, hic⟩ :=
    first_timed_box_limit fuel s1 _ env c ic pm { s0 with count := s0.count + 1 } cand hs1 hcur1
      (by rw [hs1def]; rfl) (by rw [hs1def]; rfl) (by rw [hs1def]; rfl) (by rw [hs1def]; rfl)
      (by simp [hcnt]) hpbc hc (by rw [← hrl] at hdd; exact hdd) hgen1 hcand1 hbox
  refine ⟨_, r2, hw, rfl, hr2, hret, hn, hlim, hstage, hcur, ?_, ?_⟩
  · rw [hic, ← hrc, ← hrl, ← hew]
  · intro fuel3 env3 c3 ic3 pm3
    exact pme_load_balance_concluded _ hstage _ _ _ _ _

/-- The sample controller with a box that admits pair-list cut-offs up to 1: the first
candidate has pair-list cut-off 1.11 and is rejected. -/
theorem C11_box_limit_first_candidate_witness :
    ∃ r1 r2,
      pme_load_balance 0 sample_lb sample_env 7 sample_ic none = .ok r1 ∧ r1.ret = true ∧
      pme_load_balance 2 r1.pme_lb box_env 100 sample_ic none = .ok r2 ∧ r2.ret = true ∧
      r2.pme_lb.n = 1 ∧ r2.pme_lb.elimited = Limit.epmelblimBOX ∧
      r2.pme_lb.stage = r2.pme_lb.nstage ∧ r2.pme_lb.cur = 0 ∧
      r2.ic = { rcoulomb := 1, rlist := 11 / 10, ewaldcoeff := 3 } ∧
      ∀ fuel3 env3 c3 ic3 pm3,
        pme_load_balance fuel3 r2.pme_lb env3 c3 ic3 pm3
          = .ok { pme_lb := r2.pme_lb, ic := ic3, pmedata := pm3, ret := false } :=
  C11_box_limit_first_candidate sample_ir sample_box sample_ic (some 0) sample_norm
    0 sample_env 7 sample_ic none 2 box_env 100 sample_ic none box_gen box_cand
    (by decide) (by norm_num) (Or.inr (by decide)) (by decide!) (by decide!) (by decide!)

/-! ## C12 -/

/-- The phases of a call that times a sample. -/
theorem timed_call_phases (fuel : Nat) (s : pme_load_balancing) (env : Env) (cycles : ℚ)
    (ic : interaction_const_t) (pmedata : Option Nat) (r : StepResult) (set0 : pme_setup_t)
    (hst : s.stage ≠ s.nstage) (hget : getSetup s.setup s.cur = .ok set0)
    (hodd : set0.count % 2 = 1)
    (hr : pme_load_balance fuel s env cycles ic pmedata = .ok r) :
    ∃ X set lb1 f lb2 lb3 lb4 lb5,
      set = (record_cycles s { set0 with count := set0.count + 1 } cycles).2 ∧
      X = { s with
            nstage := (record_cycles s { set0 with count := set0.count + 1 } cycles).1
            setup := setSetup s.setup s.cur set } ∧
      update_fastest X set = .ok lb1 ∧ getSetup lb1.setup lb1.fastest = .ok f ∧
      scan_exit_check lb1 cycles = .ok lb2 ∧ scan_entry s cycles = .ok (lb2, set) ∧
      scan_stage fuel lb2 env set = .ok lb3 ∧ refine_stage fuel lb3 f.cycles = .ok lb4 ∧
      dd_reassert lb4 env = .ok lb5 ∧ apply_setup lb5 env pmedata = .ok r := by
  rcases pme_load_balance_cases _ _ _ _ _ _ _ hr with ⟨hc, _⟩ | ⟨_, set0', hget', hcase⟩
  · exact absurd hc hst
  · rw [hget] at hget'
    simp only [Except.ok.injEq] at hget'
    subst hget'
    rcases hcase with ⟨hev, _⟩ | ⟨_, hb⟩
    · omega
    · obtain ⟨lb1, f, lb2, lb3, lb4, lb5, h1, hf, h2, h3, h4, _, h5, h6⟩ :=
        balance_timed_phases _ _ _ _ _ _ _ hb
      refine ⟨_, _, lb1, f, lb2, lb3, lb4, lb5, rfl, rfl, h1, hf, h2, ?_, h3, h4, h5, h6⟩
      simp only [scan_entry, hget, h1, h2]


/-- The exit of lines 400-406 in a call that times a sample in stage 0 with `cur > 0`:
it is taken exactly when the cost is more than 1.12 times the time of the fastest
setup; then the list is cut to `cur + 1` setups and the call leaves stage 0. -/
theorem scan_exit_rule (fuel : Nat) (s : pme_load_balancing) (env : Env) (cycles : ℚ)
    (ic : interaction_const_t) (pmedata : Option Nat) (r : StepResult) (set0 : pme_setup_t)
    (hst : s.stage = 0) (hn : 2 ≤ s.nstage) (hcur : 0 < s.cur) (hf : s.fastest ≤ s.cur)
    (hget : getSetup s.setup s.cur = .ok set0) (hodd : set0.count % 2 = 1)
    (hr : pme_load_balance fuel s env cycles ic pmedata = .ok r) :
    ∃ lb2 set f, scan_entry s cycles = .ok (lb2, set) ∧
      getSetup lb2.setup lb2.fastest = .ok f ∧
      (cycles > f.cycles * PME_LB_SLOW_FAC →
        lb2.stage = 1 ∧ 0 < r.pme_lb.stage ∧ r.pme_lb.n = s.cur + 1) ∧
      (¬ cycles > f.cycles * PME_LB_SLOW_FAC → lb2.stage = 0 ∧ lb2.n = s.n) := by
  obtain ⟨X, set, lb1, f, lb2, lb3, lb4, lb5, hset, hX, h1, hf1, h2, hentry, h3, h4, h5, h6⟩ :=
    timed_call_phases _ _ _ _ _ _ _ _ (by omega) hget hodd hr
  have hlen : (s.cur + 1).toNat ≤ s.setup.length := by
    have := getSetup_lt hget
    omega
  -- the state after the update of `fastest`
  have e1 : lb1.setup = setSetup s.setup s.cur set ∧ lb1.cur = s.cur ∧ lb1.stage = 0 ∧
      lb1.fastest ≤ s.cur ∧ s.nstage ≤ lb1.nstage := by
    obtain ⟨_, _, hh⟩ := update_fastest_spec _ _ _ h1
    have hns := record_cycles_nstage s { set0 with count := set0.count + 1 } cycles
    rcases hh with ⟨_, rfl⟩ | ⟨_, rfl⟩ <;> subst hX <;> simp only <;>
      refine ⟨trivial, trivial, hst, ?_, ?_⟩ <;> omega
  obtain ⟨hl1, hc1, hs1, hfl1, hn1⟩ := e1
  have hlen1 : lb1.setup.length = s.setup.length := by
    rw [hl1]; simp [setSetup]
  unfold scan_exit_check at h2
  simp only [hs1, hc1, hcur, gt_iff_lt, and_self, if_true, hf1] at h2
  by_cases hslow : cycles > f.cycles * PME_LB_SLOW_FAC
  · simp only [gt_iff_lt] at hslow
    simp only [hslow, if_true] at h2
    have hsw := switch_to_stage1_setup _ _ h2
    simp only at hsw
    obtain ⟨hsetup, _, _, _, hfast, hnst, _, hstage, _⟩ := hsw
    have hlen2 : (lb2.setup.length : Int) = s.cur + 1 := by
      rw [hsetup, List.length_take, hlen1]
      omega
    refine ⟨lb2, set, f, hentry, ?_, ?_, ?_⟩
    · rw [hsetup, hfast]
      exact getSetup_take_of_lt hf1 (by omega)
    · intro _
      have h3' : lb3 = lb2 := by
        rcases scan_stage_spec _ _ _ _ _ h3 with ⟨_, h⟩ | ⟨h0, _⟩
        · exact h
        · omega
      subst h3'
      obtain ⟨hfr4, hst4⟩ := refine_stage_frame _ _ _ _ h4
      have hst4' : 0 < lb4.stage := by omega
      have hset4 : lb4.setup = lb3.setup := by rw [hfr4]
      have hst5 : 0 < lb5.stage := by
        rcases dd_reassert_spec _ _ _ h5 with rfl | ⟨_, _, _, rfl⟩
        · exact hst4'
        · simp only [dd_failsafe]
          have : lb4.nstage = lb3.nstage := by rw [hfr4]
          split <;> omega
      have hset5 := (dd_reassert_setup _ _ _ h5).1
      obtain ⟨_, set5, _, _, hres⟩ := apply_setup_spec _ _ _ _ h6
      refine ⟨hstage, ?_, ?_⟩
      · rcases hres with h | ⟨_, _, h⟩ <;> rw [h] <;> exact hst5
      · unfold pme_load_balancing.n
        rcases hres with h | ⟨_, _, h⟩ <;> rw [h] <;>
          simp only [setSetup, List.length_set, hset5, hset4] <;> exact hlen2
    · intro hno
      exact absurd hslow (by simpa using hno)
  · simp only [gt_iff_lt] at hslow
    simp only [hslow, if_false, Except.ok.injEq] at h2
    subst h2
    refine ⟨lb1, set, f, hentry, hf1, ?_, ?_⟩
    · intro h
      exact absurd h (by simpa using hslow)
    · intro _
      refine ⟨hs1, ?_⟩
      unfold pme_load_balancing.n
      rw [hlen1]


/-- C12, as stated, fails.  The sample controller (one setup, cut-off 1.0, grid
32x32x32), a grid calculator that always yields a coarser grid, nothing rejected, costs
100, 100, 90, 90, 95, 95: the timed setups are those of index 0, 3 and 6; after the six
calls the controller is still in stage 0 (it has moved on to setup 8 of 9), because 95
is not more than 1.12 * 90. -/
theorem C12_costs_95_no_exit :
    (run sample_lb (scen_calls 95)).map scen_view
      = .ok ([0, 8, 3, 0, 0], [(32, 2, 100), (31, 0, 0), (30, 0, 0), (29, 2, 90), (28, 0, 0),
          (27, 0, 0), (26, 2, 95), (25, 0, 0), (24, 0, 0)]) ∧
    ¬ ((95 : ℚ) > 90 * PME_LB_SLOW_FAC) := by
  constructor
  · decide!
  · unfold PME_LB_SLOW_FAC
    norm_num

/-- C12 (scan exit), amended.  In a call that times a sample in stage 0 with `cur > 0`
(`nstage >= 2`, `fastest <= cur`), the exit of lines 400-406 is taken exactly when the
cost is more than 1.12 times the time of the fastest setup: then stage 1 is entered with
the list cut to `cur + 1` setups, and on return the stage is not 0; otherwise the scan
loop is entered in stage 0 with the whole list.  In the scenario of the sample
controller with a generator that always yields a coarser grid and nothing rejected, the
costs 100, 100, 90, 90, 95, 95 leave the controller in stage 0, and the costs
100, 100, 90, 90, 101, 101 end in stage 1 with the list cut to the 7 setups up to the
third timed one (index 6), range `[0, 6)` and setup 0 active. -/
theorem C12_scan_exit_scenario :
    (∀ (fuel : Nat) (s : pme_load_balancing) (env : Env) (cycles : ℚ)
        (ic : interaction_const_t) (pmedata : Option Nat) (r : StepResult) (set0 : pme_setup_t),
      s.stage = 0 → 2 ≤ s.nstage → 0 < s.cur → s.fastest ≤ s.cur →
      getSetup s.setup s.cur = .ok set0 → set0.count % 2 = 1 →
      pme_load_balance fuel s env cycles ic pmedata = .ok r →
      ∃ lb2 set f, scan_entry s cycles = .ok (lb2, set) ∧
        getSetup lb2.setup lb2.fastest = .ok f ∧
        (cycles > f.cycles * PME_LB_SLOW_FAC →
          lb2.stage = 1 ∧ 0 < r.pme_lb.stage ∧ r.pme_lb.n = s.cur + 1) ∧
        (¬ cycles > f.cycles * PME_LB_SLOW_FAC → lb2.stage = 0 ∧ lb2.n = s.n)) ∧
    (run sample_lb (scen_calls 95)).map scen_view
      = .ok ([0, 8, 3, 0, 0], [(32, 2, 100), (31, 0, 0), (30, 0, 0), (29, 2, 90), (28, 0, 0),
          (27, 0, 0), (26, 2, 95), (25, 0, 0), (24, 0, 0)]) ∧
    (run sample_lb (scen_calls 101)).map scen_view
      = .ok ([1, 0, 3, 0, 6], [(32, 2, 100), (31, 0, 0), (30, 0, 0), (29, 2, 90), (28, 0, 0),
          (27, 0, 0), (26, 2, 101)]) := by
  refine ⟨?_, ?_, ?_⟩
  · intro fuel s env cycles ic pmedata r set0 hst hn hcur hf hget hodd hr
    exact scan_exit_rule fuel s env cycles ic pmedata r set0 hst hn hcur hf hget hodd hr
  · decide!
  · decide!

/-- The sixth call of the scenario with cost 101: setup 6 is timed, the fastest setup
has time 90, and 101 > 1.12 * 90. -/
theorem C12_scan_exit_scenario_witness :
    ∃ lb2 set f, scan_entry scen_before_sixth 101 = .ok (lb2, set) ∧
      getSetup lb2.setup lb2.fastest = .ok f ∧
      ((101 : ℚ) > f.cycles * PME_LB_SLOW_FAC →
        lb2.stage = 1 ∧ 0 < scen_sixth_result.pme_lb.stage ∧
          scen_sixth_result.pme_lb.n = scen_before_sixth.cur + 1) ∧
      (¬ (101 : ℚ) > f.cycles * PME_LB_SLOW_FAC →
        lb2.stage = 0 ∧ lb2.n = scen_before_sixth.n) :=
  C12_scan_exit_scenario.1 20 scen_before_sixth scen_env 101 sample_ic none scen_sixth_result
    { rcut := 16 / 13, rlist := 173 / 130, spacing := 8 / 65, grid := ⟨26, 26, 26⟩
      grid_efficiency := 1, ewaldcoeff := 39 / 16, pmedata := some 26, count := 1, cycles := 0 }
    (by decide!) (by decide!) (by decide!) (by decide!) (by decide!) (by decide)
    (by decide!)

/-! ## C13 -/

/-- The setup that a call samples is still in the list when the call returns. -/
theorem step_keeps_cur_index (fuel : Nat) (s : pme_load_balancing) (env : Env) (cycles : ℚ)
    (ic : interaction_const_t) (pmedata : Option Nat) (r : StepResult) (set0 : pme_setup_t)
    (hget : getSetup s.setup s.cur = .ok set0)
    (hr : pme_load_balance fuel s env cycles ic pmedata = .ok r) :
    ∃ a, getSetup r.pme_lb.setup s.cur = .ok a := by
  have hcur0 := (getSetup_lt hget).1
  rcases pme_load_balance_cases _ _ _ _ _ _ _ hr with ⟨_, rfl⟩ | ⟨hst, set0', hget', hcase⟩
  · exact ⟨set0, hget⟩
  · rw [hget] at hget'
    simp only [Except.ok.injEq] at hget'
    subst hget'
    rcases hcase with ⟨_, rfl⟩ | ⟨hodd, _⟩
    · exact ⟨_, getSetup_setSetup_self _ _ _ _ hget⟩
    · obtain ⟨X, set, lb1, f, lb2, lb3, lb4, lb5, hset, hX, h1, hf1, h2, _, h3, h4, h5, h6⟩ :=
        timed_call_phases _ _ _ _ _ _ _ _ hst hget hodd hr
      have e1 : lb1.setup = setSetup s.setup s.cur set ∧ lb1.cur = s.cur := by
        obtain ⟨_, _, hh⟩ := update_fastest_spec _ _ _ h1
        rcases hh with ⟨_, rfl⟩ | ⟨_, rfl⟩ <;> subst hX <;> exact ⟨rfl, rfl⟩
      have g1 : getSetup lb1.setup s.cur = .ok set := by
        rw [e1.1]
        exact getSetup_setSetup_self _ _ _ _ hget
      have g3 : getSetup lb3.setup s.cur = .ok set := by
        rcases scan_phase_cases _ _ _ _ _ _ _ h2 h3 with ⟨_, rfl⟩ | ⟨_, l1, m, hch, _, rfl⟩ |
            ⟨_, l1, m, lim, hch, hsw⟩
        · exact g1
        · exact genChain_getSetup_old hch g1
        · rw [(switch_to_stage1_setup _ _ hsw).1]
          simp only
          refine getSetup_take_of_lt (genChain_getSetup_old hch g1) ?_
          rw [e1.2]
          omega
      have g5 : getSetup lb5.setup s.cur = .ok set := by
        rw [(dd_reassert_setup _ _ _ h5).1]
        have := (refine_stage_frame _ _ _ _ h4).1
        rw [this]
        exact g3
      obtain ⟨_, set5, hget5, _, hres⟩ := apply_setup_spec _ _ _ _ h6
      rcases hres with h | ⟨hnd, _, h⟩
      · rw [h]; exact ⟨_, g5⟩
      · rw [h]
        simp only
        by_cases hi : s.cur = lb5.cur
        · rw [hi]
          exact ⟨_, getSetup_setSetup_self _ _ _ _ hget5⟩
        · rw [getSetup_setSetup_ne _ _ _ _ (getSetup_lt hget5).1 hi]
          exact ⟨_, g5⟩


/-- C13 (a restart resumes a finished balancing).  For every state with
`stage == nstage` whose `cur` is a setup of the list, and every `k >= 1`:
`restart_pme_loadbal` adds `k` to `nstage` and changes nothing else, so `stage < nstage`
afterwards; the next call of `pme_load_balance` is not a no-op: when it returns it
returns TRUE and has added one to the counter of the unchanged `setup[cur]`; with an even
counter (the case after a call that finished the balancing, last part) it is a warm-up
sample that returns TRUE and changes the counter only. -/
theorem C13_restart_resumes (s : pme_load_balancing) (k : Int) (set : pme_setup_t)
    (hconc : s.stage = s.nstage) (hk : 1 ≤ k) (hget : getSetup s.setup s.cur = .ok set) :
    restart_pme_loadbal s k = { s with nstage := s.nstage + k } ∧
    (restart_pme_loadbal s k).stage < (restart_pme_loadbal s k).nstage ∧
    (∀ fuel env cycles ic pmedata r,
      pme_load_balance fuel (restart_pme_loadbal s k) env cycles ic pmedata = .ok r →
      r.ret = true ∧ ∃ a, getSetup r.pme_lb.setup s.cur = .ok a ∧ a.count = set.count + 1) ∧
    (set.count % 2 = 0 → ∀ fuel env cycles ic pmedata,
      pme_load_balance fuel (restart_pme_loadbal s k) env cycles ic pmedata
        = .ok { pme_lb := { restart_pme_loadbal s k with
                  setup := setSetup s.setup s.cur { set with count := set.count + 1 } }
                ic := ic, pmedata := pmedata, ret := true }) ∧
    (∀ s0 fuel env cycles ic pmedata r, Reachable s0 → s0.stage ≠ s0.nstage →
      pme_load_balance fuel s0 env cycles ic pmedata = .ok r → r.pme_lb = s →
      set.count % 2 = 0) := by
  have hne : (restart_pme_loadbal s k).stage ≠ (restart_pme_loadbal s k).nstage := by
    simp only [restart_pme_loadbal]
    omega
  have hget' : getSetup (restart_pme_loadbal s k).setup (restart_pme_loadbal s k).cur
      = .ok set := hget
  refine ⟨rfl, ?_, ?_, ?_, ?_⟩
  · simp only [restart_pme_loadbal]
    omega
  · intro fuel env cycles ic pmedata r hr
    by_cases hpar : set.count % 2 = 0
    · rw [pme_load_balance_warmup _ _ _ _ _ _ _ hne hget' hpar] at hr
      simp only [Except.ok.injEq] at hr
      subst hr
      exact ⟨rfl, _, getSetup_setSetup_self _ _ _ _ hget, rfl⟩
    · have hodd : set.count % 2 = 1 := by omega
      obtain ⟨a, ha⟩ := step_keeps_cur_index _ _ _ _ _ _ _ _ hget' hr
      refine ⟨?_, a, ha, ?_⟩
      · obtain ⟨_, _, _, _, _, _, _, _, _, _, _, _, _, _, _, _, _, h6⟩ :=
          timed_call_phases _ _ _ _ _ _ _ _ hne hget' hodd hr
        exact (apply_setup_spec _ _ _ _ h6).1
      · rcases step_entry _ _ _ _ _ _ _ _ _ _ hr hget' ha with ⟨_, _, hno⟩ | ⟨_, _, _, hc, _⟩
        · exact absurd ⟨hne, rfl, hodd⟩ hno
        · exact hc
  · intro hpar fuel env cycles ic pmedata
    exact pme_load_balance_warmup _ _ _ _ _ _ _ hne hget' hpar
  · intro s0 fuel env cycles ic pmedata r hreach hst0 hr hrs
    subst hrs
    have hinv := reachable_othersEven s0 hreach
    have hall : AllEven r.pme_lb.setup := by
      refine (step_parity _ _ _ _ _ _ _ hr hinv).2 ?_
      rcases pme_load_balance_cases _ _ _ _ _ _ _ hr with ⟨hc, _⟩ | ⟨_, set0, hg0, hcase⟩
      · exact absurd hc hst0
      · rcases hcase with ⟨_, rfl⟩ | ⟨hodd, _⟩
        · exact absurd hconc hst0
        · exact Or.inr ⟨hst0, set0, hg0, hodd⟩
    exact hall _ (mem_of_getSetup hget)

/-- The finished sample controller `box_result` with one more stage: the next call is a
warm-up sample of setup 0. -/
theorem C13_restart_resumes_witness :
    restart_pme_loadbal box_result.pme_lb 1
      = { box_result.pme_lb with nstage := box_result.pme_lb.nstage + 1 } ∧
    (restart_pme_loadbal box_result.pme_lb 1).stage
      < (restart_pme_loadbal box_result.pme_lb 1).nstage ∧
    pme_load_balance 2 (restart_pme_loadbal box_result.pme_lb 1) sample_env 100 sample_ic none
      = .ok { pme_lb := { restart_pme_loadbal box_result.pme_lb 1 with
                setup := setSetup box_result.pme_lb.setup box_result.pme_lb.cur
                  { dd_set with count := dd_set.count + 1 } }
              ic := sample_ic, pmedata := none, ret := true } :=
  have h := C13_restart_resumes box_result.pme_lb 1 dd_set (by decide) (by decide) (by decide!)
  ⟨h.1, h.2.1, h.2.2.2.1 (by decide) 2 sample_env 100 sample_ic none⟩

/-! ## C14 -/

/-- The search of lines 178-201 returns FALSE exactly when the first round that leaves
the loop does so with a grid that is too small. -/
theorem increase_cutoff_search_none_iff (env : Env) (box_start : matrix) (spacing : ℚ)
    (pme_order : Int) (fuel : Nat) (fac : ℚ) :
    increase_cutoff_search env box_start spacing pme_order fuel fac = .ok none ↔
    ∃ j, j < fuel ∧
      grid_too_small (env.calc_grid box_start (fac * (101 / 100) ^ (j + 1) * spacing)).2
        pme_order ∧
      ∀ i, i < j →
        ¬ grid_too_small (env.calc_grid box_start (fac * (101 / 100) ^ (i + 1) * spacing)).2
          pme_order ∧
        (env.calc_grid box_start (fac * (101 / 100) ^ (i + 1) * spacing)).1
          ≤ (1001 / 1000) * spacing := by
  induction fuel generalizing fac with
  | zero => simp [increase_cutoff_search]
  | succ n ih =>
    have hpow : ∀ i : Nat, fac * (101 / 100) * (101 / 100 : ℚ) ^ (i + 1)
        = fac * (101 / 100) ^ (i + 1 + 1) := by
      intro i
      rw [pow_succ' (101 / 100 : ℚ) (i + 1)]
      ring
    have h0 : fac * (101 / 100 : ℚ) ^ (0 + 1) = fac * (101 / 100) := by norm_num
    simp only [increase_cutoff_search]
    by_cases hsmall : grid_too_small (env.calc_grid box_start (fac * (101 / 100) * spacing)).2
        pme_order
    · have hs := hsmall
      unfold grid_too_small at hs
      simp only [hs, if_true, true_iff]
      refine ⟨0, Nat.succ_pos n, ?_, ?_⟩
      · rw [h0]; exact hsmall
      · intro i hi; omega
    · have hs := hsmall
      unfold grid_too_small at hs
      simp only [hs, if_false]
      by_cases hsp : (env.calc_grid box_start (fac * (101 / 100) * spacing)).1
          ≤ (1001 / 1000) * spacing
      · simp only [hsp, if_true]
        rw [ih (fac * (101 / 100))]
        constructor
        · rintro ⟨j, hj, hjs, hall⟩
          refine ⟨j + 1, by omega, ?_, ?_⟩
          · rw [← hpow]; exact hjs
          · intro i hi
            cases i with
            | zero => rw [h0]; exact ⟨hsmall, hsp⟩
            | succ i =>
              rw [← hpow]
              exact hall i (by omega)
        · rintro ⟨j, hj, hjs, hall⟩
          cases j with
          | zero => rw [h0] at hjs; exact absurd hjs hsmall
          | succ j =>
            refine ⟨j, by omega, ?_, ?_⟩
            · rw [hpow]; exact hjs
            · intro i hi
              rw [hpow]
              exact hall (i + 1) (by omega)
      · simp only [hsp, if_false]
        constructor
        · intro h
          simp at h
        · rintro ⟨j, hj, hjs, hall⟩
          cases j with
          | zero => rw [h0] at hjs; exact absurd hjs hsmall
          | succ j =>
            have := (hall 0 (by omega)).2
            rw [h0] at this
            exact absurd this hsp


theorem getSetup_append_left {l : List pme_setup_t} {i : Int} {a : pme_setup_t}
    (x : pme_setup_t) (h : getSetup l i = .ok a) : getSetup (l ++ [x]) i = .ok a := by
  obtain ⟨h0, h1⟩ := getSetup_ok_iff.1 h
  refine getSetup_ok_iff.2 ⟨h0, ?_⟩
  have hl := (List.getElem?_eq_some_iff.1 h1).1
  rw [List.getElem?_append_left hl]
  exact h1

theorem getSetup_append_last (l : List pme_setup_t) (x : pme_setup_t) :
    getSetup (l ++ [x]) (l.length : Int) = .ok x := by
  refine getSetup_ok_iff.2 ⟨by omega, ?_⟩
  simp

/-- A list with a setup at some index has a setup at index 0. -/
theorem getSetup_zero_of_get {l : List pme_setup_t} {i : Int} {a : pme_setup_t}
    (h : getSetup l i = .ok a) : ∃ s0, getSetup l 0 = .ok s0 := by
  cases l with
  | nil =>
    have := getSetup_lt h
    simp at this
    omega
  | cons b t => exact ⟨b, getSetup_cons_zero b t⟩

/-- C14 (`pme_loadbal_increase_cutoff` is all-or-nothing and keeps the lower bound on
the grid).  For every controller whose `cur` is a setup of the list, every `pme_order`
and every grid calculator for which the loop of lines 178-201 ends (with result `res`):
the loop ends with `return FALSE` exactly when the first round that leaves it has a grid
with a dimension `<= 2*pme_order`; in that case the function returns FALSE and the
controller is unchanged; otherwise it returns TRUE, the list is one setup longer, all
earlier setups are unchanged, and the new last setup has every grid dimension
`> 2*pme_order`, `count = 0`, `cycles = 0` and no PME structure. -/
theorem C14_increase_cutoff_all_or_nothing (fuel : Nat) (s : pme_load_balancing) (env : Env)
    (pme_order : Int) (c : pme_setup_t) (res : Option (ℚ × ivec))
    (hc : getSetup s.setup s.cur = .ok c)
    (hend : increase_cutoff_search env s.box_start c.spacing pme_order fuel 1 = .ok res) :
    (res = none ↔
      ∃ j, j < fuel ∧ grid_too_small (trial_grid env s.box_start c.spacing j).2 pme_order ∧
        ∀ i, i < j → ¬ grid_too_small (trial_grid env s.box_start c.spacing i).2 pme_order ∧
          (trial_grid env s.box_start c.spacing i).1 ≤ (1001 / 1000) * c.spacing) ∧
    (res = none → pme_loadbal_increase_cutoff fuel s env pme_order = .ok (s, false)) ∧
    (res ≠ none →
      ∃ set, pme_loadbal_increase_cutoff fuel s env pme_order
          = .ok ({ s with setup := s.setup ++ [set] }, true) ∧
        (s.setup ++ [set]).length = s.setup.length + 1 ∧
        (∀ i a, getSetup s.setup i = .ok a → getSetup (s.setup ++ [set]) i = .ok a) ∧
        getSetup (s.setup ++ [set]) s.n = .ok set ∧
        2 * pme_order < set.grid.XX ∧ 2 * pme_order < set.grid.YY ∧
        2 * pme_order < set.grid.ZZ ∧
        set.count = 0 ∧ set.cycles = 0 ∧ set.pmedata = none) := by
  refine ⟨?_, ?_, ?_⟩
  · have h := increase_cutoff_search_none_iff env s.box_start c.spacing pme_order fuel 1
    simp only [one_mul] at h
    rw [hend] at h
    simp only [Except.ok.injEq] at h
    exact h
  · intro hnone
    subst hnone
    unfold pme_loadbal_increase_cutoff
    simp only [hc, hend]
  · intro hsome
    obtain ⟨r, rfl⟩ := Option.ne_none_iff_exists'.1 hsome
    obtain ⟨s0, h0⟩ := getSetup_zero_of_get hc
    have hb := increase_cutoff_search_some _ _ _ _ _ _ _ hend
    refine ⟨new_setup s env s0 r.1 r.2, increase_cutoff_of_search _ _ _ _ _ _ _ hc hend h0, ?_,
      ?_, getSetup_append_last _ _, hb.2.1, hb.2.2.1, hb.2.2.2, rfl, rfl, rfl⟩
    · simp
    · intro i a ha
      exact getSetup_append_left _ ha

/-- The sample controller: the first round of the loop gives spacing 0.101 and the grid
20x20x20, which is not too small for PME order 4; the new setup is appended. -/
theorem C14_increase_cutoff_all_or_nothing_witness :
    ∃ set, pme_loadbal_increase_cutoff 2 sample_lb sample_env 4
        = .ok ({ sample_lb with setup := sample_lb.setup ++ [set] }, true) ∧
      (sample_lb.setup ++ [set]).length = sample_lb.setup.length + 1 ∧
      (∀ i a, getSetup sample_lb.setup i = .ok a →
        getSetup (sample_lb.setup ++ [set]) i = .ok a) ∧
      getSetup (sample_lb.setup ++ [set]) sample_lb.n = .ok set ∧
      2 * 4 < set.grid.XX ∧ 2 * 4 < set.grid.YY ∧ 2 * 4 < set.grid.ZZ ∧
      set.count = 0 ∧ set.cycles = 0 ∧ set.pmedata = none :=
  (C14_increase_cutoff_all_or_nothing 2 sample_lb sample_env 4
    { rcut := 1, rlist := 11 / 10, spacing := 1 / 10, grid := ⟨32, 32, 32⟩
      grid_efficiency := 0, ewaldcoeff := 3, pmedata := some 0, count := 0, cycles := 0 }
    (some (101 / 1000, ⟨20, 20, 20⟩)) (by decide!) (by decide!)).2.2 (by decide)

/-! ## C15 -/

theorem derivedFields_setSetup {cs rb : ℚ} {l : List pme_setup_t} {j : Int}
    {y x : pme_setup_t} (hl : DerivedFields cs rb l) (hy : getSetup l j = .ok y)
    (h1 : x.rcut = y.rcut) (h2 : x.rlist = y.rlist) (h3 : x.spacing = y.spacing)
    (h4 : x.ewaldcoeff = y.ewaldcoeff) : DerivedFields cs rb (setSetup l j x) := by
  obtain ⟨a0, h0, hall⟩ := hl
  have hj := (getSetup_lt hy).1
  have key : ∀ i a, getSetup (setSetup l j x) i = .ok a →
      ∃ b, getSetup l i = .ok b ∧ a.rcut = b.rcut ∧ a.rlist = b.rlist ∧
        a.spacing = b.spacing ∧ a.ewaldcoeff = b.ewaldcoeff := by
    intro i a ha
    rcases getSetup_setSetup_cases hj ha with ⟨rfl, rfl⟩ | ⟨_, h⟩
    · exact ⟨y, hy, h1, h2, h3, h4⟩
    · exact ⟨a, h, rfl, rfl, rfl, rfl⟩
  have h0' : ∃ b0, getSetup (setSetup l j x) 0 = .ok b0 := by
    by_cases hj0 : (0 : Int) = j
    · subst hj0
      exact ⟨x, getSetup_setSetup_self _ _ _ _ hy⟩
    · rw [getSetup_setSetup_ne _ _ _ _ hj hj0]
      exact ⟨a0, h0⟩
  obtain ⟨b0, hb0⟩ := h0'
  obtain ⟨c0, hc0, e1, _, _, e4⟩ := key 0 b0 hb0
  rw [h0] at hc0
  simp only [Except.ok.injEq] at hc0
  subst hc0
  refine ⟨b0, hb0, ?_⟩
  intro i a ha
  obtain ⟨b, hb, f1, f2, f3, f4⟩ := key i a ha
  obtain ⟨g1, g2, g3⟩ := hall i b hb
  rw [f1, f2, f3, f4, e1, e4]
  exact ⟨g1, g2, g3⟩

theorem derivedFields_take {cs rb : ℚ} {l : List pme_setup_t} (k : Nat) (hk : 1 ≤ k)
    (hl : DerivedFields cs rb l) : DerivedFields cs rb (l.take k) := by
  obtain ⟨a0, h0, hall⟩ := hl
  refine ⟨a0, getSetup_take_of_lt h0 (by omega), ?_⟩
  intro i a ha
  exact hall i a (getSetup_take ha)

theorem derivedFields_append {s : pme_load_balancing} {env : Env} {l : List pme_setup_t}
    {set : pme_setup_t} (hl : DerivedFields s.cut_spacing s.rbuf l)
    (hg : Generated s env l set) : DerivedFields s.cut_spacing s.rbuf (l ++ [set]) := by
  obtain ⟨a0, h0, hall⟩ := hl
  obtain ⟨c, s0, sp, grid, _, hs0, _, _, _, _, rfl⟩ := hg
  have e0 : s0 = a0 := by
    have := (getSetup_ok_iff.1 h0).2
    simp only [Int.toNat_zero] at this
    rw [hs0] at this
    simpa using this
  subst e0
  have hlen : 1 ≤ (l.length : Int) := by
    have := (getSetup_lt h0).2
    omega
  refine ⟨s0, getSetup_append_left _ h0, ?_⟩
  intro i a ha
  rcases getSetup_append_cases ha with ha | ⟨hi, rfl⟩
  · exact hall i a ha
  · simp only [new_setup]
    refine ⟨trivial, ?_, fun _ => trivial⟩
    intro hne
    exact div_mul_cancel₀ _ hne

theorem genChain_derivedFields {s : pme_load_balancing} {env : Env} {l l' : List pme_setup_t}
    (h : GenChain s env l l') (hl : DerivedFields s.cut_spacing s.rbuf l) :
    DerivedFields s.cut_spacing s.rbuf l' := by
  induction h with
  | nil => exact hl
  | snoc l' set _ hg ih => exact derivedFields_append ih hg

theorem catalogEffect_derivedFields {s : pme_load_balancing} {env : Env}
    {l l' : List pme_setup_t} (h : CatalogEffect s env l l')
    (hl : DerivedFields s.cut_spacing s.rbuf l) : DerivedFields s.cut_spacing s.rbuf l' := by
  obtain ⟨l1, k, hch, hk, hres⟩ := h
  have h1 := derivedFields_take k hk (genChain_derivedFields hch hl)
  rcases hres with rfl | ⟨i, a, hnd, ha, _, rfl⟩
  · exact h1
  · exact derivedFields_setSetup h1 ha rfl rfl rfl rfl

theorem record_cycles_fields (s : pme_load_balancing) (set : pme_setup_t) (cycles : ℚ) :
    (record_cycles s set cycles).2.rcut = set.rcut ∧
    (record_cycles s set cycles).2.rlist = set.rlist ∧
    (record_cycles s set cycles).2.ewaldcoeff = set.ewaldcoeff ∧
    (record_cycles s set cycles).2.grid_efficiency = set.grid_efficiency ∧
    (record_cycles s set cycles).2.pmedata = set.pmedata := by
  unfold record_cycles
  split <;> exact ⟨rfl, rfl, rfl, rfl, rfl⟩

theorem exec_derivedFields (s s' : pme_load_balancing) (c : Call) (h : exec s c = .ok s')
    (hl : DerivedFields s.cut_spacing s.rbuf s.setup) :
    DerivedFields s'.cut_spacing s'.rbuf s'.setup ∧ s'.cut_spacing = s.cut_spacing ∧
      s'.rbuf = s.rbuf := by
  cases c with
  | step fuel env cycles ic pmedata =>
    simp only [exec] at h
    cases hr : pme_load_balance fuel s env cycles ic pmedata with
    | error e => simp [hr] at h
    | ok r =>
      simp only [hr, Except.ok.injEq] at h
      subst h
      rcases pme_load_balance_cases _ _ _ _ _ _ _ hr with ⟨_, rfl⟩ | ⟨hst, set0, hget, hcase⟩
      · exact ⟨hl, rfl, rfl⟩
      · rcases hcase with ⟨_, rfl⟩ | ⟨_, hb⟩
        · exact ⟨derivedFields_setSetup hl hget rfl rfl rfl rfl, rfl, rfl⟩
        · obtain ⟨hcat, hcs, hrb, _⟩ := balance_timed_catalog _ _ _ _ _ _ _ hb (getSetup_lt hget).1
          simp only at hcs hrb
          refine ⟨?_, hcs, hrb⟩
          rw [hcs, hrb]
          have hf := record_cycles_fields s { set0 with count := set0.count + 1 } cycles
          have hsp := record_cycles_spacing s { set0 with count := set0.count + 1 } cycles
          have hX := derivedFields_setSetup hl hget hf.1 hf.2.1 hsp hf.2.2.1
          have := catalogEffect_derivedFields hcat hX
          exact this
  | restart n =>
    simp only [exec, Except.ok.injEq] at h
    subst h
    exact ⟨hl, rfl, rfl⟩

theorem run_derivedFields (calls : List Call) (s s' : pme_load_balancing)
    (h : run s calls = .ok s') (hl : DerivedFields s.cut_spacing s.rbuf s.setup) :
    DerivedFields s'.cut_spacing s'.rbuf s'.setup ∧ s'.cut_spacing = s.cut_spacing ∧
      s'.rbuf = s.rbuf := by
  induction calls generalizing s with
  | nil =>
    simp only [run, Except.ok.injEq] at h
    subst h; exact ⟨hl, rfl, rfl⟩
  | cons c cs ih =>
    simp only [run] at h
    cases hx : exec s c with
    | error e => simp [hx] at h
    | ok t =>
      simp only [hx] at h
      obtain ⟨h1, h2, h3⟩ := exec_derivedFields _ _ _ hx hl
      obtain ⟨g1, g2, g3⟩ := ih t h h1
      exact ⟨g1, by rw [g2, h2], by rw [g3, h3]⟩

/-- C15 (derived fields of the setups, exact arithmetic).  After `pme_loadbal_init` and
any calls of `pme_load_balance` and `restart_pme_loadbal`: the buffer and the
cut-off/spacing ratio are those of the construction, `rbuf = ic->rlist - ic->rcoulomb`;
every setup of the list has `rlist = rcut + rbuf`; for a non-zero `rcut` the product
`ewaldcoeff * rcut` is that of setup 0; every setup of index `i >= 1` has
`rcut = cut_spacing * spacing`. -/
theorem C15_derived_fields (ir : t_inputrec) (box : matrix) (ic : interaction_const_t)
    (pmedata : Option Nat) (norm : rvec → ℚ) (calls : List Call) (s : pme_load_balancing)
    (hrun : run (pme_loadbal_init ir box ic pmedata norm) calls = .ok s) :
    s.rbuf = ic.rlist - ic.rcoulomb ∧
    s.cut_spacing = (pme_loadbal_init ir box ic pmedata norm).cut_spacing ∧
    ∀ i a a0, getSetup s.setup i = .ok a → getSetup s.setup 0 = .ok a0 →
      a.rlist = a.rcut + s.rbuf ∧
      (a.rcut ≠ 0 → a.ewaldcoeff * a.rcut = a0.ewaldcoeff * a0.rcut) ∧
      (1 ≤ i → a.rcut = s.cut_spacing * a.spacing) := by
  have h0 : DerivedFields (pme_loadbal_init ir box ic pmedata norm).cut_spacing
      (pme_loadbal_init ir box ic pmedata norm).rbuf
      (pme_loadbal_init ir box ic pmedata norm).setup := by
    refine ⟨_, getSetup_cons_zero _ _, ?_⟩
    intro i a ha
    have hlt := getSetup_lt ha
    have hi : i = 0 := by
      have : (pme_loadbal_init ir box ic pmedata norm).setup.length = 1 := rfl
      omega
    subst hi
    have ha' : getSetup (pme_loadbal_init ir box ic pmedata norm).setup 0 = .ok a := ha
    simp only [pme_loadbal_init, getSetup_cons_zero, Except.ok.injEq] at ha'
    subst ha'
    refine ⟨?_, fun _ => rfl, fun h => by omega⟩
    simp only [pme_loadbal_init]
    ring
  obtain ⟨⟨b0, hb0, hall⟩, h2, h3⟩ := run_derivedFields _ _ _ hrun h0
  refine ⟨h3, h2, ?_⟩
  intro i a a0 ha ha0
  rw [hb0] at ha0
  simp only [Except.ok.injEq] at ha0
  subst ha0
  exact hall i a ha

/-- The scan scenario with costs 100, 100, 90, 90, 101, 101: setup 3 (grid 29x29x29,
spacing 3.2/29) has `rcut = 32/29`, `rlist = 32/29 + 0.1` and `ewaldcoeff = 87/32`;
setup 0 has `rcut = 1` and `ewaldcoeff = 3`. -/
theorem C15_derived_fields_witness :
    (349 / 290 : ℚ) = 32 / 29 + scen_sixth_result.pme_lb.rbuf ∧
    ((32 / 29 : ℚ) ≠ 0 → (87 / 32 : ℚ) * (32 / 29) = 3 * 1) ∧
    ((1 : Int) ≤ 3 → (32 / 29 : ℚ) = scen_sixth_result.pme_lb.cut_spacing * (16 / 145)) :=
  (C15_derived_fields sample_ir sample_box sample_ic (some 0) sample_norm
    (scen_calls 101) scen_sixth_result.pme_lb (by decide!)).2.2 3
    { rcut := 32 / 29, rlist := 349 / 290, spacing := 16 / 145, grid := ⟨29, 29, 29⟩
      grid_efficiency := 1, ewaldcoeff := 87 / 32, pmedata := some 29, count := 2, cycles := 90 }
    { rcut := 1, rlist := 11 / 10, spacing := 1 / 10, grid := ⟨32, 32, 32⟩
      grid_efficiency := 0, ewaldcoeff := 3, pmedata := some 0, count := 2, cycles := 100 }
    (by decide!) (by decide!)

/-! ## C16 -/

/-- After the sample has been recorded, a call does not change `nstage` any more. -/
theorem timed_call_nstage (fuel : Nat) (s : pme_load_balancing) (env : Env) (cycles : ℚ)
    (ic : interaction_const_t) (pmedata : Option Nat) (r : StepResult) (set0 : pme_setup_t)
    (hst : s.stage ≠ s.nstage) (hget : getSetup s.setup s.cur = .ok set0)
    (hodd : set0.count % 2 = 1)
    (hr : pme_load_balance fuel s env cycles ic pmedata = .ok r) :
    r.pme_lb.nstage = (record_cycles s { set0 with count := set0.count + 1 } cycles).1 := by
  obtain ⟨X, set, lb1, f, lb2, lb3, lb4, lb5, hset, hX, h1, hf1, h2, _, h3, h4, h5, h6⟩ :=
    timed_call_phases _ _ _ _ _ _ _ _ hst hget hodd hr
  have e1 : lb1.nstage = X.nstage := by
    obtain ⟨_, _, hh⟩ := update_fastest_spec _ _ _ h1
    rcases hh with ⟨_, rfl⟩ | ⟨_, rfl⟩ <;> rfl
  have e3 : lb3.nstage = lb1.nstage := by
    rcases scan_phase_cases _ _ _ _ _ _ _ h2 h3 with ⟨_, rfl⟩ | ⟨_, l1, m, _, _, rfl⟩ |
        ⟨_, l1, m, lim, _, hsw⟩
    · rfl
    · rfl
    · exact (switch_to_stage1_setup _ _ hsw).2.2.2.2.2.1
  have e4 : lb4.nstage = lb3.nstage := by
    rw [(refine_stage_frame _ _ _ _ h4).1]
  have e5 := (dd_reassert_setup _ _ _ h5).2.2.2.2
  obtain ⟨_, set5, _, _, hres⟩ := apply_setup_spec _ _ _ _ h6
  have e6 : r.pme_lb.nstage = lb5.nstage := by
    rcases hres with h | ⟨_, _, h⟩ <;> rw [h]
  rw [e6, e5, e4, e3, e1, hX]

/-- C16, as stated, fails.  The controller `sample_last_stage` is in its last stage;
setup 0 has best time 100 and gets its fourth sample, of cost 90, with
`90 * 1.02 < 100`: the number of stages goes from 2 to 3 and the best time of setup 0
becomes 90, it does not stay 100. -/
theorem C16_faster_sample_is_recorded :
    (pme_load_balance 2 sample_last_stage sample_env 90 sample_ic none).map
        (fun r => (r.pme_lb.nstage, r.pme_lb.setup.map (fun a => (a.count, a.cycles))))
      = .ok (3, [(4, 90), (2, 90)]) ∧
    sample_last_stage.stage = sample_last_stage.nstage - 1 ∧
    getSetup sample_last_stage.setup sample_last_stage.cur = .ok sample_set0 ∧
    (90 : ℚ) * PME_LB_ACCEL_TOL < sample_set0.cycles ∧ sample_set0.cycles = 100 := by
  refine ⟨by decide!, by decide, by decide!, ?_, rfl⟩
  unfold PME_LB_ACCEL_TOL sample_set0
  norm_num

/-- C16 (re-scan trigger), amended.  In a call that times a sample of `setup[cur]` which
is not its first timed one (`count > 2` after the increment), with a cost `c` such that
`c * 1.02 < setup[cur].cycles`, in the last stage (`stage == nstage - 1`): when the call
returns, `nstage` is one more than before and `setup[cur].cycles` is the minimum of its
old value and `c`; for `c >= 0` that is `c`, less than the old value: the faster sample
is recorded. -/
theorem C16_rescan_records_minimum (fuel : Nat) (s : pme_load_balancing) (env : Env) (c : ℚ)
    (ic : interaction_const_t) (pmedata : Option Nat) (r : StepResult) (set0 : pme_setup_t)
    (hget : getSetup s.setup s.cur = .ok set0) (hodd : set0.count % 2 = 1)
    (hcount : 2 < set0.count + 1) (hfast : c * PME_LB_ACCEL_TOL < set0.cycles)
    (hlast : s.stage = s.nstage - 1)
    (hr : pme_load_balance fuel s env c ic pmedata = .ok r) :
    r.pme_lb.nstage = s.nstage + 1 ∧
    ∃ a, getSetup r.pme_lb.setup s.cur = .ok a ∧ a.count = set0.count + 1 ∧
      a.cycles = min set0.cycles c ∧ (0 ≤ c → a.cycles = c ∧ a.cycles < set0.cycles) := by
  have hst : s.stage ≠ s.nstage := by omega
  have hrec : record_cycles s { set0 with count := set0.count + 1 } c
      = (s.nstage + 1, { set0 with count := set0.count + 1, cycles := min set0.cycles c }) := by
    unfold record_cycles
    have h2 : ¬ (set0.count + 1 ≤ 2) := by omega
    simp only [h2, if_false, hfast, hlast, and_self, if_true]
  refine ⟨?_, ?_⟩
  · rw [timed_call_nstage _ _ _ _ _ _ _ _ hst hget hodd hr, hrec]
  · obtain ⟨a, ha⟩ := step_keeps_cur_index _ _ _ _ _ _ _ _ hget hr
    rcases step_entry _ _ _ _ _ _ _ _ _ _ hr hget ha with ⟨_, _, hno⟩ | ⟨_, _, _, hc, hcy⟩
    · exact absurd ⟨hst, rfl, hodd⟩ hno
    · rw [hrec] at hcy
      simp only at hcy
      refine ⟨a, ha, hc, hcy, ?_⟩
      intro h0
      have hlt : c < set0.cycles := by
        unfold PME_LB_ACCEL_TOL at hfast
        linarith
      rw [hcy, min_eq_right (le_of_lt hlt)]
      exact ⟨rfl, hlt⟩

/-- The fourth sample of setup 0 of `sample_last_stage`, of cost 90 against a best time
of 100. -/
theorem C16_rescan_records_minimum_witness :
    (3 : Int) = sample_last_stage.nstage + 1 ∧
    ∃ a, getSetup [{ sample_set0 with count := 4, cycles := 90 }, sample_set1]
        sample_last_stage.cur = .ok a ∧
      a.count = sample_set0.count + 1 ∧ a.cycles = min sample_set0.cycles 90 ∧
      ((0 : ℚ) ≤ 90 → a.cycles = 90 ∧ a.cycles < sample_set0.cycles) :=
  C16_rescan_records_minimum 2 sample_last_stage sample_env 90 sample_ic none
    { pme_lb := { sample_last_stage with
        nstage := 3, setup := [{ sample_set0 with count := 4, cycles := 90 }, sample_set1]
        cur := 1 }
      ic := { rcoulomb := 12 / 10, rlist := 13 / 10, ewaldcoeff := 25 / 10 }
      pmedata := some 1, ret := true }
    sample_set0 (by decide!) (by decide) (by decide) (by decide!) (by decide) (by decide!)

/-! ## C17 -/

/-- C17, as stated, fails.  In the first scan of the sample controller the first
candidate (grid 20x20x20, 8000 points against `0.8 * 32768`) is accepted; its point
count is below 80% of the starting one, so the claimed condition for going on is false,
but its grid efficiency is not below `1.05 * 0` (setup 0 has efficiency 0), and the
loop goes on to the next candidate. -/
theorem C17_loop_goes_on_when_coarse :
    scan_body 2 dd_lb2 dd_env = .ok (dd_t, true) ∧
    getSetup dd_t.setup dd_t.cur = .ok dd_gen1 ∧
    getSetup dd_t.setup (dd_t.cur - 1) = .ok dd_set ∧
    scan_continue dd_t (pme_grid_points dd_set) = .ok true ∧
    scan_advance 2 dd_env (pme_grid_points dd_set) 2 dd_lb2
      = scan_advance 2 dd_env (pme_grid_points dd_set) 1 dd_t ∧
    ¬ ((pme_grid_points dd_gen1 : ℚ) ≥ pme_grid_points dd_set * PME_LB_GRID_SCALE_FAC ∧
        dd_gen1.grid_efficiency
          < dd_set.grid_efficiency * PME_LB_GRID_EFFICIENCY_REL_FAC) := by
  refine ⟨by decide!, by decide!, by decide!, by decide!, by decide!, by decide!⟩

/-- In the range of `int` the 32-bit arithmetic is exact. -/
theorem int_wrap_of_range {x : Int} (h : int_range x) : int_wrap x = x := by
  unfold int_range at h
  unfold int_wrap
  omega

/-- When the products stay in the range of `int`, the code computes the product
`pme_grid_points`. -/
theorem c_grid_points_of_range (set : pme_setup_t) (h : grid_points_in_range set.grid) :
    c_grid_points set = pme_grid_points set := by
  obtain ⟨_, _, _, hxy, hxyz⟩ := h
  unfold c_grid_points pme_grid_points
  rw [int_wrap_of_range hxy, int_wrap_of_range hxyz]

/-- C17 (skip rule of the scan loop), amended.  After a round of the stage-0 loop of
lines 414-471 that accepted a candidate (`scan_body` gives `OK`, the candidate is
`setup[cur]`), for a candidate whose grid-point product stays in the range of `int` and a
`gridsize_start` that is an `int`, so that the 32-bit arithmetic of the code gives the
values `gridsize_start` and `pme_grid_points`: the loop goes on with another round
exactly when the candidate has at least `0.8 * gridsize_start` grid points or its grid
efficiency is at least 1.05 times that of the setup before it; it stops, with the
candidate as `cur`,
exactly when the candidate has less than `0.8 * gridsize_start` points and its efficiency
is below 1.05 times that of the setup before it.  In that case the rest of the call
(lines 474-524) leaves the controller as it is and lines 526-577 make the candidate the
live setup, in stage 0 with `cur` on the candidate, so that it is the setup the next
sample times. -/
theorem C17_scan_skip_rule (fuel : Nat) (env : Env) (gridsize_start : Int) (k : Nat)
    (t lb : pme_load_balancing) (c p : pme_setup_t) (ht : t.stage = 0)
    (hgs : int_range gridsize_start) (hpts : grid_points_in_range c.grid)
    (hbody : scan_body fuel t env = .ok (lb, true))
    (hc : getSetup lb.setup lb.cur = .ok c) (hp : getSetup lb.setup (lb.cur - 1) = .ok p) :
    (int_wrap gridsize_start = gridsize_start ∧ c_grid_points c = pme_grid_points c) ∧
    (((pme_grid_points c : ℚ) ≥ gridsize_start * PME_LB_GRID_SCALE_FAC ∨
        c.grid_efficiency ≥ p.grid_efficiency * PME_LB_GRID_EFFICIENCY_REL_FAC) →
      scan_continue lb gridsize_start = .ok true ∧
      scan_advance fuel env gridsize_start (k + 1) t
        = scan_advance fuel env gridsize_start k lb) ∧
    (((pme_grid_points c : ℚ) < gridsize_start * PME_LB_GRID_SCALE_FAC ∧
        c.grid_efficiency < p.grid_efficiency * PME_LB_GRID_EFFICIENCY_REL_FAC) →
      scan_continue lb gridsize_start = .ok false ∧
      scan_advance fuel env gridsize_start (k + 1) t = .ok lb ∧
      ∀ (cycles_fast : ℚ) (pmedata : Option Nat),
        refine_stage fuel lb cycles_fast = .ok lb ∧ dd_reassert lb env = .ok lb ∧
        ∃ r, apply_setup lb env pmedata = .ok r ∧ r.ret = true ∧
          r.pme_lb.cur = lb.cur ∧ r.pme_lb.stage = 0 ∧
          r.ic = { rcoulomb := c.rcut, rlist := c.rlist, ewaldcoeff := c.ewaldcoeff }) := by
  have hst : lb.stage = 0 := by
    rcases scan_body_spec fuel t env lb true hbody with ⟨_, l1, _, hlb⟩ | ⟨hb, _⟩
    · rw [hlb]; exact ht
    · exact absurd hb (by decide)
  refine ⟨⟨int_wrap_of_range hgs, c_grid_points_of_range c hpts⟩, ?_⟩
  constructor
  · intro h
    have hcont : scan_continue lb gridsize_start = .ok true := by
      unfold scan_continue
      simp only [hc, hp]
      by_cases hpts : (pme_grid_points c : ℚ) < gridsize_start * PME_LB_GRID_SCALE_FAC
      · have heff : ¬ (c.grid_efficiency
            < p.grid_efficiency * PME_LB_GRID_EFFICIENCY_REL_FAC) := by
          rcases h with h | h
          · exact absurd hpts (not_lt.mpr h)
          · exact not_lt.mpr h
        simp [hpts, heff]
      · simp [hpts]
    refine ⟨hcont, ?_⟩
    simp only [scan_advance, hbody, hcont]
  · intro h
    have hcont : scan_continue lb gridsize_start = .ok false := by
      unfold scan_continue
      simp [hc, hp, h.1, h.2]
    refine ⟨hcont, ?_, ?_⟩
    · simp only [scan_advance, hbody, hcont]
    · intro cycles_fast pmedata
      have hr : refine_stage fuel lb cycles_fast = .ok lb := by
        unfold refine_stage
        simp [hst]
      have hd : dd_reassert lb env = .ok lb := by
        unfold dd_reassert
        simp [hst]
      obtain ⟨s0, h0⟩ := getSetup_zero_of_get hc
      obtain ⟨r, hr1, hr2, hr3, hr4⟩ := apply_setup_ok lb env pmedata c s0 hc h0
      refine ⟨hr, hd, r, hr1, hr2, ?_, ?_, hr3⟩
      · rcases hr4 with h4 | ⟨hnd, h4⟩
        · rw [h4]
        · rw [h4]
      · rcases hr4 with h4 | ⟨hnd, h4⟩
        · rw [h4]; exact hst
        · rw [h4]; exact hst

/-- The first round of the first scan of the sample controller: the candidate has 8000
points, less than `0.8 * 32768`, and efficiency about 0.25, not below `1.05 * 0`. -/
theorem C17_scan_skip_rule_witness :
    scan_continue dd_t (pme_grid_points dd_set) = .ok true ∧
    scan_advance 2 dd_env (pme_grid_points dd_set) (1 + 1) dd_lb2
      = scan_advance 2 dd_env (pme_grid_points dd_set) 1 dd_t :=
  (C17_scan_skip_rule 2 dd_env (pme_grid_points dd_set) 1 dd_lb2 dd_t dd_gen1 dd_set (by decide)
    (by decide!) (by decide!) (by decide!) (by decide!) (by decide!)).2.1 (Or.inr (by decide!))

/-! ## C18 -/

/-- The failsafe of lines 512-522 returns: the setup read for the message is in the
list. -/
theorem dd_reassert_reject (s : pme_load_balancing) (env : Env) (c : pme_setup_t)
    (hdd : env.domaindecomp = true) (hstage : 0 < s.stage)
    (hc : getSetup s.setup s.cur = .ok c) (hrej : env.change_dd_cutoff c.rlist = false) :
    dd_reassert s env = .ok (dd_failsafe s) := by
  have hlt := getSetup_lt hc
  have hprint : print_loadbal_limited (dd_failsafe s) = .ok () := by
    unfold print_loadbal_limited pme_loadbal_end
    simp only [dd_failsafe, pme_load_balancing.n]
    by_cases h0 : s.cur > 0
    · simp only [h0, if_true]
      have : ∃ a, getSetup s.setup (s.cur - 1) = .ok a := by
        have hn : (s.cur - 1).toNat < s.setup.length := by omega
        refine ⟨s.setup[(s.cur - 1).toNat], getSetup_ok_iff.2 ⟨by omega, ?_⟩⟩
        exact List.getElem?_eq_getElem hn
      obtain ⟨a, ha⟩ := this
      rw [ha]
    · simp only [h0, if_false]
      have : ∃ a, getSetup s.setup ((s.setup.length : Int) - 1) = .ok a := by
        have hn : ((s.setup.length : Int) - 1).toNat < s.setup.length := by omega
        refine ⟨s.setup[((s.setup.length : Int) - 1).toNat], getSetup_ok_iff.2 ⟨by omega, ?_⟩⟩
        exact List.getElem?_eq_getElem hn
      obtain ⟨a, ha⟩ := this
      rw [ha]
  unfold dd_reassert
  simp only [hdd, hstage, and_self, if_true, hc, hrej, hprint]
  simp


/-- C18, as stated, fails.  After `failsafe_calls` the sample controller is in stage 1
of 2 with setups 0 and 1, setup 1 active.  The next call times setup 1 at 90, which
finishes the balancing on setup 1 (`failsafe_chosen`: `stage == nstage`, `cur = 1`);
the domain decomposition then rejects its pair-list cut-off 1.11.  On return
`fastest = start = cur = 0`, `end = 1`, the limit is `epmelblimDD` and setup 0 is live,
but the stage is still 2 of 2: the balancing has finished. -/
theorem C18_rejection_at_index_1_stays_concluded :
    run sample_lb failsafe_calls = .ok failsafe_before ∧
    failsafe_chosen.stage = failsafe_chosen.nstage ∧ failsafe_chosen.cur = 1 ∧
    (getSetup failsafe_chosen.setup failsafe_chosen.cur).map
        (fun c => strict_dd_env.change_dd_cutoff c.rlist) = .ok false ∧
    (pme_load_balance 2 failsafe_before strict_dd_env 90 sample_ic none).map failsafe_view
      = .ok ([2, 2, 0, 0, 0, 1], Limit.epmelblimDD, sample_ic) := by
  refine ⟨by decide!, by decide!, by decide!, by decide!, by decide!⟩

/-- C18 (failsafe on a rejection by the domain decomposition in a stage > 0), amended.
Take a call that times a sample and in which lines 391-505 choose the setup of index
`lb4.cur` in a stage > 0, and the domain decomposition rejects its pair-list cut-off.
The call returns TRUE with `fastest = 0`, `start = 0`, `end = lb4.cur`, `cur = 0`, the
limit `epmelblimDD` and the constants of setup 0 live.  When the balancing had finished
in this call (`stage == nstage`) and the rejected index is above 1, the stage has been
taken back by one, so the balancing has not finished on return; otherwise (rejected
index 0 or 1, or balancing not finished) the stage is left as it is. -/
theorem C18_dd_failsafe (fuel : Nat) (s : pme_load_balancing) (env : Env) (cycles : ℚ)
    (ic : interaction_const_t) (pmedata : Option Nat) (set0 c : pme_setup_t)
    (lb4 : pme_load_balancing)
    (hst : s.stage ≠ s.nstage) (hget : getSetup s.setup s.cur = .ok set0)
    (hodd : set0.count % 2 = 1)
    (hsel : select_setup fuel
      { s with
        nstage := (record_cycles s { set0 with count := set0.count + 1 } cycles).1
        setup := setSetup s.setup s.cur
          (record_cycles s { set0 with count := set0.count + 1 } cycles).2 }
      env (record_cycles s { set0 with count := set0.count + 1 } cycles).2 cycles = .ok lb4)
    (hdd : env.domaindecomp = true) (hstage : 0 < lb4.stage)
    (hc : getSetup lb4.setup lb4.cur = .ok c) (hrej : env.change_dd_cutoff c.rlist = false) :
    ∃ r s0, pme_load_balance fuel s env cycles ic pmedata = .ok r ∧ r.ret = true ∧
      r.pme_lb.fastest = 0 ∧ r.pme_lb.start = 0 ∧ r.pme_lb.end_ = lb4.cur ∧
      r.pme_lb.cur = 0 ∧ r.pme_lb.elimited = Limit.epmelblimDD ∧
      getSetup r.pme_lb.setup 0 = .ok s0 ∧
      r.ic = { rcoulomb := s0.rcut, rlist := s0.rlist, ewaldcoeff := s0.ewaldcoeff } ∧
      r.pme_lb.nstage = lb4.nstage ∧
      (lb4.stage = lb4.nstage → 1 < lb4.cur →
        r.pme_lb.stage = r.pme_lb.nstage - 1 ∧ r.pme_lb.stage ≠ r.pme_lb.nstage) ∧
      (¬ (lb4.stage = lb4.nstage ∧ 1 < lb4.cur) → r.pme_lb.stage = lb4.stage) := by
  have hrea := dd_reassert_reject lb4 env c hdd hstage hc hrej
  obtain ⟨b0, hb0⟩ := getSetup_zero_of_get hc
  have hb0' : getSetup (dd_failsafe lb4).setup (dd_failsafe lb4).cur = .ok b0 := hb0
  obtain ⟨r, hr, hret, hic, hlb⟩ := apply_setup_ok (dd_failsafe lb4) env pmedata b0 b0 hb0' hb0
  have hcall : pme_load_balance fuel s env cycles ic pmedata = .ok r := by
    have hodd' : (set0.count + 1) % 2 ≠ 1 := by omega
    unfold pme_load_balance
    simp only [hst, if_false, hget, hodd']
    unfold balance_timed
    simp only [hsel, hrea, hr]
  have hfields : r.pme_lb.fastest = 0 ∧ r.pme_lb.start = 0 ∧ r.pme_lb.end_ = lb4.cur ∧
      r.pme_lb.cur = 0 ∧ r.pme_lb.elimited = Limit.epmelblimDD ∧
      r.pme_lb.nstage = lb4.nstage ∧ r.pme_lb.stage = (dd_failsafe lb4).stage := by
    rcases hlb with h | ⟨hnd, h⟩ <;> rw [h] <;> exact ⟨rfl, rfl, rfl, rfl, rfl, rfl, rfl⟩
  obtain ⟨f1, f2, f3, f4, f5, f6, f7⟩ := hfields
  have hs0 : ∃ s0, getSetup r.pme_lb.setup 0 = .ok s0 ∧
      r.ic = { rcoulomb := s0.rcut, rlist := s0.rlist, ewaldcoeff := s0.ewaldcoeff } := by
    rcases hlb with h | ⟨hnd, h⟩
    · rw [h]; exact ⟨b0, hb0, hic⟩
    · rw [h]
      refine ⟨{ b0 with pmedata := some hnd }, ?_, hic⟩
      exact getSetup_setSetup_self _ _ _ _ hb0
  obtain ⟨s0, hs0, hic0⟩ := hs0
  refine ⟨r, s0, hcall, hret, f1, f2, f3, f4, f5, hs0, hic0, f6, ?_, ?_⟩
  · intro h1 h2
    rw [f7, f6]
    simp only [dd_failsafe]
    have hcond : lb4.cur > 1 ∧ lb4.stage = lb4.nstage := ⟨h2, h1⟩
    rw [if_pos hcond]
    omega
  · intro h
    rw [f7]
    simp only [dd_failsafe]
    have hcond : ¬ (lb4.cur > 1 ∧ lb4.stage = lb4.nstage) := fun hh => h ⟨hh.2, hh.1⟩
    rw [if_neg hcond]

/-- The call after `failsafe_calls` with `strict_dd_env`: the rejected index is 1, the
stage stays 2. -/
theorem C18_dd_failsafe_witness :
    ∃ r s0, pme_load_balance 2 failsafe_before strict_dd_env 90 sample_ic none = .ok r ∧
      r.ret = true ∧
      r.pme_lb.fastest = 0 ∧ r.pme_lb.start = 0 ∧ r.pme_lb.end_ = failsafe_chosen.cur ∧
      r.pme_lb.cur = 0 ∧ r.pme_lb.elimited = Limit.epmelblimDD ∧
      getSetup r.pme_lb.setup 0 = .ok s0 ∧
      r.ic = { rcoulomb := s0.rcut, rlist := s0.rlist, ewaldcoeff := s0.ewaldcoeff } ∧
      r.pme_lb.nstage = failsafe_chosen.nstage ∧
      (failsafe_chosen.stage = failsafe_chosen.nstage → 1 < failsafe_chosen.cur →
        r.pme_lb.stage = r.pme_lb.nstage - 1 ∧ r.pme_lb.stage ≠ r.pme_lb.nstage) ∧
      (¬ (failsafe_chosen.stage = failsafe_chosen.nstage ∧ 1 < failsafe_chosen.cur) →
        r.pme_lb.stage = failsafe_chosen.stage) :=
  C18_dd_failsafe 2 failsafe_before strict_dd_env 90 sample_ic none failsafe_set0
    { failsafe_set0 with count := 2, cycles := 90 } failsafe_chosen
    (by decide!) (by decide!) (by decide!) (by decide!) (by decide) (by decide!) (by decide!)
    (by decide!)

/-! ## C19 -/

theorem safe_ok {α : Type} {x : Except Fault α} {post : α → Prop} {v : α}
    (h : Safe x post) (hx : x = .ok v) : post v := by
  rcases h with h | ⟨w, hw, hp⟩
  · rw [hx] at h; cases h
  · rw [hx] at hw
    cases hw
    exact hp

theorem safe_not_oob {α : Type} {x : Except Fault α} {post : α → Prop}
    (h : Safe x post) : x ≠ .error .outOfBounds := by
  rcases h with h | ⟨w, hw, _⟩
  · rw [h]; simp
  · rw [hw]; simp

theorem safe_mono {α : Type} {x : Except Fault α} {p q : α → Prop}
    (h : Safe x p) (hpq : ∀ v, p v → q v) : Safe x q := by
  rcases h with h | ⟨w, hw, hp⟩
  · exact Or.inl h
  · exact Or.inr ⟨w, hw, hpq w hp⟩

/-- An index inside the list can be read. -/
theorem getSetup_of_lt (l : List pme_setup_t) (i : Int) (h0 : 0 ≤ i) (hl : i < l.length) :
    ∃ a, getSetup l i = .ok a := by
  have hn : i.toNat < l.length := by omega
  exact ⟨l[i.toNat], getSetup_ok_iff.2 ⟨h0, List.getElem?_eq_getElem hn⟩⟩

/-- The loop of lines 294-300 returns when `fastest` is in the list; it passes only
setups that have not been sampled or are slow, and stops before the last setup only at
one that has been sampled and is not slow. -/
theorem stage1_start_up_ok (setup : List pme_setup_t) (fastest : Int) (f : pme_setup_t)
    (hf : getSetup setup fastest = .ok f) (l : List pme_setup_t) (m : Nat)
    (hl : setup.drop m = l) :
    ∃ up, stage1_start_up setup fastest l (m : Int) = .ok up ∧ (m : Int) ≤ up ∧
      (up < setup.length ∨ l = []) ∧
      (∀ i a, (m : Int) ≤ i → i < up → getSetup setup i = .ok a →
        a.count = 0 ∨ a.cycles > f.cycles * PME_LB_SLOW_FAC) ∧
      (up + 1 < setup.length → ∃ a, getSetup setup up = .ok a ∧ a.count ≠ 0 ∧
        ¬ a.cycles > f.cycles * PME_LB_SLOW_FAC) := by
  induction l generalizing m with
  | nil =>
    refine ⟨m, rfl, le_refl _, Or.inr rfl, ?_, ?_⟩
    · intro i a h1 h2; omega
    · intro h
      have := List.drop_eq_nil_iff.1 hl
      omega
  | cons a t ih =>
    have hm : m < setup.length := by
      by_contra hge
      have : setup.drop m = [] := List.drop_eq_nil_iff.2 (by omega)
      rw [this] at hl
      cases hl
    have ha : getSetup setup (m : Int) = .ok a := by
      refine getSetup_ok_iff.2 ⟨by omega, ?_⟩
      have h1 : (setup.drop m)[0]? = some a := by rw [hl]; simp
      rw [List.getElem?_drop] at h1
      simpa using h1
    have ht : setup.drop (m + 1) = t := by
      have h1 : (setup.drop m).drop 1 = t := by rw [hl]; rfl
      rw [List.drop_drop] at h1
      rw [← h1]
    cases t with
    | nil =>
      have hlen : setup.length = m + 1 := by
        have := List.drop_eq_nil_iff.1 ht
        omega
      refine ⟨m, rfl, le_refl _, Or.inl (by omega), ?_, ?_⟩
      · intro i a h1 h2; omega
      · intro h; omega
    | cons b rest =>
      obtain ⟨up, hup, hle, hlt, hpass, hstop⟩ := ih (m + 1) ht
      have hlt' : up < setup.length := by
        rcases hlt with h | h
        · exact h
        · cases h
      have hcast : ((m + 1 : Nat) : Int) = (m : Int) + 1 := by push_cast; rfl
      rw [hcast] at hup hle hpass
      by_cases hcnt : a.count = 0
      · refine ⟨up, ?_, by omega, Or.inl hlt', ?_, hstop⟩
        · simp only [stage1_start_up, hcnt, if_true]
          exact hup
        · intro i x h1 h2 hx
          by_cases hi : i = m
          · subst hi
            rw [ha] at hx
            cases hx
            exact Or.inl hcnt
          · exact hpass i x (by omega) h2 hx
      · by_cases hslow : a.cycles > f.cycles * PME_LB_SLOW_FAC
        · refine ⟨up, ?_, by omega, Or.inl hlt', ?_, hstop⟩
          · simp only [stage1_start_up, hcnt, if_false, hf, hslow, if_true]
            exact hup
          · intro i x h1 h2 hx
            by_cases hi : i = m
            · subst hi
              rw [ha] at hx
              cases hx
              exact Or.inr hslow
            · exact hpass i x (by omega) h2 hx
        · refine ⟨m, ?_, le_refl _, Or.inl (by omega), ?_, ?_⟩
          · simp only [stage1_start_up, hcnt, if_false, hf, hslow]
          · intro i x h1 h2 hx; omega
          · intro _
            exact ⟨a, ha, hcnt, hslow⟩


/-- The loop of lines 301-304 returns; when it moves `start`, the new `setup[start]` has
time 0. -/
theorem stage1_start_down_ok (setup : List pme_setup_t) (k : Nat) (hk : k ≤ setup.length) :
    ∃ start, stage1_start_down setup k = .ok start ∧ 0 ≤ start ∧ start ≤ k ∧
      (start < k → ∃ a, getSetup setup start = .ok a ∧ a.cycles = 0) := by
  induction k with
  | zero => exact ⟨0, rfl, le_refl _, by simp, fun h => by simp at h⟩
  | succ k ih =>
    obtain ⟨p, hp⟩ := getSetup_of_lt setup (k : Int) (by omega) (by omega)
    by_cases hz : p.cycles = 0
    · obtain ⟨start, h1, h2, h3, h4⟩ := ih (by omega)
      refine ⟨start, ?_, h2, by push_cast; omega, ?_⟩
      · simp only [stage1_start_down, hp, hz, if_true]
        exact h1
      · intro hlt
        by_cases hsk : start < k
        · exact h4 hsk
        · have : start = (k : Int) := by omega
          subst this
          exact ⟨p, hp, hz⟩
    · refine ⟨(k : Int) + 1, ?_, by omega, by push_cast; omega, ?_⟩
      · simp only [stage1_start_down, hp, hz, if_false]
      · intro hlt
        push_cast at hlt
        omega

/-- With non-negative times and a sampled `fastest` in the list, `switch_to_stage1`
returns and sets up a range that holds the fastest setup. -/
theorem switch_to_stage1_ok (X : pme_load_balancing) (h : SwitchReady X) :
    ∃ lb, switch_to_stage1 X = .ok lb ∧
      lb = { X with start := lb.start, end_ := lb.end_, stage := 1, cur := lb.start - 1 } ∧
      X.n - 1 ≤ lb.end_ ∧ RefinementRange lb := by
  obtain ⟨hnn, f, hf, hcnt⟩ := h
  have hfl := getSetup_lt hf
  have hfnn : 0 ≤ f.cycles := hnn f (mem_of_getSetup hf)
  have hfslow : ¬ f.cycles > f.cycles * PME_LB_SLOW_FAC := by
    unfold PME_LB_SLOW_FAC
    intro hh
    linarith
  obtain ⟨up, hup, hup0, hupn, hpass, hstop⟩ :=
    stage1_start_up_ok X.setup X.fastest f hf X.setup 0 rfl
  simp only [Nat.cast_zero] at hup hup0 hpass
  have hupn' : up < X.setup.length := by
    rcases hupn with h | h
    · exact h
    · rw [h] at hfl
      simp at hfl
      omega
  have hupf : up ≤ X.fastest := by
    by_contra hlt
    rcases hpass X.fastest f hfl.1 (by omega) hf with h | h
    · exact hcnt h
    · exact hfslow h
  obtain ⟨start, hstart, hs0, hsk, hzero⟩ :=
    stage1_start_down_ok X.setup up.toNat (by omega)
  have hup' : ((up.toNat : Nat) : Int) = up := Int.toNat_of_nonneg hup0
  rw [hup'] at hsk hzero
  obtain ⟨last, hlast⟩ := getSetup_of_lt X.setup (X.n - 1) (by unfold pme_load_balancing.n; omega)
    (by unfold pme_load_balancing.n; omega)
  -- the value of `end`
  have hend : ∃ e, stage1_end X = .ok e ∧ X.fastest < e ∧ e ≤ X.n ∧ X.n - 1 ≤ e := by
    unfold stage1_end
    simp only [hlast]
    by_cases hc : last.count > 0
    · simp only [hc, if_true, hf]
      by_cases hslow : last.cycles > f.cycles * PME_LB_SLOW_FAC
      · simp only [hslow, if_true]
        refine ⟨_, rfl, ?_, by omega, le_refl _⟩
        have hne : X.fastest ≠ X.n - 1 := by
          intro heq
          rw [heq, hlast] at hf
          cases hf
          exact hfslow hslow
        unfold pme_load_balancing.n at hne ⊢
        omega
      · simp only [hslow, if_false]
        exact ⟨_, rfl, by unfold pme_load_balancing.n; omega, le_refl _, by omega⟩
    · simp only [hc, if_false]
      exact ⟨_, rfl, by unfold pme_load_balancing.n; omega, le_refl _, by omega⟩
  obtain ⟨e, he, hfe, hen, hen1⟩ := hend
  obtain ⟨a, ha⟩ := getSetup_of_lt X.setup start hs0 (by omega)
  refine ⟨{ X with start := start, end_ := e, stage := 1, cur := start - 1 }, ?_, rfl, hen1,
    rfl, hs0, by simp only; omega, hfe, hen, rfl, f, a, hf, ha, ?_, ?_⟩
  · unfold switch_to_stage1
    simp only [hup, hstart, he]
  · by_cases hmoved : start < up
    · obtain ⟨a', ha', hz⟩ := hzero hmoved
      rw [ha] at ha'
      cases ha'
      exact Or.inl hz
    · have hsu : start = up := by omega
      subst hsu
      by_cases hlastidx : start + 1 < X.setup.length
      · obtain ⟨a', ha', hc', hs'⟩ := hstop hlastidx
        rw [ha] at ha'
        cases ha'
        exact Or.inr ⟨hc', not_lt.mp hs'⟩
      · have : start = X.fastest := by omega
        subst this
        rw [ha] at hf
        cases hf
        exact Or.inr ⟨hcnt, not_lt.mp hfslow⟩
  · intro i b hi hb hbc
    have hb0 := (getSetup_lt hb).1
    rcases hpass i b hb0 (by simp only at hi; omega) hb with h | h
    · exact absurd h hbc
    · exact h

theorem stageInv_fastest {s : pme_load_balancing} {k : Int} (h : StageInv s k) :
    0 ≤ s.fastest ∧ s.fastest < s.n := by
  obtain ⟨_, hn, hs0, h0, h1⟩ := h
  by_cases hst : s.stage = 0
  · have := h0 hst
    omega
  · rcases h1 (by omega) with h | h <;> omega

theorem stageInv_cur {s : pme_load_balancing} (h : StageInv s 0) :
    0 ≤ s.cur ∧ s.cur < s.n := by
  obtain ⟨_, hn, hs0, h0, h1⟩ := h
  by_cases hst : s.stage = 0
  · have := h0 hst
    omega
  · rcases h1 (by omega) with h | h <;> omega

theorem stageInv_mono {s : pme_load_balancing} (h : StageInv s 0) : StageInv s 1 := by
  obtain ⟨h1, h2, h3, h4, h5⟩ := h
  refine ⟨h1, h2, h3, h4, ?_⟩
  intro hs
  rcases h5 hs with h | h
  · exact Or.inl ⟨h.1, h.2.1, h.2.2.1, h.2.2.2.1, by omega, h.2.2.2.2.2⟩
  · exact Or.inr h

/-- The state after `switch_to_stage1` satisfies the invariant inside a call. -/
theorem midInv_of_range {lb : pme_load_balancing} (h : RefinementRange lb)
    (hnn : CyclesNonneg lb.setup) (hn : 2 ≤ lb.nstage) : MidInv lb := by
  obtain ⟨hst, h0, h1, h2, h3, h4, _⟩ := h
  refine ⟨⟨hnn, by omega, by omega, fun h => by omega, ?_⟩, hn, by omega, fun h => by omega⟩
  intro _
  exact Or.inl ⟨h0, h1, h2, h3, by omega, by omega⟩

theorem cyclesNonneg_take {l : List pme_setup_t} (k : Nat) (h : CyclesNonneg l) :
    CyclesNonneg (l.take k) :=
  fun a ha => h a (List.mem_of_mem_take ha)

/-- Lines 400-406 return, and keep the invariant inside a call. -/
theorem scan_exit_check_ok (lb1 : pme_load_balancing) (cycles : ℚ) (h : MidInv lb1) :
    ∃ lb2, scan_exit_check lb1 cycles = .ok lb2 ∧ MidInv lb2 ∧
      (lb2 = lb1 ∨ (lb1.stage = 0 ∧ RefinementRange lb2)) := by
  obtain ⟨hsi, hn, hlt, htimed⟩ := h
  unfold scan_exit_check
  by_cases hc : lb1.stage = 0 ∧ lb1.cur > 0
  · rw [if_pos hc]
    obtain ⟨f, hf, hfc⟩ := htimed hc.1
    simp only [hf]
    by_cases hslow : cycles > f.cycles * PME_LB_SLOW_FAC
    · rw [if_pos hslow]
      have h0 := hsi.2.2.2.1 hc.1
      have hready : SwitchReady { lb1 with setup := lb1.setup.take (lb1.cur + 1).toNat } := by
        refine ⟨cyclesNonneg_take _ hsi.1, f, ?_, hfc⟩
        have hlt' : lb1.fastest < (((lb1.cur + 1).toNat : Nat) : Int) := by omega
        exact getSetup_take_of_lt hf hlt'
      obtain ⟨lb, hlb, hfr, _, hrange⟩ := switch_to_stage1_ok _ hready
      refine ⟨lb, hlb, ?_, Or.inr ⟨hc.1, hrange⟩⟩
      apply midInv_of_range hrange
      · rw [hfr]; exact cyclesNonneg_take _ hsi.1
      · rw [hfr]; exact hn
    · rw [if_neg hslow]
      exact ⟨lb1, rfl, ⟨hsi, hn, hlt, htimed⟩, Or.inl rfl⟩
  · rw [if_neg hc]
    exact ⟨lb1, rfl, ⟨hsi, hn, hlt, htimed⟩, Or.inl rfl⟩

theorem increase_cutoff_search_fault (env : Env) (box_start : matrix) (spacing : ℚ)
    (pme_order : Int) (fuel : Nat) (fac : ℚ) (e : Fault)
    (h : increase_cutoff_search env box_start spacing pme_order fuel fac = .error e) :
    e = .outOfFuel := by
  induction fuel generalizing fac with
  | zero =>
    simp only [increase_cutoff_search, Except.error.injEq] at h
    exact h.symm
  | succ n ih =>
    simp only [increase_cutoff_search] at h
    split at h
    · cases h
    · split at h
      · exact ih _ h
      · cases h

/-- Lines 416-425 at the head of a round of the scan loop: the next setup is there, or
the generator fails, or it appends a setup with time 0. -/
theorem scan_next_setup_safe (fuel : Nat) (t : pme_load_balancing) (env : Env)
    (hinv : MidInv t) (h0 : t.stage = 0) :
    Safe (scan_next_setup fuel t env) (fun p =>
      (p = (t, true) ∧ t.cur + 1 < t.n) ∨ (p = (t, false) ∧ t.cur + 1 = t.n) ∨
      ∃ set, p = ({ t with setup := t.setup ++ [set] }, true) ∧ t.cur + 1 = t.n ∧
        set.cycles = 0) := by
  have hs := hinv.1.2.2.2.1 h0
  unfold scan_next_setup
  by_cases hnext : t.cur + 1 < t.n
  · rw [if_pos hnext]
    exact Or.inr ⟨_, rfl, Or.inl ⟨rfl, hnext⟩⟩
  · rw [if_neg hnext]
    have hn : t.cur + 1 = t.n := by omega
    obtain ⟨c, hc⟩ := getSetup_of_lt t.setup t.cur (by omega)
      (by unfold pme_load_balancing.n at hs; omega)
    obtain ⟨s0, hs0⟩ := getSetup_zero_of_get hc
    unfold pme_loadbal_increase_cutoff
    simp only [hc]
    cases hsearch : increase_cutoff_search env t.box_start c.spacing env.ir.pme_order fuel 1 with
    | error e =>
      have := increase_cutoff_search_fault _ _ _ _ _ _ _ hsearch
      subst this
      exact Or.inl rfl
    | ok o =>
      cases o with
      | none => exact Or.inr ⟨_, rfl, Or.inr (Or.inl ⟨rfl, hn⟩)⟩
      | some r =>
        simp only [hs0]
        exact Or.inr ⟨_, rfl, Or.inr (Or.inr ⟨_, rfl, hn, rfl⟩)⟩

/-- Lines 427-435 return when the candidate is in the list. -/
theorem scan_box_check_ok (lb : pme_load_balancing) (env : Env) (ok1 : Bool)
    (h : ok1 = true → ∃ a, getSetup lb.setup (lb.cur + 1) = .ok a) :
    ∃ lim ok2, scan_box_check lb env ok1 = .ok ({ lb with elimited := lim }, ok2) ∧
      (ok2 = true → ok1 = true) := by
  unfold scan_box_check
  by_cases hc : ok1 = true ∧ env.ir.ePBC ≠ PBC.epbcNONE
  · rw [if_pos hc]
    obtain ⟨a, ha⟩ := h hc.1
    simp only [ha]
    by_cases hbox : a.rlist * a.rlist ≤ env.max_cutoff2
    · rw [if_pos hbox]
      exact ⟨lb.elimited, true, rfl, fun _ => hc.1⟩
    · rw [if_neg hbox]
      exact ⟨Limit.epmelblimBOX, false, rfl, fun h => by cases h⟩
  · rw [if_neg hc]
    exact ⟨lb.elimited, ok1, rfl, fun h => h⟩

/-- Lines 437-452 return when the candidate is in the list: `cur` moves to the
candidate, or stays with `OK = FALSE`. -/
theorem scan_dd_check_ok (lb : pme_load_balancing) (env : Env) (ok2 : Bool)
    (h : ok2 = true → ∃ a, getSetup lb.setup (lb.cur + 1) = .ok a) :
    (scan_dd_check lb env ok2 = .ok ({ lb with cur := lb.cur + 1 }, true) ∧ ok2 = true) ∨
    ∃ lim, scan_dd_check lb env ok2 = .ok ({ lb with elimited := lim }, false) := by
  unfold scan_dd_check
  by_cases hok : ok2 = true
  · rw [if_pos hok]
    obtain ⟨a, ha⟩ := h hok
    by_cases hdd : env.domaindecomp = true
    · rw [if_pos hdd]
      simp only [ha]
      by_cases hacc : env.change_dd_cutoff a.rlist = true
      · rw [if_pos hacc]
        exact Or.inl ⟨rfl, hok⟩
      · rw [if_neg hacc]
        refine Or.inr ⟨Limit.epmelblimDD, ?_⟩
        have : lb.cur + 1 - 1 = lb.cur := by omega
        rw [this]
    · rw [if_neg hdd]
      exact Or.inl ⟨rfl, hok⟩
  · rw [if_neg hok]
    exact Or.inr ⟨lb.elimited, rfl⟩

/-- Lines 453-462 after a failure in stage 0: the list is cut behind `cur`,
`switch_to_stage1` returns and sets up a range that holds the fastest setup. -/
theorem scan_limit_false_ok (lbC : pme_load_balancing) (hnn : CyclesNonneg lbC.setup)
    (hcur0 : 0 ≤ lbC.cur) (hcur : lbC.cur < lbC.n) (hend : lbC.end_ = 0)
    (hfast : lbC.fastest ≤ lbC.cur)
    (hf : ∃ f, getSetup lbC.setup lbC.fastest = .ok f ∧ f.count ≠ 0) (hn : 2 ≤ lbC.nstage) :
    ∃ lb, scan_limit lbC false = .ok (lb, false) ∧ RefinementRange lb ∧ MidInv lb ∧
      lb.nstage = lbC.nstage := by
  obtain ⟨f, hf, hfc⟩ := hf
  unfold pme_load_balancing.n at hcur
  have hlen : (lbC.setup.take (lbC.cur + 1).toNat).length = (lbC.cur + 1).toNat := by
    rw [List.length_take]
    omega
  have hprint : print_loadbal_limited
      { lbC with setup := lbC.setup.take (lbC.cur + 1).toNat } = .ok () := by
    unfold print_loadbal_limited pme_loadbal_end pme_load_balancing.n
    simp only [hend, lt_self_iff_false, if_false, hlen]
    obtain ⟨a, ha⟩ := getSetup_of_lt (lbC.setup.take (lbC.cur + 1).toNat)
      ((((lbC.cur + 1).toNat : Nat) : Int) - 1) (by omega) (by rw [hlen]; omega)
    simp only [gt_iff_lt, lt_self_iff_false, if_false, ha]
  have hready : SwitchReady { lbC with setup := lbC.setup.take (lbC.cur + 1).toNat } := by
    refine ⟨cyclesNonneg_take _ hnn, f, ?_, hfc⟩
    have hlt' : lbC.fastest < (((lbC.cur + 1).toNat : Nat) : Int) := by omega
    exact getSetup_take_of_lt hf hlt'
  obtain ⟨lb, hlb, hfr, _, hrange⟩ := switch_to_stage1_ok _ hready
  refine ⟨lb, ?_, hrange, ?_, ?_⟩
  · unfold scan_limit
    simp only [Bool.false_eq_true, if_false, hprint, hlb]
  · apply midInv_of_range hrange
    · rw [hfr]; exact cyclesNonneg_take _ hnn
    · rw [hfr]; exact hn
  · rw [hfr]

theorem cyclesNonneg_append {l : List pme_setup_t} {x : pme_setup_t} (h : CyclesNonneg l)
    (hx : 0 ≤ x.cycles) : CyclesNonneg (l ++ [x]) := by
  intro a ha
  rcases List.mem_append.1 ha with h1 | h1
  · exact h a h1
  · simp only [List.mem_singleton] at h1
    subst h1
    exact hx

/-- One round of the scan loop entered in stage 0 with the invariant: it runs out of fuel
(in the generator), or accepts a candidate and stays in stage 0, or ends the scan with a
range that holds the fastest setup. -/
theorem scan_body_total (fuel : Nat) (t : pme_load_balancing) (env : Env)
    (hinv : MidInv t) (h0 : t.stage = 0) :
    scan_next_setup fuel t env = .error .outOfFuel ∨
    ∃ p, scan_body fuel t env = .ok p ∧
      MidInv p.1 ∧ p.1.nstage = t.nstage ∧
      ((p.2 = true ∧ p.1.stage = 0 ∧ 1 ≤ p.1.cur) ∨ (p.2 = false ∧ RefinementRange p.1)) := by
  have hs := hinv.1.2.2.2.1 h0
  obtain ⟨f, hf, hfc⟩ := hinv.2.2.2 h0
  have hnn := hinv.1.1
  rcases scan_next_setup_safe fuel t env hinv h0 with herr | ⟨pA, hA, hpost⟩
  · left
    exact herr
  · -- the list after lines 416-425
    have hshape : ∃ l1 ok1, pA = ({ t with setup := l1 }, ok1) ∧ CyclesNonneg l1 ∧
        (∀ i a, getSetup t.setup i = .ok a → getSetup l1 i = .ok a) ∧
        t.setup.length ≤ l1.length ∧ (ok1 = true → t.cur + 1 < l1.length) := by
      rcases hpost with ⟨rfl, hlt⟩ | ⟨rfl, _⟩ | ⟨set, rfl, hn, hz⟩
      · exact ⟨t.setup, true, rfl, hnn, fun _ _ h => h, le_refl _, fun _ => hlt⟩
      · exact ⟨t.setup, false, rfl, hnn, fun _ _ h => h, le_refl _, fun h => by cases h⟩
      · refine ⟨t.setup ++ [set], true, rfl, cyclesNonneg_append hnn (by rw [hz]),
          fun _ _ h => getSetup_append_left _ h, by simp, fun _ => ?_⟩
        unfold pme_load_balancing.n at hn
        simp only [List.length_append, List.length_singleton]
        push_cast
        omega
    obtain ⟨l1, ok1, rfl, hnn1, hold, hlen, hok1⟩ := hshape
    unfold pme_load_balancing.n at hs
    have hcand : ok1 = true → ∃ a, getSetup l1 (t.cur + 1) = .ok a :=
      fun h => getSetup_of_lt l1 (t.cur + 1) (by omega) (hok1 h)
    obtain ⟨lim, ok2, hbox, hok2⟩ := scan_box_check_ok { t with setup := l1 } env ok1 hcand
    have hcand2 : ok2 = true → ∃ a, getSetup
        ({ t with setup := l1, elimited := lim } : pme_load_balancing).setup
        (({ t with setup := l1, elimited := lim } : pme_load_balancing).cur + 1) = .ok a :=
      fun h => hcand (hok2 h)
    rcases scan_dd_check_ok { t with setup := l1, elimited := lim } env ok2 hcand2 with
      ⟨hdd, hok⟩ | ⟨lim', hdd⟩
    · right
      refine ⟨({ t with setup := l1, elimited := lim, cur := t.cur + 1 }, true), ?_, ?_, rfl,
        Or.inl ⟨rfl, h0, ?_⟩⟩
      · simp only [scan_body, hA, hbox, hdd, scan_limit, if_true]
      · have hlt := hok1 (hok2 hok)
        refine ⟨⟨hnn1, ?_, by simp only; omega, ?_, ?_⟩, hinv.2.1, hinv.2.2.1, ?_⟩
        · unfold pme_load_balancing.n; simp only; omega
        · intro _
          unfold pme_load_balancing.n
          simp only
          exact ⟨by omega, by omega, hlt, hs.2.2.2⟩
        · intro h
          simp only at h
          omega
        · intro _
          exact ⟨f, hold _ _ hf, hfc⟩
      · simp only
        omega
    · obtain ⟨lb, hlim, hrange, hmid, hns⟩ := scan_limit_false_ok
        { t with setup := l1, elimited := lim' } hnn1 (by simp only; omega)
        (by unfold pme_load_balancing.n; simp only; omega) hs.2.2.2 hs.2.1
        ⟨f, hold _ _ hf, hfc⟩ hinv.2.1
      right
      refine ⟨(lb, false), ?_, hmid, hns, Or.inr ⟨rfl, hrange⟩⟩
      simp only [scan_body, hA, hbox, hdd, hlim]

theorem scan_body_safe (fuel : Nat) (t : pme_load_balancing) (env : Env)
    (hinv : MidInv t) (h0 : t.stage = 0) :
    Safe (scan_body fuel t env) (fun p =>
      MidInv p.1 ∧ p.1.nstage = t.nstage ∧
      ((p.2 = true ∧ p.1.stage = 0 ∧ 1 ≤ p.1.cur) ∨ (p.2 = false ∧ RefinementRange p.1))) := by
  rcases scan_body_total fuel t env hinv h0 with herr | h
  · left
    simp only [scan_body, herr]
  · exact Or.inr h

/-- The loop condition of lines 465-471 can be evaluated after an accepted candidate. -/
theorem scan_continue_ok (lb : pme_load_balancing) (gs : Int) (hcur : 1 ≤ lb.cur)
    (hlt : lb.cur < lb.n) : ∃ b, scan_continue lb gs = .ok b := by
  unfold pme_load_balancing.n at hlt
  obtain ⟨c, hc⟩ := getSetup_of_lt lb.setup lb.cur (by omega) hlt
  obtain ⟨p, hp⟩ := getSetup_of_lt lb.setup (lb.cur - 1) (by omega) (by omega)
  unfold scan_continue
  simp only [hc, hp]
  split
  · exact ⟨_, rfl⟩
  · exact ⟨_, rfl⟩

/-- The scan loop entered in stage 0 with the invariant reads inside the list only, and
keeps the invariant. -/
theorem scan_advance_safe (fuel : Nat) (env : Env) (gs : Int) (k : Nat)
    (t : pme_load_balancing) (hinv : MidInv t) (h0 : t.stage = 0) :
    Safe (scan_advance fuel env gs k t) (fun lb =>
      MidInv lb ∧ lb.nstage = t.nstage ∧ (lb.stage = 0 ∨ RefinementRange lb)) := by
  induction k generalizing t with
  | zero => exact Or.inl rfl
  | succ k ih =>
    rcases scan_body_safe fuel t env hinv h0 with herr | ⟨p, hp, hmid, hns, hcase⟩
    · left
      simp only [scan_advance, herr]
    · obtain ⟨lb, b⟩ := p
      rcases hcase with ⟨hb, hst, hcur⟩ | ⟨hb, hrange⟩
      · simp only at hb hst hcur hmid hns
        subst hb
        have hlt : lb.cur < lb.n := (hmid.1.2.2.2.1 hst).2.2.1
        obtain ⟨b', hb'⟩ := scan_continue_ok lb gs hcur hlt
        cases b' with
        | true =>
          have := ih lb hmid hst
          rw [hns] at this
          simp only [scan_advance, hp, hb']
          exact this
        | false =>
          right
          refine ⟨lb, ?_, hmid, hns, Or.inl hst⟩
          simp only [scan_advance, hp, hb']
      · simp only at hb hrange hmid hns
        subst hb
        right
        refine ⟨lb, ?_, hmid, hns, Or.inr hrange⟩
        simp only [scan_advance, hp]

/-- Lines 408-472 keep the invariant inside a call. -/
theorem scan_stage_safe (fuel : Nat) (lb2 : pme_load_balancing) (env : Env)
    (set : pme_setup_t) (hinv : MidInv lb2) :
    Safe (scan_stage fuel lb2 env set) (fun lb3 =>
      MidInv lb3 ∧ lb3.nstage = lb2.nstage ∧ (lb2.stage ≠ 0 → lb3 = lb2) ∧
      (lb2.stage = 0 → lb3.stage = 0 ∨ RefinementRange lb3)) := by
  unfold scan_stage
  by_cases h0 : lb2.stage = 0
  · rw [if_pos h0]
    apply safe_mono (scan_advance_safe fuel env _ fuel lb2 hinv h0)
    intro lb ⟨h1, h2, h3⟩
    exact ⟨h1, h2, fun h => absurd h0 h, fun _ => h3⟩
  · rw [if_neg h0]
    exact Or.inr ⟨lb2, rfl, hinv, rfl, fun _ => rfl, fun h => absurd h h0⟩

/-- The loop of lines 487-498, entered with `start - 1 <= cur < end` in a range inside
the list and before the last stage has ended: it reads inside the list only, leaves
`cur` in `[start, end)`, and returns within `refine_rounds` rounds. -/
theorem refine_loop_safe (cf : ℚ) (k : Nat) (s : pme_load_balancing)
    (h0 : 0 ≤ s.start) (h1 : s.start - 1 ≤ s.cur) (h2 : s.cur < s.end_)
    (h3 : s.start < s.end_) (h4 : s.end_ ≤ s.n) (h5 : s.stage < s.nstage) :
    Safe (refine_loop cf k s) (fun s' =>
      s' = { s with cur := s'.cur, stage := s'.stage } ∧ s.start ≤ s'.cur ∧
      s'.cur < s.end_ ∧ s.stage ≤ s'.stage ∧ s'.stage ≤ s.nstage) ∧
    (refine_rounds s ≤ k → ∃ s', refine_loop cf k s = .ok s') := by
  induction k generalizing s with
  | zero =>
    refine ⟨Or.inl rfl, ?_⟩
    intro hb
    unfold refine_rounds at hb
    simp only [Nat.cast_zero] at hb
    split at hb
    · omega
    · split at hb <;> omega
  | succ k ih =>
    unfold pme_load_balancing.n at h4
    by_cases hwrap : s.cur + 1 = s.end_
    · -- `cur` reaches `end`: next stage, back to `start`
      by_cases hlast : s.stage + 1 = s.nstage - 1
      · obtain ⟨c, hc⟩ := getSetup_of_lt s.setup s.start h0 (by omega)
        by_cases hslow : c.count > 0 ∧ c.cycles > cf * PME_LB_SLOW_FAC
        · have hstep : refine_loop cf (k + 1) s
              = refine_loop cf k { s with cur := s.start, stage := s.stage + 1 } := by
            simp only [refine_loop, hwrap, if_true, hlast, hc, hslow, and_self]
          rw [hstep]
          obtain ⟨ih1, ih2⟩ := ih { s with cur := s.start, stage := s.stage + 1 } h0
            (by simp only; omega) h3 h3 h4 (by simp only; omega)
          refine ⟨safe_mono ih1 ?_, ?_⟩
          · intro s' ⟨e1, e2, e3, e4, e5⟩
            simp only at e1 e2 e3 e4 e5
            refine ⟨?_, e2, e3, by omega, e5⟩
            rw [e1]
          · intro hb
            apply ih2
            unfold refine_rounds at hb ⊢
            simp only at hb ⊢
            rw [if_pos hlast]
            rw [if_neg (by omega), if_pos (by omega)] at hb
            push_cast at hb
            omega
        · have hstep : refine_loop cf (k + 1) s
              = .ok { s with cur := s.start, stage := s.stage + 1 } := by
            simp only [refine_loop, hwrap, if_true, hlast, hc, hslow, if_false]
          rw [hstep]
          exact ⟨Or.inr ⟨_, rfl, rfl, le_refl _, h3, by simp only; omega, by simp only; omega⟩,
            fun _ => ⟨_, rfl⟩⟩
      · have hstep : refine_loop cf (k + 1) s
            = .ok { s with cur := s.start, stage := s.stage + 1 } := by
          simp only [refine_loop, hwrap, if_true, hlast, if_false]
        rw [hstep]
        exact ⟨Or.inr ⟨_, rfl, rfl, le_refl _, h3, by simp only; omega, by simp only; omega⟩,
          fun _ => ⟨_, rfl⟩⟩
    · -- `cur` moves on inside the range
      by_cases hlast : s.stage = s.nstage - 1
      · obtain ⟨c, hc⟩ := getSetup_of_lt s.setup (s.cur + 1) (by omega) (by omega)
        by_cases hslow : c.count > 0 ∧ c.cycles > cf * PME_LB_SLOW_FAC
        · have hstep : refine_loop cf (k + 1) s
              = refine_loop cf k { s with cur := s.cur + 1 } := by
            simp only [refine_loop, hwrap, if_false, hlast, if_true, hc, hslow, and_self]
          rw [hstep]
          obtain ⟨ih1, ih2⟩ := ih { s with cur := s.cur + 1 } h0
            (by simp only; omega) (by simp only; omega) h3 h4 h5
          refine ⟨safe_mono ih1 ?_, ?_⟩
          · intro s' ⟨e1, e2, e3, e4, e5⟩
            simp only at e1 e2 e3 e4 e5
            refine ⟨?_, e2, e3, e4, e5⟩
            rw [e1]
          · intro hb
            apply ih2
            unfold refine_rounds at hb ⊢
            simp only at hb ⊢
            rw [if_pos hlast] at hb ⊢
            push_cast at hb
            omega
        · have hstep : refine_loop cf (k + 1) s = .ok { s with cur := s.cur + 1 } := by
            simp only [refine_loop, hwrap, if_false, hlast, if_true, hc, hslow]
          rw [hstep]
          exact ⟨Or.inr ⟨_, rfl, rfl, by simp only; omega, by simp only; omega, le_refl _,
            by simp only; omega⟩, fun _ => ⟨_, rfl⟩⟩
      · have hstep : refine_loop cf (k + 1) s = .ok { s with cur := s.cur + 1 } := by
          simp only [refine_loop, hwrap, if_false, hlast]
        rw [hstep]
        exact ⟨Or.inr ⟨_, rfl, rfl, by simp only; omega, by simp only; omega, le_refl _,
          by simp only; omega⟩, fun _ => ⟨_, rfl⟩⟩

/-- Lines 474-505 entered with the invariant inside a call: they read inside the list
only, leave `cur` on a setup of the range (the invariant between calls holds again), and
return when the fuel covers `2 * (end - start)` rounds of the loop. -/
theorem refine_stage_safe (fuel : Nat) (lb3 : pme_load_balancing) (cf : ℚ)
    (hinv : MidInv lb3) :
    Safe (refine_stage fuel lb3 cf) (fun lb4 =>
      BoundsInv lb4 ∧ lb4 = { lb3 with cur := lb4.cur, stage := lb4.stage }) ∧
    (2 * (lb3.end_ - lb3.start) ≤ fuel → ∃ lb4, refine_stage fuel lb3 cf = .ok lb4) := by
  obtain ⟨⟨hnn, hn, hs0, hst0, hst1⟩, hns, hlt, htimed⟩ := hinv
  unfold refine_stage
  by_cases hc1 : lb3.stage > 0 ∧ lb3.end_ = 1
  · rw [if_pos hc1]
    refine ⟨Or.inr ⟨_, rfl, ?_, rfl⟩, fun _ => ⟨_, rfl⟩⟩
    have hr := hst1 hc1.1
    refine ⟨⟨hnn, hn, by simp only; omega, fun h => by simp only at h; omega, fun _ => ?_⟩,
      hns, le_refl _, fun h => by simp only at h; omega⟩
    rcases hr with h | h
    · exact Or.inl ⟨h.1, h.2.1, h.2.2.1, h.2.2.2.1, by simp only; omega, by simp only; omega⟩
    · omega
  · rw [if_neg hc1]
    by_cases hc2 : lb3.stage > 0 ∧ lb3.end_ > 1
    · rw [if_pos hc2]
      have hr : 0 ≤ lb3.start ∧ lb3.start ≤ lb3.fastest ∧ lb3.fastest < lb3.end_ ∧
          lb3.end_ ≤ lb3.n ∧ lb3.start - 1 ≤ lb3.cur ∧ lb3.cur < lb3.end_ := by
        rcases hst1 hc2.1 with h | h
        · exact h
        · omega
      obtain ⟨hsafe, hbound⟩ := refine_loop_safe cf fuel lb3 hr.1 hr.2.2.2.2.1 hr.2.2.2.2.2
        (by omega) hr.2.2.2.1 hlt
      constructor
      · rcases hsafe with herr | ⟨lb, hlb, e1, e2, e3, e4, e5⟩
        · left
          simp only [herr]
        · right
          simp only [hlb]
          have hfields : lb.setup = lb3.setup ∧ lb.nstage = lb3.nstage ∧
              lb.fastest = lb3.fastest ∧ lb.start = lb3.start ∧ lb.end_ = lb3.end_ := by
            rw [e1]
            exact ⟨rfl, rfl, rfl, rfl, rfl⟩
          obtain ⟨f1, f2, f3, f4, f5⟩ := hfields
          by_cases hfin : lb.stage = lb.nstage
          · rw [if_pos hfin]
            refine ⟨_, rfl, ⟨⟨?_, ?_, ?_, ?_, ?_⟩, ?_, ?_, ?_⟩, ?_⟩
            · simp only; rw [f1]; exact hnn
            · unfold pme_load_balancing.n; simp only; rw [f1]; exact hn
            · simp only; omega
            · intro h; simp only at h; omega
            · intro _
              unfold pme_load_balancing.n
              simp only
              rw [f1, f3, f4, f5]
              exact Or.inl ⟨hr.1, hr.2.1, hr.2.2.1, hr.2.2.2.1, by omega, hr.2.2.1⟩
            · simp only; omega
            · simp only; omega
            · intro h; simp only at h; omega
            · simp only
              rw [e1]
          · rw [if_neg hfin]
            refine ⟨_, rfl, ⟨⟨?_, ?_, ?_, ?_, ?_⟩, ?_, ?_, ?_⟩, ?_⟩
            · rw [f1]; exact hnn
            · unfold pme_load_balancing.n; rw [f1]; exact hn
            · omega
            · intro h; omega
            · intro _
              unfold pme_load_balancing.n
              rw [f1, f3, f4, f5]
              exact Or.inl ⟨hr.1, hr.2.1, hr.2.2.1, hr.2.2.2.1, by omega, e3⟩
            · omega
            · omega
            · intro h; omega
            · exact e1
      · intro hfuel
        have hb : refine_rounds lb3 ≤ fuel := by
          unfold refine_rounds
          split
          · omega
          · split <;> omega
        obtain ⟨lb, hlb⟩ := hbound hb
        simp only [hlb]
        split
        · exact ⟨_, rfl⟩
        · exact ⟨_, rfl⟩
    · rw [if_neg hc2]
      refine ⟨Or.inr ⟨_, rfl, ⟨⟨hnn, hn, hs0, hst0, ?_⟩, hns, le_of_lt hlt, ?_⟩, rfl⟩,
        fun _ => ⟨_, rfl⟩⟩
      · intro hpos
        rcases hst1 hpos with h | h
        · have : ¬ (lb3.end_ = 1) := fun h1 => hc1 ⟨hpos, h1⟩
          have : ¬ (lb3.end_ > 1) := fun h1 => hc2 ⟨hpos, h1⟩
          omega
        · exact Or.inr h
      · intro h
        exact Or.inr (htimed h)

/-- Lines 507-524 return and keep the invariant between calls. -/
theorem dd_reassert_ok (lb4 : pme_load_balancing) (env : Env) (hinv : BoundsInv lb4) :
    ∃ lb5, dd_reassert lb4 env = .ok lb5 ∧ BoundsInv lb5 ∧ lb5.setup = lb4.setup := by
  obtain ⟨hsi, hns, hle, htimed⟩ := hinv
  have hcur := stageInv_cur hsi
  unfold pme_load_balancing.n at hcur
  obtain ⟨c, hc⟩ := getSetup_of_lt lb4.setup lb4.cur hcur.1 hcur.2
  by_cases hdd : env.domaindecomp = true ∧ lb4.stage > 0
  · by_cases hacc : env.change_dd_cutoff c.rlist = true
    · exact ⟨lb4, dd_reassert_accept _ _ _ hc (Or.inr hacc), ⟨hsi, hns, hle, htimed⟩, rfl⟩
    · have hrej : env.change_dd_cutoff c.rlist = false := by
        cases h : env.change_dd_cutoff c.rlist
        · rfl
        · exact absurd h hacc
      refine ⟨dd_failsafe lb4, dd_reassert_reject _ _ _ hdd.1 hdd.2 hc hrej, ?_, rfl⟩
      obtain ⟨hnn, hn, hs0, _, _⟩ := hsi
      have hstage : 0 < (dd_failsafe lb4).stage ∧ (dd_failsafe lb4).stage ≤ lb4.nstage := by
        simp only [dd_failsafe]
        split <;> omega
      refine ⟨⟨hnn, hn, by omega, fun h => by omega, fun _ => ?_⟩, hns, hstage.2,
        fun h => by omega⟩
      by_cases h0 : lb4.cur = 0
      · exact Or.inr ⟨h0, rfl, rfl⟩
      · refine Or.inl ⟨le_refl _, le_refl _, ?_, ?_, ?_, ?_⟩
        · show (0 : Int) < lb4.cur
          omega
        · show lb4.cur ≤ (lb4.setup.length : Int)
          omega
        · show (0 : Int) - 0 ≤ 0
          omega
        · show (0 : Int) < lb4.cur
          omega
  · refine ⟨lb4, ?_, ⟨hsi, hns, hle, htimed⟩, rfl⟩
    unfold dd_reassert
    rw [if_neg hdd]

/-- Replacing a setup by one with a non-negative time, and sampled if the old one was,
keeps the invariant between calls. -/
theorem boundsInv_setSetup {s : pme_load_balancing} {j : Int} {y x : pme_setup_t}
    (hinv : BoundsInv s) (hy : getSetup s.setup j = .ok y) (hx : 0 ≤ x.cycles)
    (hcnt : y.count ≠ 0 → x.count ≠ 0) :
    BoundsInv { s with setup := setSetup s.setup j x } := by
  obtain ⟨⟨hnn, hn, hs0, h0, h1⟩, hns, hle, htimed⟩ := hinv
  have hlen : (setSetup s.setup j x).length = s.setup.length := by simp [setSetup]
  refine ⟨⟨cyclesNonneg_setSetup hnn hx, ?_, hs0, ?_, ?_⟩, hns, hle, ?_⟩
  · unfold pme_load_balancing.n; simp only; rw [hlen]; exact hn
  · intro h
    unfold pme_load_balancing.n; simp only; rw [hlen]
    exact h0 h
  · intro h
    unfold pme_load_balancing.n; simp only; rw [hlen]
    exact h1 h
  · intro h
    rcases htimed h with h | ⟨f, hf, hfc⟩
    · exact Or.inl h
    · right
      by_cases hj : s.fastest = j
      · refine ⟨x, ?_, ?_⟩
        · show getSetup (setSetup s.setup j x) s.fastest = .ok x
          rw [hj]
          exact getSetup_setSetup_self _ _ _ _ hy
        · rw [hj, hy] at hf
          cases hf
          exact hcnt hfc
      · refine ⟨f, ?_, hfc⟩
        show getSetup (setSetup s.setup j x) s.fastest = .ok f
        rw [getSetup_setSetup_ne _ _ _ _ (getSetup_lt hy).1 hj]
        exact hf

/-- Lines 526-577 return and keep the invariant between calls. -/
theorem apply_setup_bounds (lb5 : pme_load_balancing) (env : Env) (pmedata : Option Nat)
    (hinv : BoundsInv lb5) :
    ∃ r, apply_setup lb5 env pmedata = .ok r ∧ BoundsInv r.pme_lb ∧ r.ret = true := by
  have hcur := stageInv_cur hinv.1
  unfold pme_load_balancing.n at hcur
  obtain ⟨set, hset⟩ := getSetup_of_lt lb5.setup lb5.cur hcur.1 hcur.2
  obtain ⟨s0, hs0⟩ := getSetup_zero_of_get hset
  obtain ⟨r, hr, hret, _, hlb⟩ := apply_setup_ok lb5 env pmedata set s0 hset hs0
  refine ⟨r, hr, ?_, hret⟩
  rcases hlb with h | ⟨hnd, h⟩
  · rw [h]; exact hinv
  · rw [h]
    exact boundsInv_setSetup hinv hset (hinv.1.1 set (mem_of_getSetup hset)) (fun h => h)

/-- Lines 350-394 of a call that times a sample with a non-negative cost, from a state
with the invariant between calls: the update of `fastest` returns and the invariant
inside a call holds. -/
theorem recorded_midInv (s : pme_load_balancing) (set0 : pme_setup_t) (cycles : ℚ)
    (hinv : BoundsInv s) (hc : 0 ≤ cycles) (hst : s.stage ≠ s.nstage)
    (hget : getSetup s.setup s.cur = .ok set0) :
    ∃ lb1 f,
      update_fastest
        { s with
          nstage := (record_cycles s { set0 with count := set0.count + 1 } cycles).1
          setup := setSetup s.setup s.cur
            (record_cycles s { set0 with count := set0.count + 1 } cycles).2 }
        (record_cycles s { set0 with count := set0.count + 1 } cycles).2 = .ok lb1 ∧
      getSetup lb1.setup lb1.fastest = .ok f ∧ MidInv lb1 := by
  have hcnt := record_cycles_count s { set0 with count := set0.count + 1 } cycles
  have hnn0 : 0 ≤ set0.cycles := hinv.1.1 set0 (mem_of_getSetup hget)
  have hrnn := record_cycles_nonneg s { set0 with count := set0.count + 1 } cycles hnn0 hc
  have hrns := record_cycles_nstage s { set0 with count := set0.count + 1 } cycles
  obtain ⟨rec, hrec⟩ : ∃ rec, rec = record_cycles s { set0 with count := set0.count + 1 } cycles :=
    ⟨_, rfl⟩
  rw [← hrec] at hcnt hrnn hrns ⊢
  simp only at hcnt
  have hB := boundsInv_setSetup (x := rec.2) hinv hget hrnn (fun _ => by omega)
  have hfv := stageInv_fastest hB.1
  obtain ⟨⟨hnn, hn, hs0, h0, h1⟩, hns, hle, htimed⟩ := hB
  unfold pme_load_balancing.n at hfv hn h0 h1
  simp only at hfv hnn hn hs0 h0 h1 hns hle htimed
  have hself : getSetup (setSetup s.setup s.cur rec.2) s.cur = .ok rec.2 :=
    getSetup_setSetup_self _ _ _ _ hget
  obtain ⟨f0, hf0⟩ := getSetup_of_lt (setSetup s.setup s.cur rec.2) s.fastest hfv.1 hfv.2
  have hlt : s.stage < rec.1 := by
    rcases hrns with h | ⟨h, _⟩ <;> omega
  have hns' : 2 ≤ rec.1 := by
    rcases hrns with h | ⟨h, _⟩ <;> omega
  unfold update_fastest
  simp only [hf0]
  by_cases hfast : rec.2.cycles < f0.cycles
  · rw [if_pos hfast]
    refine ⟨_, rec.2, rfl, hself, ⟨hnn, hn, hs0, ?_, ?_⟩, hns', hlt, ?_⟩
    · intro h
      have := h0 h
      unfold pme_load_balancing.n
      simp only
      exact ⟨by omega, le_refl _, this.2.2.1, this.2.2.2⟩
    · intro h
      unfold pme_load_balancing.n
      simp only
      rcases h1 h with h | h
      · exact Or.inl ⟨h.1, by omega, by omega, h.2.2.2.1, by omega, h.2.2.2.2.2⟩
      · exact Or.inr ⟨h.1, h.2.1, h.2.1⟩
    · intro _
      exact ⟨rec.2, hself, by omega⟩
  · rw [if_neg hfast]
    refine ⟨_, f0, rfl, hf0, ⟨hnn, hn, hs0, ?_, ?_⟩, hns', hlt, ?_⟩
    · intro h
      unfold pme_load_balancing.n
      exact h0 h
    · intro h
      unfold pme_load_balancing.n
      simp only
      rcases h1 h with h | h
      · exact Or.inl ⟨h.1, h.2.1, h.2.2.1, h.2.2.2.1, by omega, h.2.2.2.2.2⟩
      · exact Or.inr h
    · intro h
      rcases htimed h with h | h
      · refine ⟨rec.2, ?_, by omega⟩
        show getSetup (setSetup s.setup s.cur rec.2) s.fastest = .ok rec.2
        rw [h]
        exact hself
      · exact h

/-- A call that times a sample is lines 350-406 followed by lines 408-577. -/
theorem balance_timed_unfold (fuel : Nat) (X : pme_load_balancing) (env : Env)
    (set : pme_setup_t) (cycles : ℚ) (pmedata : Option Nat) (lb1 lb2 : pme_load_balancing)
    (f : pme_setup_t) (h1 : update_fastest X set = .ok lb1)
    (hf : getSetup lb1.setup lb1.fastest = .ok f) (h2 : scan_exit_check lb1 cycles = .ok lb2) :
    balance_timed fuel X env set cycles pmedata
      = advance_and_apply fuel lb2 env set f.cycles pmedata := by
  simp only [balance_timed, select_setup, h1, hf, h2, advance_and_apply]
  cases scan_stage fuel lb2 env set with
  | error e => rfl
  | ok lb3 => rfl

/-- Lines 408-577 entered with the invariant inside a call: they read inside the list
only and end with the invariant between calls; in a stage > 0 they return when the fuel
covers `2 * (end - start)` rounds of the loop of lines 487-498. -/
theorem advance_and_apply_safe (fuel : Nat) (lb2 : pme_load_balancing) (env : Env)
    (set : pme_setup_t) (cf : ℚ) (pmedata : Option Nat) (hinv : MidInv lb2) :
    Safe (advance_and_apply fuel lb2 env set cf pmedata)
      (fun r => BoundsInv r.pme_lb ∧ r.ret = true) ∧
    (lb2.stage ≠ 0 → 2 * (lb2.end_ - lb2.start) ≤ fuel →
      ∃ r, advance_and_apply fuel lb2 env set cf pmedata = .ok r) := by
  have htail : ∀ lb4, BoundsInv lb4 →
      ∃ r, (match dd_reassert lb4 env with
        | Except.error e => Except.error e
        | Except.ok lb5 => apply_setup lb5 env pmedata) = Except.ok r ∧ BoundsInv r.pme_lb ∧
        r.ret = true := by
    intro lb4 h4
    obtain ⟨lb5, h5, hinv5, _⟩ := dd_reassert_ok lb4 env h4
    obtain ⟨r, h6, hinv6, hret⟩ := apply_setup_bounds lb5 env pmedata hinv5
    exact ⟨r, by simp only [h5, h6], hinv6, hret⟩
  constructor
  · unfold advance_and_apply
    rcases scan_stage_safe fuel lb2 env set hinv with herr | ⟨lb3, h3, hmid3, _, _, _⟩
    · left
      simp only [herr]
    · simp only [h3]
      rcases (refine_stage_safe fuel lb3 cf hmid3).1 with herr | ⟨lb4, h4, hinv4, _⟩
      · left
        simp only [herr]
      · simp only [h4]
        obtain ⟨r, hr, hinvr, hret⟩ := htail lb4 hinv4
        exact Or.inr ⟨r, hr, hinvr, hret⟩
  · intro hst hfuel
    unfold advance_and_apply
    have h3 : scan_stage fuel lb2 env set = .ok lb2 := by
      unfold scan_stage
      rw [if_neg hst]
    simp only [h3]
    obtain ⟨hsafe, hok⟩ := refine_stage_safe fuel lb2 cf hinv
    obtain ⟨lb4, h4⟩ := hok hfuel
    have hinv4 := (safe_ok hsafe h4).1
    simp only [h4]
    obtain ⟨r, hr, _, _⟩ := htail lb4 hinv4
    exact ⟨r, hr⟩

/-- Lines 350-406 of a call that times a sample with a non-negative cost, from a state
with the invariant between calls: they return, with the invariant inside a call; the
stage changes only by the exit of line 405, which sets up a range that holds the fastest
setup. -/
theorem scan_entry_ok (s : pme_load_balancing) (set0 : pme_setup_t) (cycles : ℚ)
    (hinv : BoundsInv s) (hc : 0 ≤ cycles) (hst : s.stage ≠ s.nstage)
    (hget : getSetup s.setup s.cur = .ok set0) :
    ∃ lb1 f lb2,
      update_fastest
        { s with
          nstage := (record_cycles s { set0 with count := set0.count + 1 } cycles).1
          setup := setSetup s.setup s.cur
            (record_cycles s { set0 with count := set0.count + 1 } cycles).2 }
        (record_cycles s { set0 with count := set0.count + 1 } cycles).2 = .ok lb1 ∧
      getSetup lb1.setup lb1.fastest = .ok f ∧ scan_exit_check lb1 cycles = .ok lb2 ∧
      scan_entry s cycles
        = .ok (lb2, (record_cycles s { set0 with count := set0.count + 1 } cycles).2) ∧
      MidInv lb2 ∧
      ((lb2.stage = s.stage ∧ lb2.start = s.start ∧ lb2.end_ = s.end_) ∨
        (s.stage = 0 ∧ RefinementRange lb2)) := by
  obtain ⟨lb1, f, h1, hf, hmid1⟩ := recorded_midInv s set0 cycles hinv hc hst hget
  obtain ⟨lb2, h2, hmid2, hcase⟩ := scan_exit_check_ok lb1 cycles hmid1
  have hfr : lb1.stage = s.stage ∧ lb1.start = s.start ∧ lb1.end_ = s.end_ := by
    obtain ⟨_, _, hh⟩ := update_fastest_spec _ _ _ h1
    rcases hh with ⟨_, rfl⟩ | ⟨_, rfl⟩ <;> exact ⟨rfl, rfl, rfl⟩
  refine ⟨lb1, f, lb2, h1, hf, h2, ?_, hmid2, ?_⟩
  · simp only [scan_entry, hget, h1, h2]
  · rcases hcase with rfl | ⟨h0, hr⟩
    · exact Or.inl hfr
    · exact Or.inr ⟨by rw [← hfr.1]; exact h0, hr⟩

/-- A call with a non-negative cost, from a state with the invariant between calls, reads
inside the list only and ends with the invariant between calls. -/
theorem step_safe (fuel : Nat) (s : pme_load_balancing) (env : Env) (cycles : ℚ)
    (ic : interaction_const_t) (pmedata : Option Nat) (hinv : BoundsInv s)
    (hc : 0 ≤ cycles) :
    Safe (pme_load_balance fuel s env cycles ic pmedata) (fun r => BoundsInv r.pme_lb) ∧
    (0 < s.stage → 2 * (s.end_ - s.start) ≤ fuel →
      ∃ r, pme_load_balance fuel s env cycles ic pmedata = .ok r) := by
  by_cases hst : s.stage = s.nstage
  · rw [pme_load_balance_concluded s hst]
    exact ⟨Or.inr ⟨_, rfl, hinv⟩, fun _ _ => ⟨_, rfl⟩⟩
  · have hcur := stageInv_cur hinv.1
    unfold pme_load_balancing.n at hcur
    obtain ⟨set0, hget⟩ := getSetup_of_lt s.setup s.cur hcur.1 hcur.2
    by_cases hpar : set0.count % 2 = 0
    · rw [pme_load_balance_warmup _ _ _ _ _ _ _ hst hget hpar]
      refine ⟨Or.inr ⟨_, rfl, ?_⟩, fun _ _ => ⟨_, rfl⟩⟩
      exact boundsInv_setSetup hinv hget (hinv.1.1 set0 (mem_of_getSetup hget))
        (fun _ => by simp)
    · obtain ⟨lb1, f, lb2, h1, hf, h2, _, hmid2, hcase⟩ :=
        scan_entry_ok s set0 cycles hinv hc hst hget
      have hodd : ¬ ((set0.count + 1) % 2 = 1) := by omega
      have hcall : pme_load_balance fuel s env cycles ic pmedata
          = advance_and_apply fuel lb2 env
              (record_cycles s { set0 with count := set0.count + 1 } cycles).2
              f.cycles pmedata := by
        unfold pme_load_balance
        simp only [hst, if_false, hget, hodd]
        exact balance_timed_unfold _ _ _ _ _ _ _ _ _ h1 hf h2
      rw [hcall]
      obtain ⟨hsafe, hok⟩ := advance_and_apply_safe fuel lb2 env
        (record_cycles s { set0 with count := set0.count + 1 } cycles).2 f.cycles pmedata hmid2
      refine ⟨safe_mono hsafe (fun r hr => hr.1), ?_⟩
      intro hpos hfuel
      rcases hcase with ⟨e1, e2, e3⟩ | ⟨h0, _⟩
      · exact hok (by omega) (by rw [e2, e3]; exact hfuel)
      · omega

theorem init_boundsInv (ir : t_inputrec) (box : matrix) (ic : interaction_const_t)
    (pmedata : Option Nat) (norm : rvec → ℚ) :
    BoundsInv (pme_loadbal_init ir box ic pmedata norm) := by
  refine ⟨⟨?_, ?_, ?_, ?_, ?_⟩, ?_, ?_, ?_⟩
  · intro a ha
    simp only [pme_loadbal_init, List.mem_singleton] at ha
    rw [ha]
  · show (0 : Int) < ((1 : Nat) : Int)
    omega
  · show (0 : Int) ≤ 0
    omega
  · intro _
    refine ⟨le_refl _, le_refl _, ?_, rfl⟩
    show (0 : Int) < ((1 : Nat) : Int)
    omega
  · intro h
    exact absurd h (lt_irrefl _)
  · show (2 : Int) ≤ 2
    omega
  · show (0 : Int) ≤ 2
    omega
  · intro _
    exact Or.inl rfl

theorem exec_boundsInv (s s' : pme_load_balancing) (c : Call) (h : exec s c = .ok s')
    (hinv : BoundsInv s)
    (hc : ∀ fuel env cycles ic pmedata, c = Call.step fuel env cycles ic pmedata → 0 ≤ cycles)
    (hn : ∀ n, c = Call.restart n → 0 ≤ n) : BoundsInv s' := by
  cases c with
  | step fuel env cycles ic pmedata =>
    have hc' := hc fuel env cycles ic pmedata rfl
    simp only [exec] at h
    cases hr : pme_load_balance fuel s env cycles ic pmedata with
    | error e => simp [hr] at h
    | ok r =>
      simp only [hr, Except.ok.injEq] at h
      subst h
      have hpost := safe_ok (step_safe fuel s env cycles ic pmedata hinv hc').1 hr
      exact hpost
  | restart n =>
    have hn' := hn n rfl
    simp only [exec, Except.ok.injEq] at h
    subst h
    obtain ⟨hsi, hns, hle, htimed⟩ := hinv
    exact ⟨hsi, by simp only [restart_pme_loadbal]; omega,
      by simp only [restart_pme_loadbal]; omega, htimed⟩

theorem run_boundsInv (calls : List Call) (s s' : pme_load_balancing)
    (h : run s calls = .ok s') (hinv : BoundsInv s) (hc : NonnegCosts calls)
    (ha : AddsStages calls) : BoundsInv s' := by
  induction calls generalizing s with
  | nil =>
    simp only [run, Except.ok.injEq] at h
    subst h; exact hinv
  | cons c cs ih =>
    simp only [run] at h
    cases hx : exec s c with
    | error e => simp [hx] at h
    | ok t =>
      simp only [hx] at h
      exact ih t h
        (exec_boundsInv _ _ _ hx hinv (hc c (List.mem_cons_self _ _))
          (ha c (List.mem_cons_self _ _)))
        (fun c' hc' => hc c' (List.mem_cons_of_mem _ hc'))
        (fun c' hc' => ha c' (List.mem_cons_of_mem _ hc'))

/-- The heads of the rounds of the scan loop keep the invariant inside a call and
stage 0. -/
theorem scanReaches_midInv {fuel : Nat} {env : Env} {gs : Int} {t0 t : pme_load_balancing}
    (h : ScanReaches fuel env gs t0 t) (hinv : MidInv t0) (h0 : t0.stage = 0) :
    MidInv t ∧ t.stage = 0 := by
  induction h with
  | here t => exact ⟨hinv, h0⟩
  | next t0 t1 t hbody _ _ ih =>
    obtain ⟨hmid, _, hcase⟩ := safe_ok (scan_body_safe fuel t0 env hinv h0) hbody
    rcases hcase with ⟨_, hst, _⟩ | ⟨hb, _⟩
    · exact ih hmid hst
    · cases hb

theorem scen_calls_nonneg (c : ℚ) (hc : 0 ≤ c) (k : Nat) :
    NonnegCosts ((scen_calls c).take k) := by
  intro x hx fuel env cycles ic pmedata h
  have hx' := List.mem_of_mem_take hx
  simp only [scen_calls, List.mem_cons, List.mem_singleton, List.not_mem_nil, or_false] at hx'
  subst h
  rcases hx' with h | h | h | h | h | h <;> cases h <;> first | exact hc | norm_num

theorem scen_calls_adds (c : ℚ) (k : Nat) : AddsStages ((scen_calls c).take k) := by
  intro x hx n h
  have hx' := List.mem_of_mem_take hx
  simp only [scen_calls, List.mem_cons, List.mem_singleton, List.not_mem_nil, or_false] at hx'
  subst h
  rcases hx' with h | h | h | h | h | h <;> cases h

/-- C19 (the refinement range is not empty).  Start from `pme_loadbal_init`, make any
calls of `pme_load_balance` with non-negative costs and of `restart_pme_loadbal` that add
stages, and reach stage 0.  In a further call that times a sample with a non-negative
cost, lines 350-406 return, and whenever `switch_to_stage1` runs, at line 405 (the state
after lines 350-406 is not in stage 0) or at line 461 (a round of the scan loop ends with
`OK = FALSE`), the state right after it has `stage = 1`,
`0 <= start <= fastest < end <= n` and `cur = start - 1`; `setup[start]` has time 0 or
has been sampled and is within 1.12 times the fastest; every sampled setup before `start`
is more than 1.12 times slower than the fastest (`RefinementRange`). -/
theorem C19_refinement_range (ir : t_inputrec) (box : matrix) (ic0 : interaction_const_t)
    (pmedata0 : Option Nat) (norm : rvec → ℚ) (calls : List Call) (s : pme_load_balancing)
    (hcosts : NonnegCosts calls) (hadd : AddsStages calls)
    (hrun : run (pme_loadbal_init ir box ic0 pmedata0 norm) calls = .ok s)
    (h0 : s.stage = 0) (fuel : Nat) (env : Env) (cycles : ℚ) (hc : 0 ≤ cycles) :
    ∃ lb2 set, scan_entry s cycles = .ok (lb2, set) ∧
      (lb2.stage ≠ 0 → RefinementRange lb2) ∧
      ∀ t lb, lb2.stage = 0 → ScanReaches fuel env (pme_grid_points set) lb2 t →
        scan_body fuel t env = .ok (lb, false) → RefinementRange lb := by
  have hinv := run_boundsInv _ _ _ hrun (init_boundsInv ir box ic0 pmedata0 norm) hcosts hadd
  have hst : s.stage ≠ s.nstage := by
    have := hinv.2.1
    omega
  have hcur := stageInv_cur hinv.1
  unfold pme_load_balancing.n at hcur
  obtain ⟨set0, hget⟩ := getSetup_of_lt s.setup s.cur hcur.1 hcur.2
  obtain ⟨lb1, f, lb2, _, _, _, hentry, hmid2, hcase⟩ :=
    scan_entry_ok s set0 cycles hinv hc hst hget
  refine ⟨lb2, _, hentry, ?_, ?_⟩
  · intro hne
    rcases hcase with ⟨e1, _⟩ | ⟨_, hr⟩
    · omega
    · exact hr
  · intro t lb h2 hreach hbody
    obtain ⟨hmidt, hstt⟩ := scanReaches_midInv hreach hmid2 h2
    obtain ⟨_, _, hcase⟩ := safe_ok (scan_body_safe fuel t env hmidt hstt) hbody
    rcases hcase with ⟨hb, _⟩ | ⟨_, hr⟩
    · cases hb
    · exact hr

/-- The sixth call of the scan scenario with cost 101: the exit of line 405 is taken
with 7 setups, the fastest being setup 3. -/
theorem C19_refinement_range_witness :
    ∃ lb2 set, scan_entry scen_before_sixth 101 = .ok (lb2, set) ∧
      (lb2.stage ≠ 0 → RefinementRange lb2) ∧
      ∀ t lb, lb2.stage = 0 → ScanReaches 20 scen_env (pme_grid_points set) lb2 t →
        scan_body 20 t scen_env = .ok (lb, false) → RefinementRange lb :=
  C19_refinement_range sample_ir sample_box sample_ic (some 0) sample_norm
    ((scen_calls 101).take 5) scen_before_sixth (scen_calls_nonneg 101 (by norm_num) 5)
    (scen_calls_adds 101 5) (by decide!) (by decide!) 20 scen_env 101 (by norm_num)

/-! ## C20 -/

/-- C20 (the active index stays in bounds).  Start from `pme_loadbal_init` and make any
calls of `pme_load_balance` with non-negative costs and of `restart_pme_loadbal` that add
stages, with any collaborators; `s` is the controller reached.  Then `0 <= cur < n`, and
for a further call with a non-negative cost: the call never reads `setup[i]` with `i`
outside `0 .. n-1` (the model has no `outOfBounds` fault), and when it returns,
`0 <= cur < n` again.  Inside a call that times a sample, from the state `lb3` at line
474, where `cur` may be `start - 1`, lines 474-505 read inside the list only, and with
fuel for `2 * (end - start)` rounds of the loop of lines 487-498 they return with
`0 <= cur < n`.  In a stage > 0 the whole call returns when the fuel covers
`2 * (end - start)` rounds. -/
theorem C20_active_index_in_bounds (ir : t_inputrec) (box : matrix)
    (ic0 : interaction_const_t) (pmedata0 : Option Nat) (norm : rvec → ℚ)
    (calls : List Call) (s : pme_load_balancing)
    (hcosts : NonnegCosts calls) (hadd : AddsStages calls)
    (hrun : run (pme_loadbal_init ir box ic0 pmedata0 norm) calls = .ok s)
    (fuel : Nat) (env : Env) (cycles : ℚ) (ic : interaction_const_t) (pmedata : Option Nat)
    (hc : 0 ≤ cycles) :
    (0 ≤ s.cur ∧ s.cur < s.n) ∧
    pme_load_balance fuel s env cycles ic pmedata ≠ .error .outOfBounds ∧
    (∀ r, pme_load_balance fuel s env cycles ic pmedata = .ok r →
      0 ≤ r.pme_lb.cur ∧ r.pme_lb.cur < r.pme_lb.n) ∧
    (∀ lb2 set lb3 cf, s.stage ≠ s.nstage → scan_entry s cycles = .ok (lb2, set) →
      scan_stage fuel lb2 env set = .ok lb3 →
      refine_stage fuel lb3 cf ≠ .error .outOfBounds ∧
      ∀ k : Nat, 2 * (lb3.end_ - lb3.start) ≤ k →
        ∃ lb4, refine_stage k lb3 cf = .ok lb4 ∧ 0 ≤ lb4.cur ∧ lb4.cur < lb4.n) ∧
    (0 < s.stage → 2 * (s.end_ - s.start) ≤ fuel →
      ∃ r, pme_load_balance fuel s env cycles ic pmedata = .ok r) := by
  have hinv := run_boundsInv _ _ _ hrun (init_boundsInv ir box ic0 pmedata0 norm) hcosts hadd
  obtain ⟨hsafe, hreturns⟩ := step_safe fuel s env cycles ic pmedata hinv hc
  have hcur := stageInv_cur hinv.1
  refine ⟨hcur, safe_not_oob hsafe, ?_, ?_, hreturns⟩
  · intro r hr
    have hpost := safe_ok hsafe hr
    exact stageInv_cur hpost.1
  · intro lb2 set lb3 cf hst hentry h3
    unfold pme_load_balancing.n at hcur
    obtain ⟨set0, hget⟩ := getSetup_of_lt s.setup s.cur hcur.1 hcur.2
    obtain ⟨_, _, lb2', _, _, _, hentry', hmid2, _⟩ :=
      scan_entry_ok s set0 cycles hinv hc hst hget
    rw [hentry] at hentry'
    simp only [Except.ok.injEq, Prod.mk.injEq] at hentry'
    obtain ⟨rfl, rfl⟩ := hentry'
    obtain ⟨hmid3, _⟩ := safe_ok (scan_stage_safe fuel lb2 env _ hmid2) h3
    refine ⟨safe_not_oob (refine_stage_safe fuel lb3 cf hmid3).1, ?_⟩
    intro k hk
    obtain ⟨hsafe4, hok4⟩ := refine_stage_safe k lb3 cf hmid3
    obtain ⟨lb4, h4⟩ := hok4 hk
    have hpost := safe_ok hsafe4 h4
    exact ⟨lb4, h4, stageInv_cur hpost.1.1⟩

/-- The sixth call of the scan scenario with cost 101, which leaves stage 0 with
`cur = start - 1 = -1` at line 474 and returns with setup 0 active. -/
theorem C20_active_index_in_bounds_witness :
    (0 ≤ scen_before_sixth.cur ∧ scen_before_sixth.cur < scen_before_sixth.n) ∧
    pme_load_balance 20 scen_before_sixth scen_env 101 sample_ic none ≠ .error .outOfBounds ∧
    (∀ r, pme_load_balance 20 scen_before_sixth scen_env 101 sample_ic none = .ok r →
      0 ≤ r.pme_lb.cur ∧ r.pme_lb.cur < r.pme_lb.n) ∧
    (∀ lb2 set lb3 cf, scen_before_sixth.stage ≠ scen_before_sixth.nstage →
      scan_entry scen_before_sixth 101 = .ok (lb2, set) →
      scan_stage 20 lb2 scen_env set = .ok lb3 →
      refine_stage 20 lb3 cf ≠ .error .outOfBounds ∧
      ∀ k : Nat, 2 * (lb3.end_ - lb3.start) ≤ k →
        ∃ lb4, refine_stage k lb3 cf = .ok lb4 ∧ 0 ≤ lb4.cur ∧ lb4.cur < lb4.n) ∧
    (0 < scen_before_sixth.stage →
      2 * (scen_before_sixth.end_ - scen_before_sixth.start) ≤ ((20 : Nat) : Int) →
      ∃ r, pme_load_balance 20 scen_before_sixth scen_env 101 sample_ic none = .ok r) :=
  C20_active_index_in_bounds sample_ir sample_box sample_ic (some 0) sample_norm
    ((scen_calls 101).take 5) scen_before_sixth (scen_calls_nonneg 101 (by norm_num) 5)
    (scen_calls_adds 101 5) (by decide!) 20 scen_env 101 sample_ic none (by norm_num)

/-! ## C21 -/

/-- The stop test of lines 465-471 at index 1 when setup 0 has grid efficiency 0: a
candidate whose grid efficiency is not negative lets the loop go on. -/
theorem scan_continue_at_1 (lb : pme_load_balancing) (gs : Int) (s0 cand : pme_setup_t)
    (hcur : lb.cur = 1) (h0 : getSetup lb.setup 0 = .ok s0) (heff : s0.grid_efficiency = 0)
    (h1 : getSetup lb.setup 1 = .ok cand) (hpos : 0 ≤ cand.grid_efficiency) :
    scan_continue lb gs = .ok true := by
  unfold scan_continue
  rw [hcur]
  have e : (1 : Int) - 1 = 0 := rfl
  simp only [h1, e, h0, heff, zero_mul]
  have hn : ¬ cand.grid_efficiency < 0 := not_lt.mpr hpos
  simp [hn]

/-- The scan loop keeps `nstage`; it ends in stage 1, or in the stage it started in with
`cur` moved forward. -/
theorem scan_advance_stage_cur (fuel : Nat) (env : Env) (gs : Int) (k : Nat)
    (t lb : pme_load_balancing) (h : scan_advance fuel env gs k t = .ok lb) :
    lb.nstage = t.nstage ∧ ((lb.stage = t.stage ∧ t.cur + 1 ≤ lb.cur) ∨ lb.stage = 1) := by
  obtain ⟨l1, m, _, hcase⟩ := scan_advance_spec _ _ _ _ _ _ h
  rcases hcase with ⟨hm, hlb⟩ | ⟨lim, _, hsw⟩
  · rw [hlb]
    refine ⟨rfl, Or.inl ⟨rfl, ?_⟩⟩
    simp only
    omega
  · obtain ⟨st, e, hlb, _⟩ := switch_to_stage1_spec _ _ hsw
    rw [hlb]
    exact ⟨rfl, Or.inr rfl⟩

/-- A round of the scan loop at the end of the list that accepts its candidate: the
candidate is the one the generator has appended, and `cur` moves to it. -/
theorem scan_body_generates (fuel : Nat) (t lb : pme_load_balancing) (env : Env)
    (hend : ¬ t.cur + 1 < t.n) (h : scan_body fuel t env = .ok (lb, true)) :
    ∃ g, pme_loadbal_increase_cutoff fuel t env env.ir.pme_order = .ok (g, true) ∧
      lb = { g with cur := t.cur + 1 } := by
  unfold scan_body scan_next_setup at h
  rw [if_neg hend] at h
  cases hg : pme_loadbal_increase_cutoff fuel t env env.ir.pme_order with
  | error e => simp [hg] at h
  | ok p =>
    obtain ⟨g, ok1⟩ := p
    simp only [hg] at h
    cases ok1 with
    | false =>
      exfalso
      simp only [scan_box_check, scan_dd_check, scan_limit] at h
      simp at h
      repeat' split at h
      all_goals simp at h
    | true =>
      obtain ⟨c, res, s0, _, _, _, hgeq⟩ := increase_cutoff_true _ _ _ _ _ hg
      have hgc : g.cur = t.cur := by rw [hgeq]
      refine ⟨g, rfl, ?_⟩
      cases h2 : scan_box_check g env true with
      | error e => simp [h2] at h
      | ok p2 =>
        obtain ⟨lb2, ok2⟩ := p2
        simp only [h2] at h
        cases h3 : scan_dd_check lb2 env ok2 with
        | error e => simp [h3] at h
        | ok p3 =>
          obtain ⟨lb3, ok3⟩ := p3
          simp only [h3] at h
          have e4 : ok3 = true ∧ lb3 = lb := by
            unfold scan_limit at h
            split at h
            · rename_i hok
              simp only [Except.ok.injEq, Prod.mk.injEq] at h
              exact ⟨hok, h.1⟩
            · exfalso
              simp only at h
              repeat' split at h
              all_goals simp at h
          obtain ⟨rfl, rfl⟩ := e4
          have e3 : ok2 = true ∧ lb3 = { lb2 with cur := lb2.cur + 1 } := by
            unfold scan_dd_check at h3
            split at h3
            · rename_i hok
              refine ⟨hok, ?_⟩
              split at h3
              · cases hc : getSetup lb2.setup (lb2.cur + 1) with
                | error e => simp [hc] at h3
                | ok c =>
                  simp only [hc] at h3
                  split at h3
                  · simp only [Except.ok.injEq, Prod.mk.injEq] at h3
                    exact h3.1.symm
                  · simp at h3
              · simp only [Except.ok.injEq, Prod.mk.injEq] at h3
                exact h3.1.symm
            · simp at h3
          obtain ⟨rfl, rfl⟩ := e3
          have e2 : lb2 = g := by
            unfold scan_box_check at h2
            split at h2
            · cases hc : getSetup g.setup (g.cur + 1) with
              | error e => simp [hc] at h2
              | ok c =>
                simp only [hc] at h2
                split at h2
                · simp only [Except.ok.injEq, Prod.mk.injEq] at h2
                  exact h2.1.symm
                · simp at h2
            · simp only [Except.ok.injEq, Prod.mk.injEq] at h2
              exact h2.1.symm
          subst e2
          rw [hgc]

/-- The scan loop entered on a list of one setup with grid efficiency 0, when the first
candidate has a grid efficiency that is not negative: the loop does not stop at index 1. -/
theorem scan_first_round (fuel : Nat) (env : Env) (gs : Int) (k : Nat)
    (t lb3 : pme_load_balancing) (a : pme_setup_t)
    (hs : t.setup = [a]) (hcur : t.cur = 0) (hst : t.stage = 0)
    (heff : a.grid_efficiency = 0)
    (hpos : ∀ g cand, pme_loadbal_increase_cutoff fuel t env env.ir.pme_order = .ok (g, true) →
      getSetup g.setup 1 = .ok cand → 0 ≤ cand.grid_efficiency)
    (h : scan_advance fuel env gs k t = .ok lb3) :
    lb3.nstage = t.nstage ∧ ((lb3.stage = 0 ∧ 2 ≤ lb3.cur) ∨ lb3.stage = 1) := by
  cases k with
  | zero => simp [scan_advance] at h
  | succ k =>
    simp only [scan_advance] at h
    cases hb : scan_body fuel t env with
    | error e => simp [hb] at h
    | ok p =>
      obtain ⟨lb, b⟩ := p
      simp only [hb] at h
      cases b with
      | false =>
        simp only [Except.ok.injEq] at h
        subst h
        rcases scan_body_spec _ _ _ _ _ hb with ⟨hb', _⟩ | ⟨_, lim, _, hsw⟩
        · cases hb'
        · obtain ⟨st, e, hlb, _⟩ := switch_to_stage1_spec _ _ hsw
          rw [hlb]
          exact ⟨rfl, Or.inr rfl⟩
      | true =>
        have hend : ¬ t.cur + 1 < t.n := by
          unfold pme_load_balancing.n
          rw [hs, hcur]
          simp
        obtain ⟨g, hg, hlb⟩ := scan_body_generates fuel t lb env hend hb
        obtain ⟨c, res, s0, _, _, h0, hgeq⟩ := increase_cutoff_true _ _ _ _ _ hg
        have hgs : g.setup = [a, new_setup t env s0 res.1 res.2] := by
          rw [hgeq]
          simp only [hs, List.singleton_append]
        have hcand := hpos g _ hg (by rw [hgs]; exact getSetup_cons_one _ _ _)
        have hlbs : lb.setup = [a, new_setup t env s0 res.1 res.2] := by
          rw [hlb]; exact hgs
        have hlbc : lb.cur = 1 := by
          rw [hlb]
          simp only [hcur]
          rfl
        have hlbst : lb.stage = 0 := by
          rw [hlb, hgeq]; exact hst
        have hlbn : lb.nstage = t.nstage := by
          rw [hlb, hgeq]
        have hcont : scan_continue lb gs = .ok true :=
          scan_continue_at_1 lb gs a _ hlbc (by rw [hlbs]; exact getSetup_cons_zero _ _) heff
            (by rw [hlbs]; exact getSetup_cons_one _ _ _) hcand
        simp only [hcont] at h
        obtain ⟨hn, hcase⟩ := scan_advance_stage_cur _ _ _ _ _ _ h
        refine ⟨by rw [hn, hlbn], ?_⟩
        rcases hcase with ⟨h1, h2⟩ | h1
        · exact Or.inl ⟨by rw [h1, hlbst], by omega⟩
        · exact Or.inr h1

/-- Lines 474-577 do not bring the controller back to index 1 of stage 0: they keep
`nstage`, leave a controller in stage 0 as it is, and keep a later stage a later stage. -/
theorem rest_of_call_stage (fuel : Nat) (lb3 lb4 lb5 : pme_load_balancing) (env : Env)
    (cf : ℚ) (pm : Option Nat) (r : StepResult) (hn : 2 ≤ lb3.nstage)
    (hP : (lb3.stage = 0 ∧ 2 ≤ lb3.cur) ∨ 1 ≤ lb3.stage)
    (h4 : refine_stage fuel lb3 cf = .ok lb4) (h5 : dd_reassert lb4 env = .ok lb5)
    (h6 : apply_setup lb5 env pm = .ok r) :
    r.pme_lb.nstage = lb3.nstage ∧
      ((r.pme_lb.stage = 0 ∧ 2 ≤ r.pme_lb.cur) ∨ 1 ≤ r.pme_lb.stage) := by
  have h4' : lb4.nstage = lb3.nstage ∧
      ((lb4.stage = 0 ∧ 2 ≤ lb4.cur) ∨ 1 ≤ lb4.stage) := by
    obtain ⟨hfr, hmono⟩ := refine_stage_frame _ _ _ _ h4
    have hns : lb4.nstage = lb3.nstage := by
      have := congrArg pme_load_balancing.nstage hfr
      exact this
    refine ⟨hns, ?_⟩
    rcases hP with ⟨h0, hc⟩ | h1
    · rcases refine_stage_spec _ _ _ _ h4 with ⟨hpos, _⟩ | ⟨hpos, _⟩ | ⟨_, heq⟩
      · omega
      · omega
      · rw [heq]; exact Or.inl ⟨h0, hc⟩
    · right
      rcases hmono with h | h
      · omega
      · omega
  obtain ⟨hn4, hP4⟩ := h4'
  have h5' : lb5.nstage = lb3.nstage ∧
      ((lb5.stage = 0 ∧ 2 ≤ lb5.cur) ∨ 1 ≤ lb5.stage) := by
    rcases dd_reassert_spec _ _ _ h5 with heq | ⟨_, hpos, _, heq⟩
    · rw [heq]; exact ⟨hn4, hP4⟩
    · rw [heq]
      refine ⟨hn4, Or.inr ?_⟩
      simp only [dd_failsafe]
      split
      · rename_i hc
        omega
      · omega
  obtain ⟨hn5, hP5⟩ := h5'
  obtain ⟨_, set, _, _, hcase⟩ := apply_setup_spec _ _ _ _ h6
  rcases hcase with heq | ⟨hnd, _, heq⟩
  · rw [heq]; exact ⟨hn5, hP5⟩
  · rw [heq]; exact ⟨hn5, hP5⟩

/-- The candidate that the generator makes from a list of one setup depends on that
setup through its spacing, cut-off and Ewald coefficient only. -/
theorem increase_cutoff_first_congr (fuel : Nat) (t s g : pme_load_balancing) (env : Env)
    (po : Int) (a b : pme_setup_t) (hts : t.setup = [a]) (hss : s.setup = [b])
    (htc : t.cur = 0) (hsc : s.cur = 0) (hsp : a.spacing = b.spacing)
    (hew : a.ewaldcoeff = b.ewaldcoeff) (hrc : a.rcut = b.rcut)
    (hbox : t.box_start = s.box_start) (hcs : t.cut_spacing = s.cut_spacing)
    (hrb : t.rbuf = s.rbuf)
    (hg : pme_loadbal_increase_cutoff fuel t env po = .ok (g, true)) :
    ∃ g' cand, pme_loadbal_increase_cutoff fuel s env po = .ok (g', true) ∧
      getSetup g.setup 1 = .ok cand ∧ getSetup g'.setup 1 = .ok cand := by
  obtain ⟨c, res, s0, hc, hsearch, h0, hgeq⟩ := increase_cutoff_true _ _ _ _ _ hg
  have ec : c = a := by
    rw [hts, htc, getSetup_cons_zero] at hc
    cases hc; rfl
  have e0 : s0 = a := by
    rw [hts, getSetup_cons_zero] at h0
    cases h0; rfl
  rw [ec] at hsearch
  rw [e0] at hgeq
  have hg' := increase_cutoff_of_search fuel s env po b b res
    (by rw [hss, hsc]; exact getSetup_cons_zero _ _)
    (by rw [← hbox, ← hsp]; exact hsearch)
    (by rw [hss]; exact getSetup_cons_zero _ _)
  have hnew : new_setup s env b res.1 res.2 = new_setup t env a res.1 res.2 := by
    unfold new_setup
    rw [hcs, hrb, hbox, hew, hrc]
  refine ⟨_, new_setup t env a res.1 res.2, hg', ?_, ?_⟩
  · rw [hgeq]
    simp only [hts, List.singleton_append]
    exact getSetup_cons_one _ _ _
  · simp only [hss, List.singleton_append, hnew]
    exact getSetup_cons_one _ _ _

/-- The first timed sample of a list of one setup with grid efficiency 0, when the first
candidate has a grid efficiency that is not negative: on return the scan is past index 1. -/
theorem first_timed_past_index_1 (fuel : Nat) (s : pme_load_balancing) (env : Env) (c : ℚ)
    (ic : interaction_const_t) (pm : Option Nat) (set1 : pme_setup_t) (r : StepResult)
    (hs : s.setup = [set1]) (hcur : s.cur = 0) (hst : s.stage = 0) (hn : 2 ≤ s.nstage)
    (hcnt : set1.count % 2 = 1) (heff : set1.grid_efficiency = 0)
    (hpos : ∀ g cand, pme_loadbal_increase_cutoff fuel s env env.ir.pme_order = .ok (g, true) →
      getSetup g.setup 1 = .ok cand → 0 ≤ cand.grid_efficiency)
    (hr : pme_load_balance fuel s env c ic pm = .ok r) : ScanPastFirst r.pme_lb := by
  obtain ⟨X, set, lb1, f, lb2, lb3, lb4, lb5, hset, hX, h1, hf, h2, _, h3, h4, h5, h6⟩ :=
    timed_call_phases fuel s env c ic pm r set1 (by omega)
      (by rw [hs, hcur]; exact getSetup_cons_zero _ _) hcnt hr
  have hXn : 2 ≤ X.nstage := by
    rw [hX]
    simp only
    rcases record_cycles_nstage s { set1 with count := set1.count + 1 } c with h | ⟨h, _⟩ <;>
      rw [h] <;> omega
  have hXs : X.setup = [set] := by
    rw [hX]
    simp only [hs, hcur, setSetup]
    rfl
  have hXf : X.cur = 0 ∧ X.stage = 0 ∧ X.box_start = s.box_start ∧
      X.cut_spacing = s.cut_spacing ∧ X.rbuf = s.rbuf := by
    rw [hX]
    exact ⟨hcur, hst, rfl, rfl, rfl⟩
  have h1f : lb1.setup = X.setup ∧ lb1.cur = X.cur ∧ lb1.stage = X.stage ∧
      lb1.nstage = X.nstage ∧ lb1.box_start = X.box_start ∧
      lb1.cut_spacing = X.cut_spacing ∧ lb1.rbuf = X.rbuf := by
    obtain ⟨_, _, hcase⟩ := update_fastest_spec _ _ _ h1
    rcases hcase with ⟨_, heq⟩ | ⟨_, heq⟩ <;> rw [heq] <;> exact ⟨rfl, rfl, rfl, rfl, rfl, rfl, rfl⟩
  have e2 : lb2 = lb1 := by
    rcases scan_exit_check_spec _ _ _ h2 with heq | ⟨_, hpos', _⟩
    · exact heq
    · rw [h1f.2.1, hXf.1] at hpos'
      omega
  subst e2
  obtain ⟨hl, hc2, hs2, hn2, hb2, hcs2, hrb2⟩ := h1f
  have hadv : scan_advance fuel env (pme_grid_points set) fuel lb2 = .ok lb3 := by
    rcases scan_stage_spec _ _ _ _ _ h3 with ⟨hne, _⟩ | ⟨_, h⟩
    · rw [hs2, hXf.2.1] at hne
      exact absurd rfl hne
    · exact h
  have hsetf : set.grid_efficiency = 0 ∧ set.spacing = set1.spacing ∧
      set.ewaldcoeff = set1.ewaldcoeff ∧ set.rcut = set1.rcut := by
    rw [hset]
    have hfl := record_cycles_fields s { set1 with count := set1.count + 1 } c
    have hsp := record_cycles_spacing s { set1 with count := set1.count + 1 } c
    exact ⟨by rw [hfl.2.2.2.1]; exact heff, hsp, hfl.2.2.1, hfl.1⟩
  have hpos2 : ∀ g cand,
      pme_loadbal_increase_cutoff fuel lb2 env env.ir.pme_order = .ok (g, true) →
      getSetup g.setup 1 = .ok cand → 0 ≤ cand.grid_efficiency := by
    intro g cand hg hcand
    obtain ⟨g', cand', hg', hc1, hc2'⟩ := increase_cutoff_first_congr fuel lb2 s g env
      env.ir.pme_order set set1 (by rw [hl, hXs]) hs (by rw [hc2, hXf.1]) hcur hsetf.2.1
      hsetf.2.2.1 hsetf.2.2.2 (by rw [hb2, hXf.2.2.1]) (by rw [hcs2, hXf.2.2.2.1])
      (by rw [hrb2, hXf.2.2.2.2]) hg
    rw [hcand] at hc1
    cases hc1
    exact hpos g' cand hg' hc2'
  obtain ⟨hn3, hP3⟩ := scan_first_round fuel env (pme_grid_points set) fuel lb2 lb3 set
    (by rw [hl, hXs]) (by rw [hc2, hXf.1]) (by rw [hs2, hXf.2.1]) hsetf.1 hpos2 hadv
  have hP3' : (lb3.stage = 0 ∧ 2 ≤ lb3.cur) ∨ 1 ≤ lb3.stage := by
    rcases hP3 with h | h
    · exact Or.inl h
    · exact Or.inr (by omega)
  obtain ⟨hnr, hPr⟩ := rest_of_call_stage fuel lb3 lb4 lb5 env f.cycles pm r
    (by rw [hn3, hn2]; exact hXn) hP3' h4 h5 h6
  exact ⟨by rw [hnr, hn3, hn2]; exact hXn, hPr⟩

/-- A call keeps the scan past index 1. -/
theorem step_scanPastFirst (fuel : Nat) (s : pme_load_balancing) (env : Env) (c : ℚ)
    (ic : interaction_const_t) (pm : Option Nat) (r : StepResult) (hJ : ScanPastFirst s)
    (hr : pme_load_balance fuel s env c ic pm = .ok r) : ScanPastFirst r.pme_lb := by
  obtain ⟨hn, hP⟩ := hJ
  rcases pme_load_balance_cases _ _ _ _ _ _ _ hr with ⟨_, heq⟩ | ⟨hst, set0, hget, hcase⟩
  · rw [heq]; exact ⟨hn, hP⟩
  · rcases hcase with ⟨_, heq⟩ | ⟨hodd, _⟩
    · rw [heq]; exact ⟨hn, hP⟩
    · obtain ⟨X, set, lb1, f, lb2, lb3, lb4, lb5, hset, hX, h1, hf, h2, _, h3, h4, h5, h6⟩ :=
        timed_call_phases fuel s env c ic pm r set0 hst hget hodd hr
      have hXf : 2 ≤ X.nstage ∧ X.cur = s.cur ∧ X.stage = s.stage := by
        rw [hX]
        refine ⟨?_, rfl, rfl⟩
        simp only
        rcases record_cycles_nstage s { set0 with count := set0.count + 1 } c with h | ⟨h, _⟩ <;>
          rw [h] <;> omega
      have h1f : lb1.cur = X.cur ∧ lb1.stage = X.stage ∧ lb1.nstage = X.nstage := by
        obtain ⟨_, _, hcase⟩ := update_fastest_spec _ _ _ h1
        rcases hcase with ⟨_, heq⟩ | ⟨_, heq⟩ <;> rw [heq] <;> exact ⟨rfl, rfl, rfl⟩
      have h2f : lb2.nstage = lb1.nstage ∧
          ((lb2.stage = lb1.stage ∧ lb2.cur = lb1.cur) ∨ lb2.stage = 1) := by
        rcases scan_exit_check_spec _ _ _ h2 with heq | ⟨_, _, _, hsw⟩
        · rw [heq]; exact ⟨rfl, Or.inl ⟨rfl, rfl⟩⟩
        · obtain ⟨st, e, hlb, _⟩ := switch_to_stage1_spec _ _ hsw
          rw [hlb]
          exact ⟨rfl, Or.inr rfl⟩
      have h3f : lb3.nstage = lb2.nstage ∧
          ((lb3.stage = lb2.stage ∧ lb2.cur ≤ lb3.cur) ∨ lb3.stage = 1) := by
        rcases scan_stage_spec _ _ _ _ _ h3 with ⟨_, heq⟩ | ⟨_, hadv⟩
        · rw [heq]; exact ⟨rfl, Or.inl ⟨rfl, le_refl _⟩⟩
        · obtain ⟨hn3, hcase⟩ := scan_advance_stage_cur _ _ _ _ _ _ hadv
          refine ⟨hn3, ?_⟩
          rcases hcase with ⟨ha, hb⟩ | hb
          · exact Or.inl ⟨ha, by omega⟩
          · exact Or.inr hb
      have hn3 : 2 ≤ lb3.nstage := by
        rw [h3f.1, h2f.1, h1f.2.2]; exact hXf.1
      have hP3 : (lb3.stage = 0 ∧ 2 ≤ lb3.cur) ∨ 1 ≤ lb3.stage := by
        obtain ⟨_, hXc, hXs⟩ := hXf
        obtain ⟨h1c, h1s, _⟩ := h1f
        rcases h3f.2 with ⟨h3s, h3c⟩ | h3s
        · rcases h2f.2 with ⟨h2s, h2c⟩ | h2s
          · rcases hP with ⟨hs0, hc0⟩ | hs1
            · exact Or.inl ⟨by omega, by omega⟩
            · exact Or.inr (by omega)
          · exact Or.inr (by omega)
        · exact Or.inr (by omega)
      obtain ⟨hnr, hPr⟩ := rest_of_call_stage fuel lb3 lb4 lb5 env f.cycles pm r hn3 hP3 h4 h5 h6
      exact ⟨by rw [hnr]; exact hn3, hPr⟩

theorem exec_scanPastFirst (s s' : pme_load_balancing) (c : Call) (h : exec s c = .ok s')
    (hJ : ScanPastFirst s) (hn : ∀ n, c = Call.restart n → 0 ≤ n) : ScanPastFirst s' := by
  cases c with
  | step fuel env cycles ic pmedata =>
    simp only [exec] at h
    cases hr : pme_load_balance fuel s env cycles ic pmedata with
    | error e => simp [hr] at h
    | ok r =>
      simp only [hr, Except.ok.injEq] at h
      subst h
      exact step_scanPastFirst fuel s env cycles ic pmedata r hJ hr
  | restart n =>
    have hn' := hn n rfl
    simp only [exec, Except.ok.injEq] at h
    subst h
    obtain ⟨h2, hP⟩ := hJ
    exact ⟨by simp only [restart_pme_loadbal]; omega, hP⟩

theorem run_scanPastFirst (calls : List Call) (s s' : pme_load_balancing)
    (h : run s calls = .ok s') (hJ : ScanPastFirst s) (ha : AddsStages calls) :
    ScanPastFirst s' := by
  induction calls generalizing s with
  | nil =>
    simp only [run, Except.ok.injEq] at h
    subst h; exact hJ
  | cons c cs ih =>
    simp only [run] at h
    cases hx : exec s c with
    | error e => simp [hx] at h
    | ok t =>
      simp only [hx] at h
      exact ih t h (exec_scanPastFirst _ _ _ hx hJ (ha c (List.mem_cons_self _ _)))
        (fun c' hc' => ha c' (List.mem_cons_of_mem _ hc'))

theorem init_spacing_step_ge (norm : rvec → ℚ) (v : rvec) (g : Int) (spm : ℚ) :
    spm ≤ init_spacing_step norm v g spm := by
  unfold init_spacing_step
  simp only
  split
  · rename_i h
    exact le_of_lt h
  · exact le_refl _

/-- The first candidate has a positive grid efficiency when the PME order is not negative
and the box vectors of the controller have a positive length. -/
theorem first_candidate_efficiency_pos (ir : t_inputrec) (box : matrix)
    (ic0 : interaction_const_t) (pmedata0 : Option Nat) (norm : rvec → ℚ) (fuel : Nat)
    (env : Env) (g : pme_load_balancing) (cand : pme_setup_t)
    (hpo : 0 ≤ env.ir.pme_order)
    (hx : 0 < env.norm (pme_loadbal_init ir box ic0 pmedata0 norm).box_start.XX)
    (hy : 0 < env.norm (pme_loadbal_init ir box ic0 pmedata0 norm).box_start.YY)
    (hz : 0 < env.norm (pme_loadbal_init ir box ic0 pmedata0 norm).box_start.ZZ)
    (hg : pme_loadbal_increase_cutoff fuel (pme_loadbal_init ir box ic0 pmedata0 norm) env
      env.ir.pme_order = .ok (g, true))
    (hc : getSetup g.setup 1 = .ok cand) : 0 < cand.grid_efficiency := by
  obtain ⟨c, res, s0, hc0, hsearch, h0, hgeq⟩ := increase_cutoff_true _ _ _ _ _ hg
  obtain ⟨hsp, hgx, hgy, hgz⟩ := increase_cutoff_search_some _ _ _ _ _ _ _ hsearch
  have hc0sp : 0 ≤ c.spacing := by
    have h := hc0
    simp only [pme_loadbal_init, getSetup_cons_zero, Except.ok.injEq] at h
    rw [← h]
    simp only
    exact le_trans (le_trans (init_spacing_step_ge _ _ _ _) (init_spacing_step_ge _ _ _ _))
      (init_spacing_step_ge _ _ _ _)
  have hres : 0 < res.1 := by
    have : 0 ≤ (1001 / 1000 : ℚ) * c.spacing := mul_nonneg (by norm_num) hc0sp
    exact lt_of_le_of_lt this hsp
  have hl : (pme_loadbal_init ir box ic0 pmedata0 norm).setup = [c] := by
    have h := hc0
    simp only [pme_loadbal_init, getSetup_cons_zero, Except.ok.injEq] at h
    rw [← h]
    rfl
  have ecand : cand = new_setup (pme_loadbal_init ir box ic0 pmedata0 norm) env s0 res.1 res.2 := by
    rw [hgeq] at hc
    simp only [hl, List.singleton_append, getSetup_cons_one, Except.ok.injEq] at hc
    exact hc.symm
  rw [ecand]
  simp only [new_setup]
  have gx : (0 : ℚ) < (res.2.XX : ℚ) := by exact_mod_cast (by omega : 0 < res.2.XX)
  have gy : (0 : ℚ) < (res.2.YY : ℚ) := by exact_mod_cast (by omega : 0 < res.2.YY)
  have gz : (0 : ℚ) < (res.2.ZZ : ℚ) := by exact_mod_cast (by omega : 0 < res.2.ZZ)
  exact mul_pos (mul_pos (mul_pos one_pos (div_pos (mul_pos gx hres) hx))
    (div_pos (mul_pos gy hres) hy)) (div_pos (mul_pos gz hres) hz)

/-- C21 (the first coarser candidate is never timed in the initial scan).
`pme_loadbal_init` leaves `setup[0].grid_efficiency` at 0, and it is still 0 after the
warm-up call.  For a controller at `cur = 1` whose setup 0 has grid efficiency 0 and whose
setup 1 has a positive grid efficiency, the stop test
`efficiency[1] < 1.05 * efficiency[0]` of lines 470-471 is false and the loop goes on.
Hence, when the candidate that the generator makes from the constructed controller has a
positive grid efficiency: if the first timed call returns, the controller is in stage 0
with `cur >= 2` or has left stage 0; and after any further calls (restarts that add
stages) it is never in stage 0 with `cur < 2`, so setup 1 is not sampled in stage 0. -/
theorem C21_first_candidate_not_timed (ir : t_inputrec) (box : matrix)
    (ic0 : interaction_const_t) (pmedata0 : Option Nat) (norm : rvec → ℚ)
    (fuel1 : Nat) (env1 : Env) (c1 : ℚ) (ic1 : interaction_const_t) (pm1 : Option Nat)
    (fuel : Nat) (env : Env) (c : ℚ) (ic : interaction_const_t) (pm : Option Nat)
    (r1 r2 : StepResult)
    (hpos : ∀ g cand,
      pme_loadbal_increase_cutoff fuel (pme_loadbal_init ir box ic0 pmedata0 norm) env
        env.ir.pme_order = .ok (g, true) →
      getSetup g.setup 1 = .ok cand → 0 < cand.grid_efficiency)
    (h1 : pme_load_balance fuel1 (pme_loadbal_init ir box ic0 pmedata0 norm) env1 c1 ic1 pm1
      = .ok r1)
    (h2 : pme_load_balance fuel r1.pme_lb env c ic pm = .ok r2) :
    (∃ s0, (pme_loadbal_init ir box ic0 pmedata0 norm).setup = [s0] ∧
      s0.grid_efficiency = 0 ∧ r1.pme_lb.setup = [{ s0 with count := 1 }] ∧
      r1.pme_lb.cur = 0 ∧ r1.pme_lb.stage = 0) ∧
    (∀ (lb : pme_load_balancing) (gs : Int) (s0 cand : pme_setup_t), lb.cur = 1 →
      getSetup lb.setup 0 = .ok s0 → s0.grid_efficiency = 0 →
      getSetup lb.setup 1 = .ok cand → 0 < cand.grid_efficiency →
      ¬ (cand.grid_efficiency < s0.grid_efficiency * PME_LB_GRID_EFFICIENCY_REL_FAC) ∧
        scan_continue lb gs = .ok true) ∧
    ((r2.pme_lb.stage = 0 ∧ 2 ≤ r2.pme_lb.cur) ∨ 1 ≤ r2.pme_lb.stage) ∧
    (∀ calls s, AddsStages calls → run r2.pme_lb calls = .ok s →
      (s.stage = 0 ∧ 2 ≤ s.cur) ∨ 1 ≤ s.stage) := by
  obtain ⟨s0, hl, heff, hcnt⟩ : ∃ s0, (pme_loadbal_init ir box ic0 pmedata0 norm).setup = [s0] ∧
      s0.grid_efficiency = 0 ∧ s0.count = 0 := ⟨_, rfl, rfl, rfl⟩
  have hcur0 : (pme_loadbal_init ir box ic0 pmedata0 norm).cur = 0 := rfl
  have hw := pme_load_balance_warmup fuel1 (pme_loadbal_init ir box ic0 pmedata0 norm) env1 c1
    ic1 pm1 s0 (by simp [pme_loadbal_init])
    (by rw [hl, hcur0]; exact getSetup_cons_zero _ _) (by omega)
  rw [hw] at h1
  simp only [Except.ok.injEq] at h1
  have hr1 : r1.pme_lb.setup = [{ s0 with count := 1 }] ∧ r1.pme_lb.cur = 0 ∧
      r1.pme_lb.stage = 0 ∧ r1.pme_lb.nstage = 2 ∧
      r1.pme_lb.box_start = (pme_loadbal_init ir box ic0 pmedata0 norm).box_start ∧
      r1.pme_lb.cut_spacing = (pme_loadbal_init ir box ic0 pmedata0 norm).cut_spacing ∧
      r1.pme_lb.rbuf = (pme_loadbal_init ir box ic0 pmedata0 norm).rbuf := by
    rw [← h1]
    refine ⟨?_, rfl, rfl, rfl, rfl, rfl, rfl⟩
    simp only [hl, hcur0, setSetup, hcnt]
    rfl
  obtain ⟨hs1, hc1, hst1, hn1, hb1, hcs1, hrb1⟩ := hr1
  have hpos1 : ∀ g cand,
      pme_loadbal_increase_cutoff fuel r1.pme_lb env env.ir.pme_order = .ok (g, true) →
      getSetup g.setup 1 = .ok cand → 0 ≤ cand.grid_efficiency := by
    intro g cand hg hcand
    obtain ⟨g', cand', hg', hca, hcb⟩ := increase_cutoff_first_congr fuel r1.pme_lb
      (pme_loadbal_init ir box ic0 pmedata0 norm) g env env.ir.pme_order
      { s0 with count := 1 } s0 hs1 hl hc1 hcur0 rfl rfl rfl hb1 hcs1 hrb1 hg
    rw [hcand] at hca
    cases hca
    exact le_of_lt (hpos g' cand hg' hcb)
  have hJ : ScanPastFirst r2.pme_lb :=
    first_timed_past_index_1 fuel r1.pme_lb env c ic pm { s0 with count := 1 } r2 hs1 hc1 hst1
      (by omega) rfl heff hpos1 h2
  refine ⟨⟨s0, hl, heff, hs1, hc1, hst1⟩, ?_, hJ.2, ?_⟩
  · intro lb gs a cand hcur ha hae hcand hpc
    refine ⟨?_, scan_continue_at_1 lb gs a cand hcur ha hae hcand (le_of_lt hpc)⟩
    rw [hae, zero_mul]
    exact not_lt.mpr (le_of_lt hpc)
  · intro calls s ha hrun
    exact (run_scanPastFirst calls r2.pme_lb s hrun hJ ha).2

/-- The sample controller: the warm-up call, then the timed call of cost 100 with
collaborators that accept everything.  The first candidate (grid 20x20x20, efficiency
about 0.25) does not stop the scan; the call returns in stage 0 with `cur = 2`. -/
theorem C21_first_candidate_not_timed_witness :
    scan_result.pme_lb.stage = 0 ∧ 2 ≤ scan_result.pme_lb.cur :=
  (C21_first_candidate_not_timed sample_ir sample_box sample_ic (some 0) sample_norm
    0 sample_env 7 sample_ic none 2 sample_env 100 sample_ic none
    { pme_lb := dd_start, ic := sample_ic, pmedata := none, ret := true } scan_result
    (fun g cand hg hc =>
      first_candidate_efficiency_pos sample_ir sample_box sample_ic (some 0) sample_norm 2
        sample_env g cand (by decide) (by decide!) (by decide!) (by decide!) hg hc)
    (by decide!) (by decide!)).2.2.1.resolve_right (by decide!)

/-! ## C7: the calls return -/

/-- A round of the scan loop entered in stage 0 with the invariant returns when the
generator reports. -/
theorem scan_body_returns (fuel : Nat) (t : pme_load_balancing) (env : Env)
    (hinv : MidInv t) (h0 : t.stage = 0) (hg : GeneratorReports fuel t env) :
    ∃ p, scan_body fuel t env = .ok p ∧
      MidInv p.1 ∧ p.1.nstage = t.nstage ∧
      ((p.2 = true ∧ p.1.stage = 0 ∧ 1 ≤ p.1.cur) ∨ (p.2 = false ∧ RefinementRange p.1)) :=
  (scan_body_total fuel t env hinv h0).resolve_left hg

/-- The scan loop returns when at the head of every round the list has at most `N` setups
and the generator reports, and `k` allows for `N - cur` rounds. -/
theorem scan_advance_returns (N : Int) (fuel : Nat) (env : Env) (gs : Int) (k : Nat)
    (t : pme_load_balancing) (hinv : MidInv t) (h0 : t.stage = 0)
    (hrep : ∀ t', ScanReaches fuel env gs t t' → t'.n ≤ N ∧ GeneratorReports fuel t' env)
    (hk : N - t.cur ≤ k) :
    ∃ lb, scan_advance fuel env gs k t = .ok lb ∧ MidInv lb ∧ (lb.stage = 0 ∨ lb.n ≤ N) := by
  induction k generalizing t with
  | zero =>
    have hN := (hrep t (ScanReaches.here t)).1
    have hcur := (hinv.1.2.2.2.1 h0).2.2.1
    simp only [Nat.cast_zero] at hk
    omega
  | succ k ih =>
    have hN := (hrep t (ScanReaches.here t)).1
    obtain ⟨p, hp, hmid, hns, hcase⟩ :=
      scan_body_returns fuel t env hinv h0 (hrep t (ScanReaches.here t)).2
    obtain ⟨lb, b⟩ := p
    rcases hcase with ⟨hb, hst, hcur⟩ | ⟨hb, hrange⟩
    · simp only at hb hst hcur hmid hns
      subst hb
      have hlt : lb.cur < lb.n := (hmid.1.2.2.2.1 hst).2.2.1
      obtain ⟨b', hb'⟩ := scan_continue_ok lb gs hcur hlt
      cases b' with
      | true =>
        have hlbcur : lb.cur = t.cur + 1 := by
          rcases scan_body_spec _ _ _ _ _ hp with ⟨_, l1, _, hlb⟩ | ⟨hb, _⟩
          · rw [hlb]
          · cases hb
        obtain ⟨lb', hlb', hmid', hcase'⟩ := ih lb hmid hst
          (fun t' h => hrep t' (ScanReaches.next t lb t' hp hb' h))
          (by push_cast at hk; omega)
        refine ⟨lb', ?_, hmid', hcase'⟩
        simp only [scan_advance, hp, hb']
        exact hlb'
      | false =>
        refine ⟨lb, ?_, hmid, Or.inl hst⟩
        simp only [scan_advance, hp, hb']
    · simp only at hb hrange hmid hns
      subst hb
      refine ⟨lb, ?_, hmid, Or.inr ?_⟩
      · simp only [scan_advance, hp]
      · rcases scan_body_spec _ _ _ _ _ hp with ⟨hb, _⟩ | ⟨_, lim, _, hsw⟩
        · cases hb
        · obtain ⟨st, e, hlb, _⟩ := switch_to_stage1_spec _ _ hsw
          have hlen : lb.setup = t.setup.take (t.cur + 1).toNat := by rw [hlb]
          unfold pme_load_balancing.n at hN ⊢
          rw [hlen]
          have := List.length_take_le' (t.cur + 1).toNat t.setup
          omega

/-- Lines 408-472 return under the conditions of `scan_advance_returns`. -/
theorem scan_stage_returns (N : Int) (fuel : Nat) (lb2 : pme_load_balancing) (env : Env)
    (set : pme_setup_t) (hinv : MidInv lb2) (hn : lb2.n ≤ N) (hfuel : 2 * N ≤ fuel)
    (hrep : lb2.stage = 0 → ∀ t', ScanReaches fuel env (pme_grid_points set) lb2 t' →
      t'.n ≤ N ∧ GeneratorReports fuel t' env) :
    ∃ lb3, scan_stage fuel lb2 env set = .ok lb3 ∧ MidInv lb3 ∧
      (lb3.stage = 0 ∨ lb3.n ≤ N) := by
  unfold scan_stage
  by_cases h0 : lb2.stage = 0
  · rw [if_pos h0]
    have hcur := (hinv.1.2.2.2.1 h0)
    have hpos := hinv.1.2.1
    exact scan_advance_returns N fuel env _ fuel lb2 hinv h0 (hrep h0) (by omega)
  · rw [if_neg h0]
    exact ⟨lb2, rfl, hinv, Or.inr hn⟩

/-- Lines 474-505 return with fuel for `2 * N` rounds when the list has at most `N`
setups. -/
theorem refine_stage_returns (N : Int) (fuel : Nat) (lb3 : pme_load_balancing) (cf : ℚ)
    (hinv : MidInv lb3) (hn : lb3.stage = 0 ∨ lb3.n ≤ N) (hfuel : 2 * N ≤ fuel) :
    ∃ lb4, refine_stage fuel lb3 cf = .ok lb4 ∧ BoundsInv lb4 := by
  obtain ⟨hsafe, hok⟩ := refine_stage_safe fuel lb3 cf hinv
  have hret : ∃ lb4, refine_stage fuel lb3 cf = .ok lb4 := by
    by_cases h0 : lb3.stage = 0
    · refine ⟨lb3, ?_⟩
      unfold refine_stage
      simp [h0]
    · have hpos : 0 < lb3.stage := by
        have := hinv.1.2.2.1
        omega
      have hN : lb3.n ≤ N := by
        rcases hn with h | h
        · exact absurd h h0
        · exact h
      rcases hinv.1.2.2.2.2 hpos with ⟨hs0, _, _, hen, _, _⟩ | ⟨hend, _, _⟩
      · exact hok (by omega)
      · refine ⟨lb3, ?_⟩
        unfold refine_stage
        simp [hend]
  obtain ⟨lb4, h4⟩ := hret
  exact ⟨lb4, h4, (safe_ok hsafe h4).1⟩

/-- Lines 408-577 return under the conditions of `scan_advance_returns`, with fuel for
`2 * N` rounds. -/
theorem advance_and_apply_returns (N : Int) (fuel : Nat) (lb2 : pme_load_balancing)
    (env : Env) (set : pme_setup_t) (cf : ℚ) (pmedata : Option Nat) (hinv : MidInv lb2)
    (hn : lb2.n ≤ N) (hfuel : 2 * N ≤ fuel)
    (hrep : lb2.stage = 0 → ∀ t', ScanReaches fuel env (pme_grid_points set) lb2 t' →
      t'.n ≤ N ∧ GeneratorReports fuel t' env) :
    ∃ r, advance_and_apply fuel lb2 env set cf pmedata = .ok r := by
  obtain ⟨lb3, h3, hmid3, hcase3⟩ := scan_stage_returns N fuel lb2 env set hinv hn hfuel hrep
  obtain ⟨lb4, h4, hinv4⟩ := refine_stage_returns N fuel lb3 cf hmid3 hcase3 hfuel
  obtain ⟨lb5, h5, hinv5, _⟩ := dd_reassert_ok lb4 env hinv4
  obtain ⟨r, h6, _, _⟩ := apply_setup_bounds lb5 env pmedata hinv5
  refine ⟨r, ?_⟩
  unfold advance_and_apply
  simp only [h3, h4, h5, h6]

/-- A call with a non-negative cost returns, from a state with the invariant between
calls and at most `N` setups, with fuel for `2 * N` rounds and a finite catalog. -/
theorem step_returns (N : Int) (fuel : Nat) (s : pme_load_balancing) (env : Env) (cycles : ℚ)
    (ic : interaction_const_t) (pmedata : Option Nat) (hinv : BoundsInv s) (hn : s.n ≤ N)
    (hc : 0 ≤ cycles) (hfuel : 2 * N ≤ fuel) (hrep : ScanReports N fuel s env cycles) :
    ∃ r, pme_load_balance fuel s env cycles ic pmedata = .ok r := by
  by_cases hst : s.stage = s.nstage
  · rw [pme_load_balance_concluded s hst]
    exact ⟨_, rfl⟩
  · have hcur := stageInv_cur hinv.1
    unfold pme_load_balancing.n at hcur
    obtain ⟨set0, hget⟩ := getSetup_of_lt s.setup s.cur hcur.1 hcur.2
    by_cases hpar : set0.count % 2 = 0
    · rw [pme_load_balance_warmup _ _ _ _ _ _ _ hst hget hpar]
      exact ⟨_, rfl⟩
    · obtain ⟨lb1, f, lb2, h1, hf, h2, hentry, hmid2, _⟩ :=
        scan_entry_ok s set0 cycles hinv hc hst hget
      have hodd : ¬ ((set0.count + 1) % 2 = 1) := by omega
      have hcall : pme_load_balance fuel s env cycles ic pmedata
          = advance_and_apply fuel lb2 env
              (record_cycles s { set0 with count := set0.count + 1 } cycles).2
              f.cycles pmedata := by
        unfold pme_load_balance
        simp only [hst, if_false, hget, hodd]
        exact balance_timed_unfold _ _ _ _ _ _ _ _ _ h1 hf h2
      rw [hcall]
      have hl1 : lb1.setup.length = s.setup.length := by
        obtain ⟨_, _, hcase⟩ := update_fastest_spec _ _ _ h1
        rcases hcase with ⟨_, heq⟩ | ⟨_, heq⟩ <;> rw [heq] <;> simp [setSetup]
      have hl2 : lb2.n ≤ N := by
        unfold pme_load_balancing.n at hn ⊢
        rcases scan_exit_check_spec _ _ _ h2 with heq | ⟨_, _, _, hsw⟩
        · rw [heq, hl1]; exact hn
        · obtain ⟨st, e, hlb, _⟩ := switch_to_stage1_spec _ _ hsw
          have hlen : lb2.setup = lb1.setup.take (lb1.cur + 1).toNat := by rw [hlb]
          rw [hlen]
          have := List.length_take_le' (lb1.cur + 1).toNat lb1.setup
          omega
      exact advance_and_apply_returns N fuel lb2 env _ f.cycles pmedata hmid2 hl2 hfuel
        (fun h0 t' hreach => hrep lb2 _ t' hentry h0 hreach)

/-- A run of step calls with non-negative costs, fuel for `2 * N` rounds and a finite
catalog returns. -/
theorem run_returns (N : Int) (calls : List Call) (s : pme_load_balancing)
    (hinv : BoundsInv s) (hn : s.n ≤ N) (hb : BoundedRun N s calls)
    (hr : ReportingRun N s calls) : ∃ s', run s calls = .ok s' := by
  induction calls generalizing s with
  | nil => exact ⟨s, rfl⟩
  | cons c cs ih =>
    obtain ⟨⟨fuel, env, cycles, ic, pmedata, hc, hcost, _⟩, hnext⟩ := hb
    obtain ⟨hrep, hrnext⟩ := hr
    subst hc
    obtain ⟨hfuel, hscan⟩ := hrep fuel env cycles ic pmedata rfl
    obtain ⟨r, hr⟩ := step_returns N fuel s env cycles ic pmedata hinv hn hcost hfuel hscan
    have hx : exec s (Call.step fuel env cycles ic pmedata) = .ok r.pme_lb := by
      simp only [exec, hr]
    obtain ⟨⟨htN, _⟩, hbt⟩ := hnext r.pme_lb hx
    have hinv' := exec_boundsInv _ _ _ hx hinv (fun _ _ c' _ _ h => by cases h; exact hcost)
      (fun _ h => by cases h)
    obtain ⟨s', hs'⟩ := ih r.pme_lb hinv' htN hbt (hrnext r.pme_lb hx)
    refine ⟨s', ?_⟩
    simp only [run, hx]
    exact hs'

theorem scan_heads_check_sound (N : Int) (fuel : Nat) (env : Env) (gs : Int) (k : Nat)
    (t : pme_load_balancing) (h : scan_heads_check N fuel env gs k t = true) :
    ∀ t', ScanReaches fuel env gs t t' → t'.n ≤ N ∧ GeneratorReports fuel t' env := by
  induction k generalizing t with
  | zero => simp [scan_heads_check] at h
  | succ k ih =>
    simp only [scan_heads_check, Bool.and_eq_true, decide_eq_true_eq] at h
    obtain ⟨⟨hN, hg⟩, hrest⟩ := h
    intro t' hreach
    cases hreach
    · exact ⟨hN, hg⟩
    · rename_i t1 hbody hcont hr
      simp only [hbody, hcont] at hrest
      exact ih t1 hrest t' hr

theorem reportingRun_of_check (N : Int) (calls : List Call) (s : pme_load_balancing)
    (h : reporting_check N s calls = true) : ReportingRun N s calls := by
  induction calls generalizing s with
  | nil => trivial
  | cons c cs ih =>
    cases c with
    | restart n =>
      simp only [reporting_check] at h
      refine ⟨(fun _ _ _ _ _ hc => by cases hc), ?_⟩
      intro t ht
      simp only [exec, Except.ok.injEq] at ht
      subst ht
      exact ih _ h
    | step fuel env cycles ic pmedata =>
      simp only [reporting_check, Bool.and_eq_true, decide_eq_true_eq] at h
      obtain ⟨⟨hfuel, hscan⟩, hrest⟩ := h
      refine ⟨?_, ?_⟩
      · intro fuel' env' cycles' ic' pmedata' hc
        cases hc
        refine ⟨hfuel, ?_⟩
        intro lb2 set t hentry h0 hreach
        simp only [hentry, Bool.or_eq_true, decide_eq_true_eq] at hscan
        rcases hscan with hne | hchk
        · exact absurd h0 hne
        · exact scan_heads_check_sound N fuel env _ fuel lb2 hchk t hreach
      · intro t ht
        rw [ht] at hrest
        exact ih t hrest

/-- C7 (stage termination): start from `pme_loadbal_init` and make step calls only, with
non-negative costs, none taking the failsafe path, such that after every call the list
has at most `N` setups and `nstage` is unchanged (`BoundedRun`), with fuel for `2 * N`
rounds in every call and a finite catalog: at the head of every round of a scan the list
has at most `N` setups and the generator reports (`ReportingRun`).  Then every call
returns, and once `2 * N * nstage` calls (`nstage = 2`) have been made the controller has
`stage == nstage`, and every further call returns FALSE and changes nothing. -/
theorem C7_stage_termination (N : Nat) (ir : t_inputrec) (box : matrix)
    (ic0 : interaction_const_t) (pmedata0 : Option Nat) (norm : rvec → ℚ)
    (calls : List Call)
    (hN : 1 ≤ N)
    (hcalls : BoundedRun N (pme_loadbal_init ir box ic0 pmedata0 norm) calls)
    (hrep : ReportingRun N (pme_loadbal_init ir box ic0 pmedata0 norm) calls)
    (hlen : 2 * (N : Int) * (pme_loadbal_init ir box ic0 pmedata0 norm).nstage
      ≤ calls.length) :
    ∃ s, run (pme_loadbal_init ir box ic0 pmedata0 norm) calls = .ok s ∧
      s.stage = s.nstage ∧
      ∀ fuel env cycles ic pmedata,
        pme_load_balance fuel s env cycles ic pmedata
          = .ok { pme_lb := s, ic := ic, pmedata := pmedata, ret := false } := by
  have hn : (pme_loadbal_init ir box ic0 pmedata0 norm).n ≤ (N : Int) := by
    simp only [pme_load_balancing.n, pme_loadbal_init, List.length_singleton]
    exact_mod_cast hN
  obtain ⟨s, hrun⟩ := run_returns N calls _ (init_boundsInv ir box ic0 pmedata0 norm) hn
    hcalls hrep
  obtain ⟨hconc, hfalse⟩ := run_concludes N ir box ic0 pmedata0 norm calls s hN hcalls hrun hlen
  exact ⟨s, hrun, hconc, hfalse⟩

/-- With a list of at most `N = 3` setups and fuel 6 the twelve calls on the sample
controller return, and the controller has finished after these `2 * 3 * 2` calls. -/
theorem C7_stage_termination_witness :
    ∃ s, run sample_lb term_calls = .ok s ∧ s.stage = s.nstage :=
  (C7_stage_termination 3 sample_ir sample_box sample_ic (some 0) sample_norm term_calls
    (by decide) (boundedRun_of_check 3 term_calls sample_lb (by decide!))
    (reportingRun_of_check 3 term_calls sample_lb (by decide!)) (by decide)).imp
    (fun _ h => ⟨h.1, h.2.1⟩)

end PmeLoadbal
